import Mathlib

/-!
# Push-relabel maximum flow (`src/algorithm/MaxFlow.cpp`)

A shallow embedding of the two engines in `MaxFlow.cpp`:

* the classic preflow-push engine (`preflow`, `push`, `MaxFlow`);
* the heuristic engine (`fillReverseAndCapacityVectors`, `process`,
  `processWithRelabel`, `BFSColoring`, `globalRelabel`, `LFFlow`).

Conventions of the embedding.

* A C++ `long` is an `Int` in the range `LONG_MIN .. LONG_MAX` of a 64-bit `long`.
  Sums and differences of flow quantities (weights, capacities, residuals, excesses,
  flows) and of the distance labels of the classic engine are taken modulo `2 ^ 64`
  (`wrap`), as the compiled program computes them.  Loop counters (`newEdges`,
  `coloredVertices`, `currentLevel`, `currentWave`, `itersSinceGlobalRelabel`) and the
  height levels `h + 1` of the heuristic engine are exact: each counter grows by at most
  one per executed loop iteration, and `h + 1` is computed only after the edge lookup for
  `nextV` has returned, which on node ids `≥ 0` means that the scan has found a neighbour,
  whose height `h` is below `LONG_MAX`.
* A `std::vector<long>` is a `List Int`; a read or write through an index that is
  negative or not below the length is undefined behaviour in C++ and is the
  outcome `Run.fault` here.  `front()`/`pop()` on an empty `std::queue` is a
  fault as well.
* A `std::queue<long>` is a `List Int` with the front at the head.
* `while` loops take a fuel argument; running out of fuel is `Run.timeout`.
  `for` loops over a vector are structural recursions over the list.
* Console output is not modelled.
-/

namespace PushRelabel

/-! ## Outcomes -/

/-- Outcome of running a piece of the program. -/
inductive Run (α : Type) where
  | done : α → Run α
  | fault : Run α
  | timeout : Run α
deriving DecidableEq, Repr

namespace Run

/-- Sequencing of outcomes. -/
def bind {α β : Type} (x : Run α) (f : α → Run β) : Run β :=
  match x with
  | done a => f a
  | fault => fault
  | timeout => timeout

instance : Monad Run where
  pure := Run.done
  bind := Run.bind

end Run

/-! ## Vectors of `long` -/

/-- The value of `std::numeric_limits<long>::max()` for a 64-bit `long`. -/
def LONG_MAX : Int := 9223372036854775807

/-- The value of `std::numeric_limits<long>::min()` for a 64-bit `long`. -/
def LONG_MIN : Int := -9223372036854775808

/-- The value a 64-bit `long` holds after an addition or subtraction whose exact result is
`x`: `x` reduced modulo `2 ^ 64` into `LONG_MIN .. LONG_MAX`. -/
def wrap (x : Int) : Int :=
  (x + 9223372036854775808) % 18446744073709551616 - 9223372036854775808

/-- Read `v[i]`. -/
def vget {α : Type} (v : List α) (i : Int) : Run α :=
  if i < 0 then Run.fault
  else match v.get? i.toNat with
    | some x => Run.done x
    | none => Run.fault

/-- Write `v[i] = x`. -/
def vset {α : Type} (v : List α) (i : Int) (x : α) : Run (List α) :=
  if i < 0 then Run.fault
  else if i.toNat < v.length then Run.done (v.set i.toNat x)
  else Run.fault

/-- The effect of `v.resize(n, 0)`. -/
def resize (v : List Int) (n : Nat) : List Int :=
  (v ++ List.replicate (n - v.length) 0).take n

/-! ## The graph adapter -/

/-- An original edge of the graph; its id is its position in `Graph.edges`. -/
structure Edge where
  src : Int
  dst : Int
  weight : Int
deriving DecidableEq, Repr

/-- Modelled from the spec: the class `Graph` (header `algorithm/MaxFlow.h` and the
graph sources are not part of `MaxFlow.cpp`).  The adapter is a read-only oracle:
node count, the original edges (id = position), the result of `getNeighbours`
for every node, the result of `getNeighbourListFor` for every node once
`createNeighbourList(true)` has run, and the edge count after reverse-edge
synthesis. -/
structure Graph where
  NV : Nat
  edges : List Edge
  neighbours : List (List Int)
  neighbourList : List (List Int)
  undirectedNumEdges : Nat
deriving DecidableEq, Repr

/-- The method `g.getNV()`. -/
def getNV (g : Graph) : Int := g.NV

/-- The method `g.getNE()`. -/
def getNE (g : Graph) : Int := g.edges.length

/-- The method `g.getUndirectedNumEdges()`. -/
def getUndirectedNumEdges (g : Graph) : Int := g.undirectedNumEdges

/-- The method `g.getWeights()`. -/
def getWeights (g : Graph) : List Int := g.edges.map Edge.weight

/-- The method `g.getWeightFromId(id)`. -/
def getWeightFromId (g : Graph) (id : Int) : Run Int := vget (getWeights g) id

/-- Position (counted from `k`) of the first edge `u → v` in a list of edges, `-1` if none. -/
def findEdge : List Edge → Int → Int → Int → Int
  | [], _, _, _ => -1
  | e :: es, u, v, k => if e.src = u ∧ e.dst = v then k else findEdge es u v (k + 1)

/-- The method `g.getIdFromSrcDst(u, v)`: the id of the original edge `u → v`, or `-1`. -/
def getIdFromSrcDst (g : Graph) (u v : Int) : Int := findEdge g.edges u v 0

/-- The method `g.getNeighbours(v)`. -/
def getNeighbours (g : Graph) (v : Int) : List Int :=
  if v < 0 then [] else g.neighbours.getD v.toNat []

/-- The method `g.getNeighbourListFor(v)`. -/
def getNeighbourListFor (g : Graph) (v : Int) : List Int :=
  if v < 0 then [] else g.neighbourList.getD v.toNat []

/-! ## Classic preflow-push engine -/

/-- The mutable arrays of one run of `MaxFlow`. -/
structure PFState where
  flows : List Int
  excess : List Int
  distances : List Int
  activeNodes : List Int
deriving DecidableEq, Repr

/-- The loop of `preflow` over the neighbours of `s`. -/
def preflow (g : Graph) (s : Int) : List Int → PFState → Run PFState
  | [], st => Run.done st
  | n :: ns, st => do
    let id := getIdFromSrcDst g s n
    let w ← getWeightFromId g id
    let flows ← vset st.flows id w
    let en ← vget st.excess n
    let excess ← vset st.excess n (wrap (en + w))
    preflow g s ns { st with flows := flows, excess := excess, activeNodes := st.activeNodes ++ [n] }

/-- The first loop of `push`: push along every neighbour one level below. -/
def pushLoop (g : Graph) (curNode s t : Int) : List Int → PFState → Run PFState
  | [], st => Run.done st
  | n :: ns, st => do
    let dc ← vget st.distances curNode
    let dn ← vget st.distances n
    if dc = wrap (dn + 1) then
      let ec ← vget st.excess curNode
      if ec = 0 then Run.done st
      else
        let id := getIdFromSrcDst g curNode n
        let w ← getWeightFromId g id
        let f ← vget st.flows id
        let delta := min ec (wrap (w - f))
        let excess1 ← vset st.excess curNode (wrap (ec - delta))
        let en ← vget excess1 n
        let excess2 ← vset excess1 n (wrap (en + delta))
        let flows ← vset st.flows id (wrap (f + delta))
        let q := if n ≠ s ∧ n ≠ t then st.activeNodes ++ [n] else st.activeNodes
        pushLoop g curNode s t ns { st with flows := flows, excess := excess2, activeNodes := q }
    else pushLoop g curNode s t ns st

/-- The relabel loop of `push`: the least `distances[n] + 1` over residual neighbours. -/
def relabelScan (g : Graph) (curNode : Int) (flows distances : List Int) : List Int → Int → Run Int
  | [], newDist => Run.done newDist
  | n :: ns, newDist => do
    let id := getIdFromSrcDst g curNode n
    let w ← getWeightFromId g id
    let f ← vget flows id
    if wrap (w - f) > 0 then
      let dn ← vget distances n
      relabelScan g curNode flows distances ns (min newDist (wrap (dn + 1)))
    else relabelScan g curNode flows distances ns newDist

/-- The function `push`. -/
def push (g : Graph) (curNode s t : Int) (st : PFState) : Run PFState := do
  let neighbours := getNeighbours g curNode
  let st1 ← pushLoop g curNode s t neighbours st
  let ec ← vget st1.excess curNode
  if ec > 0 then
    let newDist ← relabelScan g curNode st1.flows st1.distances neighbours LONG_MAX
    let distances ← vset st1.distances curNode newDist
    Run.done { st1 with distances := distances, activeNodes := st1.activeNodes ++ [curNode] }
  else Run.done st1

/-- The FIFO loop of `MaxFlow`. -/
def MaxFlowLoop (g : Graph) (s t : Int) : Nat → PFState → Run PFState
  | 0, _ => Run.timeout
  | fuel + 1, st =>
    match st.activeNodes with
    | [] => Run.done st
    | curNode :: rest => do
      let st1 ← push g curNode s t { st with activeNodes := rest }
      MaxFlowLoop g s t fuel st1

/-- The state of `MaxFlow` when the FIFO loop is entered; `bfs` is the vector
returned by the distance oracle `BFS(g, t)`. -/
def MaxFlowInit (g : Graph) (s : Int) (bfs : List Int) : Run PFState := do
  let st0 : PFState :=
    { flows := List.replicate g.edges.length 0, excess := List.replicate g.NV 0,
      distances := bfs, activeNodes := [] }
  let st1 ← preflow g s (getNeighbours g s) st0
  let distances ← vset st1.distances s (getNV g)
  Run.done { st1 with distances := distances }

/-- The final state of `MaxFlow`. -/
def MaxFlowRun (fuel : Nat) (g : Graph) (s t : Int) (bfs : List Int) : Run PFState := do
  let st ← MaxFlowInit g s bfs
  MaxFlowLoop g s t fuel st

/-- The function `MaxFlow`: the flow per original edge id. -/
def MaxFlow (fuel : Nat) (g : Graph) (s t : Int) (bfs : List Int) : Run (List Int) := do
  let st ← MaxFlowRun fuel g s t bfs
  Run.done st.flows

/-! ## Residual network builder -/

/-- The arrays written by `fillReverseAndCapacityVectors` and its counter `newEdges`
(the counter `numEdges` only drives console output). -/
structure FillState where
  reverse : List Int
  capacities : List Int
  newEdges : Int
deriving DecidableEq, Repr

/-- The body of the inner loop of `fillReverseAndCapacityVectors` for the pair `(i, n)`. -/
def fillStep (g : Graph) (i n : Int) (st : FillState) : Run FillState := do
  let edgeId := getIdFromSrcDst g i n
  let revEdgeId := getIdFromSrcDst g n i
  let seen ← vget st.reverse (max edgeId revEdgeId)
  if seen ≠ -1 then Run.done st
  else if edgeId = -1 then
    let reverse1 ← vset st.reverse revEdgeId (getNE g + st.newEdges)
    let reverse2 ← vset reverse1 (getNE g + st.newEdges) revEdgeId
    let w ← getWeightFromId g revEdgeId
    let capacities ← vset st.capacities (getNE g + st.newEdges) w
    Run.done { reverse := reverse2, capacities := capacities, newEdges := st.newEdges + 1 }
  else if revEdgeId = -1 then
    let reverse1 ← vset st.reverse edgeId (getNE g + st.newEdges)
    let reverse2 ← vset reverse1 (getNE g + st.newEdges) edgeId
    let w ← getWeightFromId g edgeId
    let capacities ← vset st.capacities (getNE g + st.newEdges) w
    Run.done { reverse := reverse2, capacities := capacities, newEdges := st.newEdges + 1 }
  else
    let reverse1 ← vset st.reverse edgeId revEdgeId
    let reverse2 ← vset reverse1 revEdgeId edgeId
    let c1 ← vget st.capacities edgeId
    let w1 ← getWeightFromId g revEdgeId
    let capacities1 ← vset st.capacities edgeId (wrap (c1 + w1))
    let c2 ← vget capacities1 revEdgeId
    let w2 ← getWeightFromId g edgeId
    let capacities2 ← vset capacities1 revEdgeId (wrap (c2 + w2))
    Run.done { reverse := reverse2, capacities := capacities2, newEdges := st.newEdges }

/-- The inner loop of `fillReverseAndCapacityVectors` over the neighbours of `i`. -/
def fillInner (g : Graph) (i : Int) : List Int → FillState → Run FillState
  | [], st => Run.done st
  | n :: ns, st => do
    let st1 ← fillStep g i n st
    fillInner g i ns st1

/-- The outer loop of `fillReverseAndCapacityVectors` over the listed nodes. -/
def fillOuter (g : Graph) : List Int → FillState → Run FillState
  | [], st => Run.done st
  | i :: is, st => do
    let st1 ← fillInner g i (getNeighbourListFor g i) st
    fillOuter g is st1

/-- The node ids `0, 1, ..., n - 1` visited by `for (int i = 0; i < n; ++i)`. -/
def nodeIds (n : Nat) : List Int := (List.range n).map Int.ofNat

/-- The function `fillReverseAndCapacityVectors`. -/
def fillReverseAndCapacityVectors (g : Graph) (reverse capacities : List Int) :
    Run (List Int × List Int) := do
  let st ← fillOuter g (nodeIds g.NV) { reverse := reverse, capacities := capacities, newEdges := 0 }
  Run.done (st.reverse, st.capacities)

/-! ## Heuristic push-relabel engine -/

/-- The mutable state of one run of `LFFlow`. -/
structure LFState where
  heights : List Int
  excess : List Int
  capacities : List Int
  reverse : List Int
  residuals : List Int
  wave : List Int
  activeNodes : List Int
  isActive : List Bool
  currentWave : Int
  itersSinceGlobalRelabel : Int
deriving DecidableEq, Repr

/-- The id of the residual edge `u → v`: the original id when the edge is original,
otherwise `reverse[getIdFromSrcDst(v, u)]`. -/
def residualEdgeId (g : Graph) (reverse : List Int) (u v : Int) : Run Int :=
  let edgeId := getIdFromSrcDst g u v
  if edgeId = -1 then vget reverse (getIdFromSrcDst g v u) else Run.done edgeId

/-- The neighbour scan of `process` and `processWithRelabel`; the accumulator is `(nextV, h)`. -/
def scanNeighbours (g : Graph) (node : Int) (heights reverse residuals : List Int) :
    List Int → Int × Int → Run (Int × Int)
  | [], acc => Run.done acc
  | n :: ns, acc => do
    let edgeId ← residualEdgeId g reverse node n
    let r ← vget residuals edgeId
    if r ≤ 0 then scanNeighbours g node heights reverse residuals ns acc
    else
      let hn ← vget heights n
      if hn < acc.2 then scanNeighbours g node heights reverse residuals ns (n, hn)
      else scanNeighbours g node heights reverse residuals ns acc

/-- The push of `process`: `delta` units along `edgeId` from `node` to `nextV`. -/
def pushAlong (node nextV t edgeId delta : Int) (st : LFState) : Run LFState := do
  let r ← vget st.residuals edgeId
  let residuals1 ← vset st.residuals edgeId (wrap (r - delta))
  let rev ← vget st.reverse edgeId
  let rr ← vget residuals1 rev
  let residuals2 ← vset residuals1 rev (wrap (rr + delta))
  let en ← vget st.excess node
  let excess1 ← vset st.excess node (wrap (en - delta))
  let ev ← vget excess1 nextV
  let excess2 ← vset excess1 nextV (wrap (ev + delta))
  let st1 := { st with residuals := residuals2, excess := excess2 }
  if nextV ≠ t then
    let a ← vget st.isActive nextV
    if !a then
      let isActive ← vset st.isActive nextV true
      Run.done { st1 with activeNodes := st.activeNodes ++ [nextV], isActive := isActive }
    else Run.done st1
  else Run.done st1

/-- One iteration of the `while` body of `process` for a node with a non-empty neighbour
list: scan, then push to the lowest residual neighbour or relabel. -/
def processBody (g : Graph) (node t : Int) (st : LFState) : Run LFState := do
  let e ← vget st.excess node
  let (nextV, h) ← scanNeighbours g node st.heights st.reverse st.residuals
    (getNeighbourListFor g node) (-1, LONG_MAX)
  let edgeId ← residualEdgeId g st.reverse node nextV
  let hnode ← vget st.heights node
  if hnode > h then
    let r ← vget st.residuals edgeId
    pushAlong node nextV t edgeId (min e r) st
  else
    let heights ← vset st.heights node (h + 1)
    Run.done { st with heights := heights }

/-- The tail of `process`: `activeNodes.pop(); isActive[node] = false`. -/
def popActive (node : Int) (st : LFState) : Run LFState :=
  match st.activeNodes with
  | [] => Run.fault
  | _ :: rest => do
    let isActive ← vset st.isActive node false
    Run.done { st with activeNodes := rest, isActive := isActive }

/-- The function `process`. -/
def process (g : Graph) (node t : Int) : Nat → LFState → Run LFState
  | 0, _ => Run.timeout
  | fuel + 1, st => do
    let e ← vget st.excess node
    if e > 0 then
      if (getNeighbourListFor g node).isEmpty then Run.done st
      else
        let st1 ← processBody g node t st
        process g node t fuel st1
    else popActive node st

/-- One iteration of the `while` body of `processWithRelabel`. -/
def processWithRelabelBody (g : Graph) (node t : Int) (st : LFState) : Run LFState := do
  let e ← vget st.excess node
  let (nextV, h) ← scanNeighbours g node st.heights st.reverse st.residuals
    (getNeighbourListFor g node) (-1, LONG_MAX)
  let edgeId ← residualEdgeId g st.reverse node nextV
  let hnode ← vget st.heights node
  if hnode > h then
    let r ← vget st.residuals edgeId
    let wn ← vget st.wave node
    let wv ← vget st.wave nextV
    if wn ≤ wv then
      let hv ← vget st.heights nextV
      if hnode > hv then pushAlong node nextV t edgeId (min e r) st
      else Run.done st
    else Run.done st
  else if hnode < h + 1 then
    let heights ← vset st.heights node (h + 1)
    Run.done { st with heights := heights }
  else Run.done st

/-- The function `processWithRelabel`. -/
def processWithRelabel (g : Graph) (node t : Int) : Nat → LFState → Run LFState
  | 0, _ => Run.timeout
  | fuel + 1, st => do
    let e ← vget st.excess node
    if e > 0 then
      if (getNeighbourListFor g node).isEmpty then Run.done st
      else
        let st1 ← processWithRelabelBody g node t st
        processWithRelabel g node t fuel st1
    else popActive node st

/-! ## Global relabel procedure -/

/-- The arrays written by `BFSColoring`, its queue and its counters. -/
structure BFSState where
  heights : List Int
  wave : List Int
  color : List Int
  queue : List Int
  coloredVertices : Int
  currentLevel : Int
deriving DecidableEq, Repr

/-- The loop of `BFSColoring` over the neighbours of `curNode`. -/
def bfsVisit (g : Graph) (reverse residuals : List Int) (curNode currentWave : Int) :
    List Int → BFSState → Run BFSState
  | [], st => Run.done st
  | n :: ns, st => do
    let edgeId ← residualEdgeId g reverse curNode n
    let r ← vget residuals edgeId
    if r ≤ 0 then bfsVisit g reverse residuals curNode currentWave ns st
    else
      let c ← vget st.color n
      if c = 0 then
        let color ← vset st.color n 1
        let hn ← vget st.heights n
        let heights ← (if hn < st.currentLevel then vset st.heights n st.currentLevel
          else Run.done st.heights)
        let wave ← vset st.wave n currentWave
        bfsVisit g reverse residuals curNode currentWave ns
          { st with heights := heights, wave := wave, color := color,
                    queue := st.queue ++ [n], coloredVertices := st.coloredVertices + 1 }
      else bfsVisit g reverse residuals curNode currentWave ns st

/-- The `while (!queue.empty())` loop of `BFSColoring`. -/
def bfsLoop (g : Graph) (reverse residuals : List Int) (currentWave : Int) :
    Nat → BFSState → Run BFSState
  | 0, _ => Run.timeout
  | fuel + 1, st =>
    match st.queue with
    | [] => Run.done st
    | curNode :: rest => do
      let st1 ← bfsVisit g reverse residuals curNode currentWave (getNeighbourListFor g curNode)
        { st with queue := rest, currentLevel := st.currentLevel + 1 }
      bfsLoop g reverse residuals currentWave fuel st1

/-- The function `BFSColoring`; the result carries the updated `heights`, `wave`, `color`
and the returned count `coloredVertices`. -/
def BFSColoring (fuel : Nat) (g : Graph) (heights residuals wave reverse color : List Int)
    (startVertex startLevel currentWave : Int) : Run BFSState :=
  bfsLoop g reverse residuals currentWave fuel
    { heights := heights, wave := wave, color := color, queue := [startVertex],
      coloredVertices := 0, currentLevel := startLevel }

/-- The function `globalRelabel`. -/
def globalRelabel (fuel : Nat) (g : Graph) (s t : Int) (st : LFState) : Run LFState := do
  let currentWave := st.currentWave + 1
  let color := List.replicate g.edges.length (0 : Int)
  let b1 ← BFSColoring fuel g st.heights st.residuals st.wave st.reverse color t 0 currentWave
  if b1.coloredVertices < getNV g then
    let b2 ← BFSColoring fuel g b1.heights st.residuals b1.wave st.reverse b1.color s (getNV g)
      currentWave
    Run.done { st with heights := b2.heights, wave := b2.wave, currentWave := currentWave }
  else
    Run.done { st with heights := b1.heights, wave := b1.wave, currentWave := currentWave }

/-! ## The driver `LFFlow` -/

/-- The initial-preflow loop of `LFFlow` over `getNeighbours(s)`. -/
def initialPreflow (g : Graph) (s : Int) : List Int → LFState → Run LFState
  | [], st => Run.done st
  | n :: ns, st => do
    let edgeId := getIdFromSrcDst g s n
    let residuals1 ← vset st.residuals edgeId 0
    let rev ← vget st.reverse edgeId
    let c ← vget st.capacities edgeId
    let residuals2 ← vset residuals1 rev c
    let w ← getWeightFromId g edgeId
    let excess1 ← vset st.excess n w
    let es ← vget excess1 s
    let w2 ← getWeightFromId g edgeId
    let excess2 ← vset excess1 s (wrap (es - w2))
    let isActive ← vset st.isActive n true
    initialPreflow g s ns
      { st with residuals := residuals2, excess := excess2,
                activeNodes := st.activeNodes ++ [n], isActive := isActive }

/-- The state of `LFFlow` when its run loop is entered. -/
def LFInit (g : Graph) (s : Int) : Run LFState := do
  let isActive := List.replicate g.NV false
  let capacities := resize (getWeights g) g.undirectedNumEdges
  let reverse := List.replicate g.undirectedNumEdges (-1 : Int)
  let (reverse, capacities) ← fillReverseAndCapacityVectors g reverse capacities
  let residuals := capacities
  let heights := List.replicate g.NV (0 : Int)
  let excess := List.replicate g.NV (0 : Int)
  let wave := List.replicate g.NV (0 : Int)
  let heights ← vset heights s (getNV g)
  initialPreflow g s (getNeighbours g s)
    { heights := heights, excess := excess, capacities := capacities, reverse := reverse,
      residuals := residuals, wave := wave, activeNodes := [], isActive := isActive,
      currentWave := 0, itersSinceGlobalRelabel := 0 }

/-- The guard `excess[s] + excess[t] < 0` of the run loop. -/
def guard (s t : Int) (st : LFState) : Run Bool := do
  let es ← vget st.excess s
  let et ← vget st.excess t
  Run.done (decide (wrap (es + et) < 0))

/-- The body of the run loop of `LFFlow`; `inner` is the fuel of the loops it calls. -/
def LFStep (inner : Nat) (g : Graph) (s t : Int) (globalRelabeling : Bool) (st : LFState) :
    Run LFState := do
  let curnode ← (match st.activeNodes with
    | [] => Run.fault
    | c :: _ => Run.done c)
  let st1 ← (if globalRelabeling then processWithRelabel g curnode t inner st
    else process g curnode t inner st)
  let iters := st1.itersSinceGlobalRelabel + 1
  if globalRelabeling ∧ iters ≥ getNV g / 2 then
    let st2 ← globalRelabel inner g s t st1
    Run.done { st2 with itersSinceGlobalRelabel := 0 }
  else Run.done { st1 with itersSinceGlobalRelabel := iters }

/-- The run loop of `LFFlow`. -/
def LFLoop (inner : Nat) (g : Graph) (s t : Int) (globalRelabeling : Bool) :
    Nat → LFState → Run LFState
  | 0, _ => Run.timeout
  | fuel + 1, st => do
    let b ← guard s t st
    if b then
      let st1 ← LFStep inner g s t globalRelabeling st
      LFLoop inner g s t globalRelabeling fuel st1
    else Run.done st

/-- The final state of `LFFlow`. -/
def LFRun (fuel : Nat) (g : Graph) (s t : Int) (globalRelabeling : Bool) : Run LFState := do
  let st ← LFInit g s
  LFLoop fuel g s t globalRelabeling fuel st

/-- The function `LFFlow`: the pair `(capacities, residuals)`. -/
def LFFlow (fuel : Nat) (g : Graph) (s t : Int) (globalRelabeling : Bool) :
    Run (List Int × List Int) := do
  let st ← LFRun fuel g s t globalRelabeling
  Run.done (st.capacities, st.residuals)


/-! ## Specification vocabulary -/

/-- Every entry of the vector is non-negative. -/
def Nonneg (v : List Int) : Prop := ∀ x ∈ v, 0 ≤ x

/-- Every original edge carries a non-negative weight. -/
def WeightsNonneg (g : Graph) : Prop := ∀ e ∈ g.edges, 0 ≤ e.weight

/-- Every original weight is at most `LONG_MAX`: with `WeightsNonneg`, the weights are
non-negative values of type `long`. -/
def WeightsLong (g : Graph) : Prop := ∀ e ∈ g.edges, e.weight ≤ LONG_MAX

/-- The weight of the original edge `u → v`, and `0` when there is no such edge. -/
def weightOf (g : Graph) (u v : Int) : Int :=
  match getWeightFromId g (getIdFromSrcDst g u v) with
  | Run.done w => w
  | _ => 0

/-- The exact sum of the weights of the edges from `s` to the listed nodes. -/
def sourceWeight (g : Graph) (s : Int) : List Int → Int
  | [] => 0
  | n :: ns => weightOf g s n + sourceWeight g s ns

/-- The weights that the preflow puts on the edges leaving `s` sum to at most `LONG_MAX`. -/
def SourceFits (g : Graph) (s : Int) : Prop := sourceWeight g s (getNeighbours g s) ≤ LONG_MAX

/-- Capacity feasibility of the classic engine: one flow per original edge id, between
`0` and the weight of the edge. -/
def FlowFeasible (g : Graph) (flows : List Int) : Prop :=
  flows.length = g.edges.length ∧
    ∀ (i : Nat) (f w : Int), flows[i]? = some f → (getWeights g)[i]? = some w → 0 ≤ f ∧ f ≤ w

/-- The feasibility invariant of the classic engine. -/
def PFInv (g : Graph) (st : PFState) : Prop :=
  FlowFeasible g st.flows ∧ Nonneg st.excess

/-- The feasibility invariant of the classic engine together with the bound that keeps its
sums exact: the excesses sum to at most `LONG_MAX`. -/
def PFExact (g : Graph) (st : PFState) : Prop :=
  PFInv g st ∧ st.excess.sum ≤ LONG_MAX

/-- Sum of the flows on the original edges entering `v`. -/
def inflow : List Edge → List Int → Int → Int
  | e :: es, f :: fs, v => (if e.dst = v then f else 0) + inflow es fs v
  | _, _, _ => 0

/-- Sum of the flows on the original edges leaving `v`. -/
def outflow : List Edge → List Int → Int → Int
  | e :: es, f :: fs, v => (if e.src = v then f else 0) + outflow es fs v
  | _, _, _ => 0

/-- The excess of every node other than `s` is its inflow minus its outflow. -/
def Balanced (g : Graph) (s : Int) (st : PFState) : Prop :=
  ∀ (k : Nat) (x : Int), (k : Int) ≠ s → st.excess[k]? = some x →
    x = inflow g.edges st.flows k - outflow g.edges st.flows k

/-- Every node other than `s`, `t` and `c` that holds positive excess is in the queue. -/
def QueuedExcept (s t c : Int) (st : PFState) : Prop :=
  ∀ (k : Nat) (x : Int), (k : Int) ≠ s → (k : Int) ≠ t → (k : Int) ≠ c →
    st.excess[k]? = some x → 0 < x → (k : Int) ∈ st.activeNodes

/-- Every node other than `s` and `t` that holds positive excess is in the queue. -/
def Queued (s t : Int) (st : PFState) : Prop :=
  ∀ (k : Nat) (x : Int), (k : Int) ≠ s → (k : Int) ≠ t →
    st.excess[k]? = some x → 0 < x → (k : Int) ∈ st.activeNodes

/-- The invariant of `preflow`: balance, and non-zero flow only on edges from `s` to a
neighbour already visited; every positive excess is queued. -/
def PreflowInv (g : Graph) (s : Int) (visited : List Int) (st : PFState) : Prop :=
  Balanced g s st ∧
  (∀ (i : Nat) (f : Int), st.flows[i]? = some f → f ≠ 0 →
    ∃ e, g.edges[i]? = some e ∧ e.src = s ∧ e.dst ∈ visited) ∧
  (∀ (k : Nat) (x : Int), st.excess[k]? = some x → 0 < x → (k : Int) ∈ st.activeNodes) ∧
  st.excess.length = g.NV


/-- The path `s → a → t` with node ids `0, 1, 2` and weights `3` and `7`; `getNeighbours`
lists out-neighbours, the undirected lists hold the neighbours in either direction. -/
def pathGraph37 : Graph :=
  { NV := 3, edges := [⟨0, 1, 3⟩, ⟨1, 2, 7⟩], neighbours := [[1], [2], []],
    neighbourList := [[1], [0, 2], [1]], undirectedNumEdges := 4 }

/-- The graph with nodes `s, a, b, c, t` (ids `0 .. 4`) and edges `s → a`, `s → b`, `a → c`,
`b → c` of weight `LONG_MAX` and `c → t` of weight `1`; `getNeighbours` lists out-neighbours,
the undirected lists hold the neighbours in either direction. The weights of the two edges
leaving `s` sum to more than `LONG_MAX`. -/
def overflowDiamond : Graph :=
  { NV := 5,
    edges := [⟨0, 1, LONG_MAX⟩, ⟨0, 2, LONG_MAX⟩, ⟨1, 3, LONG_MAX⟩, ⟨2, 3, LONG_MAX⟩, ⟨3, 4, 1⟩],
    neighbours := [[1, 2], [3], [3], [4], []],
    neighbourList := [[1, 2], [0, 3], [0, 3], [1, 2, 4], [3]], undirectedNumEdges := 10 }

/-- Scenario A: the path `s → a → t` with node ids `0, 1, 2`, weights `7` and `3`;
`getNeighbours` lists out-neighbours, the second argument is the undirected neighbour
list of `a`. -/
def scenarioA (la : List Int) : Graph :=
  { NV := 3, edges := [⟨0, 1, 7⟩, ⟨1, 2, 3⟩], neighbours := [[1], [2], []],
    neighbourList := [[1], la, [1]], undirectedNumEdges := 4 }

/-- Scenario A with `getNeighbours` returning the neighbours in either direction. -/
def scenarioAUndirected : Graph :=
  { NV := 3, edges := [⟨0, 1, 7⟩, ⟨1, 2, 3⟩], neighbours := [[1], [0, 2], [1]],
    neighbourList := [[1], [0, 2], [1]], undirectedNumEdges := 4 }

/-- The state in which the classic engine is stuck on scenario A. -/
def scenarioAStuck : PFState :=
  { flows := [7, 3], excess := [0, 4, 3], distances := [3, LONG_MAX, 0], activeNodes := [1] }

/-- Scenario C: a single edge `s → a` of weight `5` (ids `0, 1`) and an isolated sink `t`
(id `2`); `getNeighbours` lists out-neighbours. -/
def scenarioC : Graph :=
  { NV := 3, edges := [⟨0, 1, 5⟩], neighbours := [[1], [], []],
    neighbourList := [[1], [0], []], undirectedNumEdges := 2 }

/-- The flow on edge id `e` read from the pair `(capacities, residuals)` returned by `LFFlow`:
`capacities[e] - residuals[e]`. -/
def flowOn (out : List Int × List Int) (e : Int) : Int :=
  out.1.getD e.toNat 0 - out.2.getD e.toNat 0

/-- Scenario B: nodes `s, a, b, t` with ids `0, 1, 2, 3` and edges `s → a (10)`, `s → b (5)`,
`a → t (5)`, `b → t (10)`, `a → b (3)`; the arguments are `getNeighbours(s)` and the four
undirected neighbour lists. -/
def scenarioB (ns ls la lb lt : List Int) : Graph :=
  { NV := 4, edges := [⟨0, 1, 10⟩, ⟨0, 2, 5⟩, ⟨1, 3, 5⟩, ⟨2, 3, 10⟩, ⟨1, 2, 3⟩],
    neighbours := [ns, [3, 2], [3], []], neighbourList := [ls, la, lb, lt],
    undirectedNumEdges := 10 }

/-- Scenario B returns, with total flow `13` into `t`. -/
def scenarioBOk (ns ls la lb lt : List Int) : Bool :=
  match LFFlow 12 (scenarioB ns ls la lb lt) 0 3 false with
  | Run.done out =>
    decide (flowOn out (getIdFromSrcDst (scenarioB ns ls la lb lt) 1 3) +
      flowOn out (getIdFromSrcDst (scenarioB ns ls la lb lt) 2 3) = 13)
  | _ => false

/-! ### Vocabulary for the residual network builder -/

/-- The original edge `e` has no original antiparallel edge. -/
def lacksReverse (g : Graph) (e : Edge) : Bool :=
  decide (getIdFromSrcDst g e.dst e.src = -1)

/-- The number of original edges lacking an original antiparallel edge. -/
def countLacking (g : Graph) : Nat := (g.edges.filter (lacksReverse g)).length

/-- The nodes `u` and `v` are joined by an original edge, in either direction. -/
def Adjacent (g : Graph) (u v : Int) : Prop :=
  ∃ e ∈ g.edges, (e.src = u ∧ e.dst = v) ∨ (e.src = v ∧ e.dst = u)

/-- What the builder expects of the adapter: a simple directed graph without self-loops on
the nodes `0 .. NV - 1`, undirected neighbour lists holding exactly the nodes adjacent in
either direction, and an undirected edge count of `NE` plus the number of original edges
lacking an original antiparallel edge. -/
structure BuilderInput (g : Graph) : Prop where
  simple : (g.edges.map (fun e => (e.src, e.dst))).Nodup
  noLoop : ∀ e ∈ g.edges, e.src ≠ e.dst
  nodes : ∀ e ∈ g.edges, 0 ≤ e.src ∧ e.src < g.NV ∧ 0 ≤ e.dst ∧ e.dst < g.NV
  listsAdjacent : ∀ u ∈ List.range g.NV, ∀ v ∈ getNeighbourListFor g u,
    ∃ e ∈ g.edges, (e.src = u ∧ e.dst = v) ∨ (e.src = v ∧ e.dst = u)
  listsComplete : ∀ e ∈ g.edges,
    e.dst ∈ getNeighbourListFor g e.src ∧ e.src ∈ getNeighbourListFor g e.dst
  count : g.undirectedNumEdges = g.edges.length + countLacking g

/-- Number of original edges lacking an antiparallel edge whose `reverse` entry is already
assigned; the lists are the original edges and the `reverse` vector side by side. -/
def doneCount (g : Graph) : List Edge → List Int → Nat
  | e :: es, r :: rs => (if lacksReverse g e = true ∧ r ≠ -1 then 1 else 0) + doneCount g es rs
  | _, _ => 0

/-- The loop invariant of `fillReverseAndCapacityVectors`. -/
structure FillInv (g : Graph) (st : FillState) : Prop where
  lenR : st.reverse.length = g.undirectedNumEdges
  lenC : st.capacities.length = g.undirectedNumEdges
  cnt : st.newEdges = doneCount g g.edges st.reverse
  orig : ∀ (i : Nat) (e : Edge) (r : Int), g.edges[i]? = some e → st.reverse[i]? = some r →
    r ≠ -1 → 0 ≤ r ∧ st.reverse[r.toNat]? = some (i : Int) ∧
      (if lacksReverse g e = true then getNE g ≤ r ∧ r < getNE g + st.newEdges
       else r = getIdFromSrcDst g e.dst e.src)
  synth : ∀ j : Nat, getNE g ≤ j → (j : Int) < getNE g + st.newEdges →
    ∃ r : Int, st.reverse[j]? = some r ∧ 0 ≤ r ∧ r < getNE g ∧ st.reverse[r.toNat]? = some (j : Int)
  free : ∀ j : Nat, getNE g + st.newEdges ≤ j → j < g.undirectedNumEdges →
    st.reverse[j]? = some (-1)

/-- Entries of `reverse` that are assigned in `st` are the same in `st'`. -/
def FillMono (st st' : FillState) : Prop :=
  ∀ (i : Nat) (x : Int), st.reverse[i]? = some x → x ≠ -1 → st'.reverse[i]? = some x

/-- The `reverse` entry of every original edge between `u` and `v` is assigned. -/
def FillAssigned (g : Graph) (u v : Int) (st : FillState) : Prop :=
  ∀ i : Nat, (getIdFromSrcDst g u v = i ∨ getIdFromSrcDst g v u = i) →
    ∃ x, st.reverse[i]? = some x ∧ x ≠ -1

/-! ### Vocabulary for the heuristic engine -/

/-- The excess invariant of the heuristic engine: the excesses sum to `0` and every node
other than `s` has non-negative excess. -/
def ExcessInv (s : Int) (st : LFState) : Prop :=
  st.excess.sum = 0 ∧ ∀ (k : Nat) (x : Int), (k : Int) ≠ s → st.excess[k]? = some x → 0 ≤ x

/-- The states in which the guard of the run loop of `LFFlow` is evaluated: the state built
by the initialisation, and every state reached by one more round of the loop body from a
state in which the guard held. -/
inductive AtGuard (inner : Nat) (g : Graph) (s t : Int) (globalRelabeling : Bool) :
    LFState → Prop where
  | init {st : LFState} : LFInit g s = Run.done st → AtGuard inner g s t globalRelabeling st
  | step {st st' : LFState} : AtGuard inner g s t globalRelabeling st →
      guard s t st = Run.done true →
      LFStep inner g s t globalRelabeling st = Run.done st' →
      AtGuard inner g s t globalRelabeling st'

/-- The invariant of the initial-preflow loop of `LFFlow` on the excesses: the excess
invariant, and excess `0` at every node other than `s` not yet visited. -/
def InitInv (s : Int) (visited : List Int) (st : LFState) : Prop :=
  ExcessInv s st ∧
    ∀ (k : Nat) (x : Int), (k : Int) ≠ s → (k : Int) ∉ visited → st.excess[k]? = some x → x = 0

/-- The reverse map is an involution on the edge ids `0 .. U - 1`. -/
def RevInvolution (U : Nat) (reverse : List Int) : Prop :=
  reverse.length = U ∧
    ∀ e : Nat, e < U → ∃ r : Int, reverse[e]? = some r ∧ 0 ≤ r ∧ r < U ∧
      reverse[r.toNat]? = some (e : Int)

/-- The residuals of an edge and of its reverse edge together do not exceed their
capacities together. -/
def PairBound (reverse capacities residuals : List Int) : Prop :=
  ∀ (e : Nat) (r x y cx cy : Int), reverse[e]? = some r → residuals[e]? = some x →
    residuals[r.toNat]? = some y → capacities[e]? = some cx → capacities[r.toNat]? = some cy →
    x + y ≤ cx + cy

/-- The residual bounds of the heuristic engine on a residual network with `U` edge ids:
every residual is non-negative and at most the capacity of the edge plus the capacity of its
reverse edge. -/
def ResidualBounds (U : Nat) (st : LFState) : Prop :=
  st.residuals.length = U ∧ st.capacities.length = U ∧
    ∀ e : Nat, e < U → ∃ (r x c cr : Int), st.reverse[e]? = some r ∧ st.residuals[e]? = some x ∧
      st.capacities[e]? = some c ∧ st.capacities[r.toNat]? = some cr ∧ 0 ≤ x ∧ x ≤ c + cr

/-- The network part of the state, which only the builder writes: the reverse map is an
involution on `0 .. U - 1`, capacities are non-negative, and the arrays have length `U`. -/
def NetInv (U : Nat) (st : LFState) : Prop :=
  RevInvolution U st.reverse ∧ Nonneg st.capacities ∧ st.capacities.length = U ∧
    st.residuals.length = U ∧ PairBound st.reverse st.capacities st.residuals

/-- The two sums on residuals of a push of `delta` units along `edgeId` in the state `st`
stay in the range of a `long`, so that `wrap` leaves them unchanged. -/
def ResExact (edgeId delta : Int) (st : LFState) : Prop :=
  ∀ (r rev rr : Int), vget st.residuals edgeId = Run.done r →
    vget st.reverse edgeId = Run.done rev →
    vget (st.residuals.set edgeId.toNat (wrap (r - delta))) rev = Run.done rr →
    wrap (r - delta) = r - delta ∧ wrap (rr + delta) = rr + delta

/-- The two sums on excesses of a push of `delta` units from `node` to `nextV` in the state
`st` stay in the range of a `long`, so that `wrap` leaves them unchanged. -/
def ExcExact (node nextV delta : Int) (st : LFState) : Prop :=
  ∀ (en ev : Int), vget st.excess node = Run.done en →
    vget (st.excess.set node.toNat (wrap (en - delta))) nextV = Run.done ev →
    wrap (en - delta) = en - delta ∧ wrap (ev + delta) = ev + delta

/-- For every original edge, twice the total weight of the original edges between its end
points is at most `LONG_MAX`: the residual of an edge, which can grow to the capacity of the
edge plus the capacity of its reverse edge, stays in the range of a `long`. -/
def PairsFit (g : Graph) : Prop :=
  ∀ e ∈ g.edges, 2 * (e.weight + weightOf g e.dst e.src) ≤ LONG_MAX

/-- The residual side of the invariant of the run loop of `LFFlow` on a residual network with
`U` edge ids: residuals are non-negative, the network invariant holds, and the capacities of
an edge and of its reverse edge together are at most `LONG_MAX`, so that no sum on residuals
wraps. -/
structure ResInv (U : Nat) (st : LFState) : Prop where
  nonneg : Nonneg st.residuals
  net : NetInv U st
  caps : ∀ (e : Nat) (r cx cy : Int), st.reverse[e]? = some r → st.capacities[e]? = some cx →
    st.capacities[r.toNat]? = some cy → cx + cy ≤ LONG_MAX

/-! ### Maximum flow as a specification -/

/-- The flows read from the output of `LFFlow`, one per original edge id:
`capacities[e] - residuals[e]`. -/
def flowsOf (g : Graph) (out : List Int × List Int) : List Int :=
  (List.zipWith (fun c r => c - r) out.1 out.2).take g.edges.length

/-- The value of a flow: what leaves `s` on original edges minus what enters `s`. -/
def flowValue (g : Graph) (s : Int) (flows : List Int) : Int :=
  outflow g.edges flows s - inflow g.edges flows s

/-- A flow of the directed graph: feasible on every original edge, conserved at every node
other than `s` and `t`. -/
def IsFlow (g : Graph) (s t : Int) (flows : List Int) : Prop :=
  FlowFeasible g flows ∧
    ∀ v : Int, v ≠ s → v ≠ t → inflow g.edges flows v = outflow g.edges flows v

/-- The maximum `s`-`t` flow value of the directed graph. -/
def IsMaxFlowValue (g : Graph) (s t : Int) (v : Int) : Prop :=
  (∃ flows, IsFlow g s t flows ∧ flowValue g s flows = v) ∧
    ∀ flows, IsFlow g s t flows → flowValue g s flows ≤ v

/-- The graph with nodes `s, a, t` (ids `0, 1, 2`) and edges `s → a` of weight `w1` and
`t → a` of weight `w2`; `getNeighbours` lists out-neighbours. -/
def sinkSide (w1 w2 : Int) : Graph :=
  { NV := 3, edges := [⟨0, 1, w1⟩, ⟨2, 1, w2⟩], neighbours := [[1], [], [1]],
    neighbourList := [[1], [0, 2], [1]], undirectedNumEdges := 4 }

/-- The graph with nodes `s, a, t` (ids `0, 1, 2`) and edges `s → t` of weight `6` and
`s → a` of weight `2`; `getNeighbours` lists out-neighbours. The node `a` is a dead end, and
the maximum `s`-`t` flow is `6` in the directed and in the undirected reading. -/
def sourceFan : Graph :=
  { NV := 3, edges := [⟨0, 2, 6⟩, ⟨0, 1, 2⟩], neighbours := [[2, 1], [], []],
    neighbourList := [[2, 1], [0], [0]], undirectedNumEdges := 4 }

/-- Scenario A with its nodes numbered `s`, `a`, `t` (a permutation of `0, 1, 2`): edges
`s → a` of weight `7` (id `0`) and `a → t` of weight `3` (id `1`); `getNeighbours` lists
out-neighbours, the undirected lists hold the neighbours in either direction. -/
def scenarioAIds (s a t : Int) : Graph :=
  { NV := 3, edges := [⟨s, a, 7⟩, ⟨a, t, 3⟩],
    neighbours := [0, 1, 2].map (fun k => if k = s then [a] else if k = a then [t] else []),
    neighbourList :=
      [0, 1, 2].map (fun k => if k = s then [a] else if k = a then [s, t] else [a]),
    undirectedNumEdges := 4 }

/-- The path `s → a → t` (ids `0, 1, 2`) with both edges of weight `LONG_MAX`;
`getNeighbours` lists out-neighbours, the undirected lists hold the neighbours in either
direction. Twice the weight of an edge is more than `LONG_MAX`. -/
def overflowPath : Graph :=
  { NV := 3, edges := [⟨0, 1, LONG_MAX⟩, ⟨1, 2, LONG_MAX⟩], neighbours := [[1], [2], []],
    neighbourList := [[1], [0, 2], [1]], undirectedNumEdges := 4 }

/-- The graph with nodes `s, a, b, t` (ids `0 .. 3`) and edges `s → a`, `s → b` of weight
`LONG_MAX`, the node `t` isolated; `getNeighbours` lists out-neighbours. The weights of the
two edges leaving `s` sum to more than `LONG_MAX`. -/
def overflowFan : Graph :=
  { NV := 4, edges := [⟨0, 1, LONG_MAX⟩, ⟨0, 2, LONG_MAX⟩], neighbours := [[1, 2], [], [], []],
    neighbourList := [[1, 2], [0], [0], []], undirectedNumEdges := 4 }

/-- The final state of `LFFlow` on scenario A without global relabeling. -/
def scenarioAFinal : LFState :=
  { heights := [3, 4, 0], excess := [-3, 0, 3], capacities := [7, 3, 7, 3],
    reverse := [2, 3, 0, 1], residuals := [4, 0, 3, 6], wave := [0, 0, 0],
    activeNodes := [0], isActive := [true, false, false], currentWave := 0,
    itersSinceGlobalRelabel := 1 }

/-! ### Admissibility of the height labels -/

/-- The end points `(src, dst)` of the edge id `e` of the residual network: those of the
original edge when `e` is an original id, and those of the original edge `reverse[e]`, swapped,
when `e` is a synthesized id. -/
def resEnds (g : Graph) (reverse : List Int) (e : Nat) : Option (Int × Int) :=
  match g.edges[e]? with
  | some ed => some (ed.src, ed.dst)
  | none =>
    match reverse[e]? with
    | some r =>
      if r < 0 then none
      else
        match g.edges[r.toNat]? with
        | some ed => some (ed.dst, ed.src)
        | none => none
    | none => none

/-- The edge id `e` breaks admissibility: its residual is positive and the height of its
source exceeds the height of its destination by more than one. -/
def steep (g : Graph) (st : LFState) (e : Nat) : Bool :=
  match resEnds g st.reverse e with
  | some (u, v) =>
    match st.residuals[e]?, st.heights[u.toNat]?, st.heights[v.toNat]? with
    | some r, some hu, some hv => decide (0 < r ∧ hv + 1 < hu)
    | _, _, _ => false
  | none => false

/-- Admissibility: every edge id `e` of the residual network with `residuals[e] > 0` has
`heights[src(e)] ≤ heights[dst(e)] + 1`. -/
def Admissible (g : Graph) (st : LFState) : Prop :=
  ∀ e : Nat, e < st.residuals.length → steep g st e = false

instance (g : Graph) (st : LFState) : Decidable (Admissible g st) := by
  unfold Admissible; infer_instance

/-- The path `s → a → t` with node ids `s = 0`, `t = 1`, `a = 2` and weights `7` and `3`: two
original edges, three nodes. -/
def pathTA : Graph :=
  { NV := 3, edges := [⟨0, 2, 7⟩, ⟨2, 1, 3⟩], neighbours := [[2], [], [1]],
    neighbourList := [[2], [2], [0, 1]], undirectedNumEdges := 4 }

/-- The state of `LFFlow` on `pathTA` after the builder and the initial preflow. -/
def pathTAInit : LFState :=
  { heights := [3, 0, 0], excess := [-7, 0, 7], capacities := [7, 3, 7, 3],
    reverse := [2, 3, 0, 1], residuals := [0, 3, 7, 3], wave := [0, 0, 0],
    activeNodes := [2], isActive := [false, false, true], currentWave := 0,
    itersSinceGlobalRelabel := 0 }

/-- The graph with nodes `s, u, t` (ids `0, 1, 2`) and the single edge `u → s` of weight `5`. -/
def sourceSink : Graph :=
  { NV := 3, edges := [⟨1, 0, 5⟩], neighbours := [[], [0], []],
    neighbourList := [[1], [0], []], undirectedNumEdges := 2 }

/-- The state of `LFFlow` on `sourceSink` after the builder and the initial preflow. -/
def sourceSinkInit : LFState :=
  { heights := [3, 0, 0], excess := [0, 0, 0], capacities := [5, 5],
    reverse := [1, 0], residuals := [5, 5], wave := [0, 0, 0],
    activeNodes := [], isActive := [false, false, false], currentWave := 0,
    itersSinceGlobalRelabel := 0 }

/-- The graph with nodes `s, a, t` (ids `0, 1, 2`) and the edges `s → a` of weight `5` and
`a → s` of weight `-5`. -/
def negativePair : Graph :=
  { NV := 3, edges := [⟨0, 1, 5⟩, ⟨1, 0, -5⟩], neighbours := [[1], [0], []],
    neighbourList := [[1], [0], []], undirectedNumEdges := 2 }

/-- The state of `LFFlow` on `negativePair` after the builder and the initial preflow. -/
def negativePairInit : LFState :=
  { heights := [3, 0, 0], excess := [-5, 5, 0], capacities := [0, 0],
    reverse := [1, 0], residuals := [0, 0], wave := [0, 0, 0],
    activeNodes := [1], isActive := [false, true, false], currentWave := 0,
    itersSinceGlobalRelabel := 0 }

/-- The graph with nodes `s, a, t` (ids `0, 1, 2`) and edges `s → a (1)`, `s → t (1)`,
`a → t (2)`. -/
def triangle : Graph :=
  { NV := 3, edges := [⟨0, 1, 1⟩, ⟨0, 2, 1⟩, ⟨1, 2, 2⟩], neighbours := [[1, 2], [2], []],
    neighbourList := [[1, 2], [0, 2], [0, 1]], undirectedNumEdges := 6 }

/-- The state of `LFFlow` on `triangle` after the builder and the initial preflow. -/
def triangleInit : LFState :=
  { heights := [3, 0, 0], excess := [-2, 1, 1], capacities := [1, 1, 2, 1, 1, 2],
    reverse := [3, 4, 5, 0, 1, 2], residuals := [0, 0, 2, 1, 1, 2], wave := [0, 0, 0],
    activeNodes := [1, 2], isActive := [false, true, true], currentWave := 0,
    itersSinceGlobalRelabel := 0 }

/-- The state of `LFFlow(triangle, s, t, true)` after the first call of `processWithRelabel`. -/
def triangleBefore : LFState :=
  { heights := [3, 1, 0], excess := [-2, 0, 2], capacities := [1, 1, 2, 1, 1, 2],
    reverse := [3, 4, 5, 0, 1, 2], residuals := [0, 0, 1, 1, 1, 3], wave := [0, 0, 0],
    activeNodes := [2], isActive := [false, false, true], currentWave := 0,
    itersSinceGlobalRelabel := 0 }

/-- The state `triangleBefore` after `globalRelabel`. -/
def triangleAfter : LFState :=
  { heights := [3, 1, 3], excess := [-2, 0, 2], capacities := [1, 1, 2, 1, 1, 2],
    reverse := [3, 4, 5, 0, 1, 2], residuals := [0, 0, 1, 1, 1, 3], wave := [1, 1, 1],
    activeNodes := [2], isActive := [false, false, true], currentWave := 1,
    itersSinceGlobalRelabel := 0 }

/-! ### The residual network behind a reverse map -/

/-- The reverse map is the one of the residual network of `g`: an original edge with an
original antiparallel edge is paired with it, an original edge without one is paired with a
synthesized id, and every synthesized id is paired with an original edge; paired ids point at
each other. -/
structure ResidualNet (g : Graph) (reverse : List Int) : Prop where
  len : reverse.length = g.undirectedNumEdges
  le : g.edges.length ≤ g.undirectedNumEdges
  orig : ∀ (i : Nat) (e : Edge), g.edges[i]? = some e →
    ∃ r : Int, reverse[i]? = some r ∧ 0 ≤ r ∧ reverse[r.toNat]? = some (i : Int) ∧
      (if lacksReverse g e = true then getNE g ≤ r else r = getIdFromSrcDst g e.dst e.src)
  synth : ∀ j : Nat, g.edges.length ≤ j → j < g.undirectedNumEdges →
    ∃ r : Int, reverse[j]? = some r ∧ 0 ≤ r ∧ r < getNE g ∧ reverse[r.toNat]? = some (j : Int)

/-! ### Heights over a run -/

/-- No height is lowered: the vectors have the same length and every entry of the second is
at least the entry of the first. -/
def HeightsRaised (h h' : List Int) : Prop :=
  h'.length = h.length ∧ ∀ (k : Nat) (x y : Int), h[k]? = some x → h'[k]? = some y → x ≤ y

/-- The effect of one iteration of `process` or `processWithRelabel` on the heights: either
none, or a relabel of `node`, which writes `h + 1` at `node` only, where `h` is the height the
neighbour scan returned, `h + 1` is above the old height of `node`, and `h` is at most the
height of every neighbour of `node` with positive residual. -/
def RelabelStep (g : Graph) (node : Int) (st st' : LFState) : Prop :=
  st'.heights = st.heights ∨
  ∃ x nextV h, vget st.heights node = Run.done x ∧
    scanNeighbours g node st.heights st.reverse st.residuals (getNeighbourListFor g node)
      (-1, LONG_MAX) = Run.done (nextV, h) ∧
    x < h + 1 ∧ st'.heights = st.heights.set node.toNat (h + 1) ∧
    ∀ n ∈ getNeighbourListFor g node, ∀ (id r hn : Int),
      residualEdgeId g st.reverse node n = Run.done id → vget st.residuals id = Run.done r →
      0 < r → vget st.heights n = Run.done hn → h ≤ hn

/-- The state of `LFFlow` on scenario A after the builder and the initial preflow. -/
def scenarioAInit : LFState :=
  { heights := [3, 0, 0], excess := [-7, 7, 0], capacities := [7, 3, 7, 3],
    reverse := [2, 3, 0, 1], residuals := [0, 3, 7, 3], wave := [0, 0, 0],
    activeNodes := [1], isActive := [false, true, false], currentWave := 0,
    itersSinceGlobalRelabel := 0 }

/-- The state `scenarioAInit` after the first iteration of `process(a)`, a relabel of `a`. -/
def scenarioARelabelled : LFState :=
  { heights := [3, 1, 0], excess := [-7, 7, 0], capacities := [7, 3, 7, 3],
    reverse := [2, 3, 0, 1], residuals := [0, 3, 7, 3], wave := [0, 0, 0],
    activeNodes := [1], isActive := [false, true, false], currentWave := 0,
    itersSinceGlobalRelabel := 0 }

/-- The state `scenarioARelabelled` after the second iteration of `process(a)`, a push of `3`
units to `t`. -/
def scenarioAPushed : LFState :=
  { heights := [3, 1, 0], excess := [-7, 4, 3], capacities := [7, 3, 7, 3],
    reverse := [2, 3, 0, 1], residuals := [0, 0, 7, 6], wave := [0, 0, 0],
    activeNodes := [1], isActive := [false, true, false], currentWave := 0,
    itersSinceGlobalRelabel := 0 }

/-! ### The active queue and its flags -/

/-- The bookkeeping invariant of the active set: the queue names no node twice, names
non-negative ids only, there is one flag per node, and the flag of a node is set exactly when
the node is in the queue. -/
def Bookkeeping (g : Graph) (st : LFState) : Prop :=
  st.activeNodes.Nodup ∧ (∀ v ∈ st.activeNodes, 0 ≤ v) ∧ st.isActive.length = g.NV ∧
    ∀ k : Nat, st.isActive[k]? = some true ↔ ((k : Int) ∈ st.activeNodes ∧ k < g.NV)

/-! ### Capacities written by the residual network builder -/

/-- The capacity invariant of `fillReverseAndCapacityVectors`: an original edge that is not
yet paired, or that lacks an original antiparallel edge, has its own weight as capacity; an
original edge paired with its original antiparallel edge has the sum of both weights, as a
`long` computes it; a synthesized id has the weight of the original edge it reverses. -/
structure CapInv (g : Graph) (st : FillState) : Prop where
  orig : ∀ (i : Nat) (e : Edge) (r c : Int), g.edges[i]? = some e → st.reverse[i]? = some r →
    st.capacities[i]? = some c →
    if r = -1 ∨ lacksReverse g e = true then c = e.weight
    else ∃ e', g.edges[r.toNat]? = some e' ∧ c = wrap (e.weight + e'.weight)
  synth : ∀ j : Nat, getNE g ≤ j → (j : Int) < getNE g + st.newEdges →
    ∃ (r : Int) (e : Edge), st.reverse[j]? = some r ∧ 0 ≤ r ∧ g.edges[r.toNat]? = some e ∧
      st.capacities[j]? = some e.weight

/-- The graph with nodes `0, 1, 2` and edges `0 → 1 (4)`, `1 → 0 (6)`, `1 → 2 (3)`: one
antiparallel pair and one edge without an antiparallel edge. -/
def foldGraph : Graph :=
  { NV := 3, edges := [⟨0, 1, 4⟩, ⟨1, 0, 6⟩, ⟨1, 2, 3⟩], neighbours := [[1], [0, 2], []],
    neighbourList := [[1], [0, 2], [1]], undirectedNumEdges := 4 }

/-- The graph with nodes `s, a, t` (ids `0, 1, 2`) and edges `s → a` of weight `LONG_MAX`
and `a → s` of weight `1`, the node `t` isolated: one antiparallel pair whose weights sum to
more than `LONG_MAX`. -/
def overflowPair : Graph :=
  { NV := 3, edges := [⟨0, 1, LONG_MAX⟩, ⟨1, 0, 1⟩], neighbours := [[1], [0], []],
    neighbourList := [[1], [0], []], undirectedNumEdges := 2 }


/-! ### Excess against residual capacity across a cut -/

/-- The sum of `w k * l[k]` over the positions `k = k0, k0 + 1, ...` of the vector. -/
def wsumFrom (w : Nat → Int) : Nat → List Int → Int
  | _, [] => 0
  | k, x :: xs => w k * x + wsumFrom w (k + 1) xs

/-- The weighted sum `w 0 * l[0] + w 1 * l[1] + ...` of a vector. -/
def wsum (w : Nat → Int) (l : List Int) : Int := wsumFrom w 0 l

/-- The indicator of a set of nodes. -/
def indS (S : Nat → Bool) (k : Nat) : Int := if S k = true then 1 else 0

/-- The indicator of the edge ids of the residual network that leave the node set `S`. -/
def cutWeight (g : Graph) (reverse : List Int) (S : Nat → Bool) (e : Nat) : Int :=
  match resEnds g reverse e with
  | some (u, v) => if S u.toNat = true ∧ S v.toNat = false then 1 else 0
  | none => 0

/-- The cut invariant of the heuristic engine: for every set `S` of nodes without `s`, the
excess held inside `S` is at most the residual capacity of the edges leaving `S`. -/
def CutInv (g : Graph) (s : Int) (st : LFState) : Prop :=
  ∀ S : Nat → Bool, S s.toNat = false →
    wsum (indS S) st.excess ≤ wsum (cutWeight g st.reverse S) st.residuals

/-- The indicator of the edge ids of the residual network that run from a node of `S` named in
`visited` to `s`. -/
def markedWeight (g : Graph) (reverse : List Int) (s : Int) (visited : List Int)
    (S : Nat → Bool) (e : Nat) : Int :=
  match resEnds g reverse e with
  | some (u, v) => if v = s ∧ u ∈ visited ∧ S u.toNat = true then 1 else 0
  | none => 0

/-- The cut invariant inside the initial-preflow loop: the excess held inside a node set `S`
without `s` is at most the residual capacity of the edges that run from a visited node of `S`
back to `s`. -/
def MarkedCut (g : Graph) (s : Int) (visited : List Int) (st : LFState) : Prop :=
  ∀ S : Nat → Bool, S s.toNat = false →
    wsum (indS S) st.excess ≤ wsum (markedWeight g st.reverse s visited S) st.residuals


/-! ### The states of a run without global relabeling -/

/-- The excess side of the invariant of the run loop of `LFFlow`: the excess invariant
holds, the excess of `s` is at least `-LONG_MAX`, so that no sum on excesses wraps, `s` is a
node, and the reverse map is the one of the residual network. -/
structure ExcInv (g : Graph) (s : Int) (st : LFState) : Prop where
  inv : ExcessInv s st
  src : ∀ x : Int, st.excess[s.toNat]? = some x → -LONG_MAX ≤ x
  source : 0 ≤ s ∧ s.toNat < st.excess.length
  rnet : ResidualNet g st.reverse

/-- The invariant of a run of `LFFlow` without global relabeling that keeps the neighbour
scan of `process` safe: the reverse map is the one of the residual network, the arrays have
their lengths, the residual side and the excess side of the run-loop invariant hold (so that
no sum wraps), `s` has height `V` and every height lies in `[0, 2 V - 1]`, every
residual-positive edge that does not leave `s` is admissible, the cut invariant holds, the
active set is in order, and every node other than `t` with positive excess is in the
queue. -/
structure SafeInv (g : Graph) (s t : Int) (st : LFState) : Prop where
  net : ResidualNet g st.reverse
  lenR : st.residuals.length = g.undirectedNumEdges
  lenH : st.heights.length = g.NV
  lenE : st.excess.length = g.NV
  res : ResInv g.undirectedNumEdges st
  exc : ExcInv g s st
  src : st.heights[s.toNat]? = some (g.NV : Int)
  bound : ∀ (k : Nat) (x : Int), st.heights[k]? = some x → 0 ≤ x ∧ x ≤ 2 * (g.NV : Int) - 1
  adm : ∀ (e : Nat) (u v r hu hv : Int), u ≠ s → resEnds g st.reverse e = some (u, v) →
    st.residuals[e]? = some r → st.heights[u.toNat]? = some hu →
    st.heights[v.toNat]? = some hv → 0 < r → hu ≤ hv + 1
  cut : CutInv g s st
  book : Bookkeeping g st
  queued : ∀ (k : Nat) (x : Int), (k : Int) ≠ t → st.excess[k]? = some x → 0 < x →
    (k : Int) ∈ st.activeNodes

/-- The states in which the test `excess[node] > 0` of the loop of `process(c)` is evaluated
in a run of `LFFlow` without global relabeling: the state in which the run loop calls
`process` on the front node `c` of the queue, and every state reached from such a state by one
more iteration of the loop body of `process`. -/
inductive InProcess (inner : Nat) (g : Graph) (s t : Int) : Int → LFState → Prop where
  | enter {c : Int} {rest : List Int} {st : LFState} : AtGuard inner g s t false st →
      guard s t st = Run.done true → st.activeNodes = c :: rest → InProcess inner g s t c st
  | iter {c e : Int} {st st' : LFState} : InProcess inner g s t c st →
      vget st.excess c = Run.done e → 0 < e → (getNeighbourListFor g c).isEmpty = false →
      processBody g c t st = Run.done st' → InProcess inner g s t c st'

/-- The state after `n` more rounds of the run loop of `LFFlow` from the state `st`, each
round entered with the guard holding; a fault when the guard fails before. -/
def LFRounds (inner : Nat) (g : Graph) (s t : Int) (globalRelabeling : Bool) :
    Nat → LFState → Run LFState
  | 0, st => Run.done st
  | n + 1, st => do
    let b ← guard s t st
    if b then
      let st1 ← LFStep inner g s t globalRelabeling st
      LFRounds inner g s t globalRelabeling n st1
    else Run.fault

/-- The largest weight `w` with `2 * w ≤ LONG_MAX`. -/
def HALF_MAX : Int := 4611686018427387903

/-- The graph with nodes `s, t, b, c` (ids `0 .. 3`) and edges `s → t`, `s → b`, `s → c`,
`b → c` of weight `HALF_MAX` and the antiparallel pair `t → c`, `c → t` of weight `1` each;
`getNeighbours` lists out-neighbours, the undirected lists hold the neighbours in either
direction. Every pair of end points carries at most `HALF_MAX`, and the three edges leaving
`s` sum to more than `LONG_MAX`. -/
def overflowSource : Graph :=
  { NV := 4,
    edges := [⟨0, 1, HALF_MAX⟩, ⟨0, 2, HALF_MAX⟩, ⟨0, 3, HALF_MAX⟩, ⟨1, 3, 1⟩,
      ⟨2, 3, HALF_MAX⟩, ⟨3, 1, 1⟩],
    neighbours := [[1, 2, 3], [3], [3], [1]],
    neighbourList := [[1, 2, 3], [0, 3], [0, 3], [0, 1, 2]], undirectedNumEdges := 10 }

/-- The state of `LFFlow(overflowSource, 0, 1, false)` after four rounds of the run loop: the
queue is empty. -/
def overflowSourceStuck : LFState :=
  { heights := [4, 5, 1, 0],
    excess := [LONG_MIN, 0, 0, LONG_MIN],
    capacities := [HALF_MAX, HALF_MAX, HALF_MAX, 2, HALF_MAX, 2, HALF_MAX, HALF_MAX, HALF_MAX,
      HALF_MAX],
    reverse := [6, 7, 8, 5, 9, 3, 0, 1, 2, 4],
    residuals := [4611686018427387901, 0, 0, 0, 0, 4, 2, HALF_MAX, HALF_MAX,
      9223372036854775806],
    wave := [0, 0, 0, 0], activeNodes := [], isActive := [false, false, false, false],
    currentWave := 0, itersSinceGlobalRelabel := 4 }

/-! ## Outcomes and vectors: basic facts -/

theorem Run.bind_eq_done {α β : Type} {x : Run α} {f : α → Run β} {b : β} :
    (x >>= f) = Run.done b ↔ ∃ a, x = Run.done a ∧ f a = Run.done b := by
  cases x with
  | done a => exact ⟨fun h => ⟨a, rfl, h⟩, fun ⟨a', ha, h⟩ => by cases ha; exact h⟩
  | fault => exact ⟨fun h => (by cases h), fun ⟨a', ha, _⟩ => (by cases ha)⟩
  | timeout => exact ⟨fun h => (by cases h), fun ⟨a', ha, _⟩ => (by cases ha)⟩

@[simp] theorem Run.done_bind {α β : Type} (a : α) (f : α → Run β) :
    (Run.done a >>= f) = f a := rfl

theorem vget_eq_done {α : Type} {v : List α} {i : Int} {x : α} :
    vget v i = Run.done x ↔ 0 ≤ i ∧ v[i.toNat]? = some x := by
  unfold vget
  by_cases hi : i < 0
  · simp [hi]
  · simp only [hi, if_false, List.get?_eq_getElem?]
    cases h : v[i.toNat]? with
    | none => simp
    | some y => simp; omega

theorem vset_eq_done {α : Type} {v w : List α} {i : Int} {x : α} :
    vset v i x = Run.done w ↔ 0 ≤ i ∧ i.toNat < v.length ∧ w = v.set i.toNat x := by
  unfold vset
  by_cases hi : i < 0
  · simp [hi]
  · by_cases hl : i.toNat < v.length
    · simp [hi, hl]; constructor
      · intro h; exact ⟨by omega, h.symm⟩
      · intro h; exact h.2.symm
    · simp [hi, hl]

theorem nonneg_set {v : List Int} {x : Int} (i : Nat) (hv : Nonneg v) (hx : 0 ≤ x) :
    Nonneg (v.set i x) := by
  intro y hy
  rcases List.mem_or_eq_of_mem_set hy with h | h
  · exact hv y h
  · rw [h]; exact hx

theorem nonneg_get {v : List Int} {x : Int} {i : Nat} (hv : Nonneg v) (h : v[i]? = some x) :
    0 ≤ x :=
  hv x (List.mem_iff_getElem?.2 ⟨i, h⟩)

theorem nonneg_replicate (n : Nat) : Nonneg (List.replicate n 0) := by
  intro x hx
  rw [(List.mem_replicate.1 hx).2]

/-! ## Classic engine: feasibility -/

theorem flowFeasible_set {g : Graph} {flows : List Int} {i : Nat} {x w : Int}
    (h : FlowFeasible g flows) (hw : (getWeights g)[i]? = some w) (h0 : 0 ≤ x) (h1 : x ≤ w) :
    FlowFeasible g (flows.set i x) := by
  refine ⟨by rw [List.length_set]; exact h.1, ?_⟩
  intro j f w' hf hw'
  rw [List.getElem?_set] at hf
  by_cases hij : i = j
  · subst hij
    rw [hw] at hw'
    cases hw'
    by_cases hl : i < flows.length
    · simp [hl] at hf; subst hf; exact ⟨h0, h1⟩
    · simp [hl] at hf
  · simp [hij] at hf
    exact h.2 j f w' hf hw'

theorem flowFeasible_zero (g : Graph) (hw : WeightsNonneg g) :
    FlowFeasible g (List.replicate g.edges.length 0) := by
  refine ⟨List.length_replicate _ _, ?_⟩
  intro i f w hf hw'
  rw [List.getElem?_replicate] at hf
  by_cases hi : i < g.edges.length
  · simp [hi] at hf; subst hf
    refine ⟨le_refl _, ?_⟩
    have : w ∈ getWeights g := List.mem_iff_getElem?.2 ⟨i, hw'⟩
    unfold getWeights at this
    obtain ⟨e, he, rfl⟩ := List.mem_map.1 this
    exact hw e he
  · simp [hi] at hf

theorem wrap_eq {x : Int} (h1 : LONG_MIN ≤ x) (h2 : x ≤ LONG_MAX) : wrap x = x := by
  unfold wrap
  unfold LONG_MIN at h1
  unfold LONG_MAX at h2
  omega

theorem wrap_range (x : Int) : LONG_MIN ≤ wrap x ∧ wrap x ≤ LONG_MAX := by
  unfold wrap LONG_MIN LONG_MAX
  omega

theorem wrap_nonneg {x : Int} (h1 : 0 ≤ x) (h2 : x ≤ LONG_MAX) : wrap x = x :=
  wrap_eq (by unfold LONG_MIN; omega) h2

theorem LONG_MAX_pos : 0 < LONG_MAX := by unfold LONG_MAX; omega

theorem wrap_eq_of_abs {x : Int} (h1 : -LONG_MAX ≤ x) (h2 : x ≤ LONG_MAX) : wrap x = x :=
  wrap_eq (by unfold LONG_MIN; unfold LONG_MAX at h1; omega) h2

theorem wrap_add_exact {a b : Int} (ha : -LONG_MAX ≤ a) (hb : 0 ≤ b) (hab : 0 ≤ -(a + b)) :
    wrap (a + b) = a + b :=
  wrap_eq_of_abs (by omega) (by have := LONG_MAX_pos; omega)

theorem le_sum_of_nonneg : ∀ (v : List Int) (i : Nat) (x : Int), Nonneg v → v[i]? = some x →
    x ≤ v.sum := by
  intro v
  induction v with
  | nil => intro i x _ h; simp at h
  | cons a v ih =>
    intro i x hv h
    have ha : 0 ≤ a := hv a (List.mem_cons_self _ _)
    have hv' : Nonneg v := fun y hy => hv y (List.mem_cons_of_mem _ hy)
    have hs : 0 ≤ v.sum := List.sum_nonneg hv'
    rw [List.sum_cons]
    cases i with
    | zero => simp at h; omega
    | succ i =>
      simp at h
      have := ih i x hv' h
      omega

theorem sum_set_of_get : ∀ (v : List Int) (i : Nat) (x y : Int), v[i]? = some y →
    (v.set i x).sum = v.sum - y + x := by
  intro v
  induction v with
  | nil => intro i x y h; simp at h
  | cons a v ih =>
    intro i x y h
    cases i with
    | zero =>
      simp at h; subst h
      simp only [List.set, List.sum_cons]; ring
    | succ i =>
      simp at h
      simp only [List.set, List.sum_cons]
      rw [ih i x y h]; ring

theorem weight_mem {g : Graph} {id w : Int} (h : getWeightFromId g id = Run.done w) :
    ∃ e ∈ g.edges, e.weight = w := by
  unfold getWeightFromId at h
  obtain ⟨_, h⟩ := vget_eq_done.1 h
  have : w ∈ getWeights g := List.mem_iff_getElem?.2 ⟨_, h⟩
  unfold getWeights at this
  obtain ⟨e, he, rfl⟩ := List.mem_map.1 this
  exact ⟨e, he, rfl⟩

theorem weightOf_eq {g : Graph} {u v w : Int}
    (h : getWeightFromId g (getIdFromSrcDst g u v) = Run.done w) : weightOf g u v = w := by
  unfold weightOf
  rw [h]


/-! ## Classic engine: conservation -/

theorem findEdge_spec : ∀ (es : List Edge) (u v k r : Int), findEdge es u v k = r → r ≠ -1 →
    0 ≤ k → k ≤ r ∧ ∃ e, es[(r - k).toNat]? = some e ∧ e.src = u ∧ e.dst = v := by
  intro es
  induction es with
  | nil => intro u v k r h hr _; simp [findEdge] at h; omega
  | cons e es ih =>
    intro u v k r h hr hk
    simp only [findEdge] at h
    split at h
    · rename_i he
      subst h
      exact ⟨le_refl _, e, by simp, he.1, he.2⟩
    · obtain ⟨h1, e', he', h2⟩ := ih u v (k + 1) r h hr (by omega)
      refine ⟨by omega, e', ?_, h2⟩
      have : (r - k).toNat = (r - (k + 1)).toNat + 1 := by omega
      rw [this]
      simpa using he'

theorem getId_spec {g : Graph} {u v id : Int} (h : getIdFromSrcDst g u v = id) (hid : 0 ≤ id) :
    ∃ e, g.edges[id.toNat]? = some e ∧ e.src = u ∧ e.dst = v := by
  obtain ⟨_, e, he, h2⟩ := findEdge_spec g.edges u v 0 id h (by omega) (le_refl _)
  exact ⟨e, by simpa using he, h2⟩

theorem inflow_set : ∀ (es : List Edge) (fs : List Int) (i : Nat) (e : Edge) (f x v : Int),
    es[i]? = some e → fs[i]? = some f →
    inflow es (fs.set i x) v = inflow es fs v + (if e.dst = v then x - f else 0) := by
  intro es
  induction es with
  | nil => intro fs i e f x v he; simp at he
  | cons e0 es ih =>
    intro fs i e f x v he hf
    cases fs with
    | nil => simp at hf
    | cons f0 fs =>
      cases i with
      | zero =>
        simp at he hf
        subst he; subst hf
        simp only [List.set, inflow]
        split_ifs <;> ring
      | succ i =>
        simp at he hf
        simp only [List.set, inflow]
        rw [ih fs i e f x v he hf]
        ring

theorem outflow_set : ∀ (es : List Edge) (fs : List Int) (i : Nat) (e : Edge) (f x v : Int),
    es[i]? = some e → fs[i]? = some f →
    outflow es (fs.set i x) v = outflow es fs v + (if e.src = v then x - f else 0) := by
  intro es
  induction es with
  | nil => intro fs i e f x v he; simp at he
  | cons e0 es ih =>
    intro fs i e f x v he hf
    cases fs with
    | nil => simp at hf
    | cons f0 fs =>
      cases i with
      | zero =>
        simp at he hf
        subst he; subst hf
        simp only [List.set, outflow]
        split_ifs <;> ring
      | succ i =>
        simp at he hf
        simp only [List.set, outflow]
        rw [ih fs i e f x v he hf]
        ring

theorem set_get_cases {α : Type} {v : List α} {i j : Nat} {x y : α}
    (h : (v.set i x)[j]? = some y) : (i = j ∧ y = x) ∨ (i ≠ j ∧ v[j]? = some y) := by
  rw [List.getElem?_set] at h
  by_cases hij : i = j
  · left
    by_cases hl : i < v.length
    · simp [hij, hl] at h
      simp [hij] at hl
      simp [hl] at h
      exact ⟨hij, h.symm⟩
    · simp [hij] at h
      exact ⟨hij, h.2.symm⟩
  · right
    simp [hij] at h
    exact ⟨hij, h⟩

theorem excess_push_get {ex : List Int} {c n ec en δ x : Int} {k : Nat} (hc0 : 0 ≤ c)
    (hn0 : 0 ≤ n) (hec : ex[c.toNat]? = some ec)
    (hen : (ex.set c.toNat (ec - δ))[n.toNat]? = some en)
    (hx : ((ex.set c.toNat (ec - δ)).set n.toNat (en + δ))[k]? = some x) :
    ∃ x0, ex[k]? = some x0 ∧
      x = x0 + (if n = (k : Int) then δ else 0) - (if c = (k : Int) then δ else 0) := by
  have e1 : ∀ z : Int, 0 ≤ z → (z = (k : Int) ↔ z.toNat = k) := fun z hz => by omega
  rcases set_get_cases hx with ⟨h1, rfl⟩ | ⟨h1, hx⟩
  · rcases set_get_cases hen with ⟨h2, rfl⟩ | ⟨h2, hen⟩
    · refine ⟨ec, by rw [← h1, ← h2]; exact hec, ?_⟩
      rw [if_pos ((e1 n hn0).2 h1), if_pos ((e1 c hc0).2 (h2.trans h1))]; ring
    · refine ⟨en, by rw [← h1]; exact hen, ?_⟩
      rw [if_pos ((e1 n hn0).2 h1),
        if_neg (fun h => h2 (((e1 c hc0).1 h).trans h1.symm))]; ring
  · rcases set_get_cases hx with ⟨h2, rfl⟩ | ⟨h2, hx⟩
    · refine ⟨ec, by rw [← h2]; exact hec, ?_⟩
      rw [if_neg (fun h => h1 ((e1 n hn0).1 h)), if_pos ((e1 c hc0).2 h2)]; ring
    · refine ⟨x, hx, ?_⟩
      rw [if_neg (fun h => h1 ((e1 n hn0).1 h)), if_neg (fun h => h2 ((e1 c hc0).1 h))]; ring

theorem sourceWeight_nonneg {g : Graph} (hw : WeightsNonneg g) (s : Int) :
    ∀ ns : List Int, 0 ≤ sourceWeight g s ns := by
  intro ns
  induction ns with
  | nil => exact le_refl _
  | cons m ms ihm =>
    have hm : 0 ≤ weightOf g s m := by
      unfold weightOf
      split
      · rename_i w' hw'
        obtain ⟨e, he, rfl⟩ := weight_mem hw'
        exact hw e he
      · exact le_refl _
    simp only [sourceWeight]
    omega

theorem preflow_inv (g : Graph) (hw : WeightsNonneg g) (s : Int) :
    ∀ (ns : List Int) (st st' : PFState), PFInv g st →
      st.excess.sum + sourceWeight g s ns ≤ LONG_MAX → preflow g s ns st = Run.done st' →
      PFExact g st' := by
  intro ns
  induction ns with
  | nil =>
    intro st st' hst hsum h
    simp only [preflow] at h
    cases h
    exact ⟨hst, by simpa [sourceWeight] using hsum⟩
  | cons n ns ih =>
    intro st st' hst hsum h
    simp only [preflow, Run.bind_eq_done] at h
    obtain ⟨w, hwt, flows, hfl, en, hen, excess, hex, h⟩ := h
    have hwo : weightOf g s n = w := weightOf_eq hwt
    have hw0 : 0 ≤ w := by
      obtain ⟨e, he, rfl⟩ := weight_mem hwt
      exact hw e he
    unfold getWeightFromId at hwt
    obtain ⟨hid, hwt⟩ := vget_eq_done.1 hwt
    obtain ⟨_, _, rfl⟩ := vset_eq_done.1 hfl
    obtain ⟨_, hen⟩ := vget_eq_done.1 hen
    have hen0 : 0 ≤ en := nonneg_get hst.2 hen
    have hens : en ≤ st.excess.sum := le_sum_of_nonneg _ _ _ hst.2 hen
    have hrest := sourceWeight_nonneg hw s ns
    simp only [sourceWeight, hwo] at hsum
    rw [wrap_nonneg (by omega) (by omega)] at hex
    obtain ⟨_, _, rfl⟩ := vset_eq_done.1 hex
    refine ih _ _ ⟨flowFeasible_set hst.1 hwt hw0 (le_refl _), ?_⟩ ?_ h
    · exact nonneg_set _ hst.2 (by omega)
    · show (st.excess.set n.toNat (en + w)).sum + sourceWeight g s ns ≤ LONG_MAX
      rw [sum_set_of_get _ _ _ en hen]
      omega

theorem pushLoop_inv (g : Graph) (hl : WeightsLong g) (curNode s t : Int) :
    ∀ (ns : List Int) (st st' : PFState), PFExact g st →
      pushLoop g curNode s t ns st = Run.done st' →
      PFExact g st' ∧ (Balanced g s st → Balanced g s st') := by
  intro ns
  induction ns with
  | nil => intro st st' hst h; simp only [pushLoop] at h; cases h; exact ⟨hst, id⟩
  | cons n ns ih =>
    intro st st' hst h
    simp only [pushLoop, Run.bind_eq_done] at h
    obtain ⟨dc, _, dn, _, h⟩ := h
    split at h
    · simp only [Run.bind_eq_done] at h
      obtain ⟨ec, hec, h⟩ := h
      split at h
      · cases h; exact ⟨hst, id⟩
      · rename_i hne
        simp only [Run.bind_eq_done] at h
        obtain ⟨w, hwt, f, hf, excess1, hex1, en, hen, excess2, hex2, flows, hfl, h⟩ := h
        have hwl : w ≤ LONG_MAX := by
          obtain ⟨e, he, rfl⟩ := weight_mem hwt
          exact hl e he
        unfold getWeightFromId at hwt
        obtain ⟨hid, hwt⟩ := vget_eq_done.1 hwt
        obtain ⟨_, hf⟩ := vget_eq_done.1 hf
        obtain ⟨hc0, hec⟩ := vget_eq_done.1 hec
        have hec0 : 0 ≤ ec := nonneg_get hst.1.2 hec
        have hecs : ec ≤ st.excess.sum := le_sum_of_nonneg _ _ _ hst.1.2 hec
        have hsum := hst.2
        have hfw := hst.1.1.2 _ f w hf hwt
        have e1 : wrap (w - f) = w - f := wrap_nonneg (by omega) (by omega)
        rw [e1] at hex1 hex2 hfl
        have hd0 : 0 ≤ min ec (w - f) := le_min hec0 (by omega)
        have hd1 : min ec (w - f) ≤ ec := min_le_left _ _
        have hd2 : min ec (w - f) ≤ w - f := min_le_right _ _
        rw [wrap_nonneg (by omega) (by omega)] at hex1
        obtain ⟨_, _, rfl⟩ := vset_eq_done.1 hex1
        obtain ⟨hn0, hen⟩ := vget_eq_done.1 hen
        have hex1n : Nonneg (st.excess.set curNode.toNat (ec - min ec (w - f))) :=
          nonneg_set _ hst.1.2 (by omega)
        have hen0 : 0 ≤ en := nonneg_get hex1n hen
        have hens := le_sum_of_nonneg _ _ _ hex1n hen
        rw [sum_set_of_get _ _ _ ec hec] at hens
        rw [wrap_nonneg (by omega) (by omega)] at hex2
        obtain ⟨_, _, rfl⟩ := vset_eq_done.1 hex2
        rw [wrap_nonneg (by omega) (by omega)] at hfl
        obtain ⟨_, _, rfl⟩ := vset_eq_done.1 hfl
        have hsum' : ((st.excess.set curNode.toNat (ec - min ec (w - f))).set n.toNat
            (en + min ec (w - f))).sum ≤ LONG_MAX := by
          rw [sum_set_of_get _ _ _ en hen, sum_set_of_get _ _ _ ec hec]
          omega
        obtain ⟨h1, h2⟩ := ih _ _ ⟨⟨flowFeasible_set hst.1.1 hwt (by omega) (by omega),
          nonneg_set _ hex1n (by omega)⟩, hsum'⟩ h
        refine ⟨h1, fun hb => h2 ?_⟩
        obtain ⟨e, he, hsrc, hdst⟩ := getId_spec rfl hid
        intro k x hks hx
        obtain ⟨x0, hx0, rfl⟩ := excess_push_get hc0 hn0 hec hen hx
        have key := hb k x0 hks hx0
        show _ = inflow g.edges (st.flows.set _ _) k - outflow g.edges (st.flows.set _ _) k
        rw [inflow_set _ _ _ e f _ _ he hf, outflow_set _ _ _ e f _ _ he hf, hsrc, hdst, key,
          add_sub_cancel_left]
        ring
    · exact ih _ _ hst h

theorem push_inv (g : Graph) (hl : WeightsLong g) (curNode s t : Int) (st st' : PFState)
    (hst : PFExact g st) (h : push g curNode s t st = Run.done st') :
    PFExact g st' ∧ (Balanced g s st → Balanced g s st') := by
  simp only [push, Run.bind_eq_done] at h
  obtain ⟨st1, h1, ec, _, h⟩ := h
  have hst1 := pushLoop_inv g hl curNode s t _ _ _ hst h1
  split at h
  · simp only [Run.bind_eq_done] at h
    obtain ⟨nd, _, ds, _, h⟩ := h
    cases h
    exact hst1
  · cases h; exact hst1

theorem maxFlowInit_inv (g : Graph) (hw : WeightsNonneg g) (s : Int) (hsrc : SourceFits g s)
    (bfs : List Int) (st : PFState) (h : MaxFlowInit g s bfs = Run.done st) : PFExact g st := by
  simp only [MaxFlowInit, Run.bind_eq_done] at h
  obtain ⟨st1, h1, ds, _, h⟩ := h
  cases h
  have h2 : PFExact g st1 :=
    preflow_inv g hw s _ _ _ ⟨flowFeasible_zero g hw, nonneg_replicate _⟩ (by
      show (List.replicate g.NV (0 : Int)).sum + _ ≤ LONG_MAX
      simp only [List.sum_replicate, smul_zero, zero_add]
      exact hsrc) h1
  exact h2

theorem maxFlowLoop_inv (g : Graph) (hl : WeightsLong g) (s t : Int) :
    ∀ (fuel : Nat) (st st' : PFState), PFExact g st →
      MaxFlowLoop g s t fuel st = Run.done st' → PFExact g st' := by
  intro fuel
  induction fuel with
  | zero => intro st st' _ h; simp [MaxFlowLoop] at h
  | succ fuel ih =>
    intro st st' hst h
    unfold MaxFlowLoop at h
    split at h
    · cases h; exact hst
    · simp only [Run.bind_eq_done] at h
      obtain ⟨st1, h1, h⟩ := h
      refine ih _ _ (push_inv g hl _ s t _ _ ?_ h1).1 h
      exact hst

theorem pushLoop_queued (g : Graph) (curNode s t : Int) :
    ∀ (ns : List Int) (st st' : PFState), QueuedExcept s t curNode st →
      pushLoop g curNode s t ns st = Run.done st' → QueuedExcept s t curNode st' := by
  intro ns
  induction ns with
  | nil => intro st st' hst h; simp only [pushLoop] at h; cases h; exact hst
  | cons n ns ih =>
    intro st st' hst h
    simp only [pushLoop, Run.bind_eq_done] at h
    obtain ⟨dc, _, dn, _, h⟩ := h
    split at h
    · simp only [Run.bind_eq_done] at h
      obtain ⟨ec, hec, h⟩ := h
      split at h
      · cases h; exact hst
      · simp only [Run.bind_eq_done] at h
        obtain ⟨w, hwt, f, hf, excess1, hex1, en, hen, excess2, hex2, flows, hfl, h⟩ := h
        refine ih _ _ ?_ h
        obtain ⟨hc0, hec⟩ := vget_eq_done.1 hec
        obtain ⟨_, hcl, rfl⟩ := vset_eq_done.1 hex1
        obtain ⟨hn0, hen⟩ := vget_eq_done.1 hen
        obtain ⟨_, hnl, rfl⟩ := vset_eq_done.1 hex2
        intro k x hks hkt hkc hx hpos
        simp only at hx ⊢
        rcases set_get_cases hx with ⟨h1, rfl⟩ | ⟨h1, hx⟩
        · have hnk : n = (k : Int) := by omega
          rw [if_pos ⟨by rw [hnk]; exact hks, by rw [hnk]; exact hkt⟩, hnk]
          exact List.mem_append_right _ (List.mem_singleton.2 rfl)
        · rcases set_get_cases hx with ⟨h2, rfl⟩ | ⟨h2, hx⟩
          · exact absurd (by omega) hkc
          · have := hst k x hks hkt hkc hx hpos
            split_ifs
            · exact List.mem_append_left _ this
            · exact this
    · exact ih _ _ hst h

theorem pushLoop_length (g : Graph) (curNode s t : Int) :
    ∀ (ns : List Int) (st st' : PFState),
      pushLoop g curNode s t ns st = Run.done st' → st'.excess.length = st.excess.length := by
  intro ns
  induction ns with
  | nil => intro st st' h; simp only [pushLoop] at h; cases h; rfl
  | cons n ns ih =>
    intro st st' h
    simp only [pushLoop, Run.bind_eq_done] at h
    obtain ⟨dc, _, dn, _, h⟩ := h
    split at h
    · simp only [Run.bind_eq_done] at h
      obtain ⟨ec, hec, h⟩ := h
      split at h
      · cases h; rfl
      · simp only [Run.bind_eq_done] at h
        obtain ⟨w, hwt, f, hf, excess1, hex1, en, hen, excess2, hex2, flows, hfl, h⟩ := h
        rw [ih _ _ h]
        obtain ⟨_, hcl, rfl⟩ := vset_eq_done.1 hex1
        obtain ⟨_, hnl, rfl⟩ := vset_eq_done.1 hex2
        simp
    · exact ih _ _ h

theorem push_length (g : Graph) (curNode s t : Int) (st st' : PFState)
    (h : push g curNode s t st = Run.done st') : st'.excess.length = st.excess.length := by
  simp only [push, Run.bind_eq_done] at h
  obtain ⟨st1, h1, ec, _, h⟩ := h
  have hst1 := pushLoop_length g curNode s t _ _ _ h1
  split at h
  · simp only [Run.bind_eq_done] at h
    obtain ⟨nd, _, ds, _, h⟩ := h
    cases h
    exact hst1
  · cases h; exact hst1

theorem push_queued (g : Graph) (curNode s t : Int) (st st' : PFState)
    (hst : QueuedExcept s t curNode st)
    (h : push g curNode s t st = Run.done st') : Queued s t st' := by
  simp only [push, Run.bind_eq_done] at h
  obtain ⟨st1, h1, ec, hec, h⟩ := h
  have hst1 := pushLoop_queued g curNode s t _ _ _ hst h1
  obtain ⟨hc0, hec⟩ := vget_eq_done.1 hec
  split at h
  · simp only [Run.bind_eq_done] at h
    obtain ⟨nd, _, ds, _, h⟩ := h
    cases h
    intro k x hks hkt hx hpos
    simp only at hx ⊢
    by_cases hkc : (k : Int) = curNode
    · rw [hkc]; exact List.mem_append_right _ (List.mem_singleton.2 rfl)
    · exact List.mem_append_left _ (hst1 k x hks hkt hkc hx hpos)
  · rename_i hle
    cases h
    intro k x hks hkt hx hpos
    by_cases hkc : (k : Int) = curNode
    · exfalso
      have : curNode.toNat = k := by omega
      rw [this, hx] at hec
      cases hec
      exact hle hpos
    · exact hst1 k x hks hkt hkc hx hpos

theorem preflow_preflowInv (g : Graph) (hw : WeightsNonneg g) (s : Int) :
    ∀ (ns visited : List Int) (st st' : PFState), ns.Nodup → (∀ n ∈ ns, n ∉ visited) →
      Nonneg st.excess → st.excess.sum + sourceWeight g s ns ≤ LONG_MAX →
      PreflowInv g s visited st → preflow g s ns st = Run.done st' →
      PreflowInv g s (ns.reverse ++ visited) st' := by
  intro ns
  induction ns with
  | nil => intro visited st st' _ _ _ _ hst h; simp only [preflow] at h; cases h; simpa using hst
  | cons n ns ih =>
    intro visited st st' hnd hdis hnn hsum hst h
    simp only [preflow, Run.bind_eq_done] at h
    obtain ⟨w, hwt, flows, hfl, en, hen, excess, hex, h⟩ := h
    have hnd' := List.nodup_cons.1 hnd
    have hwo : weightOf g s n = w := weightOf_eq hwt
    have hw0 : 0 ≤ w := by
      obtain ⟨e, he, rfl⟩ := weight_mem hwt
      exact hw e he
    have hrest := sourceWeight_nonneg hw s ns
    simp only [sourceWeight, hwo] at hsum
    have hen' := (vget_eq_done.1 hen).2
    have hen0 : 0 ≤ en := nonneg_get hnn hen'
    have hens : en ≤ st.excess.sum := le_sum_of_nonneg _ _ _ hnn hen'
    rw [wrap_nonneg (by omega) (by omega)] at hex
    have := ih (n :: visited) _ st' hnd'.2 (by
      intro m hm hmv
      rcases List.mem_cons.1 hmv with h1 | h1
      · exact hnd'.1 (h1 ▸ hm)
      · exact hdis m (List.mem_cons_of_mem _ hm) h1) ?_ ?_ ?_ h
    · simpa using this
    · obtain ⟨_, _, rfl⟩ := vset_eq_done.1 hex
      exact nonneg_set _ hnn (by omega)
    · obtain ⟨_, _, rfl⟩ := vset_eq_done.1 hex
      show (st.excess.set n.toNat (en + w)).sum + sourceWeight g s ns ≤ LONG_MAX
      rw [sum_set_of_get _ _ _ en hen']
      omega
    · unfold getWeightFromId at hwt
      obtain ⟨hid, hwt⟩ := vget_eq_done.1 hwt
      obtain ⟨_, hil, rfl⟩ := vset_eq_done.1 hfl
      obtain ⟨hn0, hen⟩ := vget_eq_done.1 hen
      obtain ⟨_, hnl, rfl⟩ := vset_eq_done.1 hex
      obtain ⟨e, he, hsrc, hdst⟩ := getId_spec rfl hid
      obtain ⟨hbal, hzero, hq, hlen⟩ := hst
      obtain ⟨f, hf⟩ : ∃ f, st.flows[(getIdFromSrcDst g s n).toNat]? = some f :=
        ⟨_, List.getElem?_eq_getElem hil⟩
      have hf0 : f = 0 := by
        by_contra hne
        obtain ⟨e', he', _, hd'⟩ := hzero _ f hf hne
        rw [he] at he'
        cases he'
        rw [hdst] at hd'
        exact hdis n (List.mem_cons_self _ _) hd'
      subst hf0
      refine ⟨?_, ?_, ?_, ?_⟩
      · intro k x hks hx
        simp only at hx ⊢
        rw [inflow_set _ _ _ e 0 _ _ he hf, outflow_set _ _ _ e 0 _ _ he hf, hsrc, hdst]
        have hs : ¬ s = (k : Int) := fun h => hks h.symm
        have e1 : (n = (k : Int)) ↔ n.toNat = k := by omega
        rw [if_neg hs, sub_zero, add_zero]
        rcases set_get_cases hx with ⟨h1, rfl⟩ | ⟨h1, hx⟩
        · rw [if_pos (e1.2 h1), hbal k en hks (by rw [← h1]; exact hen)]; ring
        · rw [if_neg (fun h => h1 (e1.1 h)), hbal k x hks hx]; ring
      · intro i f hf' hne
        simp only at hf'
        rcases set_get_cases hf' with ⟨h1, rfl⟩ | ⟨h1, hf'⟩
        · exact ⟨e, by rw [← h1]; exact he, hsrc, by rw [hdst]; exact List.mem_cons_self _ _⟩
        · obtain ⟨e', he', hs', hd'⟩ := hzero i f hf' hne
          exact ⟨e', he', hs', List.mem_cons_of_mem _ hd'⟩
      · intro k x hx hpos
        simp only at hx ⊢
        rcases set_get_cases hx with ⟨h1, rfl⟩ | ⟨h1, hx⟩
        · have hnk : n = (k : Int) := by omega
          rw [hnk]
          exact List.mem_append_right _ (List.mem_singleton.2 rfl)
        · exact List.mem_append_left _ (hq k x hx hpos)
      · simp only [List.length_set]; exact hlen

theorem inflow_replicate_zero : ∀ (es : List Edge) (n : Nat) (v : Int),
    inflow es (List.replicate n 0) v = 0 := by
  intro es
  induction es with
  | nil => intro n v; cases n <;> simp [inflow]
  | cons e es ih =>
    intro n v
    cases n with
    | zero => simp [inflow]
    | succ n => simp [List.replicate, inflow, ih]

theorem outflow_replicate_zero : ∀ (es : List Edge) (n : Nat) (v : Int),
    outflow es (List.replicate n 0) v = 0 := by
  intro es
  induction es with
  | nil => intro n v; cases n <;> simp [outflow]
  | cons e es ih =>
    intro n v
    cases n with
    | zero => simp [outflow]
    | succ n => simp [List.replicate, outflow, ih]

theorem maxFlowInit_conservation (g : Graph) (hw : WeightsNonneg g) (s t : Int)
    (hsrc : SourceFits g s) (bfs : List Int)
    (hnd : (getNeighbours g s).Nodup) (st : PFState) (h : MaxFlowInit g s bfs = Run.done st) :
    Balanced g s st ∧ Queued s t st ∧ st.excess.length = g.NV := by
  simp only [MaxFlowInit, Run.bind_eq_done] at h
  obtain ⟨st1, h1, ds, _, h⟩ := h
  cases h
  have h0 : PreflowInv g s []
      { flows := List.replicate g.edges.length 0, excess := List.replicate g.NV 0,
        distances := bfs, activeNodes := [] } := by
    refine ⟨?_, ?_, ?_, ?_⟩
    · intro k x _ hx
      simp only at hx ⊢
      rw [inflow_replicate_zero, outflow_replicate_zero]
      rw [List.getElem?_replicate] at hx
      split at hx
      · cases hx; rfl
      · cases hx
    · intro i f hf hne
      simp only at hf
      rw [List.getElem?_replicate] at hf
      split at hf
      · cases hf; exact absurd rfl hne
      · cases hf
    · intro k x hx hpos
      simp only at hx
      rw [List.getElem?_replicate] at hx
      split at hx
      · cases hx; omega
      · cases hx
    · simp
  obtain ⟨hb, _, hq, hl⟩ := preflow_preflowInv g hw s _ [] _ _ hnd (by simp)
    (nonneg_replicate _) (by
      show (List.replicate g.NV (0 : Int)).sum + _ ≤ LONG_MAX
      simp only [List.sum_replicate, smul_zero, zero_add]
      exact hsrc) h0 h1
  exact ⟨hb, fun k x _ _ hx hpos => hq k x hx hpos, hl⟩

theorem maxFlowLoop_conservation (g : Graph) (hl : WeightsLong g) (s t : Int) :
    ∀ (fuel : Nat) (st st' : PFState), PFExact g st →
      Balanced g s st → Queued s t st → MaxFlowLoop g s t fuel st = Run.done st' →
      Balanced g s st' ∧ Queued s t st' ∧ st'.excess.length = st.excess.length ∧
        st'.activeNodes = [] := by
  intro fuel
  induction fuel with
  | zero => intro st st' _ _ _ h; simp [MaxFlowLoop] at h
  | succ fuel ih =>
    intro st st' hex hb hq h
    unfold MaxFlowLoop at h
    split at h
    · rename_i hnil
      cases h
      exact ⟨hb, hq, rfl, hnil⟩
    · rename_i curNode rest hcons
      simp only [Run.bind_eq_done] at h
      obtain ⟨st1, h1, h⟩ := h
      obtain ⟨hex1, hb1'⟩ := push_inv g hl curNode s t _ _
        (show PFExact g { st with activeNodes := rest } from hex) h1
      have hb1 := hb1' hb
      have hq1 := push_queued g curNode s t _ _ (by
        intro k x hks hkt hkc hx hpos
        have := hq k x hks hkt hx hpos
        rw [hcons] at this
        rcases List.mem_cons.1 this with h2 | h2
        · exact absurd h2 hkc
        · exact h2) h1
      have hl1 := push_length g curNode s t _ _ h1
      obtain ⟨hb2, hq2, hl2, hn2⟩ := ih _ _ hex1 hb1 hq1 h
      exact ⟨hb2, hq2, by rw [hl2, hl1], hn2⟩

/-! ## Residual network builder: the reverse map -/

theorem findEdge_complete : ∀ (es : List Edge) (u v k : Int),
    (∃ e ∈ es, e.src = u ∧ e.dst = v) → 0 ≤ k → findEdge es u v k ≠ -1 := by
  intro es
  induction es with
  | nil => intro u v k h; simp at h
  | cons e es ih =>
    intro u v k h hk
    simp only [findEdge]
    split
    · omega
    · rename_i hne
      obtain ⟨e', he', h1⟩ := h
      rcases List.mem_cons.1 he' with rfl | hmem
      · exact absurd h1 hne
      · exact ih u v (k + 1) ⟨e', hmem, h1⟩ (by omega)

theorem findEdge_none : ∀ (es : List Edge) (u v k : Int), findEdge es u v k = -1 → 0 ≤ k →
    ∀ e ∈ es, ¬ (e.src = u ∧ e.dst = v) := by
  intro es u v k h hk e he hcon
  exact findEdge_complete es u v k ⟨e, he, hcon⟩ hk h

theorem getId_nonneg {g : Graph} {u v : Int} (h : getIdFromSrcDst g u v ≠ -1) :
    0 ≤ getIdFromSrcDst g u v :=
  (findEdge_spec g.edges u v 0 _ rfl h (le_refl _)).1

theorem getId_lt {g : Graph} {u v : Int} (h : getIdFromSrcDst g u v ≠ -1) :
    (getIdFromSrcDst g u v).toNat < g.edges.length := by
  obtain ⟨e, he, _⟩ := getId_spec (g := g) (u := u) (v := v) rfl (getId_nonneg h)
  exact (List.getElem?_eq_some_iff.1 he).1

theorem simple_idx {g : Graph} (hs : BuilderInput g) (i j : Nat) (e e' : Edge)
    (he : g.edges[i]? = some e) (he' : g.edges[j]? = some e') (h1 : e.src = e'.src)
    (h2 : e.dst = e'.dst) : i = j := by
  have hnd := List.nodup_iff_getElem?_ne_getElem?.1 hs.simple
  have hj : j < g.edges.length := (List.getElem?_eq_some_iff.1 he').1
  have hi : i < g.edges.length := (List.getElem?_eq_some_iff.1 he).1
  by_contra hij
  rcases Nat.lt_or_gt_of_ne hij with h | h
  · refine hnd i j h (by simpa using hj) ?_
    rw [List.getElem?_map, List.getElem?_map, he, he']
    simp [h1, h2]
  · refine hnd j i h (by simpa using hi) ?_
    rw [List.getElem?_map, List.getElem?_map, he, he']
    simp [h1, h2]

theorem getId_of_edge {g : Graph} (hs : BuilderInput g) {i : Nat} {e : Edge}
    (he : g.edges[i]? = some e) : getIdFromSrcDst g e.src e.dst = (i : Int) := by
  have hne : getIdFromSrcDst g e.src e.dst ≠ -1 :=
    findEdge_complete g.edges _ _ 0 ⟨e, List.mem_iff_getElem?.2 ⟨i, he⟩, rfl, rfl⟩ (le_refl _)
  have h0 := getId_nonneg hne
  obtain ⟨e', he', h1, h2⟩ := getId_spec (g := g) rfl h0
  have := simple_idx hs _ _ _ _ he' he h1 h2
  omega

theorem doneCount_le (g : Graph) : ∀ (es : List Edge) (rs : List Int),
    doneCount g es rs ≤ (es.filter (lacksReverse g)).length := by
  intro es
  induction es with
  | nil => intro rs; simp [doneCount]
  | cons e es ih =>
    intro rs
    cases rs with
    | nil => simp [doneCount]
    | cons r rs =>
      have := ih rs
      simp only [doneCount, List.filter_cons]
      by_cases hl : lacksReverse g e = true
      · simp only [hl, true_and, if_true, List.length_cons]
        split <;> omega
      · simp only [hl, false_and, if_false]
        simpa using this

theorem doneCount_lt (g : Graph) : ∀ (es : List Edge) (rs : List Int) (i : Nat) (e : Edge),
    es[i]? = some e → lacksReverse g e = true → rs[i]? = some (-1) →
    doneCount g es rs < (es.filter (lacksReverse g)).length := by
  intro es
  induction es with
  | nil => intro rs i e he; simp at he
  | cons e0 es ih =>
    intro rs i e he hl hr
    cases rs with
    | nil => simp at hr
    | cons r rs =>
      simp only [doneCount, List.filter_cons]
      cases i with
      | zero =>
        simp at he hr
        subst he; subst hr
        have := doneCount_le g es rs
        simp only [hl, if_true, List.length_cons]
        simp
        omega
      | succ i =>
        simp at he hr
        have := ih rs i e he hl hr
        by_cases hl0 : lacksReverse g e0 = true
        · simp only [hl0, true_and, if_true, List.length_cons]
          split <;> omega
        · simp only [hl0, false_and, if_false]
          simpa using this

theorem doneCount_set (g : Graph) : ∀ (es : List Edge) (rs : List Int) (i : Nat) (e : Edge)
    (x : Int), es[i]? = some e → rs[i]? = some (-1) → x ≠ -1 →
    doneCount g es (rs.set i x) = doneCount g es rs + (if lacksReverse g e = true then 1 else 0) := by
  intro es
  induction es with
  | nil => intro rs i e x he; simp at he
  | cons e0 es ih =>
    intro rs i e x he hr hx
    cases rs with
    | nil => simp at hr
    | cons r rs =>
      cases i with
      | zero =>
        simp at he hr
        subst he; subst hr
        simp only [List.set, doneCount]
        by_cases hl : lacksReverse g e0 = true
        · simp [hl, hx]; omega
        · simp [hl]
      | succ i =>
        simp at he hr
        simp only [List.set, doneCount]
        rw [ih rs i e x he hr hx]
        omega

theorem doneCount_set_ge (g : Graph) : ∀ (es : List Edge) (rs : List Int) (j : Nat) (x : Int),
    es.length ≤ j → doneCount g es (rs.set j x) = doneCount g es rs := by
  intro es
  induction es with
  | nil => intro rs j x _; cases rs <;> simp [doneCount]
  | cons e0 es ih =>
    intro rs j x hj
    cases rs with
    | nil => simp [doneCount]
    | cons r rs =>
      cases j with
      | zero => simp at hj
      | succ j =>
        simp only [List.set, doneCount]
        rw [ih rs j x (by simpa using hj)]

theorem doneCount_full (g : Graph) : ∀ (es : List Edge) (rs : List Int),
    (∀ (i : Nat) (e : Edge), es[i]? = some e → ∃ r, rs[i]? = some r ∧ r ≠ -1) →
    doneCount g es rs = (es.filter (lacksReverse g)).length := by
  intro es
  induction es with
  | nil => intro rs _; simp [doneCount]
  | cons e0 es ih =>
    intro rs h
    cases rs with
    | nil =>
      obtain ⟨r, hr, _⟩ := h 0 e0 (by simp)
      simp at hr
    | cons r rs =>
      have h0 := h 0 e0 (by simp)
      simp at h0
      have := ih rs (fun i e he => by simpa using h (i + 1) e (by simpa using he))
      simp only [doneCount, List.filter_cons]
      by_cases hl : lacksReverse g e0 = true
      · simp [hl, h0]; omega
      · simp [hl]; exact this

theorem doneCount_replicate (g : Graph) : ∀ (es : List Edge) (n : Nat),
    doneCount g es (List.replicate n (-1)) = 0 := by
  intro es
  induction es with
  | nil => intro n; cases n <;> simp [doneCount]
  | cons e0 es ih =>
    intro n
    cases n with
    | zero => simp [doneCount]
    | succ n => simp [List.replicate, doneCount, ih]


theorem vget_ok {α : Type} {v : List α} {i : Int} {x : α} (h0 : 0 ≤ i)
    (h : v[i.toNat]? = some x) : vget v i = Run.done x :=
  vget_eq_done.2 ⟨h0, h⟩

theorem vset_ok {α : Type} {v : List α} {i : Int} (x : α) (h0 : 0 ≤ i)
    (h : i.toNat < v.length) : vset v i x = Run.done (v.set i.toNat x) :=
  vset_eq_done.2 ⟨h0, h, rfl⟩

theorem get_set2_ne {α : Type} (l : List α) {a b i : Nat} (x y : α) (ha : a ≠ i) (hb : b ≠ i) :
    ((l.set a x).set b y)[i]? = l[i]? := by
  rw [List.getElem?_set_ne hb, List.getElem?_set_ne ha]

theorem lacksReverse_false {g : Graph} (hs : BuilderInput g) {b : Nat} {ea eb : Edge}
    (heb : g.edges[b]? = some eb)
    (h1 : ea.src = eb.dst) (h2 : ea.dst = eb.src) :
    lacksReverse g ea = false ∧ getIdFromSrcDst g ea.dst ea.src = (b : Int) := by
  have := getId_of_edge hs heb
  rw [← h1, ← h2] at this
  refine ⟨?_, this⟩
  unfold lacksReverse
  rw [this]
  simp

theorem fillInv_synth {g : Graph} (hs : BuilderInput g) {st : FillState} (hinv : FillInv g st)
    {a : Nat} {e : Edge} (he : g.edges[a]? = some e) (hl : lacksReverse g e = true)
    (hr : st.reverse[a]? = some (-1)) (caps : List Int)
    (hc : caps.length = g.undirectedNumEdges) :
    0 ≤ getNE g + st.newEdges ∧ (getNE g + st.newEdges).toNat < g.undirectedNumEdges ∧
    FillInv g ⟨List.set (st.reverse.set a (getNE g + st.newEdges))
      (getNE g + st.newEdges).toNat a, caps, st.newEdges + 1⟩ ∧
    FillMono st ⟨List.set (st.reverse.set a (getNE g + st.newEdges))
      (getNE g + st.newEdges).toNat a, caps, st.newEdges + 1⟩ ∧
    (List.set (st.reverse.set a (getNE g + st.newEdges))
      (getNE g + st.newEdges).toNat a)[a]? = some (getNE g + st.newEdges) := by
  obtain ⟨lenR, lenC, cnt, orig, synth, free⟩ := hinv
  have haNE : a < g.edges.length := (List.getElem?_eq_some_iff.1 he).1
  have hlt := doneCount_lt g g.edges st.reverse a e he hl hr
  have hcount := hs.count
  unfold countLacking at hcount
  generalize hk : doneCount g g.edges st.reverse = k at cnt hlt
  have hm : getNE g + st.newEdges = ((g.edges.length + k : Nat) : Int) := by
    unfold getNE; rw [cnt]; push_cast; rfl
  have hNE : getNE g = (g.edges.length : Int) := rfl
  rw [hm]
  simp only [Int.toNat_ofNat]
  generalize hmm : g.edges.length + k = m at *
  have hmU : m < g.undirectedNumEdges := by omega
  have ham : a ≠ m := by omega
  have hRm : st.reverse[m]? = some (-1) := free m (by rw [hm]) hmU
  have hne1 : ∀ (q : Nat) (y : Int), st.reverse[q]? = some y → y ≠ -1 → a ≠ q ∧ m ≠ q := by
    intro q y hq hy
    constructor
    · rintro rfl; rw [hr] at hq; cases hq; exact hy rfl
    · rintro rfl; rw [hRm] at hq; cases hq; exact hy rfl
  refine ⟨by omega, hmU, ⟨?_, hc, ?_, ?_, ?_, ?_⟩, ?_, ?_⟩
  · simp [lenR]
  · show st.newEdges + 1 = _
    rw [doneCount_set_ge g g.edges _ m _ (by omega),
      doneCount_set g g.edges _ a e _ he hr (by omega), hl, hk, cnt]
    simp
  · intro i e' r hi hri hrne
    have hiNE : i < g.edges.length := (List.getElem?_eq_some_iff.1 hi).1
    simp only at hri ⊢
    rcases set_get_cases hri with ⟨h1, _⟩ | ⟨h1, hri⟩
    · omega
    · rcases set_get_cases hri with ⟨h2, rfl⟩ | ⟨h2, hri⟩
      · subst h2
        rw [he] at hi; cases hi
        refine ⟨by omega, ?_, ?_⟩
        · simp only [Int.toNat_ofNat]
          rw [List.getElem?_set_self (by simp [lenR]; exact hmU)]
        · rw [if_pos hl, hNE, cnt]; omega
      · obtain ⟨h3, h4, h5⟩ := orig i e' r hi hri hrne
        obtain ⟨h6, h7⟩ := hne1 _ _ h4 (by omega)
        refine ⟨h3, ?_, ?_⟩
        · rw [get_set2_ne _ _ _ h6 h7]; exact h4
        · split
          · rename_i hl'
            rw [if_pos hl'] at h5
            exact ⟨h5.1, by omega⟩
          · rename_i hl'
            rw [if_neg hl'] at h5
            exact h5
  · intro j hj1 hj2
    simp only at hj2 ⊢
    rw [hNE] at hj1
    by_cases hjm : j = m
    · subst hjm
      refine ⟨a, ?_, by omega, by rw [hNE]; omega, ?_⟩
      · rw [List.getElem?_set_self (by simp [lenR]; exact hmU)]
      · simp only [Int.toNat_ofNat]
        rw [List.getElem?_set_ne (Ne.symm ham), List.getElem?_set_self (by rw [lenR]; omega)]
    · obtain ⟨r0, h1, h2, h3, h4⟩ := synth j (by rw [hNE]; exact hj1) (by rw [hm]; omega)
      have hj0 : (j : Int) ≠ -1 := by omega
      obtain ⟨h6, h7⟩ := hne1 _ _ h4 hj0
      refine ⟨r0, ?_, h2, h3, ?_⟩
      · rw [get_set2_ne _ _ _ (by omega) (Ne.symm hjm)]; exact h1
      · rw [get_set2_ne _ _ _ h6 h7]; exact h4
  · intro j hj1 hj2
    simp only at hj1 ⊢
    rw [get_set2_ne _ _ _ (by omega) (by omega)]
    exact free j (by rw [hm]; omega) hj2
  · intro i x hi hx
    obtain ⟨h6, h7⟩ := hne1 _ _ hi hx
    show ((st.reverse.set a _).set m _)[i]? = some x
    rw [get_set2_ne _ _ _ h6 h7]; exact hi
  · rw [List.getElem?_set_ne (Ne.symm ham), List.getElem?_set_self (by rw [lenR]; omega)]

theorem fillInv_fold {g : Graph} (hs : BuilderInput g) {st : FillState} (hinv : FillInv g st)
    {a b : Nat} {ea eb : Edge} (hea : g.edges[a]? = some ea) (heb : g.edges[b]? = some eb)
    (h1 : ea.src = eb.dst) (h2 : ea.dst = eb.src)
    (hra : st.reverse[a]? = some (-1)) (hrb : st.reverse[b]? = some (-1)) (caps : List Int)
    (hc : caps.length = g.undirectedNumEdges) :
    FillInv g ⟨List.set (st.reverse.set a b) b a, caps, st.newEdges⟩ ∧
    FillMono st ⟨List.set (st.reverse.set a b) b a, caps, st.newEdges⟩ ∧
    (List.set (st.reverse.set a b) b a)[a]? = some (b : Int) ∧
    (List.set (st.reverse.set a b) b a)[b]? = some (a : Int) := by
  obtain ⟨lenR, lenC, cnt, orig, synth, free⟩ := hinv
  have haNE : a < g.edges.length := (List.getElem?_eq_some_iff.1 hea).1
  have hbNE : b < g.edges.length := (List.getElem?_eq_some_iff.1 heb).1
  have haU : a < st.reverse.length := by
    by_contra hcon
    rw [List.getElem?_eq_none (by omega)] at hra
    cases hra
  have hbU : b < st.reverse.length := by
    by_contra hcon
    rw [List.getElem?_eq_none (by omega)] at hrb
    cases hrb
  have hab : a ≠ b := by
    rintro rfl
    rw [hea] at heb; cases heb
    exact hs.noLoop ea (List.mem_iff_getElem?.2 ⟨a, hea⟩) h1
  obtain ⟨hla, hida⟩ := lacksReverse_false hs heb h1 h2
  obtain ⟨hlb, hidb⟩ := lacksReverse_false hs hea h2.symm h1.symm
  have hNE : getNE g = (g.edges.length : Int) := rfl
  have hne1 : ∀ (q : Nat) (y : Int), st.reverse[q]? = some y → y ≠ -1 → a ≠ q ∧ b ≠ q := by
    intro q y hq hy
    constructor
    · rintro rfl; rw [hra] at hq; cases hq; exact hy rfl
    · rintro rfl; rw [hrb] at hq; cases hq; exact hy rfl
  refine ⟨⟨?_, hc, ?_, ?_, ?_, ?_⟩, ?_, ?_, ?_⟩
  · simp [lenR]
  · show st.newEdges = _
    rw [doneCount_set g g.edges _ b eb _ heb
        (by rw [List.getElem?_set_ne hab]; exact hrb) (by omega),
      doneCount_set g g.edges _ a ea _ hea hra (by omega), hla, hlb, cnt]
    simp
  · intro i e' r hi hri hrne
    simp only at hri ⊢
    rcases set_get_cases hri with ⟨h3, rfl⟩ | ⟨h3, hri⟩
    · subst h3
      rw [heb] at hi; cases hi
      refine ⟨by omega, ?_, ?_⟩
      · simp only [Int.toNat_ofNat]
        rw [List.getElem?_set_ne (Ne.symm hab), List.getElem?_set_self haU]
      · rw [hlb, hidb]; simp
    · rcases set_get_cases hri with ⟨h4, rfl⟩ | ⟨h4, hri⟩
      · subst h4
        rw [hea] at hi; cases hi
        refine ⟨by omega, ?_, ?_⟩
        · simp only [Int.toNat_ofNat]
          rw [List.getElem?_set_self (by simp; exact hbU)]
        · rw [hla, hida]; simp
      · obtain ⟨h5, h6, h7⟩ := orig i e' r hi hri hrne
        obtain ⟨h8, h9⟩ := hne1 _ _ h6 (by omega)
        exact ⟨h5, by rw [get_set2_ne _ _ _ h8 h9]; exact h6, h7⟩
  · intro j hj1 hj2
    simp only at hj2 ⊢
    rw [hNE] at hj1
    obtain ⟨r0, h3, h4, h5, h6⟩ := synth j (by rw [hNE]; exact hj1) hj2
    have hj0 : (j : Int) ≠ -1 := by omega
    obtain ⟨h8, h9⟩ := hne1 _ _ h6 hj0
    refine ⟨r0, ?_, h4, h5, ?_⟩
    · rw [get_set2_ne _ _ _ (by omega) (by omega)]; exact h3
    · rw [get_set2_ne _ _ _ h8 h9]; exact h6
  · intro j hj1 hj2
    simp only at hj1 ⊢
    have : (g.edges.length : Int) ≤ j := by
      have := cnt ▸ hj1
      rw [hNE] at this
      omega
    rw [get_set2_ne _ _ _ (by omega) (by omega)]
    exact free j hj1 hj2
  · intro i x hi hx
    obtain ⟨h6, h7⟩ := hne1 _ _ hi hx
    show ((st.reverse.set a _).set b _)[i]? = some x
    rw [get_set2_ne _ _ _ h6 h7]; exact hi
  · rw [List.getElem?_set_ne (Ne.symm hab), List.getElem?_set_self haU]
  · rw [List.getElem?_set_self (by simp; exact hbU)]

theorem getId_edge {g : Graph} {u v : Int} (h : getIdFromSrcDst g u v ≠ -1) :
    ∃ (a : Nat) (e : Edge), getIdFromSrcDst g u v = (a : Int) ∧ g.edges[a]? = some e ∧
      e.src = u ∧ e.dst = v ∧ a < g.edges.length := by
  have h0 := getId_nonneg h
  obtain ⟨e, he, h1, h2⟩ := getId_spec (g := g) (u := u) (v := v) rfl h0
  exact ⟨(getIdFromSrcDst g u v).toNat, e, by omega, he, h1, h2, getId_lt h⟩

theorem fillInv_mono_refl (st : FillState) : FillMono st st := fun _ _ h _ => h

theorem fillStep_lacking {g : Graph} (hs : BuilderInput g) {st : FillState} (hinv : FillInv g st)
    {u v : Int} (he : getIdFromSrcDst g u v ≠ -1) (hr : getIdFromSrcDst g v u = -1) :
    ∃ (a : Nat) (x : Int), getIdFromSrcDst g u v = (a : Int) ∧ st.reverse[a]? = some x ∧
      a < g.edges.length ∧ (getWeights g)[a]? ≠ none ∧
      (x = -1 → ∀ caps : List Int, caps.length = g.undirectedNumEdges →
        0 ≤ getNE g + st.newEdges ∧ (getNE g + st.newEdges).toNat < g.undirectedNumEdges ∧
        FillInv g ⟨List.set (st.reverse.set a (getNE g + st.newEdges))
          (getNE g + st.newEdges).toNat a, caps, st.newEdges + 1⟩ ∧
        FillMono st ⟨List.set (st.reverse.set a (getNE g + st.newEdges))
          (getNE g + st.newEdges).toNat a, caps, st.newEdges + 1⟩ ∧
        (List.set (st.reverse.set a (getNE g + st.newEdges))
          (getNE g + st.newEdges).toNat a)[a]? = some (getNE g + st.newEdges)) := by
  obtain ⟨a, e, ha, hea, h1, h2, haNE⟩ := getId_edge he
  have hU : a < st.reverse.length := by
    rw [hinv.lenR, hs.count]; omega
  refine ⟨a, st.reverse[a], ha, List.getElem?_eq_getElem hU, haNE, ?_, ?_⟩
  · unfold getWeights
    rw [List.getElem?_map, hea]; simp
  · intro hx caps hc
    have hl : lacksReverse g e = true := by
      unfold lacksReverse
      rw [h1, h2, hr]; simp
    exact fillInv_synth hs hinv hea hl
      (by rw [List.getElem?_eq_getElem hU, hx]) caps hc

theorem fillStep_ok {g : Graph} (hs : BuilderInput g) {st : FillState} (hinv : FillInv g st)
    {i n : Int} (hadj : Adjacent g i n) :
    ∃ st', fillStep g i n st = Run.done st' ∧ FillInv g st' ∧ FillMono st st' ∧
      FillAssigned g i n st' := by
  by_cases he : getIdFromSrcDst g i n = -1
  · by_cases hr : getIdFromSrcDst g n i = -1
    · exfalso
      obtain ⟨e, hmem, h | h⟩ := hadj
      · exact findEdge_complete g.edges i n 0 ⟨e, hmem, h⟩ (le_refl _) he
      · exact findEdge_complete g.edges n i 0 ⟨e, hmem, h⟩ (le_refl _) hr
    · obtain ⟨a, x, ha, hx, haNE, hw, hsyn⟩ := fillStep_lacking hs hinv hr he
      obtain ⟨w, hw⟩ := Option.ne_none_iff_exists'.1 hw
      have hseen : vget st.reverse (max (-1) (a : Int)) = Run.done x :=
        vget_ok (by omega) (by rw [show (max (-1) (a : Int)).toNat = a from by omega]; exact hx)
      by_cases hx1 : x = -1
      · obtain ⟨h1, h2, h3, h4, h5⟩ := hsyn hx1 (st.capacities.set
          (getNE g + st.newEdges).toNat w) (by rw [List.length_set]; exact hinv.lenC)
        refine ⟨_, ?_, h3, h4, ?_⟩
        · simp only [fillStep, he, ha, hseen, Run.done_bind, hx1]
          simp only [ne_eq, not_true_eq_false, if_false, if_true]
          rw [vset_ok _ (by omega) (by simp; rw [hinv.lenR, hs.count]; omega)]
          simp only [Run.done_bind, Int.toNat_ofNat]
          rw [vset_ok _ h1 (by simp; rw [hinv.lenR]; exact h2)]
          simp only [Run.done_bind]
          rw [show getWeightFromId g (a : Int) = Run.done w from vget_ok (by omega) (by simpa using hw)]
          simp only [Run.done_bind]
          rw [vset_ok _ h1 (by rw [hinv.lenC]; exact h2)]
          simp only [Run.done_bind]
        · intro idx hidx
          rcases hidx with h | h
          · rw [he] at h; omega
          · rw [ha] at h
            have : a = idx := by omega
            subst this
            exact ⟨_, h5, by omega⟩
      · refine ⟨st, ?_, hinv, fillInv_mono_refl st, ?_⟩
        · simp only [fillStep, he, ha, hseen, Run.done_bind]
          simp [hx1]
        · intro idx hidx
          rcases hidx with h | h
          · rw [he] at h; omega
          · rw [ha] at h
            have : a = idx := by omega
            subst this
            exact ⟨x, hx, hx1⟩
  · by_cases hr : getIdFromSrcDst g n i = -1
    · obtain ⟨a, x, ha, hx, haNE, hw, hsyn⟩ := fillStep_lacking hs hinv he hr
      obtain ⟨w, hw⟩ := Option.ne_none_iff_exists'.1 hw
      have ha1 : ¬ ((a : Int) = -1) := by omega
      have hseen : vget st.reverse (max (a : Int) (-1)) = Run.done x :=
        vget_ok (by omega) (by rw [show (max (a : Int) (-1)).toNat = a from by omega]; exact hx)
      by_cases hx1 : x = -1
      · obtain ⟨h1, h2, h3, h4, h5⟩ := hsyn hx1 (st.capacities.set
          (getNE g + st.newEdges).toNat w) (by rw [List.length_set]; exact hinv.lenC)
        refine ⟨_, ?_, h3, h4, ?_⟩
        · simp only [fillStep, hr, ha, hseen, Run.done_bind, hx1]
          simp only [ne_eq, not_true_eq_false, if_false, if_true, ha1]
          rw [vset_ok _ (by omega) (by simp; rw [hinv.lenR, hs.count]; omega)]
          simp only [Run.done_bind, Int.toNat_ofNat]
          rw [vset_ok _ h1 (by simp; rw [hinv.lenR]; exact h2)]
          simp only [Run.done_bind]
          rw [show getWeightFromId g (a : Int) = Run.done w from vget_ok (by omega) (by simpa using hw)]
          simp only [Run.done_bind]
          rw [vset_ok _ h1 (by rw [hinv.lenC]; exact h2)]
          simp only [Run.done_bind]
        · intro idx hidx
          rcases hidx with h | h
          · rw [ha] at h
            have : a = idx := by omega
            subst this
            exact ⟨_, h5, by omega⟩
          · rw [hr] at h; omega
      · refine ⟨st, ?_, hinv, fillInv_mono_refl st, ?_⟩
        · simp only [fillStep, hr, ha, hseen, Run.done_bind]
          simp [hx1]
        · intro idx hidx
          rcases hidx with h | h
          · rw [ha] at h
            have : a = idx := by omega
            subst this
            exact ⟨x, hx, hx1⟩
          · rw [hr] at h; omega
    · obtain ⟨a, ea, ha, hea, ha1, ha2, haNE⟩ := getId_edge he
      obtain ⟨b, eb, hb, heb, hb1, hb2, hbNE⟩ := getId_edge hr
      have hUa : a < st.reverse.length := by rw [hinv.lenR, hs.count]; omega
      have hUb : b < st.reverse.length := by rw [hinv.lenR, hs.count]; omega
      have hsrc : ea.src = eb.dst := by rw [ha1, hb2]
      have hdst : ea.dst = eb.src := by rw [ha2, hb1]
      obtain ⟨hla, hida⟩ := lacksReverse_false hs heb hsrc hdst
      obtain ⟨hlb, hidb⟩ := lacksReverse_false hs hea hdst.symm hsrc.symm
      have hab : a ≠ b := by
        rintro rfl
        rw [hea] at heb; cases heb
        exact hs.noLoop ea (List.mem_iff_getElem?.2 ⟨a, hea⟩) hsrc
      obtain ⟨xa, hga⟩ : ∃ xa, st.reverse[a]? = some xa := ⟨_, List.getElem?_eq_getElem hUa⟩
      obtain ⟨xb, hgb⟩ : ∃ xb, st.reverse[b]? = some xb := ⟨_, List.getElem?_eq_getElem hUb⟩
      -- the two entries are assigned together
      have hboth : xa ≠ -1 ↔ xb ≠ -1 := by
        constructor
        · intro h
          obtain ⟨_, h2, h3⟩ := hinv.orig a ea _ hea hga h
          rw [hla] at h3
          simp only [Bool.false_eq_true, if_false] at h3
          rw [h3, hida] at h2
          simp only [Int.toNat_ofNat] at h2
          rw [hgb] at h2
          have h4 := Option.some.inj h2
          omega
        · intro h
          obtain ⟨_, h2, h3⟩ := hinv.orig b eb _ heb hgb h
          rw [hlb] at h3
          simp only [Bool.false_eq_true, if_false] at h3
          rw [h3, hidb] at h2
          simp only [Int.toNat_ofNat] at h2
          rw [hga] at h2
          have h4 := Option.some.inj h2
          omega
      obtain ⟨wa, hwa⟩ : ∃ w, (getWeights g)[a]? = some w := by
        unfold getWeights; rw [List.getElem?_map, hea]; exact ⟨_, rfl⟩
      obtain ⟨wb, hwb⟩ : ∃ w, (getWeights g)[b]? = some w := by
        unfold getWeights; rw [List.getElem?_map, heb]; exact ⟨_, rfl⟩
      have hCa : a < st.capacities.length := by rw [hinv.lenC, ← hinv.lenR]; exact hUa
      have hCb : b < st.capacities.length := by rw [hinv.lenC, ← hinv.lenR]; exact hUb
      obtain ⟨ca, hca⟩ : ∃ ca, st.capacities[a]? = some ca := ⟨_, List.getElem?_eq_getElem hCa⟩
      obtain ⟨cb, hcb⟩ : ∃ cb, (st.capacities.set a (wrap (ca + wb)))[b]? = some cb :=
        ⟨_, List.getElem?_eq_getElem (by rw [List.length_set]; exact hCb)⟩
      have ha0 : ¬ ((a : Int) = -1) := by omega
      have hb0 : ¬ ((b : Int) = -1) := by omega
      have hseen : ∃ x, vget st.reverse (max (a : Int) (b : Int)) = Run.done x ∧
          (x ≠ -1 ↔ xa ≠ -1) := by
        rcases le_total (a : Int) (b : Int) with h | h
        · rw [max_eq_right h]
          exact ⟨_, vget_ok (by omega) (by simpa using hgb), hboth.symm⟩
        · rw [max_eq_left h]
          exact ⟨_, vget_ok (by omega) (by simpa using hga), Iff.rfl⟩
      obtain ⟨x, hseen, hxiff⟩ := hseen
      by_cases hx1 : x = -1
      · have hra : st.reverse[a]? = some (-1) := by
          rw [hga]; congr 1; by_contra h; exact (hxiff.2 h) hx1
        have hrb : st.reverse[b]? = some (-1) := by
          rw [hgb]; congr 1; by_contra h; exact (hxiff.2 (hboth.2 h)) hx1
        obtain ⟨h3, h4, h5, h6⟩ := fillInv_fold hs hinv hea heb hsrc hdst hra hrb
          ((st.capacities.set a (wrap (ca + wb))).set b (wrap (cb + wa)))
          (by simp [hinv.lenC])
        refine ⟨_, ?_, h3, h4, ?_⟩
        · simp only [fillStep, ha, hb, hseen, Run.done_bind, hx1]
          simp only [ne_eq, not_true_eq_false, if_false, if_true, ha0, hb0]
          rw [vset_ok _ (by omega) (by simpa using hUa)]
          simp only [Run.done_bind, Int.toNat_ofNat]
          rw [vset_ok _ (by omega) (by simpa using hUb)]
          simp only [Run.done_bind, Int.toNat_ofNat]
          rw [show vget st.capacities (a : Int) = Run.done ca from
            vget_ok (by omega) (by simpa using hca)]
          simp only [Run.done_bind]
          rw [show getWeightFromId g (b : Int) = Run.done wb from
            vget_ok (by omega) (by simpa using hwb)]
          simp only [Run.done_bind]
          rw [vset_ok _ (by omega) (by simpa using hCa)]
          simp only [Run.done_bind, Int.toNat_ofNat]
          rw [show vget (st.capacities.set a (wrap (ca + wb))) (b : Int) = Run.done cb from
            vget_ok (by omega) (by simpa using hcb)]
          simp only [Run.done_bind]
          rw [show getWeightFromId g (a : Int) = Run.done wa from
            vget_ok (by omega) (by simpa using hwa)]
          simp only [Run.done_bind]
          rw [vset_ok _ (by omega) (by simpa using hCb)]
          simp only [Run.done_bind, Int.toNat_ofNat]
        · intro idx hidx
          rcases hidx with h | h
          · rw [ha] at h
            have : a = idx := by omega
            subst this
            exact ⟨_, h5, by omega⟩
          · rw [hb] at h
            have : b = idx := by omega
            subst this
            exact ⟨_, h6, by omega⟩
      · refine ⟨st, ?_, hinv, fillInv_mono_refl st, ?_⟩
        · simp only [fillStep, ha, hb, hseen, Run.done_bind]
          simp [hx1]
        · have hane : xa ≠ -1 := hxiff.1 hx1
          intro idx hidx
          rcases hidx with h | h
          · rw [ha] at h
            have : a = idx := by omega
            subst this
            exact ⟨_, hga, hane⟩
          · rw [hb] at h
            have : b = idx := by omega
            subst this
            exact ⟨_, hgb, hboth.1 hane⟩

theorem fillMono_trans {a b c : FillState} (h1 : FillMono a b) (h2 : FillMono b c) :
    FillMono a c := fun i x hi hx => h2 i x (h1 i x hi hx) hx

theorem fillAssigned_mono {g : Graph} {u v : Int} {a b : FillState} (h : FillAssigned g u v a)
    (hm : FillMono a b) : FillAssigned g u v b := by
  intro i hi
  obtain ⟨x, hx, hne⟩ := h i hi
  exact ⟨x, hm i x hx hne, hne⟩

theorem fillInner_ok {g : Graph} (hs : BuilderInput g) (i : Int) :
    ∀ (ns : List Int) (st : FillState), FillInv g st → (∀ n ∈ ns, Adjacent g i n) →
      ∃ st', fillInner g i ns st = Run.done st' ∧ FillInv g st' ∧ FillMono st st' ∧
        ∀ n ∈ ns, FillAssigned g i n st' := by
  intro ns
  induction ns with
  | nil =>
    intro st hinv _
    exact ⟨st, rfl, hinv, fillInv_mono_refl st, fun n hn => by cases hn⟩
  | cons n ns ih =>
    intro st hinv hadj
    obtain ⟨st1, h1, hinv1, hm1, ha1⟩ := fillStep_ok hs hinv (hadj n (List.mem_cons_self _ _))
    obtain ⟨st2, h2, hinv2, hm2, ha2⟩ := ih st1 hinv1 (fun m hm => hadj m (List.mem_cons_of_mem _ hm))
    refine ⟨st2, ?_, hinv2, fillMono_trans hm1 hm2, ?_⟩
    · simp only [fillInner, h1, Run.done_bind, h2]
    · intro m hm
      rcases List.mem_cons.1 hm with rfl | hm
      · exact fillAssigned_mono ha1 hm2
      · exact ha2 m hm

theorem fillOuter_ok {g : Graph} (hs : BuilderInput g) :
    ∀ (is : List Int) (st : FillState), FillInv g st →
      (∀ i ∈ is, ∀ n ∈ getNeighbourListFor g i, Adjacent g i n) →
      ∃ st', fillOuter g is st = Run.done st' ∧ FillInv g st' ∧ FillMono st st' ∧
        ∀ i ∈ is, ∀ n ∈ getNeighbourListFor g i, FillAssigned g i n st' := by
  intro is
  induction is with
  | nil =>
    intro st hinv _
    exact ⟨st, rfl, hinv, fillInv_mono_refl st, fun i hi => by cases hi⟩
  | cons i is ih =>
    intro st hinv hadj
    obtain ⟨st1, h1, hinv1, hm1, ha1⟩ :=
      fillInner_ok hs i _ st hinv (hadj i (List.mem_cons_self _ _))
    obtain ⟨st2, h2, hinv2, hm2, ha2⟩ := ih st1 hinv1 (fun j hj => hadj j (List.mem_cons_of_mem _ hj))
    refine ⟨st2, ?_, hinv2, fillMono_trans hm1 hm2, ?_⟩
    · simp only [fillOuter, h1, Run.done_bind, h2]
    · intro j hj
      rcases List.mem_cons.1 hj with rfl | hj
      · exact fun n hn => fillAssigned_mono (ha1 n hn) hm2
      · exact ha2 j hj

theorem mem_nodeIds {n : Nat} {i : Int} : i ∈ nodeIds n ↔ ∃ u : Nat, u < n ∧ i = (u : Int) := by
  unfold nodeIds
  simp only [List.mem_map, List.mem_range]
  constructor
  · rintro ⟨u, hu, rfl⟩; exact ⟨u, hu, rfl⟩
  · rintro ⟨u, hu, rfl⟩; exact ⟨u, hu, rfl⟩

theorem fillInv_init (g : Graph) (caps : List Int) (hc : caps.length = g.undirectedNumEdges) :
    FillInv g ⟨List.replicate g.undirectedNumEdges (-1), caps, 0⟩ := by
  refine ⟨by simp, hc, ?_, ?_, ?_, ?_⟩
  · show (0 : Int) = _
    rw [doneCount_replicate]; rfl
  · intro i e r _ hr hne
    simp only [List.getElem?_replicate] at hr
    split at hr
    · cases hr; exact absurd rfl hne
    · cases hr
  · intro j h1 h2
    simp only at h2
    omega
  · intro j _ h2
    simp only [List.getElem?_replicate, h2, if_true]

/-- The reverse map built by `fillReverseAndCapacityVectors` on a well-formed input. -/
theorem fill_reverse_involution {g : Graph} (hs : BuilderInput g) (caps : List Int)
    (hc : caps.length = g.undirectedNumEdges) :
    ∃ st, fillOuter g (nodeIds g.NV) ⟨List.replicate g.undirectedNumEdges (-1), caps, 0⟩ =
        Run.done st ∧ FillInv g st ∧
      ∀ e : Nat, e < g.undirectedNumEdges →
        ∃ r : Int, st.reverse[e]? = some r ∧ r ≠ -1 ∧ 0 ≤ r ∧ r < g.undirectedNumEdges ∧
          st.reverse[r.toNat]? = some (e : Int) := by
  obtain ⟨st, h1, hinv, _, hassigned⟩ := fillOuter_ok hs (nodeIds g.NV) _ (fillInv_init g caps hc)
    (by
      intro i hi n hn
      obtain ⟨u, hu, rfl⟩ := mem_nodeIds.1 hi
      exact hs.listsAdjacent u (List.mem_range.2 hu) n hn)
  refine ⟨st, h1, hinv, ?_⟩
  have hNE : getNE g = (g.edges.length : Int) := rfl
  -- every original edge is assigned
  have horig : ∀ (i : Nat) (e : Edge), g.edges[i]? = some e →
      ∃ r, st.reverse[i]? = some r ∧ r ≠ -1 := by
    intro i e he
    have hmem : e ∈ g.edges := List.mem_iff_getElem?.2 ⟨i, he⟩
    obtain ⟨h0, h1, _, _⟩ := hs.nodes e hmem
    have hsrc : e.src = ((e.src.toNat : Nat) : Int) := by omega
    have hin : e.dst ∈ getNeighbourListFor g e.src := (hs.listsComplete e hmem).1
    exact hassigned e.src (mem_nodeIds.2 ⟨e.src.toNat, by omega, hsrc⟩) e.dst hin i
      (Or.inl (getId_of_edge hs he))
  have hfull := doneCount_full g g.edges st.reverse horig
  have hcount := hs.count
  unfold countLacking at hcount
  have hnew : getNE g + st.newEdges = (g.undirectedNumEdges : Int) := by
    rw [hinv.cnt, hfull, hNE, hcount]; push_cast; rfl
  intro e he
  have hlen : ∀ (r : Int) (x : Int), 0 ≤ r → st.reverse[r.toNat]? = some x →
      r < g.undirectedNumEdges := by
    intro r x hr hx
    have := (List.getElem?_eq_some_iff.1 hx).1
    rw [hinv.lenR] at this
    omega
  by_cases hlt : e < g.edges.length
  · obtain ⟨r, hr, hne⟩ := horig e _ (List.getElem?_eq_getElem hlt)
    obtain ⟨h3, h4, _⟩ := hinv.orig e _ r (List.getElem?_eq_getElem hlt) hr hne
    exact ⟨r, hr, hne, h3, hlen r _ h3 h4, h4⟩
  · obtain ⟨r, h3, h4, h5, h6⟩ := hinv.synth e (by rw [hNE]; omega) (by rw [hnew]; omega)
    exact ⟨r, h3, by omega, h4, hlen r _ h4 h6, h6⟩



/-! ## Heuristic engine: residual and excess invariants -/

theorem pushAlong_fields {node nextV t edgeId delta : Int} {st st' : LFState}
    (h : pushAlong node nextV t edgeId delta st = Run.done st') :
    st'.heights = st.heights ∧ st'.capacities = st.capacities ∧ st'.reverse = st.reverse ∧
    st'.wave = st.wave ∧ st'.currentWave = st.currentWave ∧
    st'.itersSinceGlobalRelabel = st.itersSinceGlobalRelabel := by
  simp only [pushAlong, Run.bind_eq_done] at h
  obtain ⟨r, _, res1, _, rev, _, rr, _, res2, _, en, _, ex1, _, ev, _, ex2, _, h⟩ := h
  split at h
  · simp only [Run.bind_eq_done] at h
    obtain ⟨a, _, h⟩ := h
    split at h
    · simp only [Run.bind_eq_done] at h
      obtain ⟨ia, _, h⟩ := h
      cases h; simp
    · cases h; simp
  · cases h; simp

theorem pushAlong_spec {node nextV t edgeId delta : Int} {st st' : LFState}
    (h : pushAlong node nextV t edgeId delta st = Run.done st') :
    ∃ r rev rr en ev, vget st.residuals edgeId = Run.done r ∧
      vget st.reverse edgeId = Run.done rev ∧
      vget (st.residuals.set edgeId.toNat (wrap (r - delta))) rev = Run.done rr ∧
      vget st.excess node = Run.done en ∧
      vget (st.excess.set node.toNat (wrap (en - delta))) nextV = Run.done ev ∧
      st'.residuals = (st.residuals.set edgeId.toNat (wrap (r - delta))).set rev.toNat
        (wrap (rr + delta)) ∧
      st'.excess = (st.excess.set node.toNat (wrap (en - delta))).set nextV.toNat
        (wrap (ev + delta)) := by
  simp only [pushAlong, Run.bind_eq_done] at h
  obtain ⟨r, hr, res1, hres1, rev, hrev, rr, hrr, res2, hres2, en, hen, ex1, hex1, ev, hev,
    ex2, hex2, h⟩ := h
  obtain ⟨_, _, rfl⟩ := vset_eq_done.1 hres1
  obtain ⟨_, _, rfl⟩ := vset_eq_done.1 hres2
  obtain ⟨_, _, rfl⟩ := vset_eq_done.1 hex1
  obtain ⟨_, _, rfl⟩ := vset_eq_done.1 hex2
  refine ⟨r, rev, rr, en, ev, hr, hrev, hrr, hen, hev, ?_⟩
  split at h
  · simp only [Run.bind_eq_done] at h
    obtain ⟨a, _, h⟩ := h
    split at h
    · simp only [Run.bind_eq_done] at h
      obtain ⟨ia, _, h⟩ := h
      cases h; exact ⟨rfl, rfl⟩
    · cases h; exact ⟨rfl, rfl⟩
  · cases h; exact ⟨rfl, rfl⟩

theorem pushAlong_res_exact {node nextV t edgeId delta : Int} {st st' : LFState}
    (hx : ResExact edgeId delta st)
    (h : pushAlong node nextV t edgeId delta st = Run.done st') :
    ∃ r rev rr, vget st.residuals edgeId = Run.done r ∧
      vget st.reverse edgeId = Run.done rev ∧
      vget (st.residuals.set edgeId.toNat (r - delta)) rev = Run.done rr ∧
      st'.residuals = (st.residuals.set edgeId.toNat (r - delta)).set rev.toNat (rr + delta) := by
  obtain ⟨r, rev, rr, en, ev, hr, hrev, hrr, _, _, h1, _⟩ := pushAlong_spec h
  obtain ⟨w1, w2⟩ := hx r rev rr hr hrev hrr
  rw [w1] at hrr h1
  rw [w2] at h1
  exact ⟨r, rev, rr, hr, hrev, hrr, h1⟩

theorem pushAlong_exc_exact {node nextV t edgeId delta : Int} {st st' : LFState}
    (hx : ExcExact node nextV delta st)
    (h : pushAlong node nextV t edgeId delta st = Run.done st') :
    ∃ en ev, vget st.excess node = Run.done en ∧
      vget (st.excess.set node.toNat (en - delta)) nextV = Run.done ev ∧
      st'.excess = (st.excess.set node.toNat (en - delta)).set nextV.toNat (ev + delta) := by
  obtain ⟨r, rev, rr, en, ev, _, _, _, hen, hev, _, h2⟩ := pushAlong_spec h
  obtain ⟨w3, w4⟩ := hx en ev hen hev
  rw [w3] at hev h2
  rw [w4] at h2
  exact ⟨en, ev, hen, hev, h2⟩

theorem pushAlong_nonneg {node nextV t edgeId delta : Int} {st st' : LFState}
    (hinv : Nonneg st.residuals) (hd0 : 0 ≤ delta)
    (hdr : ∀ r, vget st.residuals edgeId = Run.done r → delta ≤ r)
    (hx : ResExact edgeId delta st)
    (h : pushAlong node nextV t edgeId delta st = Run.done st') : Nonneg st'.residuals := by
  obtain ⟨r, rev, rr, hr, _, hrr, h1⟩ := pushAlong_res_exact hx h
  have hdr' := hdr r hr
  obtain ⟨_, hrr⟩ := vget_eq_done.1 hrr
  have hres1n : Nonneg (st.residuals.set edgeId.toNat (r - delta)) :=
    nonneg_set _ hinv (by omega)
  rw [h1]
  exact nonneg_set _ hres1n (add_nonneg (nonneg_get hres1n hrr) hd0)

theorem pushAlong_excessInv {s node nextV t edgeId delta : Int} {st st' : LFState}
    (hinv : ExcessInv s st) (hd0 : 0 ≤ delta)
    (hde : ∀ e, vget st.excess node = Run.done e → delta ≤ e)
    (hx : ExcExact node nextV delta st)
    (h : pushAlong node nextV t edgeId delta st = Run.done st') : ExcessInv s st' := by
  obtain ⟨en, ev, hen, hev, h2⟩ := pushAlong_exc_exact hx h
  have hde' := hde en hen
  obtain ⟨hn0, hen⟩ := vget_eq_done.1 hen
  obtain ⟨hv0, hev⟩ := vget_eq_done.1 hev
  unfold ExcessInv
  rw [h2]
  refine ⟨?_, ?_⟩
  · rw [sum_set_of_get _ _ _ ev hev, sum_set_of_get _ _ _ en hen, hinv.1]; ring
  · intro k x hks hx'
    obtain ⟨x0, hx0, rfl⟩ := excess_push_get hn0 hv0 hen hev hx'
    have hx00 := hinv.2 k x0 hks hx0
    by_cases hnk : node = (k : Int)
    · have : x0 = en := by
        have : node.toNat = k := by omega
        rw [this, hx0] at hen
        exact Option.some.inj hen
      rw [if_pos hnk]
      split <;> omega
    · rw [if_neg hnk]
      split <;> omega

theorem globalRelabel_fields {fuel : Nat} {g : Graph} {s t : Int} {st st' : LFState}
    (h : globalRelabel fuel g s t st = Run.done st') :
    st'.excess = st.excess ∧ st'.residuals = st.residuals ∧ st'.capacities = st.capacities ∧
    st'.reverse = st.reverse ∧ st'.activeNodes = st.activeNodes ∧ st'.isActive = st.isActive := by
  simp only [globalRelabel, Run.bind_eq_done] at h
  obtain ⟨b1, _, h⟩ := h
  split at h
  · simp only [Run.bind_eq_done] at h
    obtain ⟨b2, _, h⟩ := h
    cases h; simp
  · cases h; simp

theorem weight_nonneg {g : Graph} (hw : WeightsNonneg g) {id w : Int}
    (h : getWeightFromId g id = Run.done w) : 0 ≤ w := by
  unfold getWeightFromId at h
  obtain ⟨_, h⟩ := vget_eq_done.1 h
  have : w ∈ getWeights g := List.mem_iff_getElem?.2 ⟨_, h⟩
  unfold getWeights at this
  obtain ⟨e, he, rfl⟩ := List.mem_map.1 this
  exact hw e he

theorem resize_length (v : List Int) (n : Nat) : (resize v n).length = n := by
  unfold resize
  simp
  omega

theorem resize_nonneg {v : List Int} (hv : Nonneg v) (n : Nat) : Nonneg (resize v n) := by
  intro x hx
  unfold resize at hx
  have := List.mem_of_mem_take hx
  rcases List.mem_append.1 this with h | h
  · exact hv x h
  · rw [(List.mem_replicate.1 h).2]

theorem getWeights_nonneg {g : Graph} (hw : WeightsNonneg g) : Nonneg (getWeights g) := by
  intro x hx
  unfold getWeights at hx
  obtain ⟨e, he, rfl⟩ := List.mem_map.1 hx
  exact hw e he



theorem sum_pos_iff_of_nonneg : ∀ (l : List Int), Nonneg l → (0 < l.sum ↔ ∃ x ∈ l, 0 < x) := by
  intro l
  induction l with
  | nil => intro _; simp
  | cons a l ih =>
    intro h
    have ha : 0 ≤ a := h a (List.mem_cons_self _ _)
    have hl : Nonneg l := fun x hx => h x (List.mem_cons_of_mem _ hx)
    have hs : 0 ≤ l.sum := List.sum_nonneg hl
    have := ih hl
    simp only [List.sum_cons, List.mem_cons, exists_eq_or_imp]
    constructor
    · intro hpos
      by_cases h0 : 0 < a
      · exact Or.inl h0
      · exact Or.inr (this.1 (by omega))
    · rintro (h0 | h0)
      · omega
      · have := this.2 h0
        omega

theorem guard_iff {s t : Int} {st : LFState} (hinv : ExcessInv s st)
    (hfit : ∀ x : Int, st.excess[s.toNat]? = some x → -LONG_MAX ≤ x) (hst : s ≠ t) {b : Bool}
    (h : guard s t st = Run.done b) :
    b = true ↔ ∃ (k : Nat) (x : Int), (k : Int) ≠ s ∧ (k : Int) ≠ t ∧
      st.excess[k]? = some x ∧ 0 < x := by
  simp only [guard, Run.bind_eq_done] at h
  obtain ⟨es, hes, et, het, h⟩ := h
  cases h
  obtain ⟨hs0, hes⟩ := vget_eq_done.1 hes
  obtain ⟨ht0, het⟩ := vget_eq_done.1 het
  have hne : s.toNat ≠ t.toNat := by omega
  have het' : (st.excess.set s.toNat 0)[t.toNat]? = some et := by
    rw [List.getElem?_set_ne hne]; exact het
  have hsum : ((st.excess.set s.toNat 0).set t.toNat 0).sum = -(es + et) := by
    rw [sum_set_of_get _ _ _ et het', sum_set_of_get _ _ _ es hes, hinv.1]; ring
  have hnn : Nonneg ((st.excess.set s.toNat 0).set t.toNat 0) := by
    intro x hx
    obtain ⟨k, hk⟩ := List.mem_iff_getElem?.1 hx
    rcases set_get_cases hk with ⟨_, rfl⟩ | ⟨h1, hk⟩
    · exact le_refl _
    · rcases set_get_cases hk with ⟨_, rfl⟩ | ⟨h2, hk⟩
      · exact le_refl _
      · exact hinv.2 k x (by omega) hk
  have key := sum_pos_iff_of_nonneg _ hnn
  have hle : 0 ≤ -(es + et) := by rw [← hsum]; exact List.sum_nonneg hnn
  have het0 : 0 ≤ et :=
    hinv.2 t.toNat et (by rw [Int.toNat_of_nonneg ht0]; exact fun h => hst h.symm) het
  have hes0 := hfit es hes
  have hwe : wrap (es + et) = es + et := wrap_add_exact hes0 het0 hle
  rw [hsum] at key
  rw [hwe]
  simp only [decide_eq_true_eq]
  constructor
  · intro hlt
    obtain ⟨x, hx, hpos⟩ := key.1 (by omega)
    obtain ⟨k, hk⟩ := List.mem_iff_getElem?.1 hx
    rcases set_get_cases hk with ⟨_, rfl⟩ | ⟨h1, hk⟩
    · omega
    · rcases set_get_cases hk with ⟨_, rfl⟩ | ⟨h2, hk⟩
      · omega
      · exact ⟨k, x, by omega, by omega, hk, hpos⟩
  · rintro ⟨k, x, hks, hkt, hk, hpos⟩
    have : 0 < -(es + et) := key.2 ⟨x, List.mem_iff_getElem?.2 ⟨k, by
      rw [get_set2_ne _ _ _ (by omega) (by omega)]; exact hk⟩, hpos⟩
    omega

theorem LFLoop_atGuard {inner : Nat} {g : Graph} {s t : Int} {flag : Bool} :
    ∀ (fuel : Nat) (st st' : LFState), AtGuard inner g s t flag st →
      LFLoop inner g s t flag fuel st = Run.done st' →
      AtGuard inner g s t flag st' ∧ guard s t st' = Run.done false := by
  intro fuel
  induction fuel with
  | zero => intro st st' _ h; simp [LFLoop] at h
  | succ fuel ih =>
    intro st st' hat h
    simp only [LFLoop, Run.bind_eq_done] at h
    obtain ⟨b, hb, h⟩ := h
    cases b with
    | true =>
      simp only [if_true, Run.bind_eq_done] at h
      obtain ⟨st1, h1, h⟩ := h
      exact ih _ _ (AtGuard.step hat hb h1) h
    | false =>
      simp only [Bool.false_eq_true, if_false] at h
      cases h
      exact ⟨hat, hb⟩

theorem LFRun_atGuard {fuel : Nat} {g : Graph} {s t : Int} {flag : Bool} {st : LFState}
    (h : LFRun fuel g s t flag = Run.done st) :
    AtGuard fuel g s t flag st ∧ guard s t st = Run.done false := by
  simp only [LFRun, Run.bind_eq_done] at h
  obtain ⟨st0, h0, h⟩ := h
  exact LFLoop_atGuard fuel _ _ (AtGuard.init h0) h

theorem atGuard_rounds {inner : Nat} {g : Graph} {s t : Int} {flag : Bool} :
    ∀ (n : Nat) (st st' : LFState), AtGuard inner g s t flag st →
      LFRounds inner g s t flag n st = Run.done st' → AtGuard inner g s t flag st' := by
  intro n
  induction n with
  | zero => intro st st' hat h; simp only [LFRounds] at h; cases h; exact hat
  | succ n ih =>
    intro st st' hat h
    simp only [LFRounds, Run.bind_eq_done] at h
    obtain ⟨b, hb, h⟩ := h
    cases b with
    | true =>
      simp only [if_true, Run.bind_eq_done] at h
      obtain ⟨st1, h1, h⟩ := h
      exact ih _ _ (AtGuard.step hat hb h1) h
    | false =>
      simp only [Bool.false_eq_true, if_false] at h
      cases h


/-! ## Heuristic engine: the pair bound -/

theorem get_set2_self {α : Type} (l : List α) {a b : Nat} (x y : α) (hb : b < l.length) :
    ((l.set a x).set b y)[b]? = some y := by
  rw [List.getElem?_set_self (by rw [List.length_set]; exact hb)]

theorem get_set2_first {α : Type} (l : List α) {a b : Nat} (x y : α) (hab : a ≠ b)
    (ha : a < l.length) : ((l.set a x).set b y)[a]? = some x := by
  rw [List.getElem?_set_ne (Ne.symm hab), List.getElem?_set_self ha]

theorem revInvolution_back {U : Nat} {rev : List Int} (hrev : RevInvolution U rev) {a b : Nat}
    (hra : rev[a]? = some (b : Int)) : a < U ∧ b < U ∧ rev[b]? = some (a : Int) := by
  have haU : a < U := by
    rw [← hrev.1]; exact (List.getElem?_eq_some_iff.1 hra).1
  obtain ⟨r0, h1, _, h3, h4⟩ := hrev.2 a haU
  rw [hra] at h1
  have := Option.some.inj h1
  subst this
  exact ⟨haU, by omega, by simpa using h4⟩

theorem pairBound_set2 {U : Nat} {rev caps R : List Int} (hrev : RevInvolution U rev)
    (hlen : R.length = U) (hpb : PairBound rev caps R) {a b : Nat} (va vb : Int)
    (hra : rev[a]? = some (b : Int))
    (hnew : ∀ ca cb, caps[a]? = some ca → caps[b]? = some cb →
      (a ≠ b → va + vb ≤ ca + cb) ∧ (a = b → vb + vb ≤ ca + cb)) :
    PairBound rev caps ((R.set a va).set b vb) := by
  obtain ⟨haU, hbU, hrb⟩ := revInvolution_back hrev hra
  intro e q x y cx cy he hx hy hcx hcy
  obtain ⟨heU, hqU, hq4⟩ := revInvolution_back hrev
    (show rev[e]? = some ((q.toNat : Nat) : Int) by
      obtain ⟨q0, h1, hq0, _, _⟩ := hrev.2 e (by
        rw [← hrev.1]; exact (List.getElem?_eq_some_iff.1 he).1)
      rw [he] at h1
      have := Option.some.inj h1
      rw [he]; congr 1; omega)
  have hq0 : q = ((q.toNat : Nat) : Int) := by
    obtain ⟨q0, h1, hq0, _, _⟩ := hrev.2 e heU
    rw [he] at h1
    have := Option.some.inj h1
    omega
  by_cases hea : e = a
  · subst hea
    rw [hra] at he
    have hq : (b : Int) = q := Option.some.inj he
    have hqb : q.toNat = b := by omega
    rw [hqb] at hy hcy
    obtain ⟨h1, h2⟩ := hnew cx cy hcx hcy
    by_cases hab : e = b
    · subst hab
      rw [get_set2_self _ _ _ (by omega)] at hx hy
      have h3 := Option.some.inj hx
      have h4 := Option.some.inj hy
      have := h2 rfl
      omega
    · rw [get_set2_first _ _ _ hab (by omega)] at hx
      rw [get_set2_self _ _ _ (by omega)] at hy
      have h3 := Option.some.inj hx
      have h4 := Option.some.inj hy
      have := h1 hab
      omega
  · by_cases heb : e = b
    · subst heb
      rw [hrb] at he
      have hq : (a : Int) = q := Option.some.inj he
      have hqa : q.toNat = a := by omega
      rw [hqa] at hy hcy
      obtain ⟨h1, h2⟩ := hnew cy cx hcy hcx
      rw [get_set2_self _ _ _ (by omega)] at hx
      rw [get_set2_first _ _ _ (Ne.symm hea) (by omega)] at hy
      have h3 := Option.some.inj hx
      have h4 := Option.some.inj hy
      have := h1 (Ne.symm hea)
      omega
    · have hqa : q.toNat ≠ a := by
        intro h
        rw [h, hra] at hq4
        have := Option.some.inj hq4
        omega
      have hqb : q.toNat ≠ b := by
        intro h
        rw [h, hrb] at hq4
        have := Option.some.inj hq4
        omega
      rw [get_set2_ne _ _ _ (Ne.symm hea) (Ne.symm heb)] at hx
      rw [get_set2_ne _ _ _ (Ne.symm hqa) (Ne.symm hqb)] at hy
      exact hpb e q x y cx cy he hx hy hcx hcy

theorem pairBound_push {U : Nat} {rev caps R : List Int} (hrev : RevInvolution U rev)
    (hlen : R.length = U) (hcl : caps.length = U) (hpb : PairBound rev caps R) {a b : Nat}
    {r rr d : Int} (hra : rev[a]? = some (b : Int)) (hRa : R[a]? = some r)
    (hRb : (R.set a (r - d))[b]? = some rr) :
    PairBound rev caps ((R.set a (r - d)).set b (rr + d)) := by
  obtain ⟨haU, hbU, hrb⟩ := revInvolution_back hrev hra
  refine pairBound_set2 hrev hlen hpb _ _ hra ?_
  intro ca cb hca hcb
  constructor
  · intro hab
    rw [List.getElem?_set_ne hab] at hRb
    have := hpb a b r rr ca cb hra hRa (by simpa using hRb) hca (by simpa using hcb)
    omega
  · intro hab
    subst hab
    rw [List.getElem?_set_self (by omega)] at hRb
    have h1 := Option.some.inj hRb
    have := hpb a a r r ca cb hra hRa (by simpa using hRa) hca (by simpa using hcb)
    omega

theorem pushAlong_net {U : Nat} {node nextV t edgeId delta : Int} {st st' : LFState}
    (hnet : NetInv U st) (hx : ResExact edgeId delta st)
    (h : pushAlong node nextV t edgeId delta st = Run.done st') :
    NetInv U st' := by
  obtain ⟨e1, e2, e3, _⟩ := pushAlong_fields h
  obtain ⟨r, rev, rr, hr, hrev, hrr, key⟩ := pushAlong_res_exact hx h
  obtain ⟨ha0, hr⟩ := vget_eq_done.1 hr
  obtain ⟨_, hrev⟩ := vget_eq_done.1 hrev
  obtain ⟨hb0, hrr⟩ := vget_eq_done.1 hrr
  obtain ⟨hinvol, hcn, hcl, hrl, hpb⟩ := hnet
  have hrev' : st.reverse[edgeId.toNat]? = some ((rev.toNat : Nat) : Int) := by
    rw [hrev]; congr 1; omega
  unfold NetInv
  rw [e2, e3, key]
  exact ⟨hinvol, hcn, hcl, by simp [hrl],
    pairBound_push hinvol hrl hcl hpb hrev' hr hrr⟩

theorem popActive_net {U : Nat} {node : Int} {st st' : LFState} (hnet : NetInv U st)
    (h : popActive node st = Run.done st') : NetInv U st' := by
  unfold popActive at h
  split at h
  · cases h
  · simp only [Run.bind_eq_done] at h
    obtain ⟨ia, _, h⟩ := h
    cases h
    exact hnet

theorem initialPreflow_net {U : Nat} {g : Graph} (s : Int) :
    ∀ (ns : List Int) (st st' : LFState), NetInv U st →
      initialPreflow g s ns st = Run.done st' → NetInv U st' := by
  intro ns
  induction ns with
  | nil => intro st st' hst h; simp only [initialPreflow] at h; cases h; exact hst
  | cons n ns ih =>
    intro st st' hst h
    simp only [initialPreflow, Run.bind_eq_done] at h
    obtain ⟨res1, hres1, rev, hrev, c, hc, res2, hres2, w, _, ex1, _, es, _, w2, _,
      ex2, _, ia, _, h⟩ := h
    refine ih _ _ ?_ h
    obtain ⟨ha0, hal, rfl⟩ := vset_eq_done.1 hres1
    obtain ⟨_, hrev⟩ := vget_eq_done.1 hrev
    obtain ⟨_, hc⟩ := vget_eq_done.1 hc
    obtain ⟨hb0, _, rfl⟩ := vset_eq_done.1 hres2
    obtain ⟨hinvol, hcn, hcl, hrl, hpb⟩ := hst
    have hrev' : st.reverse[(getIdFromSrcDst g s n).toNat]? = some ((rev.toNat : Nat) : Int) := by
      rw [hrev]; congr 1; omega
    refine ⟨hinvol, hcn, hcl, by simp [hrl], ?_⟩
    refine pairBound_set2 hinvol hrl hpb _ _ hrev' ?_
    intro ca cb hca hcb
    rw [hc] at hca
    have h1 := Option.some.inj hca
    have h2 : 0 ≤ cb := nonneg_get hcn hcb
    constructor
    · intro _; omega
    · intro hab
      rw [← hab, hc] at hcb
      have := Option.some.inj hcb
      omega

theorem pairBound_refl (rev caps : List Int) : PairBound rev caps caps := by
  intro e r x y cx cy _ hx hy hcx hcy
  rw [hx] at hcx
  rw [hy] at hcy
  have := Option.some.inj hcx
  have := Option.some.inj hcy
  omega

theorem residualBounds_of {U : Nat} {st : LFState} (hnet : NetInv U st)
    (hres : Nonneg st.residuals) : ResidualBounds U st := by
  obtain ⟨hinvol, hcn, hcl, hrl, hpb⟩ := hnet
  refine ⟨hrl, hcl, ?_⟩
  intro e he
  obtain ⟨r, h1, h2, h3, h4⟩ := hinvol.2 e he
  obtain ⟨x, hx⟩ : ∃ x, st.residuals[e]? = some x := ⟨_, List.getElem?_eq_getElem (by omega)⟩
  obtain ⟨y, hy⟩ : ∃ y, st.residuals[r.toNat]? = some y :=
    ⟨_, List.getElem?_eq_getElem (by omega)⟩
  obtain ⟨c, hc⟩ : ∃ c, st.capacities[e]? = some c := ⟨_, List.getElem?_eq_getElem (by omega)⟩
  obtain ⟨cr, hcr⟩ : ∃ cr, st.capacities[r.toNat]? = some cr :=
    ⟨_, List.getElem?_eq_getElem (by omega)⟩
  have := hpb e r x y c cr h1 hx hy hc hcr
  have hy0 := nonneg_get hres hy
  exact ⟨r, x, c, cr, h1, hx, hc, hcr, nonneg_get hres hx, by omega⟩



/-! ## Heuristic engine: no sum wraps under the invariant -/

theorem sum_two_le {v : List Int} (hnn : Nonneg v) {k j : Nat} {x y : Int} (hkj : k ≠ j)
    (hk : v[k]? = some x) (hj : v[j]? = some y) : x + y ≤ v.sum := by
  have h1 : (v.set k 0)[j]? = some y := by rw [List.getElem?_set_ne hkj]; exact hj
  have h2 := le_sum_of_nonneg _ _ _ (nonneg_set k hnn (le_refl 0)) h1
  rw [sum_set_of_get _ _ _ x hk] at h2
  omega

theorem excess_source_bounds {s : Int} {st : LFState} (hinv : ExcessInv s st) (hs0 : 0 ≤ s)
    {xs : Int} (hxs : st.excess[s.toNat]? = some xs) :
    xs ≤ 0 ∧ ∀ (k : Nat) (x : Int), k ≠ s.toNat → st.excess[k]? = some x →
      0 ≤ x ∧ x ≤ -xs ∧
      ∀ (j : Nat) (y : Int), j ≠ s.toNat → j ≠ k → st.excess[j]? = some y → x + y ≤ -xs := by
  have hnn : Nonneg (st.excess.set s.toNat 0) := by
    intro x hx
    obtain ⟨k, hk⟩ := List.mem_iff_getElem?.1 hx
    rcases set_get_cases hk with ⟨_, rfl⟩ | ⟨h1, hk⟩
    · exact le_refl _
    · exact hinv.2 k x (by omega) hk
  have hsum : (st.excess.set s.toNat 0).sum = -xs := by
    rw [sum_set_of_get _ _ _ xs hxs, hinv.1]; ring
  have h0 : 0 ≤ (st.excess.set s.toNat 0).sum := List.sum_nonneg hnn
  refine ⟨by omega, ?_⟩
  intro k x hks hk
  have hk' : (st.excess.set s.toNat 0)[k]? = some x := by
    rw [List.getElem?_set_ne (Ne.symm hks)]; exact hk
  have h1 := le_sum_of_nonneg _ _ _ hnn hk'
  refine ⟨nonneg_get hnn hk', by omega, ?_⟩
  intro j y hjs hjk hj
  have hj' : (st.excess.set s.toNat 0)[j]? = some y := by
    rw [List.getElem?_set_ne (Ne.symm hjs)]; exact hj
  have := sum_two_le hnn (Ne.symm hjk) hk' hj'
  omega

/-- The residual sums of a push of `min e r` units, with `e > 0`, do not wrap under the
residual side of the invariant. -/
theorem resExact_of_inv {U : Nat} {edgeId e r : Int} {st : LFState}
    (hinv : ResInv U st) (hpos : 0 < e)
    (hr : vget st.residuals edgeId = Run.done r) :
    ResExact edgeId (min e r) st := by
  intro r' rev rr hr' hrev hrr
  rw [hr] at hr'; cases hr'
  obtain ⟨hid0, hr⟩ := vget_eq_done.1 hr
  obtain ⟨_, hrev⟩ := vget_eq_done.1 hrev
  have hr0 : 0 ≤ r := nonneg_get hinv.nonneg hr
  have hd0 : 0 ≤ min e r := le_min (by omega) hr0
  have hd2 : min e r ≤ r := min_le_right _ _
  obtain ⟨hinvol, hcn, hcl, hrl, hpb⟩ := hinv.net
  have hidU : edgeId.toNat < U := by
    rw [← hinvol.1]; exact (List.getElem?_eq_some_iff.1 hrev).1
  obtain ⟨q, hq1, hq0, hqU, hq4⟩ := hinvol.2 _ hidU
  rw [hrev] at hq1
  cases hq1
  obtain ⟨y, hy⟩ : ∃ y, st.residuals[rev.toNat]? = some y :=
    ⟨_, List.getElem?_eq_getElem (by omega)⟩
  obtain ⟨cx, hcx⟩ : ∃ cx, st.capacities[edgeId.toNat]? = some cx :=
    ⟨_, List.getElem?_eq_getElem (by omega)⟩
  obtain ⟨cy, hcy⟩ : ∃ cy, st.capacities[rev.toNat]? = some cy :=
    ⟨_, List.getElem?_eq_getElem (by omega)⟩
  have hpair := hpb _ _ _ _ _ _ hrev hr hy hcx hcy
  have hcap := hinv.caps _ _ _ _ hrev hcx hcy
  have hy0 : 0 ≤ y := nonneg_get hinv.nonneg hy
  have w1 : wrap (r - min e r) = r - min e r := wrap_nonneg (by omega) (by omega)
  rw [w1] at hrr
  refine ⟨w1, ?_⟩
  obtain ⟨_, hrr⟩ := vget_eq_done.1 hrr
  rcases set_get_cases hrr with ⟨_, rfl⟩ | ⟨hne, hrr⟩
  · exact wrap_nonneg (by omega) (by omega)
  · rw [hy] at hrr
    cases hrr
    exact wrap_nonneg (by omega) (by omega)

theorem pushAlong_res {U : Nat} {node nextV t edgeId e r : Int} {st st' : LFState}
    (hinv : ResInv U st) (hpos : 0 < e) (hr : vget st.residuals edgeId = Run.done r)
    (h : pushAlong node nextV t edgeId (min e r) st = Run.done st') : ResInv U st' := by
  have hr0 : 0 ≤ r := nonneg_get hinv.nonneg (vget_eq_done.1 hr).2
  have hx := resExact_of_inv hinv hpos hr
  obtain ⟨_, e2, e3, _⟩ := pushAlong_fields h
  refine ⟨pushAlong_nonneg hinv.nonneg (le_min (by omega) hr0) ?_ hx h,
    pushAlong_net hinv.net hx h, ?_⟩
  · intro r' hr'
    rw [hr] at hr'; cases hr'
    exact min_le_right _ _
  · rw [e2, e3]; exact hinv.caps

theorem processBody_res {U : Nat} {g : Graph} {node t : Int} {st st' : LFState}
    (hinv : ResInv U st) (hpos : ∀ e, vget st.excess node = Run.done e → 0 < e)
    (h : processBody g node t st = Run.done st') : ResInv U st' := by
  simp only [processBody, Run.bind_eq_done] at h
  obtain ⟨e, he, ⟨nextV, hh⟩, _, edgeId, _, hnode, _, h⟩ := h
  simp only at h
  split at h
  · simp only [Run.bind_eq_done] at h
    obtain ⟨r, hr, h⟩ := h
    exact pushAlong_res hinv (hpos e he) hr h
  · simp only [Run.bind_eq_done] at h
    obtain ⟨hs, _, h⟩ := h
    cases h
    exact ⟨hinv.nonneg, hinv.net, hinv.caps⟩

theorem popActive_res {U : Nat} {node : Int} {st st' : LFState} (hinv : ResInv U st)
    (h : popActive node st = Run.done st') : ResInv U st' := by
  unfold popActive at h
  split at h
  · cases h
  · simp only [Run.bind_eq_done] at h
    obtain ⟨ia, _, h⟩ := h
    cases h
    exact ⟨hinv.nonneg, hinv.net, hinv.caps⟩

theorem process_res {U : Nat} {g : Graph} {node t : Int} :
    ∀ (fuel : Nat) (st st' : LFState), ResInv U st →
      process g node t fuel st = Run.done st' → ResInv U st' := by
  intro fuel
  induction fuel with
  | zero => intro st st' _ h; simp [process] at h
  | succ fuel ih =>
    intro st st' hinv h
    simp only [process, Run.bind_eq_done] at h
    obtain ⟨e, he, h⟩ := h
    split at h
    · rename_i hpos
      split at h
      · cases h; exact hinv
      · simp only [Run.bind_eq_done] at h
        obtain ⟨st1, h1, h⟩ := h
        refine ih _ _ (processBody_res hinv ?_ h1) h
        intro e' he'
        rw [he] at he'; cases he'
        exact hpos
    · exact popActive_res hinv h

theorem processWithRelabelBody_res {U : Nat} {g : Graph} {node t : Int}
    {st st' : LFState} (hinv : ResInv U st)
    (hpos : ∀ e, vget st.excess node = Run.done e → 0 < e)
    (h : processWithRelabelBody g node t st = Run.done st') : ResInv U st' := by
  simp only [processWithRelabelBody, Run.bind_eq_done] at h
  obtain ⟨e, he, ⟨nextV, hh⟩, _, edgeId, _, hnode, _, h⟩ := h
  simp only at h
  split at h
  · simp only [Run.bind_eq_done] at h
    obtain ⟨r, hr, wn, _, wv, _, h⟩ := h
    split at h
    · simp only [Run.bind_eq_done] at h
      obtain ⟨hv, _, h⟩ := h
      split at h
      · exact pushAlong_res hinv (hpos e he) hr h
      · cases h; exact hinv
    · cases h; exact hinv
  · split at h
    · simp only [Run.bind_eq_done] at h
      obtain ⟨hs, _, h⟩ := h
      cases h
      exact ⟨hinv.nonneg, hinv.net, hinv.caps⟩
    · cases h; exact hinv

theorem processWithRelabel_res {U : Nat} {g : Graph} {node t : Int} :
    ∀ (fuel : Nat) (st st' : LFState), ResInv U st →
      processWithRelabel g node t fuel st = Run.done st' → ResInv U st' := by
  intro fuel
  induction fuel with
  | zero => intro st st' _ h; simp [processWithRelabel] at h
  | succ fuel ih =>
    intro st st' hinv h
    simp only [processWithRelabel, Run.bind_eq_done] at h
    obtain ⟨e, he, h⟩ := h
    split at h
    · rename_i hpos
      split at h
      · cases h; exact hinv
      · simp only [Run.bind_eq_done] at h
        obtain ⟨st1, h1, h⟩ := h
        refine ih _ _ (processWithRelabelBody_res hinv ?_ h1) h
        intro e' he'
        rw [he] at he'; cases he'
        exact hpos
    · exact popActive_res hinv h

theorem LFStep_res {U inner : Nat} {g : Graph} {s t : Int} {flag : Bool} {st st' : LFState}
    (hinv : ResInv U st) (h : LFStep inner g s t flag st = Run.done st') :
    ResInv U st' := by
  simp only [LFStep, Run.bind_eq_done] at h
  obtain ⟨curnode, _, st1, h1, h⟩ := h
  have hinv1 : ResInv U st1 := by
    cases flag
    · exact process_res inner _ _ hinv (by simpa using h1)
    · exact processWithRelabel_res inner _ _ hinv (by simpa using h1)
  split at h
  · simp only [Run.bind_eq_done] at h
    obtain ⟨st2, h2, h⟩ := h
    cases h
    obtain ⟨e1, e2, e3, e4, _⟩ := globalRelabel_fields h2
    obtain ⟨hi, hn, hf⟩ := hinv1
    refine ⟨?_, ?_, ?_⟩
    · simp only [e2]; exact hi
    · unfold NetInv at hn ⊢
      simp only [e2, e3, e4]
      exact hn
    · simp only [e3, e4]; exact hf
  · cases h
    exact ⟨hinv1.nonneg, hinv1.net, hinv1.caps⟩

/-- The excess sums of a push of `min e r` units, with `e > 0` and `r ≥ 0`, do not wrap under
the excess side of the invariant. -/
theorem excExact_of_inv {g : Graph} {s node nextV e r : Int} {st : LFState}
    (hinv : ExcInv g s st) (he : vget st.excess node = Run.done e) (hpos : 0 < e)
    (hr0 : 0 ≤ r) : ExcExact node nextV (min e r) st := by
  intro en ev hen hev
  rw [he] at hen; cases hen
  obtain ⟨hn0, he⟩ := vget_eq_done.1 he
  have hd0 : 0 ≤ min e r := le_min (by omega) hr0
  have hd1 : min e r ≤ e := min_le_left _ _
  obtain ⟨hs0, hsl⟩ := hinv.source
  obtain ⟨xs, hxs⟩ : ∃ xs, st.excess[s.toNat]? = some xs := ⟨_, List.getElem?_eq_getElem hsl⟩
  have hxs1 := hinv.src xs hxs
  obtain ⟨hxs0, hoff⟩ := excess_source_bounds hinv.inv hs0 hxs
  have hns : node.toNat ≠ s.toNat := by
    intro h
    rw [h, hxs] at he
    cases he
    omega
  obtain ⟨_, hele, htwo⟩ := hoff _ _ hns he
  have w3 : wrap (e - min e r) = e - min e r := wrap_nonneg (by omega) (by omega)
  rw [w3] at hev
  refine ⟨w3, ?_⟩
  obtain ⟨hv0, hev⟩ := vget_eq_done.1 hev
  rcases set_get_cases hev with ⟨_, rfl⟩ | ⟨hne, hev⟩
  · exact wrap_nonneg (by omega) (by omega)
  · by_cases hvs : nextV.toNat = s.toNat
    · rw [hvs, hxs] at hev
      cases hev
      exact wrap_eq_of_abs (by omega) (by have := LONG_MAX_pos; omega)
    · have := htwo _ _ hvs (Ne.symm hne) hev
      have hev0 := (hoff _ _ hvs hev).1
      exact wrap_nonneg (by omega) (by omega)

theorem pushAlong_exc {g : Graph} {s node nextV t edgeId e r : Int} {st st' : LFState}
    (hinv : ExcInv g s st) (he : vget st.excess node = Run.done e) (hpos : 0 < e)
    (hr0 : 0 ≤ r)
    (h : pushAlong node nextV t edgeId (min e r) st = Run.done st') : ExcInv g s st' := by
  have hx : ExcExact node nextV (min e r) st := excExact_of_inv hinv he hpos hr0
  obtain ⟨hs0, hsl⟩ := hinv.source
  have hns : node ≠ s := by
    intro hns
    obtain ⟨xs, hxs⟩ : ∃ xs, st.excess[s.toNat]? = some xs :=
      ⟨_, List.getElem?_eq_getElem hsl⟩
    have := (excess_source_bounds hinv.inv hs0 hxs).1
    rw [hns] at he
    rw [(vget_eq_done.1 he).2] at hxs
    cases hxs
    omega
  have hd0 : 0 ≤ min e r := le_min (by omega) hr0
  obtain ⟨_, _, e3, _⟩ := pushAlong_fields h
  obtain ⟨en, ev, hen, hev, key⟩ := pushAlong_exc_exact hx h
  refine ⟨pushAlong_excessInv hinv.inv hd0 ?_ hx h, ?_, ⟨hs0, by rw [key]; simpa using hsl⟩,
    by rw [e3]; exact hinv.rnet⟩
  · intro e' he'
    rw [he] at he'; cases he'
    exact min_le_left _ _
  · obtain ⟨hn0, hen⟩ := vget_eq_done.1 hen
    obtain ⟨hv0, hev⟩ := vget_eq_done.1 hev
    intro x hx'
    rw [key] at hx'
    obtain ⟨x0, hx0, rfl⟩ := excess_push_get hn0 hv0 hen hev hx'
    have := hinv.src x0 hx0
    rw [if_neg (show ¬ node = ((s.toNat : Nat) : Int) by omega)]
    split <;> omega

theorem popActive_exc {g : Graph} {s node : Int} {st st' : LFState} (hinv : ExcInv g s st)
    (h : popActive node st = Run.done st') : ExcInv g s st' := by
  unfold popActive at h
  split at h
  · cases h
  · simp only [Run.bind_eq_done] at h
    obtain ⟨ia, _, h⟩ := h
    cases h
    exact ⟨hinv.inv, hinv.src, hinv.source, hinv.rnet⟩

/-! ## Facts about the scenario graphs -/


theorem weightsNonneg_scenarioA : WeightsNonneg (scenarioA [0, 2]) := by
  unfold WeightsNonneg; decide

theorem builderInput_scenarioA : BuilderInput (scenarioA [0, 2]) :=
  ⟨by decide, by decide, by decide, by decide, by decide, by decide⟩

theorem builderInput_sourceFan : BuilderInput sourceFan :=
  ⟨by decide, by decide, by decide, by decide, by decide, by decide⟩

theorem builderInput_overflowPath : BuilderInput overflowPath :=
  ⟨by decide, by decide, by decide, by decide, by decide, by decide⟩

theorem builderInput_overflowFan : BuilderInput overflowFan :=
  ⟨by decide, by decide, by decide, by decide, by decide, by decide⟩

theorem builderInput_overflowPair : BuilderInput overflowPair :=
  ⟨by decide, by decide, by decide, by decide, by decide, by decide⟩

theorem builderInput_overflowSource : BuilderInput overflowSource :=
  ⟨by decide, by decide, by decide, by decide, by decide, by decide⟩

theorem sourceFits_scenarioA : SourceFits (scenarioA [0, 2]) 0 := by
  unfold SourceFits; decide

theorem pairsFit_scenarioA : PairsFit (scenarioA [0, 2]) := by
  unfold PairsFit; decide

theorem weightsNonneg_pathGraph37 : WeightsNonneg pathGraph37 := by
  unfold WeightsNonneg; decide

theorem weightsLong_pathGraph37 : WeightsLong pathGraph37 := by
  unfold WeightsLong; decide

theorem sourceFits_pathGraph37 : SourceFits pathGraph37 0 := by
  unfold SourceFits; decide

theorem LFRun_scenarioA : LFRun 10 (scenarioA [0, 2]) 0 2 false = Run.done scenarioAFinal := by
  decide


theorem perm_pair {a b : Int} {l : List Int} (h : l.Perm [a, b]) : l ∈ [[a, b], [b, a]] := by
  have h2 := List.mem_permutations.2 h
  simpa [List.permutations, List.permutationsAux, List.permutationsAux.rec, List.foldr,
    List.permutationsAux2] using h2

theorem perm_triple {a b c : Int} {l : List Int} (h : l.Perm [a, b, c]) :
    l ∈ [[a, b, c], [a, c, b], [b, a, c], [b, c, a], [c, a, b], [c, b, a]] := by
  have h2 := List.mem_permutations.2 h
  simp [List.permutations, List.permutationsAux, List.permutationsAux.rec, List.foldr,
    List.permutationsAux2] at h2
  simp
  tauto


/-! ## A node without a residual neighbour -/

theorem findEdge_absent : ∀ (es : List Edge) (u v k : Int),
    (∀ e ∈ es, ¬ (e.src = u ∧ e.dst = v)) → findEdge es u v k = -1 := by
  intro es
  induction es with
  | nil => intro u v k _; rfl
  | cons e es ih =>
    intro u v k h
    simp only [findEdge]
    rw [if_neg (h e (List.mem_cons_self _ _))]
    exact ih u v (k + 1) (fun e' he' => h e' (List.mem_cons_of_mem _ he'))

theorem getId_minus_one_right {g : Graph} (h : ∀ e ∈ g.edges, 0 ≤ e.src ∧ 0 ≤ e.dst) (u : Int) :
    getIdFromSrcDst g u (-1) = -1 :=
  findEdge_absent _ _ _ _ (fun e he hc => by have := (h e he).2; omega)

theorem getId_minus_one_left {g : Graph} (h : ∀ e ∈ g.edges, 0 ≤ e.src ∧ 0 ≤ e.dst) (v : Int) :
    getIdFromSrcDst g (-1) v = -1 :=
  findEdge_absent _ _ _ _ (fun e he hc => by have := (h e he).1; omega)

theorem residualEdgeId_minus_one {g : Graph} (h : ∀ e ∈ g.edges, 0 ≤ e.src ∧ 0 ≤ e.dst)
    (reverse : List Int) (u : Int) : residualEdgeId g reverse u (-1) = Run.fault := by
  simp [residualEdgeId, getId_minus_one_right h, getId_minus_one_left h, vget]

theorem scanNeighbours_starved (g : Graph) (node : Int) (heights reverse residuals : List Int) :
    ∀ (ns : List Int) (acc : Int × Int),
      (∀ n ∈ ns, ∃ id r, residualEdgeId g reverse node n = Run.done id ∧
        vget residuals id = Run.done r ∧ r ≤ 0) →
      scanNeighbours g node heights reverse residuals ns acc = Run.done acc := by
  intro ns
  induction ns with
  | nil => intro acc _; rfl
  | cons n ns ih =>
    intro acc h
    obtain ⟨id, r, h1, h2, h3⟩ := h n (List.mem_cons_self _ _)
    simp only [scanNeighbours, h1, Run.done_bind, h2, h3, if_true]
    exact ih acc (fun m hm => h m (List.mem_cons_of_mem _ hm))

theorem process_starved {g : Graph} (hnodes : ∀ e ∈ g.edges, 0 ≤ e.src ∧ 0 ≤ e.dst)
    (node t : Int) (st : LFState) (fuel : Nat) (e : Int)
    (hex : vget st.excess node = Run.done e) (hpos : 0 < e)
    (hne : (getNeighbourListFor g node).isEmpty = false)
    (hstarved : ∀ n ∈ getNeighbourListFor g node, ∃ id r,
      residualEdgeId g st.reverse node n = Run.done id ∧
        vget st.residuals id = Run.done r ∧ r ≤ 0) :
    process g node t (fuel + 1) st = Run.fault := by
  have hscan := scanNeighbours_starved g node st.heights st.reverse st.residuals _
    (-1, LONG_MAX) hstarved
  have hbody : processBody g node t st = Run.fault := by
    simp only [processBody, hex, Run.done_bind, hscan, residualEdgeId_minus_one hnodes]
    rfl
  simp only [process, hex, Run.done_bind, hpos, gt_iff_lt, if_true, hne, hbody]
  simp
  rfl

/-! ## Residual network builder: the capacities -/

theorem fillInv_pair {g : Graph} (hs : BuilderInput g) {st : FillState} (hinv : FillInv g st)
    {a b : Nat} {ea eb : Edge} (hea : g.edges[a]? = some ea) (heb : g.edges[b]? = some eb)
    (h1 : ea.src = eb.dst) (h2 : ea.dst = eb.src) {xa xb : Int}
    (hga : st.reverse[a]? = some xa) (hgb : st.reverse[b]? = some xb) :
    xa ≠ -1 ↔ xb ≠ -1 := by
  obtain ⟨hla, hida⟩ := lacksReverse_false hs heb h1 h2
  obtain ⟨hlb, hidb⟩ := lacksReverse_false hs hea h2.symm h1.symm
  constructor
  · intro h
    obtain ⟨_, h2, h3⟩ := hinv.orig a ea _ hea hga h
    rw [hla] at h3
    simp only [Bool.false_eq_true, if_false] at h3
    rw [h3, hida] at h2
    simp only [Int.toNat_ofNat] at h2
    rw [hgb] at h2
    have h4 := Option.some.inj h2
    omega
  · intro h
    obtain ⟨_, h2, h3⟩ := hinv.orig b eb _ heb hgb h
    rw [hlb] at h3
    simp only [Bool.false_eq_true, if_false] at h3
    rw [h3, hidb] at h2
    simp only [Int.toNat_ofNat] at h2
    rw [hga] at h2
    have h4 := Option.some.inj h2
    omega

theorem fillInv_newEdges_nonneg {g : Graph} {st : FillState} (hinv : FillInv g st) :
    0 ≤ st.newEdges := by
  rw [hinv.cnt]; exact Int.ofNat_nonneg _

theorem weight_of_id {g : Graph} {a : Nat} {e : Edge} {w : Int} (he : g.edges[a]? = some e)
    (hw : getWeightFromId g (a : Int) = Run.done w) : w = e.weight := by
  obtain ⟨_, h⟩ := vget_eq_done.1 hw
  unfold getWeights at h
  simp only [Int.toNat_ofNat, List.getElem?_map, he, Option.map_some'] at h
  exact (Option.some.inj h).symm

/-- The synthesis branches of `fillStep`, seen from the capacities: the original edge `a`
lacks an antiparallel edge and gets the new id `m`. -/
theorem capInv_synth {g : Graph} {st : FillState} (hcap : CapInv g st)
    {a : Nat} {e : Edge} (he : g.edges[a]? = some e) (hl : lacksReverse g e = true)
    (hra : st.reverse[a]? = some (-1)) {m : Nat} (hm : getNE g + st.newEdges = (m : Int))
    (hn : 0 ≤ st.newEdges) (hmR : m < st.reverse.length) (hmC : m < st.capacities.length) :
    CapInv g ⟨(st.reverse.set a (m : Int)).set m (a : Int), st.capacities.set m e.weight,
      st.newEdges + 1⟩ := by
  have haNE : a < g.edges.length := (List.getElem?_eq_some_iff.1 he).1
  have hNE : getNE g = (g.edges.length : Int) := rfl
  have hmNE : g.edges.length ≤ m := by omega
  constructor
  · intro i0 e0 r c hi hr hc
    have hi0 : i0 < g.edges.length := (List.getElem?_eq_some_iff.1 hi).1
    simp only at hr hc
    rw [List.getElem?_set_ne (by omega)] at hr hc
    by_cases hia : i0 = a
    · subst hia
      rw [he] at hi; cases hi
      rw [if_pos (Or.inr hl)]
      have := hcap.orig i0 e (-1) c he hra hc
      rwa [if_pos (Or.inl rfl)] at this
    · rw [List.getElem?_set_ne (Ne.symm hia)] at hr
      exact hcap.orig i0 e0 r c hi hr hc
  · intro j hj1 hj2
    simp only at hj2 ⊢
    by_cases hjm : j = m
    · subst hjm
      refine ⟨a, e, ?_, by omega, by simpa using he, ?_⟩
      · rw [List.getElem?_set_self (by simpa using hmR)]
      · rw [List.getElem?_set_self hmC]
    · obtain ⟨r, e1, h1, h2, h3, h4⟩ := hcap.synth j hj1 (by omega)
      refine ⟨r, e1, ?_, h2, h3, ?_⟩
      · rw [List.getElem?_set_ne (Ne.symm hjm), List.getElem?_set_ne (by omega)]; exact h1
      · rw [List.getElem?_set_ne (Ne.symm hjm)]; exact h4

/-- The folding branch of `fillStep`, seen from the capacities: the original edges `a` and
`b` are antiparallel and not yet paired. -/
theorem capInv_fold {g : Graph} (hs : BuilderInput g) {st : FillState} (hcap : CapInv g st)
    {a b : Nat} {ea eb : Edge} (hea : g.edges[a]? = some ea) (heb : g.edges[b]? = some eb)
    (h1 : ea.src = eb.dst) (h2 : ea.dst = eb.src)
    (hra : st.reverse[a]? = some (-1)) (hrb : st.reverse[b]? = some (-1))
    {ca cb : Int} (hca : st.capacities[a]? = some ca)
    (hcb : (st.capacities.set a (wrap (ca + eb.weight)))[b]? = some cb) :
    CapInv g ⟨(st.reverse.set a (b : Int)).set b (a : Int),
      (st.capacities.set a (wrap (ca + eb.weight))).set b (wrap (cb + ea.weight)),
      st.newEdges⟩ := by
  have haNE : a < g.edges.length := (List.getElem?_eq_some_iff.1 hea).1
  have hbNE : b < g.edges.length := (List.getElem?_eq_some_iff.1 heb).1
  have hNE : getNE g = (g.edges.length : Int) := rfl
  have hab : a ≠ b := by
    rintro rfl
    rw [hea] at heb; cases heb
    exact hs.noLoop ea (List.mem_iff_getElem?.2 ⟨a, hea⟩) h1
  obtain ⟨hla, _⟩ := lacksReverse_false hs heb h1 h2
  obtain ⟨hlb, _⟩ := lacksReverse_false hs hea h2.symm h1.symm
  have haR : a < st.reverse.length := (List.getElem?_eq_some_iff.1 hra).1
  have hbR : b < st.reverse.length := (List.getElem?_eq_some_iff.1 hrb).1
  have haC : a < st.capacities.length := (List.getElem?_eq_some_iff.1 hca).1
  have hbC : b < st.capacities.length := by
    have := (List.getElem?_eq_some_iff.1 hcb).1
    simpa using this
  rw [List.getElem?_set_ne hab] at hcb
  have hwa : ca = ea.weight := by
    have := hcap.orig a ea (-1) ca hea hra hca
    rwa [if_pos (Or.inl rfl)] at this
  have hwb : cb = eb.weight := by
    have := hcap.orig b eb (-1) cb heb hrb hcb
    rwa [if_pos (Or.inl rfl)] at this
  constructor
  · intro i0 e0 r c hi hr hc
    simp only at hr hc
    by_cases hib : i0 = b
    · subst hib
      rw [heb] at hi; cases hi
      rw [List.getElem?_set_self (by simpa using hbR)] at hr
      rw [List.getElem?_set_self (by simpa using hbC)] at hc
      cases hr; cases hc
      rw [if_neg (by simp [hlb])]
      exact ⟨ea, by simpa using hea, by rw [hwb]⟩
    · rw [List.getElem?_set_ne (Ne.symm hib)] at hr hc
      by_cases hia : i0 = a
      · subst hia
        rw [hea] at hi; cases hi
        rw [List.getElem?_set_self haR] at hr
        rw [List.getElem?_set_self haC] at hc
        cases hr; cases hc
        rw [if_neg (by simp [hla])]
        exact ⟨eb, by simpa using heb, by rw [hwa]⟩
      · rw [List.getElem?_set_ne (Ne.symm hia)] at hr hc
        exact hcap.orig i0 e0 r c hi hr hc
  · intro j hj1 hj2
    simp only at hj2 ⊢
    obtain ⟨r, e1, h3, h4, h5, h6⟩ := hcap.synth j hj1 hj2
    refine ⟨r, e1, ?_, h4, h5, ?_⟩
    · rw [List.getElem?_set_ne (by omega), List.getElem?_set_ne (by omega)]; exact h3
    · rw [List.getElem?_set_ne (by omega), List.getElem?_set_ne (by omega)]; exact h6

theorem fillStep_capInv {g : Graph} (hs : BuilderInput g) {st st' : FillState}
    (hinv : FillInv g st) (hcap : CapInv g st) {i n : Int}
    (h : fillStep g i n st = Run.done st') : CapInv g st' := by
  have hn := fillInv_newEdges_nonneg hinv
  obtain ⟨m, hm⟩ : ∃ m : Nat, getNE g + st.newEdges = (m : Int) :=
    ⟨(getNE g + st.newEdges).toNat, by have : 0 ≤ getNE g := Int.ofNat_nonneg _; omega⟩
  by_cases hE : getIdFromSrcDst g i n = -1
  · by_cases hR : getIdFromSrcDst g n i = -1
    · simp [fillStep, hE, hR, vget, Run.bind_eq_done] at h
    · obtain ⟨a, e, ha, hea, h1, h2, haNE⟩ := getId_edge hR
      have hl : lacksReverse g e = true := by
        unfold lacksReverse; rw [h1, h2, hE]; simp
      simp only [fillStep, hE, ha, hm, Run.bind_eq_done] at h
      obtain ⟨seen, hseen, h⟩ := h
      rw [show max (-1) (a : Int) = (a : Int) from by omega] at hseen
      obtain ⟨_, hseen⟩ := vget_eq_done.1 hseen
      simp only [Int.toNat_ofNat] at hseen
      by_cases hx : seen = -1
      · subst hx
        simp only [ne_eq, not_true_eq_false, if_false, if_true, Run.bind_eq_done] at h
        obtain ⟨r1, hr1, r2, hr2, w, hwt, caps, hcaps, h⟩ := h
        cases h
        obtain ⟨_, _, rfl⟩ := vset_eq_done.1 hr1
        obtain ⟨_, hmR, rfl⟩ := vset_eq_done.1 hr2
        obtain ⟨_, hmC, rfl⟩ := vset_eq_done.1 hcaps
        simp only [Int.toNat_ofNat, List.length_set] at hmR hmC ⊢
        rw [weight_of_id hea hwt]
        exact capInv_synth hcap hea hl hseen hm hn hmR hmC
      · rw [if_pos hx] at h; cases h; exact hcap
  · by_cases hR : getIdFromSrcDst g n i = -1
    · obtain ⟨a, e, ha, hea, h1, h2, haNE⟩ := getId_edge hE
      have hl : lacksReverse g e = true := by
        unfold lacksReverse; rw [h1, h2, hR]; simp
      have ha1 : ¬ ((a : Int) = -1) := by omega
      simp only [fillStep, hR, ha, hm, Run.bind_eq_done] at h
      obtain ⟨seen, hseen, h⟩ := h
      rw [show max (a : Int) (-1) = (a : Int) from by omega] at hseen
      obtain ⟨_, hseen⟩ := vget_eq_done.1 hseen
      simp only [Int.toNat_ofNat] at hseen
      by_cases hx : seen = -1
      · subst hx
        simp only [ne_eq, not_true_eq_false, if_false, if_true, ha1, Run.bind_eq_done] at h
        obtain ⟨r1, hr1, r2, hr2, w, hwt, caps, hcaps, h⟩ := h
        cases h
        obtain ⟨_, _, rfl⟩ := vset_eq_done.1 hr1
        obtain ⟨_, hmR, rfl⟩ := vset_eq_done.1 hr2
        obtain ⟨_, hmC, rfl⟩ := vset_eq_done.1 hcaps
        simp only [Int.toNat_ofNat, List.length_set] at hmR hmC ⊢
        rw [weight_of_id hea hwt]
        exact capInv_synth hcap hea hl hseen hm hn hmR hmC
      · rw [if_pos hx] at h; cases h; exact hcap
    · obtain ⟨a, ea, ha, hea, ha1, ha2, haNE⟩ := getId_edge hE
      obtain ⟨b, eb, hb, heb, hb1, hb2, hbNE⟩ := getId_edge hR
      have hsrc : ea.src = eb.dst := by rw [ha1, hb2]
      have hdst : ea.dst = eb.src := by rw [ha2, hb1]
      have ha0 : ¬ ((a : Int) = -1) := by omega
      have hb0 : ¬ ((b : Int) = -1) := by omega
      have hUa : a < st.reverse.length := by rw [hinv.lenR, hs.count]; omega
      have hUb : b < st.reverse.length := by rw [hinv.lenR, hs.count]; omega
      obtain ⟨xa, hga⟩ : ∃ xa, st.reverse[a]? = some xa := ⟨_, List.getElem?_eq_getElem hUa⟩
      obtain ⟨xb, hgb⟩ : ∃ xb, st.reverse[b]? = some xb := ⟨_, List.getElem?_eq_getElem hUb⟩
      have hboth := fillInv_pair hs hinv hea heb hsrc hdst hga hgb
      simp only [fillStep, ha, hb, Run.bind_eq_done] at h
      obtain ⟨seen, hseen, h⟩ := h
      obtain ⟨_, hseen⟩ := vget_eq_done.1 hseen
      by_cases hx : seen = -1
      · subst hx
        have hra : st.reverse[a]? = some (-1) ∧ st.reverse[b]? = some (-1) := by
          rcases le_total (a : Int) (b : Int) with hle | hle
          · rw [max_eq_right hle, Int.toNat_ofNat, hgb] at hseen
            have hxb : xb = -1 := Option.some.inj hseen
            have hxa : xa = -1 := by
              by_contra hc; exact (hboth.1 hc) hxb
            rw [hga, hgb, hxa, hxb]; exact ⟨rfl, rfl⟩
          · rw [max_eq_left hle, Int.toNat_ofNat, hga] at hseen
            have hxa : xa = -1 := Option.some.inj hseen
            have hxb : xb = -1 := by
              by_contra hc; exact (hboth.2 hc) hxa
            rw [hga, hgb, hxa, hxb]; exact ⟨rfl, rfl⟩
        simp only [ne_eq, not_true_eq_false, if_false, if_true, ha0, hb0, Run.bind_eq_done] at h
        obtain ⟨r1, hr1, r2, hr2, c1, hc1, w1, hw1, caps1, hcaps1, c2, hc2, w2, hw2, caps2,
          hcaps2, h⟩ := h
        cases h
        obtain ⟨_, _, rfl⟩ := vset_eq_done.1 hr1
        obtain ⟨_, _, rfl⟩ := vset_eq_done.1 hr2
        obtain ⟨_, hc1⟩ := vget_eq_done.1 hc1
        obtain ⟨_, _, rfl⟩ := vset_eq_done.1 hcaps1
        obtain ⟨_, hc2⟩ := vget_eq_done.1 hc2
        obtain ⟨_, _, rfl⟩ := vset_eq_done.1 hcaps2
        simp only [Int.toNat_ofNat] at hc1 hc2 ⊢
        rw [weight_of_id heb hw1] at hc2 ⊢
        rw [weight_of_id hea hw2]
        exact capInv_fold hs hcap hea heb hsrc hdst hra.1 hra.2 hc1 hc2
      · rw [if_pos hx] at h; cases h; exact hcap

theorem fillInner_capInv {g : Graph} (hs : BuilderInput g) (i : Int) :
    ∀ (ns : List Int) (st st' : FillState), FillInv g st → CapInv g st →
      (∀ n ∈ ns, Adjacent g i n) → fillInner g i ns st = Run.done st' →
      FillInv g st' ∧ CapInv g st' := by
  intro ns
  induction ns with
  | nil => intro st st' h1 h2 _ h; simp only [fillInner] at h; cases h; exact ⟨h1, h2⟩
  | cons n ns ih =>
    intro st st' h1 h2 hadj h
    simp only [fillInner, Run.bind_eq_done] at h
    obtain ⟨st1, hst1, h⟩ := h
    obtain ⟨st1', h3, h4, _, _⟩ := fillStep_ok hs h1 (hadj n (List.mem_cons_self _ _))
    rw [hst1] at h3; cases h3
    exact ih st1 st' h4 (fillStep_capInv hs h1 h2 hst1)
      (fun m hm => hadj m (List.mem_cons_of_mem _ hm)) h

theorem fillOuter_capInv {g : Graph} (hs : BuilderInput g) :
    ∀ (is : List Int) (st st' : FillState), FillInv g st → CapInv g st →
      (∀ i ∈ is, ∀ n ∈ getNeighbourListFor g i, Adjacent g i n) →
      fillOuter g is st = Run.done st' → FillInv g st' ∧ CapInv g st' := by
  intro is
  induction is with
  | nil => intro st st' h1 h2 _ h; simp only [fillOuter] at h; cases h; exact ⟨h1, h2⟩
  | cons i is ih =>
    intro st st' h1 h2 hadj h
    simp only [fillOuter, Run.bind_eq_done] at h
    obtain ⟨st1, hst1, h⟩ := h
    obtain ⟨h3, h4⟩ := fillInner_capInv hs i _ st st1 h1 h2 (hadj i (List.mem_cons_self _ _)) hst1
    exact ih st1 st' h3 h4 (fun j hj => hadj j (List.mem_cons_of_mem _ hj)) h

theorem capInv_init (g : Graph) :
    CapInv g ⟨List.replicate g.undirectedNumEdges (-1),
      resize (getWeights g) g.undirectedNumEdges, 0⟩ := by
  constructor
  · intro i e r c hi hr hc
    have hi0 : i < g.edges.length := (List.getElem?_eq_some_iff.1 hi).1
    simp only [List.getElem?_replicate] at hr
    split at hr
    · cases hr
      rw [if_pos (Or.inl rfl)]
      have hlen : i < (resize (getWeights g) g.undirectedNumEdges).length :=
        (List.getElem?_eq_some_iff.1 hc).1
      simp only [resize] at hc hlen
      rw [List.getElem?_take_of_lt (by simp at hlen; omega),
        List.getElem?_append_left (by simpa [getWeights] using hi0)] at hc
      unfold getWeights at hc
      rw [List.getElem?_map, hi] at hc
      exact (Option.some.inj hc).symm
    · cases hr
  · intro j h1 h2
    simp only at h2
    omega

/-- The builder on a well-formed input, started as in `LFFlow`: it returns, and the state it
returns satisfies the reverse-map and the capacity invariants with every id assigned. -/
theorem fill_final {g : Graph} (hs : BuilderInput g) :
    ∃ st, fillOuter g (nodeIds g.NV) ⟨List.replicate g.undirectedNumEdges (-1),
        resize (getWeights g) g.undirectedNumEdges, 0⟩ = Run.done st ∧
      FillInv g st ∧ CapInv g st ∧
      ∀ e : Nat, e < g.undirectedNumEdges →
        ∃ r : Int, st.reverse[e]? = some r ∧ r ≠ -1 ∧ 0 ≤ r ∧ r < g.undirectedNumEdges ∧
          st.reverse[r.toNat]? = some (e : Int) := by
  obtain ⟨st, h1, hinv, h2⟩ := fill_reverse_involution hs
    (resize (getWeights g) g.undirectedNumEdges) (resize_length _ _)
  have hadj : ∀ i ∈ nodeIds g.NV, ∀ n ∈ getNeighbourListFor g i, Adjacent g i n := by
    intro i hi n hn
    obtain ⟨u, hu, rfl⟩ := mem_nodeIds.1 hi
    exact hs.listsAdjacent u (List.mem_range.2 hu) n hn
  exact ⟨st, h1, hinv,
    (fillOuter_capInv hs _ _ st (fillInv_init g _ (resize_length _ _)) (capInv_init g) hadj h1).2,
    h2⟩

theorem fillStep_skip {g : Graph} {st : FillState} {u v x : Int}
    (h : vget st.reverse (max (getIdFromSrcDst g u v) (getIdFromSrcDst g v u)) = Run.done x)
    (hx : x ≠ -1) : fillStep g u v st = Run.done st := by
  simp only [fillStep, h, Run.done_bind, if_pos hx]

/-! ## The residual network: edge ids and their end points -/

theorem residualNet_of_fill {g : Graph} (hs : BuilderInput g) {st : FillState}
    (hinv : FillInv g st)
    (hall : ∀ e : Nat, e < g.undirectedNumEdges →
      ∃ r : Int, st.reverse[e]? = some r ∧ r ≠ -1 ∧ 0 ≤ r ∧ r < g.undirectedNumEdges ∧
        st.reverse[r.toNat]? = some (e : Int)) : ResidualNet g st.reverse := by
  have hcount := hs.count
  have hNE : getNE g = (g.edges.length : Int) := rfl
  refine ⟨hinv.lenR, by omega, ?_, ?_⟩
  · intro i e he
    have hi : i < g.edges.length := (List.getElem?_eq_some_iff.1 he).1
    obtain ⟨r, hr, hne, h0, _, hback⟩ := hall i (by omega)
    obtain ⟨_, _, h3⟩ := hinv.orig i e r he hr hne
    refine ⟨r, hr, h0, hback, ?_⟩
    split
    · rename_i hl; rw [if_pos hl] at h3; exact h3.1
    · rename_i hl; rw [if_neg hl] at h3; exact h3
  · intro j hj1 hj2
    obtain ⟨r, hr, hne, h0, hlt, hback⟩ := hall j hj2
    refine ⟨r, hr, h0, ?_, hback⟩
    by_contra hcon
    have hrU : r.toNat < g.undirectedNumEdges := by omega
    obtain ⟨r2, hr2, h2, h3, h4⟩ := hinv.synth r.toNat (by omega) (by
      have hfull := doneCount_full g g.edges st.reverse (fun i e' he' => by
        have : i < g.edges.length := (List.getElem?_eq_some_iff.1 he').1
        obtain ⟨r', hr', hne', _⟩ := hall i (by omega)
        exact ⟨r', hr', hne'⟩)
      unfold countLacking at hcount
      rw [hinv.cnt, hfull, hNE]; omega)
    rw [hback] at hr2
    have := Option.some.inj hr2
    omega

theorem LFInit_fields {g : Graph} {s : Int} {st : LFState} (h : LFInit g s = Run.done st) :
    ∃ fst, fillOuter g (nodeIds g.NV) ⟨List.replicate g.undirectedNumEdges (-1),
        resize (getWeights g) g.undirectedNumEdges, 0⟩ = Run.done fst ∧
      ∃ hts, vset (List.replicate g.NV (0 : Int)) s (getNV g) = Run.done hts ∧
        initialPreflow g s (getNeighbours g s)
          { heights := hts, excess := List.replicate g.NV (0 : Int),
            capacities := fst.capacities, reverse := fst.reverse, residuals := fst.capacities,
            wave := List.replicate g.NV (0 : Int), activeNodes := [],
            isActive := List.replicate g.NV false, currentWave := 0,
            itersSinceGlobalRelabel := 0 } = Run.done st := by
  simp only [LFInit, fillReverseAndCapacityVectors, Run.bind_eq_done] at h
  obtain ⟨⟨rev, caps⟩, ⟨fst, hfill, hrc⟩, hts, hhts, h⟩ := h
  cases hrc
  exact ⟨fst, hfill, hts, hhts, h⟩

theorem initialPreflow_fields {g : Graph} (s : Int) :
    ∀ (ns : List Int) (st st' : LFState), initialPreflow g s ns st = Run.done st' →
      st'.heights = st.heights ∧ st'.reverse = st.reverse ∧ st'.capacities = st.capacities ∧
      st'.wave = st.wave ∧ st'.residuals.length = st.residuals.length ∧
      st'.excess.length = st.excess.length ∧ st'.isActive.length = st.isActive.length := by
  intro ns
  induction ns with
  | nil => intro st st' h; simp only [initialPreflow] at h; cases h; simp
  | cons n ns ih =>
    intro st st' h
    simp only [initialPreflow, Run.bind_eq_done] at h
    obtain ⟨res1, hres1, rev, _, c, hc, res2, hres2, w, hwt, ex1, hex1, es, hes, w2, hwt2,
      ex2, hex2, ia, hia, h⟩ := h
    obtain ⟨_, _, rfl⟩ := vset_eq_done.1 hres1
    obtain ⟨_, _, rfl⟩ := vset_eq_done.1 hres2
    obtain ⟨_, _, rfl⟩ := vset_eq_done.1 hex1
    obtain ⟨_, _, rfl⟩ := vset_eq_done.1 hex2
    obtain ⟨_, _, rfl⟩ := vset_eq_done.1 hia
    have := ih _ st' h
    simpa using this

theorem LFInit_residualNet {g : Graph} (hs : BuilderInput g) {s : Int} {st : LFState}
    (h : LFInit g s = Run.done st) :
    ResidualNet g st.reverse ∧ st.residuals.length = g.undirectedNumEdges := by
  obtain ⟨fst, hfill, hts, _, hpre⟩ := LFInit_fields h
  obtain ⟨fst', hfill', hinv, _, hall⟩ := fill_final hs
  rw [hfill] at hfill'; cases hfill'
  obtain ⟨_, h2, _, _, h5, _⟩ := initialPreflow_fields s _ _ _ hpre
  simp only at h2 h5
  rw [h2, h5]
  exact ⟨residualNet_of_fill hs hinv hall, hinv.lenC⟩

theorem resEnds_orig {g : Graph} (reverse : List Int) {i : Nat} {e : Edge}
    (he : g.edges[i]? = some e) : resEnds g reverse i = some (e.src, e.dst) := by
  simp only [resEnds, he]

theorem resEnds_synth {g : Graph} {reverse : List Int} {j : Nat} {r : Int} {e : Edge}
    (hj : g.edges.length ≤ j) (hr : reverse[j]? = some r) (h0 : 0 ≤ r)
    (he : g.edges[r.toNat]? = some e) : resEnds g reverse j = some (e.dst, e.src) := by
  have hnone : g.edges[j]? = none := List.getElem?_eq_none hj
  simp only [resEnds, hnone, hr, he]
  rw [if_neg (by omega)]

/-- The id computed by `residualEdgeId(u, v)` is an edge id of the residual network with end
points `(u, v)`. -/
theorem residualEdgeId_ends {g : Graph} {reverse : List Int}
    (hnet : ResidualNet g reverse) {u v id : Int}
    (h : residualEdgeId g reverse u v = Run.done id) :
    0 ≤ id ∧ id.toNat < g.undirectedNumEdges ∧ resEnds g reverse id.toNat = some (u, v) := by
  unfold residualEdgeId at h
  simp only at h
  split at h
  · rename_i hE
    obtain ⟨hk0, hk⟩ := vget_eq_done.1 h
    have hR : getIdFromSrcDst g v u ≠ -1 := by omega
    obtain ⟨a, e, ha, hea, h1, h2, haNE⟩ := getId_edge hR
    rw [ha] at hk
    simp only [Int.toNat_ofNat] at hk
    obtain ⟨r, hr, hr0, hback, hif⟩ := hnet.orig a e hea
    rw [hk] at hr; cases hr
    have hl : lacksReverse g e = true := by
      unfold lacksReverse; rw [h1, h2, hE]; simp
    rw [if_pos hl] at hif
    have hNE : getNE g = (g.edges.length : Int) := rfl
    have hlt : id.toNat < reverse.length := (List.getElem?_eq_some_iff.1 hback).1
    refine ⟨hr0, by rw [← hnet.len]; exact hlt, ?_⟩
    rw [resEnds_synth (by omega) hback (by omega) (by simpa using hea), h1, h2]
  · rename_i hE
    cases h
    obtain ⟨a, e, ha, hea, h1, h2, haNE⟩ := getId_edge hE
    have := hnet.le
    rw [ha]
    simp only [Int.toNat_ofNat]
    exact ⟨by omega, by omega, by rw [resEnds_orig reverse hea, h1, h2]⟩

/-- The end points of an edge id of the residual network, case by case. -/
theorem resEnds_cases {g : Graph} {reverse : List Int} (hnet : ResidualNet g reverse)
    {e : Nat} (he : e < g.undirectedNumEdges) :
    (∃ ed, g.edges[e]? = some ed ∧ resEnds g reverse e = some (ed.src, ed.dst)) ∨
    (g.edges.length ≤ e ∧ ∃ (r : Nat) (ed : Edge), reverse[e]? = some (r : Int) ∧
      reverse[r]? = some (e : Int) ∧ g.edges[r]? = some ed ∧ lacksReverse g ed = true ∧
      resEnds g reverse e = some (ed.dst, ed.src)) := by
  by_cases hlt : e < g.edges.length
  · left
    exact ⟨g.edges[e], List.getElem?_eq_getElem hlt, resEnds_orig reverse (List.getElem?_eq_getElem hlt)⟩
  · right
    have hNE : getNE g = (g.edges.length : Int) := rfl
    obtain ⟨r, hr, hr0, hrlt, hback⟩ := hnet.synth e (by omega) he
    have hrNE : r.toNat < g.edges.length := by omega
    obtain ⟨ed, hed⟩ : ∃ ed, g.edges[r.toNat]? = some ed := ⟨_, List.getElem?_eq_getElem hrNE⟩
    obtain ⟨r2, hr2, _, _, hif⟩ := hnet.orig r.toNat ed hed
    rw [hback] at hr2; cases hr2
    have hl : lacksReverse g ed = true := by
      by_contra hl
      rw [if_neg hl] at hif
      by_cases hid : getIdFromSrcDst g ed.dst ed.src = -1
      · omega
      · have := getId_lt hid
        omega
    refine ⟨by omega, r.toNat, ed, ?_, hback, hed, hl, resEnds_synth (by omega) hr hr0 hed⟩
    rw [hr, show ((r.toNat : Nat) : Int) = r from by omega]

theorem resEnds_nodes {g : Graph} (hs : BuilderInput g) {reverse : List Int}
    (hnet : ResidualNet g reverse) {e : Nat} (he : e < g.undirectedNumEdges) {u v : Int}
    (h : resEnds g reverse e = some (u, v)) :
    0 ≤ u ∧ u < g.NV ∧ 0 ≤ v ∧ v < g.NV ∧ u ≠ v ∧ Adjacent g u v := by
  rcases resEnds_cases hnet he with ⟨ed, hed, h1⟩ | ⟨_, r, ed, _, _, hed, _, h1⟩
  · rw [h1] at h; cases h
    have hmem : ed ∈ g.edges := List.mem_iff_getElem?.2 ⟨e, hed⟩
    obtain ⟨h2, h3, h4, h5⟩ := hs.nodes ed hmem
    exact ⟨h2, h3, h4, h5, hs.noLoop ed hmem, ed, hmem, Or.inl ⟨rfl, rfl⟩⟩
  · rw [h1] at h; cases h
    have hmem : ed ∈ g.edges := List.mem_iff_getElem?.2 ⟨r, hed⟩
    obtain ⟨h2, h3, h4, h5⟩ := hs.nodes ed hmem
    exact ⟨h4, h5, h2, h3, fun hc => hs.noLoop ed hmem hc.symm, ed, hmem, Or.inr ⟨rfl, rfl⟩⟩

/-- An edge id of the residual network is the id `residualEdgeId` computes for its end
points. -/
theorem resEnds_residualEdgeId {g : Graph} (hs : BuilderInput g) {reverse : List Int}
    (hnet : ResidualNet g reverse) {e : Nat} (he : e < g.undirectedNumEdges) {u v : Int}
    (h : resEnds g reverse e = some (u, v)) :
    residualEdgeId g reverse u v = Run.done (e : Int) := by
  rcases resEnds_cases hnet he with ⟨ed, hed, h1⟩ | ⟨_, r, ed, _, hback, hed, hl, h1⟩
  · rw [h1] at h; cases h
    have := getId_of_edge hs hed
    simp only [residualEdgeId, this]
    rw [if_neg (by omega)]
  · rw [h1] at h; cases h
    have hid := getId_of_edge hs hed
    have hno : getIdFromSrcDst g ed.dst ed.src = -1 := by
      unfold lacksReverse at hl
      simpa using hl
    simp only [residualEdgeId, hno, hid, if_true]
    exact vget_ok (by omega) (by simpa using hback)

/-- The reverse of an edge id has the end points swapped. -/
theorem resEnds_reverse {g : Graph} (hs : BuilderInput g) {reverse : List Int}
    (hnet : ResidualNet g reverse) {e : Nat} (he : e < g.undirectedNumEdges) {u v r : Int}
    (h : resEnds g reverse e = some (u, v)) (hr : reverse[e]? = some r) :
    0 ≤ r ∧ r.toNat < g.undirectedNumEdges ∧ r.toNat ≠ e ∧
      reverse[r.toNat]? = some (e : Int) ∧ resEnds g reverse r.toNat = some (v, u) := by
  have hNE : getNE g = (g.edges.length : Int) := rfl
  rcases resEnds_cases hnet he with ⟨ed, hed, h1⟩ | ⟨hge, r', ed, hr', hback, hed, hl, h1⟩
  · rw [h1] at h; cases h
    have heNE : e < g.edges.length := (List.getElem?_eq_some_iff.1 hed).1
    obtain ⟨r2, hr2, hr0, hback, hif⟩ := hnet.orig e ed hed
    rw [hr] at hr2; cases hr2
    have hlt : r.toNat < reverse.length := (List.getElem?_eq_some_iff.1 hback).1
    rw [hnet.len] at hlt
    by_cases hl : lacksReverse g ed = true
    · rw [if_pos hl] at hif
      exact ⟨hr0, hlt, by omega, hback,
        resEnds_synth (by omega) hback (by omega) (by simpa using hed)⟩
    · rw [if_neg hl] at hif
      have hne : getIdFromSrcDst g ed.dst ed.src ≠ -1 := by
        unfold lacksReverse at hl; simpa using hl
      obtain ⟨b, eb, hb, heb, hb1, hb2, _⟩ := getId_edge hne
      have hrb : r.toNat = b := by omega
      rw [hrb]
      rw [hrb] at hback
      refine ⟨hr0, by omega, ?_, hback, by rw [resEnds_orig reverse heb, hb1, hb2]⟩
      rintro rfl
      rw [hed] at heb; cases heb
      exact hs.noLoop ed (List.mem_iff_getElem?.2 ⟨b, hed⟩) hb2.symm
  · rw [h1] at h; cases h
    rw [hr] at hr'; cases hr'
    have hrNE : r' < g.edges.length := (List.getElem?_eq_some_iff.1 hed).1
    have := hnet.le
    simp only [Int.toNat_ofNat]
    exact ⟨by omega, by omega, by omega, hback, resEnds_orig reverse hed⟩

/-! ## Admissibility -/

theorem admissible_iff {g : Graph} {st : LFState} :
    Admissible g st ↔ ∀ (e : Nat) (u v r hu hv : Int), resEnds g st.reverse e = some (u, v) →
      st.residuals[e]? = some r → st.heights[u.toNat]? = some hu →
      st.heights[v.toNat]? = some hv → 0 < r → hu ≤ hv + 1 := by
  constructor
  · intro h e u v r hu hv h1 h2 h3 h4 h5
    have hlt : e < st.residuals.length := (List.getElem?_eq_some_iff.1 h2).1
    have := h e hlt
    simp only [steep, h1, h2, h3, h4, decide_eq_false_iff_not, not_and, not_lt] at this
    exact this h5
  · intro h e he
    unfold steep
    split
    · rename_i u v h1
      split
      · rename_i r hu hv h2 h3 h4
        simp only [decide_eq_false_iff_not, not_and, not_lt]
        exact fun h5 => h e u v r hu hv h1 h2 h3 h4 h5
      · rfl
    · rfl

/-- What the neighbour scan of `process` returns: a height no larger than the start value,
attained at a scanned neighbour with positive residual unless nothing was found, and no larger
than the height of any scanned neighbour with positive residual. -/
theorem scanNeighbours_spec (g : Graph) (node : Int) (heights reverse residuals : List Int) :
    ∀ (ns : List Int) (acc out : Int × Int),
      scanNeighbours g node heights reverse residuals ns acc = Run.done out →
      out.2 ≤ acc.2 ∧
      (out = acc ∨ (out.2 < acc.2 ∧ out.1 ∈ ns ∧
        ∃ id r, residualEdgeId g reverse node out.1 = Run.done id ∧
          vget residuals id = Run.done r ∧ 0 < r ∧ vget heights out.1 = Run.done out.2)) ∧
      ∀ n ∈ ns, ∀ (id r hn : Int), residualEdgeId g reverse node n = Run.done id →
        vget residuals id = Run.done r → 0 < r → vget heights n = Run.done hn → out.2 ≤ hn := by
  intro ns
  induction ns with
  | nil =>
    intro acc out h
    simp only [scanNeighbours] at h
    cases h
    exact ⟨le_refl _, Or.inl rfl, fun n hn => by cases hn⟩
  | cons n ns ih =>
    intro acc out h
    simp only [scanNeighbours, Run.bind_eq_done] at h
    obtain ⟨id, hid, r, hr, h⟩ := h
    split at h
    · rename_i hle
      obtain ⟨h1, h2, h3⟩ := ih acc out h
      refine ⟨h1, ?_, ?_⟩
      · rcases h2 with h2 | ⟨h0, h2, h4⟩
        · exact Or.inl h2
        · exact Or.inr ⟨h0, List.mem_cons_of_mem _ h2, h4⟩
      · intro m hm id' r' hn' hid' hr' hpos hh
        rcases List.mem_cons.1 hm with rfl | hm
        · rw [hid] at hid'; cases hid'
          rw [hr] at hr'; cases hr'
          omega
        · exact h3 m hm id' r' hn' hid' hr' hpos hh
    · rename_i hpos
      simp only [Run.bind_eq_done] at h
      obtain ⟨hn, hhn, h⟩ := h
      split at h
      · rename_i hlt
        obtain ⟨h1, h2, h3⟩ := ih (n, hn) out h
        simp only at h1
        refine ⟨by omega, ?_, ?_⟩
        · right
          rcases h2 with h2 | ⟨h0, h2, h4⟩
          · subst h2
            exact ⟨hlt, List.mem_cons_self _ _, id, r, hid, hr, by omega, hhn⟩
          · exact ⟨by simp only at h0; omega, List.mem_cons_of_mem _ h2, h4⟩
        · intro m hm id' r' hn' hid' hr' hpos' hh
          rcases List.mem_cons.1 hm with rfl | hm
          · rw [hhn] at hh; cases hh
            exact h1
          · exact h3 m hm id' r' hn' hid' hr' hpos' hh
      · rename_i hge
        obtain ⟨h1, h2, h3⟩ := ih acc out h
        refine ⟨h1, ?_, ?_⟩
        · rcases h2 with h2 | ⟨h0, h2, h4⟩
          · exact Or.inl h2
          · exact Or.inr ⟨h0, List.mem_cons_of_mem _ h2, h4⟩
        · intro m hm id' r' hn' hid' hr' hpos' hh
          rcases List.mem_cons.1 hm with rfl | hm
          · rw [hhn] at hh; cases hh
            omega
          · exact h3 m hm id' r' hn' hid' hr' hpos' hh

theorem pushAlong_residuals {node nextV t edgeId delta : Int} {st st' : LFState}
    (h : pushAlong node nextV t edgeId delta st = Run.done st') :
    ∃ r rev rr, vget st.residuals edgeId = Run.done r ∧ vget st.reverse edgeId = Run.done rev ∧
      vget (st.residuals.set edgeId.toNat (wrap (r - delta))) rev = Run.done rr ∧
      st'.residuals = (st.residuals.set edgeId.toNat (wrap (r - delta))).set rev.toNat
        (wrap (rr + delta)) := by
  obtain ⟨r, rev, rr, _, _, hr, hrev, hrr, _, _, h1, _⟩ := pushAlong_spec h
  exact ⟨r, rev, rr, hr, hrev, hrr, h1⟩

theorem adjacent_mem_list {g : Graph} (hs : BuilderInput g) {u v : Int} (h : Adjacent g u v) :
    v ∈ getNeighbourListFor g u := by
  obtain ⟨ed, hmem, ⟨h1, h2⟩ | ⟨h1, h2⟩⟩ := h
  · have := (hs.listsComplete ed hmem).1
    rwa [h1, h2] at this
  · have := (hs.listsComplete ed hmem).2
    rwa [h1, h2] at this

/-- The node chosen by the scan of `processBody` is a neighbour with positive residual at
the height the scan returns. -/
theorem scan_found {g : Graph} (hs : BuilderInput g) {node : Int} {st : LFState}
    (hnet : ResidualNet g st.reverse) {nextV hh edgeId : Int}
    (hscan : scanNeighbours g node st.heights st.reverse st.residuals
      (getNeighbourListFor g node) (-1, LONG_MAX) = Run.done (nextV, hh))
    (hedge : residualEdgeId g st.reverse node nextV = Run.done edgeId) :
    nextV ∈ getNeighbourListFor g node ∧ hh < LONG_MAX ∧
      ∃ r, vget st.residuals edgeId = Run.done r ∧ 0 < r ∧
        vget st.heights nextV = Run.done hh := by
  obtain ⟨_, hendsU, hends⟩ := residualEdgeId_ends hnet hedge
  obtain ⟨_, _, hv0, _, _, _⟩ := resEnds_nodes hs hnet hendsU hends
  obtain ⟨h1, h2, _⟩ := scanNeighbours_spec g node st.heights st.reverse st.residuals _ _ _ hscan
  rcases h2 with h2 | ⟨h0, h2, id, r, h3, h4, h5, h6⟩
  · have : nextV = -1 := congrArg Prod.fst h2
    omega
  · simp only at h0 h2 h3 h6
    rw [hedge] at h3; cases h3
    exact ⟨h2, h0, r, h4, h5, h6⟩

/-- One iteration of the loop body of `process` keeps `heights[src] ≤ heights[dst] + 1` on the
residual-positive edge ids whose source satisfies `P`. -/
theorem processBody_admissible_on {g : Graph} (hs : BuilderInput g) (P : Int → Prop)
    {node t : Int} {st st' : LFState} (hnet : ResidualNet g st.reverse)
    (hlen : st.residuals.length = g.undirectedNumEdges)
    (hadm' : ∀ (e : Nat) (u v r hu hv : Int), P u → resEnds g st.reverse e = some (u, v) →
      st.residuals[e]? = some r → st.heights[u.toNat]? = some hu →
      st.heights[v.toNat]? = some hv → 0 < r → hu ≤ hv + 1)
    (h : processBody g node t st = Run.done st') :
    ∀ (e : Nat) (u v r hu hv : Int), P u → resEnds g st'.reverse e = some (u, v) →
      st'.residuals[e]? = some r → st'.heights[u.toNat]? = some hu →
      st'.heights[v.toNat]? = some hv → 0 < r → hu ≤ hv + 1 := by
  simp only [processBody, Run.bind_eq_done] at h
  obtain ⟨e, he, ⟨nextV, hh⟩, hscan, edgeId, hedge, hnode, hhnode, h⟩ := h
  simp only at hedge h
  obtain ⟨hmem, _, r, hr, hrpos, hhv⟩ := scan_found hs hnet hscan hedge
  obtain ⟨hid0, hendsU, hends⟩ := residualEdgeId_ends hnet hedge
  obtain ⟨hn0, _, hv0, _, hnv, _⟩ := resEnds_nodes hs hnet hendsU hends
  obtain ⟨_, hhnode'⟩ := vget_eq_done.1 hhnode
  obtain ⟨_, hhv'⟩ := vget_eq_done.1 hhv
  split at h
  · rename_i hgt
    simp only [Run.bind_eq_done] at h
    obtain ⟨r', hr', h⟩ := h
    rw [hr] at hr'; cases hr'
    obtain ⟨hf1, _, hf3, _⟩ := pushAlong_fields h
    obtain ⟨r1, rev, rr, h1, h2, h3, h4⟩ := pushAlong_residuals h
    rw [hr] at h1; cases h1
    obtain ⟨_, h2'⟩ := vget_eq_done.1 h2
    obtain ⟨hrev0, hrevU, hrevne, _, hrevends⟩ := resEnds_reverse hs hnet hendsU hends h2'
    intro e0 u v r0 hu hv hP g1 g2 g3 g4 g5
    rw [hf3] at g1
    rw [hf1] at g3 g4
    rw [h4] at g2
    rcases set_get_cases g2 with ⟨k1, _⟩ | ⟨k1, g2'⟩
    · subst k1
      rw [hrevends] at g1; cases g1
      rw [hhv'] at g3; cases g3
      rw [hhnode'] at g4; cases g4
      omega
    · rcases set_get_cases g2' with ⟨k2, _⟩ | ⟨k2, g2''⟩
      · subst k2
        obtain ⟨_, hr'⟩ := vget_eq_done.1 hr
        exact hadm' _ u v r hu hv hP g1 hr' g3 g4 hrpos
      · exact hadm' _ u v r0 hu hv hP g1 g2'' g3 g4 g5
  · rename_i hle
    simp only [Run.bind_eq_done] at h
    obtain ⟨hts, hhts, h⟩ := h
    cases h
    obtain ⟨_, _, rfl⟩ := vset_eq_done.1 hhts
    intro e0 u v r0 hu hv hP g1 g2 g3 g4 g5
    simp only at g1 g2 g3 g4
    have he0 : e0 < g.undirectedNumEdges := by
      rw [← hlen]; exact (List.getElem?_eq_some_iff.1 g2).1
    obtain ⟨hu0, _, hv0', _, huv, hadj⟩ := resEnds_nodes hs hnet he0 g1
    rcases set_get_cases g3 with ⟨k1, rfl⟩ | ⟨k1, _⟩
    · have hun : u = node := by omega
      subst hun
      rw [List.getElem?_set_ne (by omega)] at g4
      have hin := adjacent_mem_list hs hadj
      obtain ⟨_, _, h3⟩ := scanNeighbours_spec g u st.heights st.reverse st.residuals _ _ _ hscan
      have := h3 v hin e0 r0 hv (resEnds_residualEdgeId hs hnet he0 g1)
        (vget_ok (by omega) (by simpa using g2)) g5 (vget_ok hv0' g4)
      simp only at this
      omega
    · rename_i g3'
      rcases set_get_cases g4 with ⟨k2, rfl⟩ | ⟨k2, g4'⟩
      · have hvn : v = node := by omega
        subst hvn
        have := hadm' e0 u v r0 hu hnode hP g1 g2 g3' hhnode' g5
        omega
      · exact hadm' e0 u v r0 hu hv hP g1 g2 g3' g4' g5

theorem processBody_admissible {g : Graph} (hs : BuilderInput g) {node t : Int}
    {st st' : LFState} (hnet : ResidualNet g st.reverse)
    (hlen : st.residuals.length = g.undirectedNumEdges) (hadm : Admissible g st)
    (h : processBody g node t st = Run.done st') : Admissible g st' := by
  rw [admissible_iff]
  intro e u v r hu hv g1 g2 g3 g4 g5
  exact processBody_admissible_on hs (fun _ => True) hnet hlen
    (fun e u v r hu hv _ k1 k2 k3 k4 k5 => admissible_iff.1 hadm e u v r hu hv k1 k2 k3 k4 k5)
    h e u v r hu hv trivial g1 g2 g3 g4 g5

/-! ## Heights are only raised -/

theorem heightsRaised_refl (h : List Int) : HeightsRaised h h :=
  ⟨rfl, fun k x y h1 h2 => by rw [h1] at h2; cases h2; exact le_refl _⟩

theorem heightsRaised_trans {a b c : List Int} (h1 : HeightsRaised a b) (h2 : HeightsRaised b c) :
    HeightsRaised a c := by
  refine ⟨h2.1.trans h1.1, ?_⟩
  intro k x z hx hz
  have hk : k < b.length := by
    rw [h1.1]; exact (List.getElem?_eq_some_iff.1 hx).1
  exact le_trans (h1.2 k x _ hx (List.getElem?_eq_getElem hk))
    (h2.2 k _ z (List.getElem?_eq_getElem hk) hz)

theorem heightsRaised_set {h : List Int} {i : Nat} {x y : Int} (hx : h[i]? = some x)
    (hxy : x ≤ y) : HeightsRaised h (h.set i y) := by
  refine ⟨by simp, ?_⟩
  intro k a b ha hb
  rcases set_get_cases hb with ⟨rfl, rfl⟩ | ⟨_, hb⟩
  · rw [hx] at ha; cases ha; exact hxy
  · rw [ha] at hb; cases hb; exact le_refl _

theorem processBody_relabelStep {g : Graph} {node t : Int} {st st' : LFState}
    (h : processBody g node t st = Run.done st') : RelabelStep g node st st' := by
  simp only [processBody, Run.bind_eq_done] at h
  obtain ⟨e, he, ⟨nextV, hh⟩, hscan, edgeId, hedge, hnode, hhnode, h⟩ := h
  simp only at h
  split at h
  · simp only [Run.bind_eq_done] at h
    obtain ⟨r, _, h⟩ := h
    exact Or.inl (pushAlong_fields h).1
  · rename_i hle
    simp only [Run.bind_eq_done] at h
    obtain ⟨hts, hhts, h⟩ := h
    cases h
    obtain ⟨_, _, rfl⟩ := vset_eq_done.1 hhts
    exact Or.inr ⟨hnode, nextV, hh, hhnode, hscan, by omega, rfl,
      (scanNeighbours_spec g node st.heights st.reverse st.residuals _ _ _ hscan).2.2⟩

theorem processWithRelabelBody_relabelStep {g : Graph} {node t : Int} {st st' : LFState}
    (h : processWithRelabelBody g node t st = Run.done st') : RelabelStep g node st st' := by
  simp only [processWithRelabelBody, Run.bind_eq_done] at h
  obtain ⟨e, he, ⟨nextV, hh⟩, hscan, edgeId, hedge, hnode, hhnode, h⟩ := h
  simp only at h
  split at h
  · simp only [Run.bind_eq_done] at h
    obtain ⟨r, _, wn, _, wv, _, h⟩ := h
    split at h
    · simp only [Run.bind_eq_done] at h
      obtain ⟨hv, _, h⟩ := h
      split at h
      · exact Or.inl (pushAlong_fields h).1
      · cases h; exact Or.inl rfl
    · cases h; exact Or.inl rfl
  · split at h
    · simp only [Run.bind_eq_done] at h
      obtain ⟨hts, hhts, h⟩ := h
      cases h
      obtain ⟨_, _, rfl⟩ := vset_eq_done.1 hhts
      exact Or.inr ⟨hnode, nextV, hh, hhnode, hscan, by omega, rfl,
        (scanNeighbours_spec g node st.heights st.reverse st.residuals _ _ _ hscan).2.2⟩
    · cases h; exact Or.inl rfl

theorem relabelStep_raised {g : Graph} {node : Int} {st st' : LFState}
    (h : RelabelStep g node st st') : HeightsRaised st.heights st'.heights := by
  rcases h with h | ⟨x, _, hh, hx, _, hlt, hset, _⟩
  · rw [h]; exact heightsRaised_refl _
  · rw [hset]
    exact heightsRaised_set (vget_eq_done.1 hx).2 (by omega)

theorem bfsVisit_raised (g : Graph) (reverse residuals : List Int) (curNode currentWave : Int) :
    ∀ (ns : List Int) (st st' : BFSState),
      bfsVisit g reverse residuals curNode currentWave ns st = Run.done st' →
      HeightsRaised st.heights st'.heights := by
  intro ns
  induction ns with
  | nil => intro st st' h; simp only [bfsVisit] at h; cases h; exact heightsRaised_refl _
  | cons n ns ih =>
    intro st st' h
    simp only [bfsVisit, Run.bind_eq_done] at h
    obtain ⟨id, _, r, _, h⟩ := h
    split at h
    · exact ih st st' h
    · simp only [Run.bind_eq_done] at h
      obtain ⟨c, _, h⟩ := h
      split at h
      · simp only [Run.bind_eq_done] at h
        obtain ⟨col, _, hn, hhn, hts, hhts, wv, _, h⟩ := h
        have h1 := ih _ st' h
        simp only at h1
        refine heightsRaised_trans ?_ h1
        split at hhts
        · rename_i hlt
          obtain ⟨_, _, rfl⟩ := vset_eq_done.1 hhts
          exact heightsRaised_set (vget_eq_done.1 hhn).2 (by omega)
        · cases hhts; exact heightsRaised_refl _
      · exact ih st st' h

theorem bfsLoop_raised (g : Graph) (reverse residuals : List Int) (currentWave : Int) :
    ∀ (fuel : Nat) (st st' : BFSState),
      bfsLoop g reverse residuals currentWave fuel st = Run.done st' →
      HeightsRaised st.heights st'.heights := by
  intro fuel
  induction fuel with
  | zero => intro st st' h; simp [bfsLoop] at h
  | succ fuel ih =>
    intro st st' h
    simp only [bfsLoop] at h
    split at h
    · cases h; exact heightsRaised_refl _
    · simp only [Run.bind_eq_done] at h
      obtain ⟨st1, h1, h⟩ := h
      have h2 := bfsVisit_raised g reverse residuals _ currentWave _ _ _ h1
      exact heightsRaised_trans h2 (ih st1 st' h)

theorem globalRelabel_raised {fuel : Nat} {g : Graph} {s t : Int} {st st' : LFState}
    (h : globalRelabel fuel g s t st = Run.done st') :
    HeightsRaised st.heights st'.heights := by
  simp only [globalRelabel, BFSColoring, Run.bind_eq_done] at h
  obtain ⟨b1, h1, h⟩ := h
  have r1 := bfsLoop_raised g _ _ _ fuel _ _ h1
  split at h
  · simp only [Run.bind_eq_done] at h
    obtain ⟨b2, h2, h⟩ := h
    have r2 := bfsLoop_raised g _ _ _ fuel _ _ h2
    cases h
    exact heightsRaised_trans r1 r2
  · cases h
    exact r1

theorem processBody_fields {g : Graph} {node t : Int} {st st' : LFState}
    (h : processBody g node t st = Run.done st') :
    st'.reverse = st.reverse ∧ st'.capacities = st.capacities ∧
      st'.residuals.length = st.residuals.length ∧ st'.heights.length = st.heights.length := by
  simp only [processBody, Run.bind_eq_done] at h
  obtain ⟨e, he, ⟨nextV, hh⟩, hscan, edgeId, hedge, hnode, hhnode, h⟩ := h
  simp only at h
  split at h
  · simp only [Run.bind_eq_done] at h
    obtain ⟨r, _, h⟩ := h
    obtain ⟨h1, h2, h3, _⟩ := pushAlong_fields h
    obtain ⟨_, _, _, _, _, _, h4⟩ := pushAlong_residuals h
    refine ⟨h3, h2, ?_, by rw [h1]⟩
    rw [h4]; simp
  · simp only [Run.bind_eq_done] at h
    obtain ⟨hts, hhts, h⟩ := h
    cases h
    obtain ⟨_, _, rfl⟩ := vset_eq_done.1 hhts
    simp

/-- The two ways one iteration of the loop body of `process` can go. -/
theorem processBody_cases {g : Graph} {node t : Int} {st st' : LFState}
    (h : processBody g node t st = Run.done st') :
    ∃ e nextV hh edgeId hnode, vget st.excess node = Run.done e ∧
      scanNeighbours g node st.heights st.reverse st.residuals (getNeighbourListFor g node)
        (-1, LONG_MAX) = Run.done (nextV, hh) ∧
      residualEdgeId g st.reverse node nextV = Run.done edgeId ∧
      vget st.heights node = Run.done hnode ∧
      ((hh < hnode ∧ ∃ r, vget st.residuals edgeId = Run.done r ∧
          pushAlong node nextV t edgeId (min e r) st = Run.done st') ∨
        (hnode ≤ hh ∧ st'.heights = st.heights.set node.toNat (hh + 1) ∧
          st'.excess = st.excess ∧ st'.residuals = st.residuals ∧ st'.reverse = st.reverse ∧
          st'.activeNodes = st.activeNodes ∧ st'.isActive = st.isActive)) := by
  simp only [processBody, Run.bind_eq_done] at h
  obtain ⟨e, he, ⟨nextV, hh⟩, hscan, edgeId, hedge, hnode, hhnode, h⟩ := h
  simp only at hedge h
  refine ⟨e, nextV, hh, edgeId, hnode, he, hscan, hedge, hhnode, ?_⟩
  split at h
  · rename_i hgt
    simp only [Run.bind_eq_done] at h
    obtain ⟨r, hr, h⟩ := h
    exact Or.inl ⟨by omega, r, hr, h⟩
  · rename_i hle
    simp only [Run.bind_eq_done] at h
    obtain ⟨hts, hhts, h⟩ := h
    cases h
    obtain ⟨_, _, rfl⟩ := vset_eq_done.1 hhts
    exact Or.inr ⟨by omega, rfl, rfl, rfl, rfl, rfl, rfl⟩


/-! ## Admissibility after the initial preflow -/

theorem residualEdgeId_orig {g : Graph} (reverse : List Int) {u v : Int}
    (h : getIdFromSrcDst g u v ≠ -1) :
    residualEdgeId g reverse u v = Run.done (getIdFromSrcDst g u v) := by
  simp only [residualEdgeId, if_neg h]

/-- The initial-preflow loop leaves residual `0` on the edge from `s` to every neighbour it
has visited. -/
theorem initialPreflow_zero {g : Graph} (hs : BuilderInput g) (s : Int) :
    ∀ (ns visited : List Int) (st st' : LFState), ResidualNet g st.reverse →
      st.residuals.length = g.undirectedNumEdges →
      (∀ n ∈ visited, 0 ≤ getIdFromSrcDst g s n ∧
        st.residuals[(getIdFromSrcDst g s n).toNat]? = some 0) →
      initialPreflow g s ns st = Run.done st' →
      ∀ n ∈ ns ++ visited, 0 ≤ getIdFromSrcDst g s n ∧
        st'.residuals[(getIdFromSrcDst g s n).toNat]? = some 0 := by
  intro ns
  induction ns with
  | nil =>
    intro visited st st' _ _ hv h
    simp only [initialPreflow] at h
    cases h
    simpa using hv
  | cons n ns ih =>
    intro visited st st' hnet hlen hv h
    simp only [initialPreflow, Run.bind_eq_done] at h
    obtain ⟨res1, hres1, rev, hrev, c, hc, res2, hres2, w, hwt, ex1, hex1, es, hes, w2, hwt2,
      ex2, hex2, ia, hia, h⟩ := h
    obtain ⟨hid0, hidlt, rfl⟩ := vset_eq_done.1 hres1
    obtain ⟨hrev0, hrevlt, rfl⟩ := vset_eq_done.1 hres2
    obtain ⟨_, hrev'⟩ := vget_eq_done.1 hrev
    have hne : getIdFromSrcDst g s n ≠ -1 := by omega
    obtain ⟨_, hidU, hends⟩ := residualEdgeId_ends hnet (residualEdgeId_orig st.reverse hne)
    obtain ⟨_, _, _, _, hsn, _⟩ := resEnds_nodes hs hnet hidU hends
    obtain ⟨_, _, _, _, hrevends⟩ := resEnds_reverse hs hnet hidU hends hrev'
    intro m0 hm0
    refine ih (n :: visited) _ st' ?_ ?_ ?_ h m0 ?_
    · exact hnet
    · simpa using hlen
    rotate_left
    · simp only [List.mem_append, List.mem_cons] at hm0 ⊢
      tauto
    · intro m hm
      have hm0 : 0 ≤ getIdFromSrcDst g s m := by
        rcases List.mem_cons.1 hm with rfl | hm
        · exact hid0
        · exact (hv m hm).1
      have hmne : getIdFromSrcDst g s m ≠ -1 := by omega
      obtain ⟨_, _, hmends⟩ := residualEdgeId_ends hnet
        (residualEdgeId_orig st.reverse hmne)
      have hdiff : rev.toNat ≠ (getIdFromSrcDst g s m).toNat := by
        intro heq
        rw [heq, hmends] at hrevends
        have := congrArg Prod.fst (Option.some.inj hrevends)
        simp only at this
        exact hsn this
      refine ⟨hm0, ?_⟩
      show ((st.residuals.set (getIdFromSrcDst g s n).toNat 0).set rev.toNat c)[
        (getIdFromSrcDst g s m).toNat]? = some 0
      rw [List.getElem?_set_ne hdiff]
      rcases List.mem_cons.1 hm with rfl | hm
      · rw [List.getElem?_set_self hidlt]
      · by_cases heq : (getIdFromSrcDst g s n).toNat = (getIdFromSrcDst g s m).toNat
        · rw [heq, List.getElem?_set_self (by rw [← heq]; exact hidlt)]
        · rw [List.getElem?_set_ne heq]; exact (hv m hm).2

theorem LFInit_admissible {g : Graph} (hs : BuilderInput g) {s : Int}
    (hout : ∀ e ∈ g.edges, e.src = s → e.dst ∈ getNeighbours g s)
    (hin : ∀ e ∈ g.edges, e.dst = s → ∃ e' ∈ g.edges, e'.src = s ∧ e'.dst = e.src)
    {st : LFState} (h : LFInit g s = Run.done st) : Admissible g st := by
  obtain ⟨fst, hfill, hts, hhts, hpre⟩ := LFInit_fields h
  obtain ⟨hnet, hlen⟩ := LFInit_residualNet hs h
  obtain ⟨fst', hfill', hinv, _, hall⟩ := fill_final hs
  rw [hfill] at hfill'; cases hfill'
  obtain ⟨hf1, hf2, _, _, _, _, _⟩ := initialPreflow_fields s _ _ _ hpre
  simp only at hf1 hf2
  have hzero := initialPreflow_zero hs s _ [] _ st (by rw [← hf2]; exact hnet)
    (by simpa using hinv.lenC) (by simp) hpre
  obtain ⟨hs0, hslt, rfl⟩ := vset_eq_done.1 hhts
  rw [admissible_iff]
  intro e0 u v r hu hv g1 g2 g3 g4 g5
  rw [hf1] at g3 g4
  have he0 : e0 < g.undirectedNumEdges := by
    rw [← hlen]; exact (List.getElem?_eq_some_iff.1 g2).1
  obtain ⟨hu0, _, hv0, _, huv, _⟩ := resEnds_nodes hs hnet he0 g1
  have hvnn : 0 ≤ hv := by
    rcases set_get_cases g4 with ⟨_, rfl⟩ | ⟨_, g4'⟩
    · unfold getNV; exact Int.ofNat_nonneg _
    · simp only [List.getElem?_replicate] at g4'
      split at g4'
      · cases g4'; exact le_refl _
      · cases g4'
  rcases set_get_cases g3 with ⟨k1, rfl⟩ | ⟨_, g3'⟩
  · exfalso
    have hus : u = s := by omega
    subst hus
    rcases resEnds_cases hnet he0 with ⟨ed, hed, h1⟩ | ⟨_, r', ed, _, _, hed, hl, h1⟩
    · rw [h1] at g1; cases g1
      have hmem : ed ∈ g.edges := List.mem_iff_getElem?.2 ⟨e0, hed⟩
      have := hzero ed.dst (by simpa using hout ed hmem rfl)
      rw [getId_of_edge hs hed] at this
      simp only [Int.toNat_ofNat] at this
      rw [this.2] at g2
      cases g2
      omega
    · rw [h1] at g1; cases g1
      have hmem : ed ∈ g.edges := List.mem_iff_getElem?.2 ⟨r', hed⟩
      obtain ⟨e', he', h2, h3⟩ := hin ed hmem rfl
      have : getIdFromSrcDst g ed.dst ed.src ≠ -1 :=
        findEdge_complete g.edges _ _ 0 ⟨e', he', h2, h3⟩ (le_refl _)
      unfold lacksReverse at hl
      simp only [decide_eq_true_eq] at hl
      exact this hl
  · simp only [List.getElem?_replicate] at g3'
    split at g3'
    · cases g3'; omega
    · cases g3'

theorem initialPreflow_returns {g : Graph} (hs : BuilderInput g) {s : Int} (hs0 : 0 ≤ s)
    (hsNV : s < g.NV) :
    ∀ (ns : List Int) (st : LFState), ResidualNet g st.reverse →
      st.residuals.length = g.undirectedNumEdges → st.capacities.length = g.undirectedNumEdges →
      st.excess.length = g.NV → st.isActive.length = g.NV →
      (∀ n ∈ ns, ∃ e ∈ g.edges, e.src = s ∧ e.dst = n) →
      ∃ st', initialPreflow g s ns st = Run.done st' := by
  intro ns
  induction ns with
  | nil => intro st _ _ _ _ _ _; exact ⟨st, rfl⟩
  | cons n ns ih =>
    intro st hnet hlr hlc hle hla hnb
    obtain ⟨ed, hmem, h1, h2⟩ := hnb n (List.mem_cons_self _ _)
    obtain ⟨_, _, hn0, hnNV⟩ := hs.nodes ed hmem
    rw [h2] at hn0 hnNV
    have hne : getIdFromSrcDst g s n ≠ -1 :=
      findEdge_complete g.edges _ _ 0 ⟨ed, hmem, h1, h2⟩ (le_refl _)
    obtain ⟨a, e, ha, hea, _, _, haNE⟩ := getId_edge hne
    have hle' := hnet.le
    obtain ⟨rev, hrev, hrev0, hback, _⟩ := hnet.orig a e hea
    have hrevlt : rev.toNat < g.undirectedNumEdges := by
      rw [← hnet.len]; exact (List.getElem?_eq_some_iff.1 hback).1
    obtain ⟨c, hc⟩ : ∃ c, st.capacities[a]? = some c :=
      ⟨_, List.getElem?_eq_getElem (by omega)⟩
    obtain ⟨w, hw⟩ : ∃ w, (getWeights g)[a]? = some w := by
      unfold getWeights; rw [List.getElem?_map, hea]; exact ⟨_, rfl⟩
    obtain ⟨es, hes⟩ : ∃ es, (st.excess.set n.toNat w)[s.toNat]? = some es :=
      ⟨_, List.getElem?_eq_getElem (by simp; omega)⟩
    have hwt : getWeightFromId g (a : Int) = Run.done w :=
      vget_ok (by omega) (by simpa using hw)
    obtain ⟨st', hst'⟩ := ih
      { st with residuals := (st.residuals.set a 0).set rev.toNat c,
                excess := (st.excess.set n.toNat w).set s.toNat (wrap (es - w)),
                activeNodes := st.activeNodes ++ [n],
                isActive := st.isActive.set n.toNat true }
      hnet (by simpa using hlr) hlc (by simpa using hle) (by simpa using hla)
      (fun m hm => hnb m (List.mem_cons_of_mem _ hm))
    refine ⟨st', ?_⟩
    simp only [initialPreflow, ha]
    rw [vset_ok _ (by omega) (by simp; omega)]
    simp only [Run.done_bind, Int.toNat_ofNat]
    rw [vget_ok (by omega) (by simpa using hrev)]
    simp only [Run.done_bind]
    rw [vget_ok (by omega) (by simpa using hc)]
    simp only [Run.done_bind]
    rw [vset_ok _ hrev0 (by simp; omega)]
    simp only [Run.done_bind, hwt]
    rw [vset_ok _ hn0 (by omega)]
    simp only [Run.done_bind]
    rw [vget_ok hs0 hes]
    simp only [Run.done_bind]
    rw [vset_ok _ hs0 (by simp; omega)]
    simp only [Run.done_bind]
    rw [vset_ok _ hn0 (by omega)]
    simp only [Run.done_bind]
    exact hst'

/-- The initialisation of `LFFlow` returns when the graph meets the builder's input
conditions, `s` is a node and `getNeighbours(s)` names out-neighbours of `s` only. -/
theorem LFInit_returns {g : Graph} (hs : BuilderInput g) {s : Int} (hs0 : 0 ≤ s)
    (hsNV : s < g.NV) (hnb : ∀ n ∈ getNeighbours g s, ∃ e ∈ g.edges, e.src = s ∧ e.dst = n) :
    ∃ st, LFInit g s = Run.done st := by
  obtain ⟨fst, hfill, hinv, _, hall⟩ := fill_final hs
  obtain ⟨st, hst⟩ := initialPreflow_returns hs hs0 hsNV (getNeighbours g s)
    { heights := (List.replicate g.NV (0 : Int)).set s.toNat (getNV g),
      excess := List.replicate g.NV (0 : Int),
      capacities := fst.capacities, reverse := fst.reverse, residuals := fst.capacities,
      wave := List.replicate g.NV (0 : Int), activeNodes := [],
      isActive := List.replicate g.NV false, currentWave := 0,
      itersSinceGlobalRelabel := 0 }
    (residualNet_of_fill hs hinv hall) hinv.lenC hinv.lenC (by simp) (by simp) hnb
  refine ⟨st, ?_⟩
  simp only [LFInit, fillReverseAndCapacityVectors, hfill, Run.done_bind]
  rw [vset_ok _ hs0 (by simp; omega)]
  simp only [Run.done_bind]
  exact hst

theorem builderInput_foldGraph : BuilderInput foldGraph :=
  ⟨by decide, by decide, by decide, by decide, by decide, by decide⟩

/-! ## The initial state: no sum wraps -/

theorem weightOf_nonneg {g : Graph} (hw : WeightsNonneg g) (u v : Int) : 0 ≤ weightOf g u v := by
  unfold weightOf
  split
  · rename_i w' hw'
    obtain ⟨e, he, rfl⟩ := weight_mem hw'
    exact hw e he
  · exact le_refl _

theorem weightOf_edge {g : Graph} {u v : Int} {e : Edge}
    (h0 : 0 ≤ getIdFromSrcDst g u v)
    (he : g.edges[(getIdFromSrcDst g u v).toNat]? = some e) : weightOf g u v = e.weight := by
  apply weightOf_eq
  unfold getWeightFromId getWeights
  exact vget_ok h0 (by rw [List.getElem?_map, he]; rfl)

theorem fill_newEdges_full {g : Graph} (hs : BuilderInput g) {st : FillState}
    (hinv : FillInv g st)
    (hall : ∀ e : Nat, e < g.undirectedNumEdges →
      ∃ r : Int, st.reverse[e]? = some r ∧ r ≠ -1 ∧ 0 ≤ r ∧ r < g.undirectedNumEdges ∧
        st.reverse[r.toNat]? = some (e : Int)) :
    getNE g + st.newEdges = (g.undirectedNumEdges : Int) := by
  have hcount := hs.count
  have hNE : getNE g = (g.edges.length : Int) := rfl
  have hfull := doneCount_full g g.edges st.reverse (fun i e' he' => by
    have : i < g.edges.length := (List.getElem?_eq_some_iff.1 he').1
    obtain ⟨r', hr', hne', _⟩ := hall i (by omega)
    exact ⟨r', hr', hne'⟩)
  unfold countLacking at hcount
  rw [hinv.cnt, hfull, hNE]; omega

/-- The capacity the builder leaves on an original edge, when no sum wraps: its weight plus
the weight of its original antiparallel edge. -/
theorem fill_cap_orig {g : Graph} (hw : WeightsNonneg g) (hp : PairsFit g) {st : FillState}
    (hinv : FillInv g st) (hcap : CapInv g st)
    (hall : ∀ e : Nat, e < g.undirectedNumEdges →
      ∃ r : Int, st.reverse[e]? = some r ∧ r ≠ -1 ∧ 0 ≤ r ∧ r < g.undirectedNumEdges ∧
        st.reverse[r.toNat]? = some (e : Int))
    {a : Nat} {e : Edge} {c : Int} (hea : g.edges[a]? = some e)
    (hc : st.capacities[a]? = some c) :
    e.weight ≤ c ∧ c ≤ e.weight + weightOf g e.dst e.src := by
  have haU : a < g.undirectedNumEdges := by
    rw [← hinv.lenC]; exact (List.getElem?_eq_some_iff.1 hc).1
  obtain ⟨r, hr, hne, hr0, _, _⟩ := hall a haU
  have hmem : e ∈ g.edges := List.mem_iff_getElem?.2 ⟨a, hea⟩
  have hpe := hp e hmem
  have hwe := hw e hmem
  have hwo := weightOf_nonneg hw e.dst e.src
  have h1 := hcap.orig a e r c hea hr hc
  obtain ⟨_, _, h2⟩ := hinv.orig a e r hea hr hne
  by_cases hl : lacksReverse g e = true
  · rw [if_pos (Or.inr hl)] at h1
    omega
  · rw [if_neg (by simp [hne, hl])] at h1
    rw [if_neg hl] at h2
    obtain ⟨e', he', rfl⟩ := h1
    have hwo' : weightOf g e.dst e.src = e'.weight :=
      weightOf_edge (by rw [← h2]; exact hr0) (by rw [← h2]; exact he')
    have hwe' := hw e' (List.mem_iff_getElem?.2 ⟨_, he'⟩)
    rw [hwo'] at hpe ⊢
    rw [wrap_nonneg (by omega) (by omega)]
    omega

/-- Every capacity the builder leaves is non-negative and at most half of `LONG_MAX`. -/
theorem fill_caps_small {g : Graph} (hw : WeightsNonneg g) (hp : PairsFit g)
    (hs : BuilderInput g) {st : FillState} (hinv : FillInv g st) (hcap : CapInv g st)
    (hall : ∀ e : Nat, e < g.undirectedNumEdges →
      ∃ r : Int, st.reverse[e]? = some r ∧ r ≠ -1 ∧ 0 ≤ r ∧ r < g.undirectedNumEdges ∧
        st.reverse[r.toNat]? = some (e : Int)) :
    ∀ (a : Nat) (c : Int), st.capacities[a]? = some c → 0 ≤ c ∧ 2 * c ≤ LONG_MAX := by
  intro a c hc
  have haU : a < g.undirectedNumEdges := by
    rw [← hinv.lenC]; exact (List.getElem?_eq_some_iff.1 hc).1
  by_cases haNE : a < g.edges.length
  · obtain ⟨e, hea⟩ : ∃ e, g.edges[a]? = some e := ⟨_, List.getElem?_eq_getElem haNE⟩
    have hmem : e ∈ g.edges := List.mem_iff_getElem?.2 ⟨a, hea⟩
    have hpe := hp e hmem
    have hwe := hw e hmem
    obtain ⟨h1, h2⟩ := fill_cap_orig hw hp hinv hcap hall hea hc
    omega
  · have hfull := fill_newEdges_full hs hinv hall
    have hNE : getNE g = (g.edges.length : Int) := rfl
    obtain ⟨r, e, _, _, he, hce⟩ := hcap.synth a (by omega) (by omega)
    rw [hc] at hce
    cases hce
    have hmem : e ∈ g.edges := List.mem_iff_getElem?.2 ⟨_, he⟩
    have hpe := hp e hmem
    have hwe := hw e hmem
    have hwo := weightOf_nonneg hw e.dst e.src
    omega

theorem fill_caps_ge {g : Graph} (hw : WeightsNonneg g) (hp : PairsFit g) {st : FillState}
    (hinv : FillInv g st) (hcap : CapInv g st)
    (hall : ∀ e : Nat, e < g.undirectedNumEdges →
      ∃ r : Int, st.reverse[e]? = some r ∧ r ≠ -1 ∧ 0 ≤ r ∧ r < g.undirectedNumEdges ∧
        st.reverse[r.toNat]? = some (e : Int)) :
    ∀ (a : Nat) (e : Edge) (c : Int), g.edges[a]? = some e → st.capacities[a]? = some c →
      e.weight ≤ c :=
  fun _ _ _ hea hc => (fill_cap_orig hw hp hinv hcap hall hea hc).1

theorem initialPreflow_nonneg {g : Graph} (s : Int) :
    ∀ (ns : List Int) (st st' : LFState), Nonneg st.residuals → Nonneg st.capacities →
      initialPreflow g s ns st = Run.done st' → Nonneg st'.residuals := by
  intro ns
  induction ns with
  | nil => intro st st' hres _ h; simp only [initialPreflow] at h; cases h; exact hres
  | cons n ns ih =>
    intro st st' hres hcap h
    simp only [initialPreflow, Run.bind_eq_done] at h
    obtain ⟨res1, hres1, rev, _, c, hc, res2, hres2, w, _, ex1, _, es, _, w2, _,
      ex2, _, ia, _, h⟩ := h
    obtain ⟨_, _, rfl⟩ := vset_eq_done.1 hres1
    obtain ⟨_, hc⟩ := vget_eq_done.1 hc
    obtain ⟨_, _, rfl⟩ := vset_eq_done.1 hres2
    refine ih _ _ ?_ ?_ h
    · exact nonneg_set _ (nonneg_set _ hres (le_refl _)) (nonneg_get hcap hc)
    · exact hcap

theorem initialPreflow_inv {g : Graph} (hw : WeightsNonneg g) (s : Int) (hs0 : 0 ≤ s)
    (B : Int) (hB : 0 ≤ B) :
    ∀ (ns visited : List Int) (st st' : LFState), ns.Nodup → s ∉ ns →
      (∀ n ∈ ns, n ∉ visited) → InitInv s visited st →
      (∀ x : Int, st.excess[s.toNat]? = some x → -LONG_MAX ≤ x - sourceWeight g s ns - B) →
      initialPreflow g s ns st = Run.done st' →
      InitInv s (ns.reverse ++ visited) st' ∧
        ∀ x : Int, st'.excess[s.toNat]? = some x → -LONG_MAX ≤ x - B := by
  intro ns
  induction ns with
  | nil =>
    intro visited st st' _ _ _ hst hsrc h
    simp only [initialPreflow] at h
    cases h
    exact ⟨by simpa using hst, fun x hx => by simpa [sourceWeight] using hsrc x hx⟩
  | cons n ns ih =>
    intro visited st st' hnd hs hdis hst hsrc h
    simp only [initialPreflow, Run.bind_eq_done] at h
    obtain ⟨res1, hres1, rev, _, c, hc, res2, hres2, w, hwt, ex1, hex1, es, hes, w2, hwt2,
      ex2, hex2, ia, _, h⟩ := h
    have hnd' := List.nodup_cons.1 hnd
    have hns : n ≠ s := fun h => hs (h ▸ List.mem_cons_self _ _)
    rw [hwt] at hwt2; cases hwt2
    have hw0 := weight_nonneg hw hwt
    have hwo : weightOf g s n = w := weightOf_eq hwt
    have hrest := sourceWeight_nonneg hw s ns
    obtain ⟨⟨hsum, hnn⟩, hzero⟩ := hst
    obtain ⟨hn0, hnl, rfl⟩ := vset_eq_done.1 hex1
    obtain ⟨_, hes⟩ := vget_eq_done.1 hes
    have hes' : st.excess[s.toNat]? = some es := by
      rw [List.getElem?_set_ne (by omega)] at hes; exact hes
    have hsb := hsrc es hes'
    simp only [sourceWeight, hwo] at hsb
    have hes0 := (excess_source_bounds ⟨hsum, hnn⟩ hs0 hes').1
    rw [wrap_eq_of_abs (by omega) (by have := LONG_MAX_pos; omega)] at hex2
    obtain ⟨_, _, rfl⟩ := vset_eq_done.1 hex2
    obtain ⟨xn, hxn⟩ : ∃ xn, st.excess[n.toNat]? = some xn := ⟨_, List.getElem?_eq_getElem hnl⟩
    have hxn0 : xn = 0 :=
      hzero n.toNat xn (by omega) (by
        rw [show ((n.toNat : Nat) : Int) = n from by omega]
        exact hdis n (List.mem_cons_self _ _)) hxn
    subst hxn0
    have := ih (n :: visited) _ st' hnd'.2 (fun h => hs (List.mem_cons_of_mem _ h)) (by
      intro m hm hmv
      rcases List.mem_cons.1 hmv with h1 | h1
      · exact hnd'.1 (h1 ▸ hm)
      · exact hdis m (List.mem_cons_of_mem _ hm) h1) ?_ ?_ h
    · simpa using this
    · refine ⟨⟨?_, ?_⟩, ?_⟩
      · show ((st.excess.set n.toNat w).set s.toNat (es - w)).sum = 0
        rw [sum_set_of_get _ _ _ es hes, sum_set_of_get _ _ _ 0 hxn, hsum]; ring
      · intro k x hks hx
        simp only at hx
        rcases set_get_cases hx with ⟨h1, _⟩ | ⟨h1, hx⟩
        · exact absurd (by omega) hks
        · rcases set_get_cases hx with ⟨h2, rfl⟩ | ⟨h2, hx⟩
          · exact hw0
          · exact hnn k x hks hx
      · intro k x hks hkv hx
        simp only at hx
        rcases set_get_cases hx with ⟨h1, _⟩ | ⟨h1, hx⟩
        · exact absurd (by omega) hks
        · rcases set_get_cases hx with ⟨h2, rfl⟩ | ⟨h2, hx⟩
          · exact absurd (List.mem_cons.2 (Or.inl (by omega))) hkv
          · exact hzero k x hks (fun h => hkv (List.mem_cons_of_mem _ h)) hx
    · intro x hx
      simp only at hx
      rw [List.getElem?_set_self (by simp; exact (List.getElem?_eq_some_iff.1 hes').1)] at hx
      cases hx
      omega

/-- One round of the initial-preflow loop, for the neighbour `n` with the neighbours `ns`
still to come. -/
theorem initialPreflow_step {g : Graph} (hw : WeightsNonneg g) {s n : Int} (hs0 : 0 ≤ s)
    (hns : n ≠ s) (ns : List Int) {visited : List Int} {st st1 : LFState} (hnv : n ∉ visited)
    (hinit : InitInv s visited st)
    (hsrc : ∀ x : Int, st.excess[s.toNat]? = some x →
      -LONG_MAX ≤ x - sourceWeight g s (n :: ns))
    (h1 : initialPreflow g s [n] st = Run.done st1) :
    InitInv s (n :: visited) st1 ∧
      ∀ x : Int, st1.excess[s.toNat]? = some x → -LONG_MAX ≤ x - sourceWeight g s ns := by
  have := initialPreflow_inv hw s hs0 (sourceWeight g s ns) (sourceWeight_nonneg hw s ns)
    [n] visited st st1 (List.nodup_singleton _) (by simpa using hns.symm) (by simpa using hnv)
    hinit (by
      intro x hx
      have := hsrc x hx
      simp only [sourceWeight] at this ⊢
      omega) h1
  simpa using this

theorem initInv_replicate (s : Int) (n : Nat) (st : LFState)
    (h : st.excess = List.replicate n (0 : Int)) : InitInv s [] st := by
  refine ⟨⟨?_, ?_⟩, ?_⟩
  · rw [h]; simp
  · intro k x _ hx
    rw [h] at hx
    simp only [List.getElem?_replicate] at hx
    split at hx
    · cases hx; exact le_refl _
    · cases hx
  · intro k x _ _ hx
    rw [h] at hx
    simp only [List.getElem?_replicate] at hx
    split at hx
    · cases hx; rfl
    · cases hx

/-- The state in which the run loop of `LFFlow` is entered satisfies the residual side of
the invariant. -/
theorem LFInit_res {g : Graph} (hw : WeightsNonneg g) (hp : PairsFit g) (hb : BuilderInput g)
    {s : Int} {st : LFState} (h : LFInit g s = Run.done st) :
    ResInv g.undirectedNumEdges st := by
  obtain ⟨fst, hfill, hts, hhts, hpre⟩ := LFInit_fields h
  obtain ⟨fst', hfill', hinv, hcap, hall⟩ := fill_final hb
  rw [hfill] at hfill'; cases hfill'
  have hsmall := fill_caps_small hw hp hb hinv hcap hall
  have hcn : Nonneg fst.capacities := by
    intro x hx
    obtain ⟨k, hk⟩ := List.mem_iff_getElem?.1 hx
    exact (hsmall k x hk).1
  obtain ⟨_, h2, h3, _, _, h6, _⟩ := initialPreflow_fields s _ _ _ hpre
  simp only at h2 h3 h6
  have hnet := initialPreflow_net (U := g.undirectedNumEdges) s _ _ _ (by
    refine ⟨⟨hinv.lenR, ?_⟩, hcn, hinv.lenC, hinv.lenC, pairBound_refl _ _⟩
    intro e he
    obtain ⟨r, h1, _, h3, h4, h5⟩ := hall e he
    exact ⟨r, h1, h3, h4, h5⟩) hpre
  refine ⟨initialPreflow_nonneg s _ _ _ hcn hcn hpre, hnet, ?_⟩
  intro e r cx cy hr hcx hcy
  rw [h3] at hcx hcy
  have := hsmall _ _ hcx
  have := hsmall _ _ hcy
  omega

/-- The state in which the run loop of `LFFlow` is entered satisfies the excess side of the
invariant. -/
theorem LFInit_exc {g : Graph} (hw : WeightsNonneg g) (hb : BuilderInput g)
    {s : Int} (hsrc : SourceFits g s) (hnd : (getNeighbours g s).Nodup)
    (hs : s ∉ getNeighbours g s) {st : LFState} (h : LFInit g s = Run.done st) :
    ExcInv g s st := by
  obtain ⟨fst, hfill, hts, hhts, hpre⟩ := LFInit_fields h
  obtain ⟨hs0, hsl, _⟩ := vset_eq_done.1 hhts
  rw [List.length_replicate] at hsl
  obtain ⟨_, h2, h3, _, _, h6, _⟩ := initialPreflow_fields s _ _ _ hpre
  simp only at h2 h3 h6
  obtain ⟨hinit, hsrc'⟩ := initialPreflow_inv hw s hs0 0 (le_refl 0) _ [] _ st hnd hs (by simp)
    (initInv_replicate s g.NV _ rfl) (by
    intro x hx
    simp only [List.getElem?_replicate, if_pos hsl] at hx
    cases hx
    unfold SourceFits at hsrc
    omega) hpre
  exact ⟨hinit.1, fun x hx => by have := hsrc' x hx; omega,
    ⟨hs0, by rw [h6, List.length_replicate]; exact hsl⟩, (LFInit_residualNet hb h).1⟩

theorem atGuard_res {inner : Nat} {g : Graph} (hw : WeightsNonneg g) (hp : PairsFit g)
    (hb : BuilderInput g) {s t : Int} {flag : Bool} {st : LFState}
    (h : AtGuard inner g s t flag st) : ResInv g.undirectedNumEdges st := by
  induction h with
  | init h0 => exact LFInit_res hw hp hb h0
  | step _ _ hstep ih => exact LFStep_res ih hstep

/-! ## The excess side of the invariant along a run -/

theorem processBody_exc {g : Graph} (hb : BuilderInput g) {s node t : Int} {st st' : LFState}
    (hinv : ExcInv g s st) (hpos : ∀ e, vget st.excess node = Run.done e → 0 < e)
    (h : processBody g node t st = Run.done st') : ExcInv g s st' := by
  obtain ⟨e, nextV, hh, edgeId, hnode, he, hscan, hedge, _, hc⟩ := processBody_cases h
  rcases hc with ⟨_, r, hr, hp⟩ | ⟨_, _, h2, _, h4, _⟩
  · obtain ⟨_, _, r', hr', hr0, _⟩ := scan_found hb hinv.rnet hscan hedge
    rw [hr] at hr'; cases hr'
    exact pushAlong_exc hinv he (hpos e he) (le_of_lt hr0) hp
  · obtain ⟨h1, h3, h5, h6⟩ := hinv
    exact ⟨by unfold ExcessInv at h1 ⊢; rw [h2]; exact h1, by rw [h2]; exact h3,
      by rw [h2]; exact h5, by rw [h4]; exact h6⟩

theorem process_exc {g : Graph} (hb : BuilderInput g) {s node t : Int} :
    ∀ (fuel : Nat) (st st' : LFState), ExcInv g s st →
      process g node t fuel st = Run.done st' → ExcInv g s st' := by
  intro fuel
  induction fuel with
  | zero => intro st st' _ h; simp [process] at h
  | succ fuel ih =>
    intro st st' hinv h
    simp only [process, Run.bind_eq_done] at h
    obtain ⟨e, he, h⟩ := h
    split at h
    · rename_i hpos
      split at h
      · cases h; exact hinv
      · simp only [Run.bind_eq_done] at h
        obtain ⟨st1, h1, h⟩ := h
        refine ih _ _ (processBody_exc hb hinv ?_ h1) h
        intro e' he'
        rw [he] at he'; cases he'
        exact hpos
    · exact popActive_exc hinv h

theorem processWithRelabelBody_exc {g : Graph} (hb : BuilderInput g) {s node t : Int}
    {st st' : LFState} (hinv : ExcInv g s st)
    (hpos : ∀ e, vget st.excess node = Run.done e → 0 < e)
    (h : processWithRelabelBody g node t st = Run.done st') : ExcInv g s st' := by
  simp only [processWithRelabelBody, Run.bind_eq_done] at h
  obtain ⟨e, he, ⟨nextV, hh⟩, hscan, edgeId, hedge, hnode, _, h⟩ := h
  simp only at h hedge
  split at h
  · simp only [Run.bind_eq_done] at h
    obtain ⟨r, hr, wn, _, wv, _, h⟩ := h
    split at h
    · simp only [Run.bind_eq_done] at h
      obtain ⟨hv, _, h⟩ := h
      split at h
      · obtain ⟨_, _, r', hr', hr0, _⟩ := scan_found hb hinv.rnet hscan hedge
        rw [hr] at hr'; cases hr'
        exact pushAlong_exc hinv he (hpos e he) (le_of_lt hr0) h
      · cases h; exact hinv
    · cases h; exact hinv
  · split at h
    · simp only [Run.bind_eq_done] at h
      obtain ⟨hs, _, h⟩ := h
      cases h
      exact ⟨hinv.inv, hinv.src, hinv.source, hinv.rnet⟩
    · cases h; exact hinv

theorem processWithRelabel_exc {g : Graph} (hb : BuilderInput g) {s node t : Int} :
    ∀ (fuel : Nat) (st st' : LFState), ExcInv g s st →
      processWithRelabel g node t fuel st = Run.done st' → ExcInv g s st' := by
  intro fuel
  induction fuel with
  | zero => intro st st' _ h; simp [processWithRelabel] at h
  | succ fuel ih =>
    intro st st' hinv h
    simp only [processWithRelabel, Run.bind_eq_done] at h
    obtain ⟨e, he, h⟩ := h
    split at h
    · rename_i hpos
      split at h
      · cases h; exact hinv
      · simp only [Run.bind_eq_done] at h
        obtain ⟨st1, h1, h⟩ := h
        refine ih _ _ (processWithRelabelBody_exc hb hinv ?_ h1) h
        intro e' he'
        rw [he] at he'; cases he'
        exact hpos
    · exact popActive_exc hinv h

theorem LFStep_exc {inner : Nat} {g : Graph} (hb : BuilderInput g) {s t : Int} {flag : Bool}
    {st st' : LFState} (hinv : ExcInv g s st)
    (h : LFStep inner g s t flag st = Run.done st') : ExcInv g s st' := by
  simp only [LFStep, Run.bind_eq_done] at h
  obtain ⟨curnode, _, st1, h1, h⟩ := h
  have hinv1 : ExcInv g s st1 := by
    cases flag
    · exact process_exc hb inner _ _ hinv (by simpa using h1)
    · exact processWithRelabel_exc hb inner _ _ hinv (by simpa using h1)
  split at h
  · simp only [Run.bind_eq_done] at h
    obtain ⟨st2, h2, h⟩ := h
    cases h
    obtain ⟨e1, _, _, e4, _⟩ := globalRelabel_fields h2
    obtain ⟨hi, hsr, hso, hrn⟩ := hinv1
    refine ⟨?_, ?_, ?_, ?_⟩
    · unfold ExcessInv at hi ⊢
      simp only [e1]
      exact hi
    · simp only [e1]; exact hsr
    · simp only [e1]; exact hso
    · simp only [e4]; exact hrn
  · cases h
    exact ⟨hinv1.inv, hinv1.src, hinv1.source, hinv1.rnet⟩

theorem atGuard_exc {inner : Nat} {g : Graph} (hw : WeightsNonneg g) (hb : BuilderInput g)
    {s t : Int} (hsrc : SourceFits g s) {flag : Bool} (hnd : (getNeighbours g s).Nodup)
    (hs : s ∉ getNeighbours g s) {st : LFState}
    (h : AtGuard inner g s t flag st) : ExcInv g s st := by
  induction h with
  | init h0 => exact LFInit_exc hw hb hsrc hnd hs h0
  | step _ _ hstep ih => exact LFStep_exc hb ih hstep

/-! ## Maximum flows of two three-node graphs -/

theorem flow_shape_two {f : List Int} (h : f.length = 2) : ∃ a b, f = [a, b] := by
  match f, h with
  | [a, b], _ => exact ⟨a, b, rfl⟩

theorem sinkSide_directed_max (w1 w2 : Int) (h1 : 0 ≤ w1) (h2 : 0 ≤ w2) :
    IsMaxFlowValue (sinkSide w1 w2) 0 2 0 := by
  constructor
  · refine ⟨[0, 0], ⟨⟨rfl, ?_⟩, ?_⟩, ?_⟩
    · intro i f w hf hw
      match i with
      | 0 => simp at hf; simp [getWeights, sinkSide] at hw; omega
      | 1 => simp at hf; simp [getWeights, sinkSide] at hw; omega
      | (n + 2) => simp at hf
    · intro v _ _
      simp [inflow, outflow, sinkSide]
    · simp [flowValue, inflow, outflow, sinkSide]
  · intro f hf
    obtain ⟨⟨hlen, hfeas⟩, hcons⟩ := hf
    obtain ⟨a, b, rfl⟩ := flow_shape_two (f := f) hlen
    have ha := hfeas 0 a w1 (by simp) (by simp [getWeights, sinkSide])
    have hb := hfeas 1 b w2 (by simp) (by simp [getWeights, sinkSide])
    have h1 := hcons 1 (by omega) (by omega)
    simp [inflow, outflow, sinkSide] at h1
    simp [flowValue, inflow, outflow, sinkSide]
    omega

theorem sourceFan_directed_max : IsMaxFlowValue sourceFan 0 2 6 := by
  constructor
  · refine ⟨[6, 0], ⟨⟨rfl, ?_⟩, ?_⟩, ?_⟩
    · intro i f w hf hw
      match i with
      | 0 => simp at hf; simp [getWeights, sourceFan] at hw; omega
      | 1 => simp at hf; simp [getWeights, sourceFan] at hw; omega
      | (n + 2) => simp at hf
    · intro v h0 h2
      simp only [inflow, outflow, sourceFan]
      split_ifs <;> omega
    · simp [flowValue, inflow, outflow, sourceFan]
  · intro f hf
    obtain ⟨⟨hlen, hfeas⟩, hcons⟩ := hf
    obtain ⟨a, b, rfl⟩ := flow_shape_two (f := f) hlen
    have ha := hfeas 0 a 6 (by simp) (by simp [getWeights, sourceFan])
    have hb := hfeas 1 b 2 (by simp) (by simp [getWeights, sourceFan])
    have h1 := hcons 1 (by omega) (by omega)
    simp [inflow, outflow, sourceFan] at h1
    simp [flowValue, inflow, outflow, sourceFan]
    omega

/-! ## The active queue and its flags -/

theorem book_push {g : Graph} {st : LFState} (hb : Bookkeeping g st) {v : Int} (hv0 : 0 ≤ v)
    (hvlt : v.toNat < st.isActive.length) (hv : st.isActive[v.toNat]? = some false)
    (st' : LFState) (hq : st'.activeNodes = st.activeNodes ++ [v])
    (hf : st'.isActive = st.isActive.set v.toNat true) : Bookkeeping g st' := by
  obtain ⟨hnd, hnn, hlen, hiff⟩ := hb
  have hvq : v ∉ st.activeNodes := by
    intro hmem
    have := (hiff v.toNat).2 ⟨by rw [show ((v.toNat : Nat) : Int) = v from by omega]; exact hmem,
      by omega⟩
    rw [hv] at this
    cases this
  refine ⟨?_, ?_, ?_, ?_⟩
  · rw [hq]
    exact List.nodup_append.2 ⟨hnd, List.nodup_singleton _, by
      intro a ha hb
      simp only [List.mem_singleton] at hb
      subst hb
      exact hvq ha⟩
  · intro w hw
    rw [hq] at hw
    rcases List.mem_append.1 hw with hw | hw
    · exact hnn w hw
    · simp only [List.mem_singleton] at hw
      omega
  · rw [hf]; simpa using hlen
  · intro k
    rw [hf, hq]
    by_cases hk : v.toNat = k
    · subst hk
      rw [List.getElem?_set_self hvlt]
      simp only [List.mem_append, List.mem_singleton, true_iff]
      exact ⟨Or.inr (by omega), by omega⟩
    · rw [List.getElem?_set_ne hk, hiff k]
      simp only [List.mem_append, List.mem_singleton]
      constructor
      · rintro ⟨h1, h2⟩; exact ⟨Or.inl h1, h2⟩
      · rintro ⟨h1 | h1, h2⟩
        · exact ⟨h1, h2⟩
        · omega

theorem pushAlong_book {g : Graph} {node nextV t edgeId delta : Int} {st st' : LFState}
    (hb : Bookkeeping g st) (h : pushAlong node nextV t edgeId delta st = Run.done st') :
    Bookkeeping g st' ∧ ∃ l, st'.activeNodes = st.activeNodes ++ l := by
  simp only [pushAlong, Run.bind_eq_done] at h
  obtain ⟨r, _, res1, _, rev, _, rr, _, res2, _, en, _, ex1, _, ev, _, ex2, _, h⟩ := h
  split at h
  · simp only [Run.bind_eq_done] at h
    obtain ⟨a, ha, h⟩ := h
    split at h
    · rename_i hna
      simp only [Run.bind_eq_done] at h
      obtain ⟨ia, hia, h⟩ := h
      cases h
      obtain ⟨hv0, hvlt, rfl⟩ := vset_eq_done.1 hia
      obtain ⟨_, ha'⟩ := vget_eq_done.1 ha
      have haf : a = false := by simpa using hna
      subst haf
      exact ⟨book_push hb hv0 hvlt ha' _ rfl rfl, [nextV], rfl⟩
    · cases h; exact ⟨hb, [], by simp⟩
  · cases h; exact ⟨hb, [], by simp⟩

theorem processBody_book {g : Graph} {node t : Int} {st st' : LFState}
    (hb : Bookkeeping g st) (h : processBody g node t st = Run.done st') :
    Bookkeeping g st' ∧ ∃ l, st'.activeNodes = st.activeNodes ++ l := by
  simp only [processBody, Run.bind_eq_done] at h
  obtain ⟨e, he, ⟨nextV, hh⟩, hscan, edgeId, hedge, hnode, hhnode, h⟩ := h
  simp only at h
  split at h
  · simp only [Run.bind_eq_done] at h
    obtain ⟨r, _, h⟩ := h
    exact pushAlong_book hb h
  · simp only [Run.bind_eq_done] at h
    obtain ⟨hts, hhts, h⟩ := h
    cases h
    exact ⟨hb, [], by simp⟩

theorem popActive_book {g : Graph} {node : Int} {st st' : LFState} (hb : Bookkeeping g st)
    {q : List Int} (hq : st.activeNodes = node :: q) (h : popActive node st = Run.done st') :
    Bookkeeping g st' ∧ st'.activeNodes = q := by
  obtain ⟨hnd, hnn, hlen, hiff⟩ := hb
  unfold popActive at h
  rw [hq] at h
  simp only [Run.bind_eq_done] at h
  obtain ⟨ia, hia, h⟩ := h
  cases h
  obtain ⟨hn0, hnlt, rfl⟩ := vset_eq_done.1 hia
  rw [hq] at hnd hnn hiff
  obtain ⟨hnq, hndq⟩ := List.nodup_cons.1 hnd
  refine ⟨⟨hndq, fun v hv => hnn v (List.mem_cons_of_mem _ hv), by simpa using hlen, ?_⟩, rfl⟩
  intro k
  show (st.isActive.set node.toNat false)[k]? = some true ↔ _
  by_cases hk : node.toNat = k
  · subst hk
    rw [List.getElem?_set_self hnlt]
    simp only [Option.some.injEq, Bool.false_eq_true, false_iff, not_and]
    intro hmem
    rw [show ((node.toNat : Nat) : Int) = node from by omega] at hmem
    exact absurd hmem hnq
  · rw [List.getElem?_set_ne hk, hiff k]
    simp only [List.mem_cons]
    constructor
    · rintro ⟨h1 | h1, h2⟩
      · omega
      · exact ⟨h1, h2⟩
    · rintro ⟨h1, h2⟩; exact ⟨Or.inr h1, h2⟩

/-- The function `process` started on the front node of the queue: it either returns at once
because the neighbour list is empty, or it ends with the pop, which then removes the node
that was processed. -/
theorem process_book {g : Graph} {node t : Int} :
    ∀ (fuel : Nat) (st st' : LFState) (q : List Int), Bookkeeping g st →
      st.activeNodes = node :: q → process g node t fuel st = Run.done st' →
      Bookkeeping g st' ∧
        (((getNeighbourListFor g node).isEmpty = true ∧ st' = st) ∨
          ∃ stp q', Bookkeeping g stp ∧ stp.activeNodes = node :: q' ∧
            popActive node stp = Run.done st' ∧ st'.activeNodes = q') := by
  intro fuel
  induction fuel with
  | zero => intro st st' q _ _ h; simp [process] at h
  | succ fuel ih =>
    intro st st' q hb hq h
    simp only [process, Run.bind_eq_done] at h
    obtain ⟨e, he, h⟩ := h
    split at h
    · split at h
      · rename_i hemp
        cases h
        exact ⟨hb, Or.inl ⟨hemp, rfl⟩⟩
      · rename_i hemp
        simp only [Run.bind_eq_done] at h
        obtain ⟨st1, h1, h⟩ := h
        obtain ⟨hb1, l, hl⟩ := processBody_book hb h1
        obtain ⟨hb2, h2⟩ := ih st1 st' (q ++ l) hb1 (by rw [hl, hq]; rfl) h
        refine ⟨hb2, ?_⟩
        rcases h2 with ⟨h3, _⟩ | h3
        · exact absurd h3 hemp
        · exact Or.inr h3
    · obtain ⟨hb2, h2⟩ := popActive_book hb hq h
      exact ⟨hb2, Or.inr ⟨st, q, hb, hq, h, h2⟩⟩

theorem LFStep_book {inner : Nat} {g : Graph} {s t : Int} {st st' : LFState}
    (hb : Bookkeeping g st) (h : LFStep inner g s t false st = Run.done st') :
    Bookkeeping g st' := by
  simp only [LFStep, Run.bind_eq_done] at h
  obtain ⟨c, hc, st1, h1, h⟩ := h
  simp only [Bool.false_eq_true, if_false, false_and] at h1 h
  cases h
  split at hc
  · cases hc
  · rename_i c' rest hq
    cases hc
    exact (process_book inner st st1 rest hb hq h1).1

theorem initialPreflow_book {g : Graph} (s : Int) :
    ∀ (ns : List Int) (st st' : LFState), Bookkeeping g st → ns.Nodup →
      (∀ n ∈ ns, n ∉ st.activeNodes) → initialPreflow g s ns st = Run.done st' →
      Bookkeeping g st' := by
  intro ns
  induction ns with
  | nil => intro st st' hb _ _ h; simp only [initialPreflow] at h; cases h; exact hb
  | cons n ns ih =>
    intro st st' hb hnd hdis h
    simp only [initialPreflow, Run.bind_eq_done] at h
    obtain ⟨res1, hres1, rev, hrev, c, hc, res2, hres2, w, hwt, ex1, hex1, es, hes, w2, hwt2,
      ex2, hex2, ia, hia, h⟩ := h
    obtain ⟨hn0, hnlt, rfl⟩ := vset_eq_done.1 hia
    obtain ⟨hnn, hndn⟩ := List.nodup_cons.1 hnd
    have hnq : n ∉ st.activeNodes := hdis n (List.mem_cons_self _ _)
    have hflag : st.isActive[n.toNat]? = some false := by
      rcases hf : st.isActive[n.toNat] with _ | _
      · rw [List.getElem?_eq_getElem hnlt, hf]
      · exfalso
        have := (hb.2.2.2 n.toNat).1 (by rw [List.getElem?_eq_getElem hnlt, hf])
        rw [show ((n.toNat : Nat) : Int) = n from by omega] at this
        exact hnq this.1
    refine ih _ st' (book_push hb hn0 hnlt hflag _ rfl rfl) hndn ?_ h
    intro m hm hmem
    simp only [List.mem_append, List.mem_singleton] at hmem
    rcases hmem with hmem | rfl
    · exact hdis m (List.mem_cons_of_mem _ hm) hmem
    · exact hnn hm

theorem LFInit_book {g : Graph} {s : Int} (hnd : (getNeighbours g s).Nodup) {st : LFState}
    (h : LFInit g s = Run.done st) : Bookkeeping g st := by
  obtain ⟨fst, _, hts, _, hpre⟩ := LFInit_fields h
  refine initialPreflow_book s _ _ st ?_ hnd (by simp) hpre
  refine ⟨List.nodup_nil, by simp, by simp, ?_⟩
  intro k
  simp only [List.getElem?_replicate, List.not_mem_nil, false_and, iff_false]
  split <;> simp

theorem atGuard_book {inner : Nat} {g : Graph} {s t : Int} (hnd : (getNeighbours g s).Nodup)
    {st : LFState} (h : AtGuard inner g s t false st) : Bookkeeping g st := by
  induction h with
  | init h0 => exact LFInit_book hnd h0
  | step _ _ hstep ih => exact LFStep_book ih hstep

/-- In every state in which the loop test of `process(c)` is evaluated in a run without
global relabeling the active set is in order and `c` is the front of the queue. -/
theorem inProcess_front {inner : Nat} {g : Graph} {s t : Int}
    (hnd : (getNeighbours g s).Nodup) {c : Int} {st : LFState}
    (h : InProcess inner g s t c st) :
    Bookkeeping g st ∧ ∃ q, st.activeNodes = c :: q := by
  induction h with
  | enter hat _ hq => exact ⟨atGuard_book hnd hat, _, hq⟩
  | iter _ _ _ _ hbody ih =>
    obtain ⟨hb, q, hq⟩ := ih
    obtain ⟨hb1, l, hl⟩ := processBody_book hb hbody
    exact ⟨hb1, q ++ l, by rw [hl, hq]; rfl⟩

/-- A call of `process(c)` from a state of the run either returns at once because the
neighbour list of `c` is empty, or ends with the pop in a state of the run in which
`excess[c] ≤ 0`. -/
theorem process_ends_in_run {inner : Nat} {g : Graph} {s t c : Int} :
    ∀ (fuel : Nat) (st st' : LFState), InProcess inner g s t c st →
      process g c t fuel st = Run.done st' →
      ((getNeighbourListFor g c).isEmpty = true ∧ st' = st) ∨
        ∃ stp e, InProcess inner g s t c stp ∧ vget stp.excess c = Run.done e ∧ e ≤ 0 ∧
          popActive c stp = Run.done st' := by
  intro fuel
  induction fuel with
  | zero => intro st st' _ h; simp [process] at h
  | succ fuel ih =>
    intro st st' hin h
    simp only [process, Run.bind_eq_done] at h
    obtain ⟨e, he, h⟩ := h
    split at h
    · rename_i hpos
      split at h
      · rename_i hemp
        cases h
        exact Or.inl ⟨hemp, rfl⟩
      · rename_i hemp
        simp only [Run.bind_eq_done] at h
        obtain ⟨st1, h1, h⟩ := h
        rcases ih st1 st' (InProcess.iter hin he (by omega) (by simpa using hemp) h1) h with
          ⟨h3, _⟩ | h3
        · exact absurd h3 hemp
        · exact Or.inr h3
    · rename_i hle
      exact Or.inr ⟨st, e, hin, he, by omega, h⟩

/-! ## Weighted sums -/

theorem wsumFrom_set (w : Nat → Int) : ∀ (l : List Int) (k i : Nat) (x y : Int),
    l[i]? = some x → wsumFrom w k (l.set i y) = wsumFrom w k l + w (k + i) * (y - x) := by
  intro l
  induction l with
  | nil => intro k i x y h; simp at h
  | cons a l ih =>
    intro k i x y h
    cases i with
    | zero =>
      simp at h
      subst h
      simp only [List.set, wsumFrom, Nat.add_zero]
      ring
    | succ i =>
      simp at h
      simp only [List.set, wsumFrom]
      rw [ih (k + 1) i x y h, show k + 1 + i = k + (i + 1) from by omega]
      ring

theorem wsum_set (w : Nat → Int) {l : List Int} {i : Nat} {x : Int} (y : Int)
    (h : l[i]? = some x) : wsum w (l.set i y) = wsum w l + w i * (y - x) := by
  unfold wsum
  rw [wsumFrom_set w l 0 i x y h, Nat.zero_add]

theorem wsumFrom_le (w w' : Nat → Int) : ∀ (l l' : List Int) (k : Nat),
    l.length = l'.length →
    (∀ (i : Nat) (x x' : Int), l[i]? = some x → l'[i]? = some x' →
      w (k + i) * x ≤ w' (k + i) * x') →
    wsumFrom w k l ≤ wsumFrom w' k l' := by
  intro l
  induction l with
  | nil =>
    intro l' k hlen _
    cases l' with
    | nil => exact le_refl _
    | cons _ _ => simp at hlen
  | cons a l ih =>
    intro l' k hlen h
    cases l' with
    | nil => simp at hlen
    | cons b l' =>
      simp only [wsumFrom]
      have h0 := h 0 a b (by simp) (by simp)
      rw [Nat.add_zero] at h0
      have h1 := ih l' (k + 1) (by simpa using hlen) (fun i x x' hx hx' => by
        have := h (i + 1) x x' (by simpa using hx) (by simpa using hx')
        rwa [show k + (i + 1) = k + 1 + i from by omega] at this)
      omega

theorem wsum_le {w w' : Nat → Int} {l l' : List Int} (hlen : l.length = l'.length)
    (h : ∀ (i : Nat) (x x' : Int), l[i]? = some x → l'[i]? = some x' → w i * x ≤ w' i * x') :
    wsum w l ≤ wsum w' l' := by
  unfold wsum
  exact wsumFrom_le w w' l l' 0 hlen (fun i x x' hx hx' => by
    rw [Nat.zero_add]; exact h i x x' hx hx')

theorem wsum_eq {w w' : Nat → Int} {l l' : List Int} (hlen : l.length = l'.length)
    (h : ∀ (i : Nat) (x x' : Int), l[i]? = some x → l'[i]? = some x' → w i * x = w' i * x') :
    wsum w l = wsum w' l' :=
  le_antisymm (wsum_le hlen (fun i x x' hx hx' => le_of_eq (h i x x' hx hx')))
    (wsum_le hlen.symm (fun i x x' hx hx' => le_of_eq (h i x' x hx' hx).symm))

theorem wsumFrom_zero (w : Nat → Int) : ∀ (l : List Int) (k : Nat),
    (∀ (i : Nat) (x : Int), l[i]? = some x → w (k + i) * x = 0) → wsumFrom w k l = 0 := by
  intro l
  induction l with
  | nil => intro k _; rfl
  | cons a l ih =>
    intro k h
    simp only [wsumFrom]
    have h0 := h 0 a (by simp)
    rw [Nat.add_zero] at h0
    rw [h0, ih (k + 1) (fun i x hx => by
      have := h (i + 1) x (by simpa using hx)
      rwa [show k + (i + 1) = k + 1 + i from by omega] at this)]
    rfl

theorem wsum_zero {w : Nat → Int} {l : List Int}
    (h : ∀ (i : Nat) (x : Int), l[i]? = some x → w i * x = 0) : wsum w l = 0 := by
  unfold wsum
  exact wsumFrom_zero w l 0 (fun i x hx => by rw [Nat.zero_add]; exact h i x hx)

theorem wsumFrom_single (w : Nat → Int) : ∀ (l : List Int) (k : Nat),
    (∀ (i : Nat) (x : Int), l[i]? = some x → 0 ≤ w (k + i) * x) →
    ∀ (i : Nat) (x : Int), l[i]? = some x → w (k + i) * x ≤ wsumFrom w k l := by
  intro l
  induction l with
  | nil => intro k _ i x h; simp at h
  | cons a l ih =>
    intro k hnn i x h
    have hnn' : ∀ (i : Nat) (x : Int), l[i]? = some x → 0 ≤ w (k + 1 + i) * x := fun i x hx => by
      have := hnn (i + 1) x (by simpa using hx)
      rwa [show k + (i + 1) = k + 1 + i from by omega] at this
    have h0 := hnn 0 a (by simp)
    rw [Nat.add_zero] at h0
    simp only [wsumFrom]
    cases i with
    | zero =>
      simp at h
      subst h
      have : 0 ≤ wsumFrom w (k + 1) l := by
        cases l with
        | nil => exact le_refl _
        | cons b l =>
          have h1 := ih (k + 1) hnn' 0 b (by simp)
          have h2 := hnn' 0 b (by simp)
          omega
      rw [Nat.add_zero]
      omega
    | succ i =>
      simp at h
      have := ih (k + 1) hnn' i x h
      rw [show k + (i + 1) = k + 1 + i from by omega]
      omega

theorem wsum_single {w : Nat → Int} {l : List Int}
    (hnn : ∀ (i : Nat) (x : Int), l[i]? = some x → 0 ≤ w i * x) {i : Nat} {x : Int}
    (h : l[i]? = some x) : w i * x ≤ wsum w l := by
  unfold wsum
  have := wsumFrom_single w l 0 (fun i x hx => by rw [Nat.zero_add]; exact hnn i x hx) i x h
  rwa [Nat.zero_add] at this

/-- A push of `δ` units from position `i` to position `j` of a vector. -/
theorem wsum_push (w : Nat → Int) {l : List Int} {i j : Nat} {x y δ : Int} (hij : i ≠ j)
    (hx : l[i]? = some x) (hy : l[j]? = some y) :
    wsum w ((l.set i (x - δ)).set j (y + δ)) = wsum w l - w i * δ + w j * δ := by
  rw [wsum_set w _ (by rw [List.getElem?_set_ne hij]; exact hy), wsum_set w _ hx]
  ring

/-! ## The cut invariant under a push -/

theorem cutWeight_of_ends {g : Graph} {reverse : List Int} {e : Nat} {u v : Int}
    (h : resEnds g reverse e = some (u, v)) (S : Nat → Bool) :
    cutWeight g reverse S e = if S u.toNat = true ∧ S v.toNat = false then 1 else 0 := by
  simp only [cutWeight, h]

theorem pushAlong_cut {g : Graph} (hs : BuilderInput g) {s node nextV t edgeId delta : Int}
    {st st' : LFState} (hnet : ResidualNet g st.reverse)
    (hedge : residualEdgeId g st.reverse node nextV = Run.done edgeId)
    (hcut : CutInv g s st) (hxr : ResExact edgeId delta st)
    (hxe : ExcExact node nextV delta st)
    (h : pushAlong node nextV t edgeId delta st = Run.done st') :
    CutInv g s st' := by
  obtain ⟨hid0, hidU, hends⟩ := residualEdgeId_ends hnet hedge
  obtain ⟨hn0, _, hv0, _, hnv, _⟩ := resEnds_nodes hs hnet hidU hends
  obtain ⟨_, _, hf3, _⟩ := pushAlong_fields h
  obtain ⟨r, rev, rr, h1, h2, h3, h4⟩ := pushAlong_res_exact hxr h
  obtain ⟨en, ev, h5, h6, h7⟩ := pushAlong_exc_exact hxe h
  obtain ⟨_, h1'⟩ := vget_eq_done.1 h1
  obtain ⟨_, h2'⟩ := vget_eq_done.1 h2
  obtain ⟨_, h3'⟩ := vget_eq_done.1 h3
  obtain ⟨_, h5'⟩ := vget_eq_done.1 h5
  obtain ⟨_, h6'⟩ := vget_eq_done.1 h6
  obtain ⟨hrev0, hrevU, hrevne, _, hrevends⟩ := resEnds_reverse hs hnet hidU hends h2'
  have hnvn : node.toNat ≠ nextV.toNat := by omega
  rw [List.getElem?_set_ne (Ne.symm hrevne)] at h3'
  rw [List.getElem?_set_ne hnvn] at h6'
  intro S hS
  have := hcut S hS
  rw [h7, h4, hf3, wsum_push _ hnvn h5' h6', wsum_push _ (Ne.symm hrevne) h1' h3',
    cutWeight_of_ends hends, cutWeight_of_ends hrevends]
  have e1 : indS S node.toNat = if S node.toNat = true then 1 else 0 := rfl
  have e2 : indS S nextV.toNat = if S nextV.toNat = true then 1 else 0 := rfl
  rw [e1, e2]
  cases hSc : S node.toNat <;> cases hSv : S nextV.toNat <;> simp <;> linarith

theorem processBody_cut {g : Graph} (hs : BuilderInput g) {U : Nat} {s node t : Int}
    {st st' : LFState} (hnet : ResidualNet g st.reverse) (hcut : CutInv g s st)
    (hres : ResInv U st) (hexc : ExcInv g s st)
    (hpos : ∀ e, vget st.excess node = Run.done e → 0 < e)
    (h : processBody g node t st = Run.done st') : CutInv g s st' := by
  obtain ⟨e, nextV, hh, edgeId, hnode, he, _, hedge, _, hc⟩ := processBody_cases h
  rcases hc with ⟨_, r, hr, hp⟩ | ⟨_, _, h2, h3, h4, _⟩
  · exact pushAlong_cut hs hnet hedge hcut (resExact_of_inv hres (hpos e he) hr)
      (excExact_of_inv hexc he (hpos e he) (nonneg_get hres.nonneg (vget_eq_done.1 hr).2)) hp
  · intro S hS
    rw [h2, h3, h4]
    exact hcut S hS

/-! ## The cut invariant after the initial preflow -/

theorem wsumFrom_weight (w w' : Nat → Int) : ∀ (l : List Int) (k j : Nat) (x : Int),
    (∀ i : Nat, i ≠ j → i < l.length → w' (k + i) = w (k + i)) → l[j]? = some x →
    wsumFrom w' k l = wsumFrom w k l + (w' (k + j) - w (k + j)) * x := by
  intro l
  induction l with
  | nil => intro k j x _ h; simp at h
  | cons a l ih =>
    intro k j x hw h
    simp only [wsumFrom]
    cases j with
    | zero =>
      simp at h
      subst h
      have : wsumFrom w' (k + 1) l = wsumFrom w (k + 1) l := by
        have h1 : wsumFrom w' (k + 1) l ≤ wsumFrom w (k + 1) l :=
          wsumFrom_le w' w l l (k + 1) rfl (fun i x x' hx hx' => by
            rw [hx] at hx'; cases hx'
            have := hw (i + 1) (by omega) (by
              have := (List.getElem?_eq_some_iff.1 hx).1
              simp; omega)
            rw [show k + 1 + i = k + (i + 1) from by omega, this])
        have h2 : wsumFrom w (k + 1) l ≤ wsumFrom w' (k + 1) l :=
          wsumFrom_le w w' l l (k + 1) rfl (fun i x x' hx hx' => by
            rw [hx] at hx'; cases hx'
            have := hw (i + 1) (by omega) (by
              have := (List.getElem?_eq_some_iff.1 hx).1
              simp; omega)
            rw [show k + 1 + i = k + (i + 1) from by omega, this])
        omega
      rw [this]
      simp only [Nat.add_zero]
      ring
    | succ j =>
      simp at h
      have h0 := hw 0 (by omega) (by simp)
      rw [Nat.add_zero] at h0
      rw [h0, ih (k + 1) j x (fun i hi hlt => by
        have := hw (i + 1) (by omega) (by simp; omega)
        rwa [show k + (i + 1) = k + 1 + i from by omega] at this) h,
        show k + 1 + j = k + (j + 1) from by omega]
      ring

theorem wsum_weight {w w' : Nat → Int} {l : List Int} {j : Nat} {x : Int}
    (hw : ∀ i : Nat, i ≠ j → i < l.length → w' i = w i) (h : l[j]? = some x) :
    wsum w' l = wsum w l + (w' j - w j) * x := by
  unfold wsum
  have := wsumFrom_weight w w' l 0 j x (fun i hi hlt => by
    rw [Nat.zero_add]; exact hw i hi hlt) h
  rwa [Nat.zero_add] at this

theorem initialPreflow_cons_split {g : Graph} {s n : Int} {ns : List Int} {st st' : LFState}
    (h : initialPreflow g s (n :: ns) st = Run.done st') :
    ∃ st1, initialPreflow g s [n] st = Run.done st1 ∧ initialPreflow g s ns st1 = Run.done st' := by
  simp only [initialPreflow, Run.bind_eq_done] at h ⊢
  obtain ⟨res1, hres1, rev, hrev, c, hc, res2, hres2, w, hwt, ex1, hex1, es, hes, w2, hwt2,
    ex2, hex2, ia, hia, h⟩ := h
  exact ⟨_, ⟨res1, hres1, rev, hrev, c, hc, res2, hres2, w, hwt, ex1, hex1, es, hes, w2, hwt2,
    ex2, hex2, ia, hia, rfl⟩, h⟩

theorem markedWeight_of_ends {g : Graph} {reverse : List Int} {e : Nat} {u v : Int}
    (h : resEnds g reverse e = some (u, v)) (s : Int) (visited : List Int) (S : Nat → Bool) :
    markedWeight g reverse s visited S e =
      if v = s ∧ u ∈ visited ∧ S u.toNat = true then 1 else 0 := by
  simp only [markedWeight, h]

theorem indS_mul_le (S : Nat → Bool) (k : Nat) {a b : Int} (h : a ≤ b) :
    indS S k * a ≤ indS S k * b := by
  unfold indS
  split
  · omega
  · omega

/-- One round of the initial-preflow loop, for the neighbour `n`, keeps the cut invariant of the
loop. -/
theorem initialPreflow_marked_step {g : Graph} (hs : BuilderInput g) {s n : Int}
    {visited : List Int} {st st1 : LFState} (hnet : ResidualNet g st.reverse)
    (hlen : st.residuals.length = g.undirectedNumEdges)
    (hcap : ∀ (a : Nat) (e : Edge) (c : Int), g.edges[a]? = some e →
      st.capacities[a]? = some c → e.weight ≤ c)
    (hzero : ∀ x, st.excess[n.toNat]? = some x → x = 0) (hnv : n ∉ visited)
    (hJ : MarkedCut g s visited st) (h : initialPreflow g s [n] st = Run.done st1) :
    MarkedCut g s (n :: visited) st1 ∧ st1.reverse = st.reverse ∧
      st1.capacities = st.capacities := by
  simp only [initialPreflow, Run.bind_eq_done] at h
  obtain ⟨res1, hres1, rev, hrev, c, hc, res2, hres2, w, hwt, ex1, hex1, es, hes, w2, hwt2,
    ex2, hex2, ia, hia, h⟩ := h
  rw [hwt] at hwt2
  cases hwt2
  cases h
  obtain ⟨hid0, hidlt, rfl⟩ := vset_eq_done.1 hres1
  obtain ⟨hrev0, hrevlt, rfl⟩ := vset_eq_done.1 hres2
  obtain ⟨_, hrev'⟩ := vget_eq_done.1 hrev
  obtain ⟨_, hc'⟩ := vget_eq_done.1 hc
  obtain ⟨hn0, hnlt, rfl⟩ := vset_eq_done.1 hex1
  obtain ⟨hs0, hes'⟩ := vget_eq_done.1 hes
  obtain ⟨_, _, rfl⟩ := vset_eq_done.1 hex2
  have hne : getIdFromSrcDst g s n ≠ -1 := by omega
  obtain ⟨a, ed, ha, hea, _, _, _⟩ := getId_edge hne
  obtain ⟨_, hidU, hends⟩ := residualEdgeId_ends hnet
    (residualEdgeId_orig st.reverse hne)
  obtain ⟨_, _, _, _, hsn, _⟩ := resEnds_nodes hs hnet hidU hends
  obtain ⟨_, hrevU, hrevne, _, hrevends⟩ := resEnds_reverse hs hnet hidU hends hrev'
  have hwc : w ≤ c := by
    rw [ha] at hwt hc'
    simp only [Int.toNat_ofNat] at hc'
    rw [weight_of_id hea hwt]
    exact hcap a ed c hea hc'
  obtain ⟨r0, hr0⟩ : ∃ r0, st.residuals[(getIdFromSrcDst g s n).toNat]? = some r0 :=
    ⟨_, List.getElem?_eq_getElem hidlt⟩
  obtain ⟨rr, hrr⟩ : ∃ rr, st.residuals[rev.toNat]? = some rr :=
    ⟨_, List.getElem?_eq_getElem (by rw [hlen]; exact hrevU)⟩
  obtain ⟨xn, hxn⟩ : ∃ xn, st.excess[n.toNat]? = some xn := ⟨_, List.getElem?_eq_getElem hnlt⟩
  have hxn0 := hzero xn hxn
  subst hxn0
  have hnsn : n.toNat ≠ s.toNat := by omega
  rw [List.getElem?_set_ne hnsn] at hes'
  refine ⟨?_, rfl, rfl⟩
  intro S hS
  have hJS := hJ S hS
  show wsum (indS S) ((st.excess.set n.toNat w).set s.toNat (wrap (es - w))) ≤
    wsum (markedWeight g st.reverse s (n :: visited) S)
      ((st.residuals.set (getIdFromSrcDst g s n).toNat 0).set rev.toNat c)
  have hinds : indS S s.toNat = 0 := by unfold indS; rw [hS]; simp
  rw [wsum_set _ _ (by rw [List.getElem?_set_ne hnsn]; exact hes'), wsum_set _ _ hxn, hinds,
    wsum_set _ _ (by rw [List.getElem?_set_ne (Ne.symm hrevne)]; exact hrr), wsum_set _ _ hr0]
  have hwch : wsum (markedWeight g st.reverse s (n :: visited) S) st.residuals =
      wsum (markedWeight g st.reverse s visited S) st.residuals +
        (markedWeight g st.reverse s (n :: visited) S rev.toNat -
          markedWeight g st.reverse s visited S rev.toNat) * rr := by
    refine wsum_weight ?_ hrr
    intro i hi hlt
    rw [hlen] at hlt
    rcases resEnds_cases hnet hlt with ⟨ed', _, h1⟩ | ⟨_, _, ed', _, _, _, _, h1⟩
    · rw [markedWeight_of_ends h1, markedWeight_of_ends h1]
      by_cases hcond : ed'.dst = s ∧ ed'.src = n
      · exfalso
        rw [hcond.1, hcond.2] at h1
        have e1 := resEnds_residualEdgeId hs hnet hlt h1
        have e2 := resEnds_residualEdgeId hs hnet hrevU hrevends
        rw [e1] at e2
        have := Run.done.inj e2
        omega
      · simp only [List.mem_cons]
        by_cases h2 : ed'.dst = s
        · have h3 : ed'.src ≠ n := fun h3 => hcond ⟨h2, h3⟩
          simp [h2, h3]
        · simp [h2]
    · rw [markedWeight_of_ends h1, markedWeight_of_ends h1]
      by_cases hcond : ed'.src = s ∧ ed'.dst = n
      · exfalso
        rw [hcond.1, hcond.2] at h1
        have e1 := resEnds_residualEdgeId hs hnet hlt h1
        have e2 := resEnds_residualEdgeId hs hnet hrevU hrevends
        rw [e1] at e2
        have := Run.done.inj e2
        omega
      · simp only [List.mem_cons]
        by_cases h2 : ed'.src = s
        · have h3 : ed'.dst ≠ n := fun h3 => hcond ⟨h2, h3⟩
          simp [h2, h3]
        · simp [h2]
  rw [hwch, markedWeight_of_ends hends, markedWeight_of_ends hrevends,
    markedWeight_of_ends hrevends]
  have hm1 : ¬ (n = s ∧ s ∈ n :: visited ∧ S s.toNat = true) := fun hc => hsn hc.1.symm
  have hm2 : ¬ (s = s ∧ n ∈ visited ∧ S n.toNat = true) := fun hc => hnv hc.2.1
  rw [if_neg hm1, if_neg hm2]
  have hind := indS_mul_le S n.toNat hwc
  have hi2 : (if s = s ∧ n ∈ n :: visited ∧ S n.toNat = true then (1 : Int) else 0) =
      indS S n.toNat := by
    unfold indS
    simp
  rw [hi2]
  nlinarith [hind, hJS]

theorem initialPreflow_marked {g : Graph} (hw : WeightsNonneg g) (hs : BuilderInput g) (s : Int)
    (hs0 : 0 ≤ s) :
    ∀ (ns visited : List Int) (st st' : LFState), ns.Nodup → s ∉ ns →
      (∀ n ∈ ns, n ∉ visited) → InitInv s visited st →
      (∀ x : Int, st.excess[s.toNat]? = some x → -LONG_MAX ≤ x - sourceWeight g s ns) →
      ResidualNet g st.reverse →
      st.residuals.length = g.undirectedNumEdges →
      (∀ (a : Nat) (e : Edge) (c : Int), g.edges[a]? = some e →
        st.capacities[a]? = some c → e.weight ≤ c) →
      MarkedCut g s visited st → initialPreflow g s ns st = Run.done st' →
      MarkedCut g s (ns.reverse ++ visited) st' := by
  intro ns
  induction ns with
  | nil =>
    intro visited st st' _ _ _ _ _ _ _ _ hJ h
    simp only [initialPreflow] at h
    cases h
    simpa using hJ
  | cons n ns ih =>
    intro visited st st' hnd hsn hdis hinit hsrc hnet hlen hcap hJ h
    obtain ⟨st1, h1, h2⟩ := initialPreflow_cons_split h
    have hnd' := List.nodup_cons.1 hnd
    have hnv : n ∉ visited := hdis n (List.mem_cons_self _ _)
    have hns : n ≠ s := fun hc => hsn (hc ▸ List.mem_cons_self _ _)
    obtain ⟨hinit1, hsrc1⟩ := initialPreflow_step hw hs0 hns ns hnv hinit hsrc h1
    obtain ⟨hf1, hf2, hf3, _, hf5, _⟩ := initialPreflow_fields s _ _ _ h1
    have hzero : ∀ x, st.excess[n.toNat]? = some x → x = 0 := by
      intro x hx
      have hn0 : 0 ≤ n := by
        simp only [initialPreflow, Run.bind_eq_done] at h1
        obtain ⟨res1, hres1, rev, hrev, c, hc, res2, hres2, w, hwt, ex1, hex1, _⟩ := h1
        exact (vset_eq_done.1 hex1).1
      exact hinit.2 n.toNat x (by omega)
        (by rw [show ((n.toNat : Nat) : Int) = n from by omega]; exact hnv) hx
    obtain ⟨hJ1, _, _⟩ := initialPreflow_marked_step hs hnet hlen hcap hzero hnv hJ h1
    have := ih (n :: visited) st1 st' hnd'.2 (fun hc => hsn (List.mem_cons_of_mem _ hc)) (by
      intro m hm hmv
      rcases List.mem_cons.1 hmv with h3 | h3
      · exact hnd'.1 (h3 ▸ hm)
      · exact hdis m (List.mem_cons_of_mem _ hm) h3) hinit1 hsrc1 (by rw [hf2]; exact hnet)
      (by rw [hf5]; exact hlen) (by rw [hf3]; exact hcap) hJ1 h2
    simpa using this

theorem cutInv_of_marked {g : Graph} {s : Int} {visited : List Int} {st : LFState}
    (hnn : Nonneg st.residuals) (hJ : MarkedCut g s visited st) : CutInv g s st := by
  intro S hS
  refine le_trans (hJ S hS) (wsum_le rfl ?_)
  intro i x x' hx hx'
  rw [hx] at hx'; cases hx'
  have hx0 : 0 ≤ x := nonneg_get hnn hx
  unfold markedWeight cutWeight
  split
  · rename_i u v _
    by_cases hc : v = s ∧ u ∈ visited ∧ S u.toNat = true
    · rw [if_pos hc, if_pos ⟨hc.2.2, by rw [hc.1]; exact hS⟩]
    · rw [if_neg hc]
      split
      · omega
      · omega
  · exact le_refl _

theorem LFInit_cut {g : Graph} (hw : WeightsNonneg g) (hp : PairsFit g) (hs : BuilderInput g)
    {s : Int} (hsrc : SourceFits g s) (hnd : (getNeighbours g s).Nodup)
    (hsn : s ∉ getNeighbours g s) {st : LFState}
    (h : LFInit g s = Run.done st) : CutInv g s st := by
  obtain ⟨fst, hfill, hts, hhts, hpre⟩ := LFInit_fields h
  obtain ⟨fst', hfill', hinv, hcap, hall⟩ := fill_final hs
  rw [hfill] at hfill'; cases hfill'
  obtain ⟨hs0, hsl, _⟩ := vset_eq_done.1 hhts
  rw [List.length_replicate] at hsl
  have hnn := (LFInit_res hw hp hs h).nonneg
  refine cutInv_of_marked hnn (initialPreflow_marked hw hs s hs0 _ [] _ st hnd hsn (by simp)
    (initInv_replicate s g.NV _ rfl)
    ?_ (residualNet_of_fill hs hinv hall) hinv.lenC
    (fill_caps_ge hw hp hinv hcap hall) ?_ hpre)
  · intro x hx
    simp only [List.getElem?_replicate, if_pos hsl] at hx
    cases hx
    unfold SourceFits at hsrc
    omega
  · intro S _
    have h1 : wsum (indS S) (List.replicate g.NV (0 : Int)) = 0 := by
      refine wsum_zero ?_
      intro i x hx
      simp only [List.getElem?_replicate] at hx
      split at hx
      · cases hx; simp
      · cases hx
    have h2 : wsum (markedWeight g fst.reverse s [] S) fst.capacities = 0 := by
      refine wsum_zero ?_
      intro i x _
      unfold markedWeight
      split
      · simp
      · simp
    show wsum (indS S) (List.replicate g.NV (0 : Int)) ≤
      wsum (markedWeight g fst.reverse s [] S) fst.capacities
    rw [h1, h2]

/-! ## A node with positive excess has a residual edge to leave by -/

theorem excess_source_nonpos {s : Int} {st : LFState} (hexc : ExcessInv s st) (hs0 : 0 ≤ s)
    {x : Int} (hx : st.excess[s.toNat]? = some x) : x ≤ 0 := by
  have hsum := sum_set_of_get st.excess s.toNat 0 x hx
  have hnn : Nonneg (st.excess.set s.toNat 0) := by
    intro y hy
    obtain ⟨k, hk⟩ := List.mem_iff_getElem?.1 hy
    rcases set_get_cases hk with ⟨_, rfl⟩ | ⟨hne, hk'⟩
    · exact le_refl _
    · exact hexc.2 k y (by omega) hk'
  have h0 : 0 ≤ (st.excess.set s.toNat 0).sum := List.sum_nonneg hnn
  rw [hsum, hexc.1] at h0
  omega

theorem residualEdgeId_returns {g : Graph} {reverse : List Int} (hnet : ResidualNet g reverse)
    {u v : Int} (hadj : Adjacent g u v) : ∃ id, residualEdgeId g reverse u v = Run.done id := by
  by_cases hE : getIdFromSrcDst g u v = -1
  · have hR : getIdFromSrcDst g v u ≠ -1 := by
      obtain ⟨e, hmem, h | h⟩ := hadj
      · exact absurd hE (findEdge_complete g.edges u v 0 ⟨e, hmem, h⟩ (le_refl _))
      · exact findEdge_complete g.edges v u 0 ⟨e, hmem, h⟩ (le_refl _)
    obtain ⟨a, e, ha, hea, _, _, _⟩ := getId_edge hR
    obtain ⟨r, hr, _, _, _⟩ := hnet.orig a e hea
    refine ⟨r, ?_⟩
    simp only [residualEdgeId, hE, if_true, ha]
    exact vget_ok (by omega) (by simpa using hr)
  · exact ⟨_, residualEdgeId_orig _ hE⟩

theorem list_adjacent {g : Graph} (hs : BuilderInput g) {c n : Int} (hc0 : 0 ≤ c)
    (hcNV : c < g.NV) (hn : n ∈ getNeighbourListFor g c) : Adjacent g c n := by
  have := hs.listsAdjacent c.toNat (List.mem_range.2 (by omega)) n (by
    rw [show ((c.toNat : Nat) : Int) = c from by omega]; exact hn)
  rw [show ((c.toNat : Nat) : Int) = c from by omega] at this
  exact this

theorem scanNeighbours_returns {g : Graph} (hs : BuilderInput g) {st : LFState}
    (hnet : ResidualNet g st.reverse) (hlenR : st.residuals.length = g.undirectedNumEdges)
    (hlenH : st.heights.length = g.NV) {c : Int} (hc0 : 0 ≤ c) (hcNV : c < g.NV) :
    ∀ (ns : List Int) (acc : Int × Int), (∀ n ∈ ns, n ∈ getNeighbourListFor g c) →
      ∃ out, scanNeighbours g c st.heights st.reverse st.residuals ns acc = Run.done out := by
  intro ns
  induction ns with
  | nil => intro acc _; exact ⟨acc, rfl⟩
  | cons n ns ih =>
    intro acc hmem
    have hadj := list_adjacent hs hc0 hcNV (hmem n (List.mem_cons_self _ _))
    obtain ⟨id, hid⟩ := residualEdgeId_returns hnet hadj
    obtain ⟨hid0, hidU, hends⟩ := residualEdgeId_ends hnet hid
    obtain ⟨_, _, hn0, hnNV, _, _⟩ := resEnds_nodes hs hnet hidU hends
    obtain ⟨r, hr⟩ : ∃ r, st.residuals[id.toNat]? = some r :=
      ⟨_, List.getElem?_eq_getElem (by rw [hlenR]; exact hidU)⟩
    obtain ⟨hn, hhn⟩ : ∃ hn, st.heights[n.toNat]? = some hn :=
      ⟨_, List.getElem?_eq_getElem (by rw [hlenH]; omega)⟩
    have ihm := fun acc' => ih acc' (fun m hm => hmem m (List.mem_cons_of_mem _ hm))
    simp only [scanNeighbours, hid, Run.done_bind, vget_ok hid0 hr, vget_ok hn0 hhn]
    split
    · exact ihm acc
    · split
      · exact ihm (n, hn)
      · exact ihm acc

theorem residual_neighbour_exists {g : Graph} (hs : BuilderInput g) {s : Int} {st : LFState}
    (hnet : ResidualNet g st.reverse) (hlenR : st.residuals.length = g.undirectedNumEdges)
    (hnn : Nonneg st.residuals) (hexc : ExcessInv s st) (hcut : CutInv g s st) (hs0 : 0 ≤ s)
    {c e : Int} (hc : vget st.excess c = Run.done e) (hpos : 0 < e) :
    ∃ v id r, v ∈ getNeighbourListFor g c ∧ residualEdgeId g st.reverse c v = Run.done id ∧
      vget st.residuals id = Run.done r ∧ 0 < r := by
  obtain ⟨hc0, hc'⟩ := vget_eq_done.1 hc
  have hcs : c ≠ s := by
    rintro rfl
    have := excess_source_nonpos hexc hs0 hc'
    omega
  by_contra hno
  push_neg at hno
  obtain ⟨S, hSd⟩ : ∃ S : Nat → Bool, ∀ x, S x = decide (x = c.toNat) :=
    ⟨fun x => decide (x = c.toNat), fun _ => rfl⟩
  have hS : S s.toNat = false := by
    rw [hSd]
    simp only [decide_eq_false_iff_not]
    omega
  have hle := hcut S hS
  have hzero : wsum (cutWeight g st.reverse S) st.residuals = 0 := by
    refine wsum_zero ?_
    intro i x hx
    have hi : i < g.undirectedNumEdges := by
      rw [← hlenR]; exact (List.getElem?_eq_some_iff.1 hx).1
    obtain ⟨u, v, hends⟩ : ∃ u v, resEnds g st.reverse i = some (u, v) := by
      rcases resEnds_cases hnet hi with ⟨ed, _, h1⟩ | ⟨_, _, ed, _, _, _, _, h1⟩
      · exact ⟨_, _, h1⟩
      · exact ⟨_, _, h1⟩
    obtain ⟨hu0, _, hv0, _, huv, hadj⟩ := resEnds_nodes hs hnet hi hends
    rw [cutWeight_of_ends hends]
    split
    · rename_i hcond
      rw [hSd, hSd] at hcond
      simp only [decide_eq_true_eq, decide_eq_false_iff_not] at hcond
      have huc : u = c := by omega
      subst huc
      have := hno v i x (adjacent_mem_list hs hadj) (resEnds_residualEdgeId hs hnet hi hends)
        (vget_ok (by omega) (by simpa using hx))
      have hx0 := nonneg_get hnn hx
      have hx1 : x = 0 := by omega
      rw [hx1]; simp
    · simp
  have hsingle : indS S c.toNat * e ≤ wsum (indS S) st.excess := by
    refine wsum_single ?_ hc'
    intro i x hx
    unfold indS
    split
    · rename_i hi
      rw [hSd] at hi
      simp only [decide_eq_true_eq] at hi
      subst hi
      rw [hc'] at hx; cases hx
      omega
    · simp
  have hone : indS S c.toNat = 1 := by
    unfold indS; rw [hSd]; simp
  rw [hone] at hsingle
  omega

/-! ## The heights stay below `2 V` -/

/-- Among the levels `V + 1, ..., 2 V - 2` there is one that is the height of no node other
than `c`, when `s`, `c` and a third node `v` have heights outside these levels. -/
theorem empty_level {heights : List Int} {V : Nat} (hlen : heights.length = V) {s c v : Nat}
    (hs : s < V) (hc : c < V) (hv : v < V) (hsc : s ≠ c) (hsv : s ≠ v) (hcv : c ≠ v)
    (hhs : heights[s]? = some (V : Int)) {hv' : Int} (hhv : heights[v]? = some hv')
    (hbig : 2 * (V : Int) - 1 ≤ hv') :
    ∃ j : Nat, j < V - 2 ∧ ∀ x : Nat, x ≠ c → heights[x]? ≠ some ((V : Int) + 1 + j) := by
  by_contra hng
  push_neg at hng
  have hch : ∀ j : Nat, ∃ x : Nat, j < V - 2 →
      (x ≠ c ∧ heights[x]? = some ((V : Int) + 1 + j)) := by
    intro j
    by_cases hj : j < V - 2
    · obtain ⟨x, hx⟩ := hng j hj
      exact ⟨x, fun _ => hx⟩
    · exact ⟨0, fun h => absurd h hj⟩
  choose f hf using hch
  have hcard : ((((Finset.range V).erase s).erase c).erase v).card <
      (Finset.range (V - 2)).card := by
    rw [Finset.card_erase_of_mem (by simp; omega), Finset.card_erase_of_mem (by simp; omega),
      Finset.card_erase_of_mem (by simp; omega), Finset.card_range, Finset.card_range]
    omega
  obtain ⟨j1, hj1, j2, hj2, hne, heq⟩ :=
    Finset.exists_ne_map_eq_of_card_lt_of_maps_to hcard (f := f) (by
      intro j hj
      have hj' : j < V - 2 := Finset.mem_range.1 hj
      obtain ⟨h1, h2⟩ := hf j hj'
      have hlt : f j < V := by
        rw [← hlen]; exact (List.getElem?_eq_some_iff.1 h2).1
      simp only [Finset.mem_erase, Finset.mem_range]
      refine ⟨?_, h1, ?_, hlt⟩
      · rintro heq
        rw [heq, hhv] at h2
        have := Option.some.inj h2
        omega
      · rintro heq
        rw [heq, hhs] at h2
        have := Option.some.inj h2
        omega)
  have h1 := (hf j1 (Finset.mem_range.1 hj1)).2
  have h2 := (hf j2 (Finset.mem_range.1 hj2)).2
  rw [heq, h2] at h1
  have := Option.some.inj h1
  omega

/-- The lowest neighbour with positive residual of a node with positive excess has height at
most `2 V - 2`. -/
theorem gap_bound {g : Graph} (hs : BuilderInput g) {s : Int} {st : LFState}
    (hnet : ResidualNet g st.reverse) (hlenR : st.residuals.length = g.undirectedNumEdges)
    (hlenH : st.heights.length = g.NV) (hnn : Nonneg st.residuals) (hexc : ExcessInv s st)
    (hcut : CutInv g s st) (hs0 : 0 ≤ s) (hsrc : st.heights[s.toNat]? = some (g.NV : Int))
    (hadm : ∀ (e : Nat) (u v r hu hv : Int), u ≠ s → resEnds g st.reverse e = some (u, v) →
      st.residuals[e]? = some r → st.heights[u.toNat]? = some hu →
      st.heights[v.toNat]? = some hv → 0 < r → hu ≤ hv + 1)
    {c e : Int} (hc : vget st.excess c = Run.done e) (hpos : 0 < e) {nextV hh edgeId : Int}
    (hscan : scanNeighbours g c st.heights st.reverse st.residuals
      (getNeighbourListFor g c) (-1, LONG_MAX) = Run.done (nextV, hh))
    (hedge : residualEdgeId g st.reverse c nextV = Run.done edgeId) :
    hh ≤ 2 * (g.NV : Int) - 2 := by
  by_contra hcon
  obtain ⟨hc0, hc'⟩ := vget_eq_done.1 hc
  obtain ⟨_, _, r, _, _, hhv⟩ := scan_found hs hnet hscan hedge
  obtain ⟨_, hhv'⟩ := vget_eq_done.1 hhv
  have spec3 := (scanNeighbours_spec g c st.heights st.reverse st.residuals _ _ _ hscan).2.2
  simp only at spec3
  obtain ⟨_, hidU, hends⟩ := residualEdgeId_ends hnet hedge
  obtain ⟨_, hcNV, hv0, hvNV, hcv, _⟩ := resEnds_nodes hs hnet hidU hends
  have hsNV : s.toNat < g.NV := by
    rw [← hlenH]; exact (List.getElem?_eq_some_iff.1 hsrc).1
  have hcs : c ≠ s := by
    rintro rfl
    have := excess_source_nonpos hexc hs0 hc'
    omega
  have hvs : nextV ≠ s := by
    rintro rfl
    rw [hsrc] at hhv'
    have := Option.some.inj hhv'
    omega
  obtain ⟨j, hj, hgap⟩ := empty_level hlenH (s := s.toNat) (c := c.toNat) (v := nextV.toNat)
    hsNV (by omega) (by omega) (by omega) (by omega) (by omega) hsrc hhv' (by omega)
  obtain ⟨S, hSd⟩ : ∃ S : Nat → Bool, ∀ x, S x =
      (decide (x = c.toNat) || decide ((g.NV : Int) + 1 + j < st.heights.getD x 0)) :=
    ⟨fun x => decide (x = c.toNat) || decide ((g.NV : Int) + 1 + j < st.heights.getD x 0),
      fun _ => rfl⟩
  have hgetD : ∀ (x : Nat) (y : Int), st.heights[x]? = some y → st.heights.getD x 0 = y := by
    intro x y hx
    rw [List.getD_eq_getElem?_getD, hx]; rfl
  have hS : S s.toNat = false := by
    rw [hSd, hgetD _ _ hsrc]
    simp only [Bool.or_eq_false_iff, decide_eq_false_iff_not]
    omega
  have hle := hcut S hS
  have hzero : wsum (cutWeight g st.reverse S) st.residuals = 0 := by
    refine wsum_zero ?_
    intro i x hx
    have hi : i < g.undirectedNumEdges := by
      rw [← hlenR]; exact (List.getElem?_eq_some_iff.1 hx).1
    obtain ⟨u, v, hends'⟩ : ∃ u v, resEnds g st.reverse i = some (u, v) := by
      rcases resEnds_cases hnet hi with ⟨ed, _, h1⟩ | ⟨_, _, ed, _, _, _, _, h1⟩
      · exact ⟨_, _, h1⟩
      · exact ⟨_, _, h1⟩
    obtain ⟨hu0, huNV, hv0', hvNV', huv, hadj⟩ := resEnds_nodes hs hnet hi hends'
    obtain ⟨hu, hhu⟩ : ∃ hu, st.heights[u.toNat]? = some hu :=
      ⟨_, List.getElem?_eq_getElem (by rw [hlenH]; omega)⟩
    obtain ⟨hv, hhv2⟩ : ∃ hv, st.heights[v.toNat]? = some hv :=
      ⟨_, List.getElem?_eq_getElem (by rw [hlenH]; omega)⟩
    rw [cutWeight_of_ends hends']
    split
    · rename_i hcond
      rw [hSd, hSd, hgetD _ _ hhu, hgetD _ _ hhv2] at hcond
      simp only [Bool.or_eq_true, decide_eq_true_eq, Bool.or_eq_false_iff,
        decide_eq_false_iff_not] at hcond
      obtain ⟨hSu, hvc, hvk⟩ := hcond
      have hx0 := nonneg_get hnn hx
      by_contra hne
      have hxpos : 0 < x := by
        rcases Nat.eq_zero_or_pos x.toNat with h0 | h0
        · exfalso; apply hne
          have : x = 0 := by omega
          rw [this]; simp
        · omega
      rcases hSu with huc | huk
      · have huc' : u = c := by omega
        subst huc'
        have := spec3 v (adjacent_mem_list hs hadj) i x hv
          (resEnds_residualEdgeId hs hnet hi hends') (vget_ok (by omega) (by simpa using hx))
          hxpos (vget_ok hv0' hhv2)
        omega
      · have hus : u ≠ s := by
          rintro rfl
          rw [hsrc] at hhu
          have := Option.some.inj hhu
          omega
        have h1 := hadm i u v x hu hv hus hends' hx hhu hhv2 hxpos
        have hvk' : hv = (g.NV : Int) + 1 + j := by omega
        rw [hvk'] at hhv2
        exact hgap v.toNat hvc hhv2
    · simp
  have hsingle : indS S c.toNat * e ≤ wsum (indS S) st.excess := by
    refine wsum_single ?_ hc'
    intro i x hx
    unfold indS
    split
    · rename_i hi
      have his : (i : Int) ≠ s := by
        rintro rfl
        simp only [Int.toNat_ofNat] at hS
        rw [hS] at hi
        cases hi
      have := hexc.2 i x his hx
      omega
    · simp
  have hone : indS S c.toNat = 1 := by
    unfold indS; rw [hSd]; simp
  rw [hone] at hsingle
  omega

/-! ## The invariant of a run without global relabeling -/

theorem pushAlong_target_queued {g : Graph} {node nextV t edgeId delta : Int}
    {st st' : LFState} (hb : Bookkeeping g st)
    (h : pushAlong node nextV t edgeId delta st = Run.done st') (hvt : nextV ≠ t) :
    nextV ∈ st'.activeNodes := by
  simp only [pushAlong, Run.bind_eq_done] at h
  obtain ⟨r, _, res1, _, rev, _, rr, _, res2, _, en, _, ex1, _, ev, _, ex2, _, h⟩ := h
  rw [if_pos hvt] at h
  simp only [Run.bind_eq_done] at h
  obtain ⟨a, ha, h⟩ := h
  obtain ⟨hv0, ha'⟩ := vget_eq_done.1 ha
  split at h
  · simp only [Run.bind_eq_done] at h
    obtain ⟨ia, _, h⟩ := h
    cases h
    simp
  · rename_i hna
    cases h
    have hat : a = true := by simpa using hna
    subst hat
    have := ((hb.2.2.2 nextV.toNat).1 ha').1
    rwa [show ((nextV.toNat : Nat) : Int) = nextV from by omega] at this

theorem processBody_queued {g : Graph} {c t : Int} {st st' : LFState}
    (hb : Bookkeeping g st)
    (hq : ∀ (k : Nat) (x : Int), (k : Int) ≠ t → st.excess[k]? = some x → 0 < x →
      (k : Int) ∈ st.activeNodes)
    (hfront : c ∈ st.activeNodes) (h : processBody g c t st = Run.done st') :
    (∀ (k : Nat) (x : Int), (k : Int) ≠ t → st'.excess[k]? = some x → 0 < x →
      (k : Int) ∈ st'.activeNodes) ∧ st'.excess.length = st.excess.length := by
  obtain ⟨e, nextV, hh, edgeId, hnode, he, _, hedge, _, hc⟩ := processBody_cases h
  rcases hc with ⟨_, r, _, hp⟩ | ⟨_, _, h2, _, _, h5, _⟩
  · obtain ⟨_, l, hl⟩ := pushAlong_book hb hp
    obtain ⟨_, _, _, en, ev, _, _, _, h1, h2, _, h3⟩ := pushAlong_spec hp
    obtain ⟨hc0, _⟩ := vget_eq_done.1 h1
    obtain ⟨hv0, _⟩ := vget_eq_done.1 h2
    refine ⟨?_, by rw [h3]; simp⟩
    intro k x hkt hx hpos
    rw [h3] at hx
    rcases set_get_cases hx with ⟨k1, _⟩ | ⟨k1, hx'⟩
    · have hkv : (k : Int) = nextV := by omega
      rw [hkv]
      exact pushAlong_target_queued hb hp (by rw [← hkv]; exact hkt)
    · rw [hl]
      refine List.mem_append_left _ ?_
      rcases set_get_cases hx' with ⟨k2, _⟩ | ⟨k2, hx''⟩
      · have hkc : (k : Int) = c := by omega
        rw [hkc]; exact hfront
      · exact hq k x hkt hx'' hpos
  · refine ⟨?_, by rw [h2]⟩
    intro k x hkt hx hpos
    rw [h2] at hx
    rw [h5]
    exact hq k x hkt hx hpos

theorem processBody_safe {g : Graph} (hs : BuilderInput g) {s t : Int} (hs0 : 0 ≤ s)
    {c e : Int} {st st' : LFState} (hinv : SafeInv g s t st)
    (hc : vget st.excess c = Run.done e) (hpos : 0 < e) (hfront : c ∈ st.activeNodes)
    (h : processBody g c t st = Run.done st') : SafeInv g s t st' := by
  obtain ⟨hf1, _, hf3, hf4⟩ := processBody_fields h
  obtain ⟨hq', hlenE'⟩ := processBody_queued hinv.book hinv.queued hfront h
  obtain ⟨hc0, hc'⟩ := vget_eq_done.1 hc
  have hcs : c ≠ s := by
    rintro rfl
    have := excess_source_nonpos hinv.exc.inv hs0 hc'
    omega
  have hheights : st'.heights[s.toNat]? = some (g.NV : Int) ∧
      ∀ (k : Nat) (x : Int), st'.heights[k]? = some x → 0 ≤ x ∧ x ≤ 2 * (g.NV : Int) - 1 := by
    obtain ⟨e', nextV, hh, edgeId, hnode, he', hscan, hedge, _, hcase⟩ := processBody_cases h
    rcases hcase with ⟨_, r, _, hp⟩ | ⟨_, h1, _⟩
    · rw [(pushAlong_fields hp).1]
      exact ⟨hinv.src, hinv.bound⟩
    · rw [h1]
      have hgap := gap_bound hs hinv.net hinv.lenR hinv.lenH hinv.res.nonneg hinv.exc.inv hinv.cut hs0
        hinv.src hinv.adm hc hpos hscan hedge
      obtain ⟨_, _, _, _, _, hhv⟩ := scan_found hs hinv.net hscan hedge
      have hh0 := (hinv.bound _ _ (vget_eq_done.1 hhv).2).1
      refine ⟨by rw [List.getElem?_set_ne (by omega)]; exact hinv.src, ?_⟩
      intro k x hx
      rcases set_get_cases hx with ⟨_, rfl⟩ | ⟨_, hx'⟩
      · omega
      · exact hinv.bound k x hx'
  exact
    { net := by rw [hf1]; exact hinv.net
      lenR := by rw [hf3]; exact hinv.lenR
      lenH := by rw [hf4]; exact hinv.lenH
      lenE := by rw [hlenE']; exact hinv.lenE
      res := processBody_res hinv.res
        (fun e' he' => by rw [hc] at he'; cases he'; exact hpos) h
      exc := processBody_exc hs hinv.exc
        (fun e' he' => by rw [hc] at he'; cases he'; exact hpos) h
      src := hheights.1
      bound := hheights.2
      adm := processBody_admissible_on hs (fun u => u ≠ s) hinv.net hinv.lenR hinv.adm h
      cut := processBody_cut hs hinv.net hinv.cut hinv.res hinv.exc
        (fun e' he' => by rw [hc] at he'; cases he'; exact hpos) h
      book := (processBody_book hinv.book h).1
      queued := hq' }

theorem popActive_fields {node : Int} {st st' : LFState} (h : popActive node st = Run.done st') :
    st'.heights = st.heights ∧ st'.excess = st.excess ∧ st'.residuals = st.residuals ∧
      st'.reverse = st.reverse ∧ st'.capacities = st.capacities := by
  unfold popActive at h
  split at h
  · cases h
  · simp only [Run.bind_eq_done] at h
    obtain ⟨ia, _, h⟩ := h
    cases h
    exact ⟨rfl, rfl, rfl, rfl, rfl⟩

theorem popActive_safe {g : Graph} {s t c e : Int} {q : List Int} {st st' : LFState}
    (hinv : SafeInv g s t st) (hq : st.activeNodes = c :: q)
    (hc : vget st.excess c = Run.done e) (hle : ¬ 0 < e)
    (h : popActive c st = Run.done st') : SafeInv g s t st' := by
  obtain ⟨h1, h2, h3, h4, _⟩ := popActive_fields h
  obtain ⟨hb, hq'⟩ := popActive_book hinv.book hq h
  obtain ⟨hc0, hc'⟩ := vget_eq_done.1 hc
  exact
    { net := by rw [h4]; exact hinv.net
      lenR := by rw [h3]; exact hinv.lenR
      lenH := by rw [h1]; exact hinv.lenH
      lenE := by rw [h2]; exact hinv.lenE
      res := popActive_res hinv.res h
      exc := popActive_exc hinv.exc h
      src := by rw [h1]; exact hinv.src
      bound := by rw [h1]; exact hinv.bound
      adm := by rw [h1, h3, h4]; exact hinv.adm
      cut := by
        intro S hS
        rw [h2, h3, h4]
        exact hinv.cut S hS
      book := hb
      queued := by
        intro k x hkt hx hpos
        rw [h2] at hx
        have := hinv.queued k x hkt hx hpos
        rw [hq] at this
        rw [hq']
        rcases List.mem_cons.1 this with hkc | hkq
        · exfalso
          rw [← hkc] at hc'
          simp only [Int.toNat_ofNat] at hc'
          rw [hx] at hc'
          cases hc'
          exact hle hpos
        · exact hkq }

theorem process_safe {g : Graph} (hs : BuilderInput g) {s t : Int} (hs0 : 0 ≤ s) {c : Int} :
    ∀ (fuel : Nat) (st st' : LFState) (q : List Int), SafeInv g s t st →
      st.activeNodes = c :: q → process g c t fuel st = Run.done st' → SafeInv g s t st' := by
  intro fuel
  induction fuel with
  | zero => intro st st' q _ _ h; simp [process] at h
  | succ fuel ih =>
    intro st st' q hinv hq h
    simp only [process, Run.bind_eq_done] at h
    obtain ⟨e, he, h⟩ := h
    split at h
    · rename_i hpos
      split at h
      · cases h; exact hinv
      · simp only [Run.bind_eq_done] at h
        obtain ⟨st1, h1, h⟩ := h
        have hfront : c ∈ st.activeNodes := by rw [hq]; exact List.mem_cons_self _ _
        have hinv1 := processBody_safe hs hs0 hinv he (by omega) hfront h1
        obtain ⟨_, l, hl⟩ := processBody_book hinv.book h1
        exact ih st1 st' (q ++ l) hinv1 (by rw [hl, hq]; rfl) h
    · rename_i hle
      exact popActive_safe hinv hq he (by omega) h

theorem LFStep_safe {inner : Nat} {g : Graph} (hs : BuilderInput g) {s t : Int} (hs0 : 0 ≤ s)
    {st st' : LFState} (hinv : SafeInv g s t st)
    (h : LFStep inner g s t false st = Run.done st') : SafeInv g s t st' := by
  simp only [LFStep, Run.bind_eq_done] at h
  obtain ⟨c, hc, st1, h1, h⟩ := h
  simp only [Bool.false_eq_true, if_false, false_and] at h1 h
  cases h
  split at hc
  · cases hc
  · rename_i c' rest hq
    cases hc
    have k := process_safe hs hs0 inner st st1 rest hinv hq h1
    exact ⟨k.net, k.lenR, k.lenH, k.lenE, ⟨k.res.nonneg, k.res.net, k.res.caps⟩,
      ⟨k.exc.inv, k.exc.src, k.exc.source, k.exc.rnet⟩,
      k.src, k.bound, k.adm, k.cut, k.book, k.queued⟩

theorem initialPreflow_queue {g : Graph} (s : Int) :
    ∀ (ns : List Int) (st st' : LFState), initialPreflow g s ns st = Run.done st' →
      st'.activeNodes = st.activeNodes ++ ns := by
  intro ns
  induction ns with
  | nil => intro st st' h; simp only [initialPreflow] at h; cases h; simp
  | cons n ns ih =>
    intro st st' h
    obtain ⟨st1, h1, h2⟩ := initialPreflow_cons_split h
    rw [ih st1 st' h2]
    simp only [initialPreflow, Run.bind_eq_done] at h1
    obtain ⟨res1, _, rev, _, c, _, res2, _, w, _, ex1, _, es, _, w2, _, ex2, _, ia, _, h1⟩ := h1
    cases h1
    simp

theorem LFInit_initInv {g : Graph} (hw : WeightsNonneg g) {s : Int} (hsrc : SourceFits g s)
    (hnd : (getNeighbours g s).Nodup) (hsn : s ∉ getNeighbours g s) {st : LFState}
    (h : LFInit g s = Run.done st) : InitInv s (getNeighbours g s).reverse st := by
  obtain ⟨fst, hfill, hts, hhts, hpre⟩ := LFInit_fields h
  obtain ⟨hs0, hsl, _⟩ := vset_eq_done.1 hhts
  rw [List.length_replicate] at hsl
  have key := initialPreflow_inv hw s hs0 0 (le_refl 0) _ [] _ st hnd hsn (by simp)
    (initInv_replicate s g.NV _ rfl) ?_ hpre
  · simpa using key.1
  · intro x hx
    simp only [List.getElem?_replicate, if_pos hsl] at hx
    cases hx
    unfold SourceFits at hsrc
    omega

theorem LFInit_safe {g : Graph} (hw : WeightsNonneg g) (hp : PairsFit g)
    (hs : BuilderInput g) {s t : Int} (hsrc : SourceFits g s)
    (hnd : (getNeighbours g s).Nodup) (hsn : s ∉ getNeighbours g s) {st : LFState}
    (h : LFInit g s = Run.done st) : 0 ≤ s ∧ SafeInv g s t st := by
  obtain ⟨fst, hfill, hts, hhts, hpre⟩ := LFInit_fields h
  obtain ⟨hnet, hlenR⟩ := LFInit_residualNet hs h
  obtain ⟨hf1, _, _, _, _, hf6, _⟩ := initialPreflow_fields s _ _ _ hpre
  simp only at hf1 hf6
  obtain ⟨hs0, hslt, rfl⟩ := vset_eq_done.1 hhts
  simp only [List.length_replicate] at hslt hf6
  have hinit := LFInit_initInv hw hsrc hnd hsn h
  have hqueue := initialPreflow_queue s _ _ _ hpre
  simp only [List.nil_append] at hqueue
  have hval : ∀ (k : Nat) (x : Int),
      ((List.replicate g.NV (0 : Int)).set s.toNat (getNV g))[k]? = some x →
      (k = s.toNat ∧ x = (g.NV : Int)) ∨ (k ≠ s.toNat ∧ x = 0) := by
    intro k x hx
    rcases set_get_cases hx with ⟨h1, h2⟩ | ⟨h1, hx'⟩
    · exact Or.inl ⟨h1.symm, h2⟩
    · simp only [List.getElem?_replicate] at hx'
      split at hx'
      · cases hx'; exact Or.inr ⟨Ne.symm h1, rfl⟩
      · cases hx'
  refine ⟨hs0, ?_⟩
  exact
    { net := hnet
      lenR := hlenR
      lenH := by rw [hf1]; simp
      lenE := hf6
      res := LFInit_res hw hp hs h
      exc := LFInit_exc hw hs hsrc hnd hsn h
      src := by
        rw [hf1, List.getElem?_set_self (by simpa using hslt)]
        rfl
      bound := by
        intro k x hx
        rw [hf1] at hx
        rcases hval k x hx with ⟨_, rfl⟩ | ⟨_, rfl⟩
        · omega
        · omega
      adm := by
        intro e u v r hu hv hus g1 g2 g3 g4 g5
        rw [hf1] at g3 g4
        have he : e < g.undirectedNumEdges := by
          rw [← hlenR]; exact (List.getElem?_eq_some_iff.1 g2).1
        obtain ⟨hu0, _, _, _, _, _⟩ := resEnds_nodes hs hnet he g1
        rcases hval _ _ g3 with ⟨h1, _⟩ | ⟨_, rfl⟩
        · exact absurd (by omega) hus
        · rcases hval _ _ g4 with ⟨_, rfl⟩ | ⟨_, rfl⟩
          · omega
          · omega
      cut := LFInit_cut hw hp hs hsrc hnd hsn h
      book := LFInit_book hnd h
      queued := by
        intro k x _ hx hpos
        rw [hqueue]
        by_contra hmem
        by_cases hks : (k : Int) = s
        · rw [← hks] at hs0
          have := excess_source_nonpos hinit.1 (by omega : 0 ≤ s) (by
            rw [← hks]; simpa using hx)
          omega
        · have := hinit.2 k x hks (by simpa using hmem) hx
          omega }

theorem atGuard_safe {inner : Nat} {g : Graph} (hw : WeightsNonneg g) (hp : PairsFit g)
    (hs : BuilderInput g) {s t : Int} (hsrc : SourceFits g s)
    (hnd : (getNeighbours g s).Nodup) (hsn : s ∉ getNeighbours g s)
    {st : LFState} (h : AtGuard inner g s t false st) : 0 ≤ s ∧ SafeInv g s t st := by
  induction h with
  | init h0 => exact LFInit_safe hw hp hs hsrc hnd hsn h0
  | step _ _ hstep ih => exact ⟨ih.1, LFStep_safe hs ih.1 ih.2 hstep⟩

theorem inProcess_safe {inner : Nat} {g : Graph} (hw : WeightsNonneg g) (hp : PairsFit g)
    (hs : BuilderInput g) {s t : Int} (hsrc : SourceFits g s)
    (hnd : (getNeighbours g s).Nodup) (hsn : s ∉ getNeighbours g s) {c : Int}
    {st : LFState} (h : InProcess inner g s t c st) :
    0 ≤ s ∧ SafeInv g s t st ∧ ∃ q, st.activeNodes = c :: q := by
  induction h with
  | enter hat _ hq =>
    obtain ⟨h1, h2⟩ := atGuard_safe hw hp hs hsrc hnd hsn hat
    exact ⟨h1, h2, _, hq⟩
  | iter _ he hpos _ hbody ih =>
    obtain ⟨h1, h2, q, hq⟩ := ih
    obtain ⟨_, l, hl⟩ := processBody_book h2.book hbody
    exact ⟨h1, processBody_safe hs h1 h2 he hpos (by rw [hq]; exact List.mem_cons_self _ _) hbody,
      q ++ l, by rw [hl, hq]; rfl⟩

/-! ## The loop body of `process` returns -/

theorem residualNet_get {g : Graph} {reverse : List Int} (hnet : ResidualNet g reverse)
    {e : Nat} (he : e < g.undirectedNumEdges) :
    ∃ r : Int, reverse[e]? = some r ∧ 0 ≤ r ∧ r.toNat < g.undirectedNumEdges := by
  by_cases hlt : e < g.edges.length
  · obtain ⟨r, hr, hr0, hback, _⟩ := hnet.orig e _ (List.getElem?_eq_getElem hlt)
    refine ⟨r, hr, hr0, ?_⟩
    rw [← hnet.len]; exact (List.getElem?_eq_some_iff.1 hback).1
  · obtain ⟨r, hr, hr0, _, hback⟩ := hnet.synth e (by omega) he
    refine ⟨r, hr, hr0, ?_⟩
    rw [← hnet.len]; exact (List.getElem?_eq_some_iff.1 hback).1

theorem pushAlong_returns {node nextV t edgeId delta : Int} {st : LFState} {r rev en : Int}
    (h1 : vget st.residuals edgeId = Run.done r) (h2 : vget st.reverse edgeId = Run.done rev)
    (h3 : 0 ≤ rev) (h4 : rev.toNat < st.residuals.length)
    (h5 : vget st.excess node = Run.done en) (h6 : 0 ≤ nextV)
    (h7 : nextV.toNat < st.excess.length) (h8 : nextV.toNat < st.isActive.length) :
    ∃ st', pushAlong node nextV t edgeId delta st = Run.done st' := by
  obtain ⟨hid0, h1'⟩ := vget_eq_done.1 h1
  obtain ⟨hn0, h5'⟩ := vget_eq_done.1 h5
  have hidlt : edgeId.toNat < st.residuals.length := (List.getElem?_eq_some_iff.1 h1').1
  have hnlt : node.toNat < st.excess.length := (List.getElem?_eq_some_iff.1 h5').1
  obtain ⟨rr, hrr⟩ : ∃ rr,
      (st.residuals.set edgeId.toNat (wrap (r - delta)))[rev.toNat]? = some rr :=
    ⟨_, List.getElem?_eq_getElem (by simpa using h4)⟩
  obtain ⟨ev, hev⟩ : ∃ ev,
      (st.excess.set node.toNat (wrap (en - delta)))[nextV.toNat]? = some ev :=
    ⟨_, List.getElem?_eq_getElem (by simpa using h7)⟩
  obtain ⟨a, ha⟩ : ∃ a, st.isActive[nextV.toNat]? = some a := ⟨_, List.getElem?_eq_getElem h8⟩
  simp only [pushAlong, h1, Run.done_bind, h2, h5]
  rw [vset_ok _ hid0 hidlt]
  simp only [Run.done_bind]
  rw [vget_ok h3 hrr]
  simp only [Run.done_bind]
  rw [vset_ok _ h3 (by simpa using h4)]
  simp only [Run.done_bind]
  rw [vset_ok _ hn0 hnlt]
  simp only [Run.done_bind]
  rw [vget_ok h6 hev]
  simp only [Run.done_bind]
  rw [vset_ok _ h6 (by simpa using h7)]
  simp only [Run.done_bind]
  split
  · rw [vget_ok h6 ha]
    simp only [Run.done_bind]
    split
    · rw [vset_ok _ h6 h8]
      exact ⟨_, rfl⟩
    · exact ⟨_, rfl⟩
  · exact ⟨_, rfl⟩

/-- In a state of a run without global relabeling, the loop body of `process` on a node with
positive excess finds a neighbour with positive residual and returns. -/
theorem processBody_returns {g : Graph} (hs : BuilderInput g) {s t : Int} (hs0 : 0 ≤ s)
    (hbig : 2 * (g.NV : Int) ≤ LONG_MAX) {c e : Int} {st : LFState} (hinv : SafeInv g s t st)
    (hc : vget st.excess c = Run.done e) (hpos : 0 < e) :
    ∃ nextV hh edgeId r st',
      scanNeighbours g c st.heights st.reverse st.residuals (getNeighbourListFor g c)
        (-1, LONG_MAX) = Run.done (nextV, hh) ∧
      nextV ≠ -1 ∧ hh < LONG_MAX ∧ hh + 1 ≤ 2 * (g.NV : Int) - 1 ∧
      nextV ∈ getNeighbourListFor g c ∧
      residualEdgeId g st.reverse c nextV = Run.done edgeId ∧
      vget st.residuals edgeId = Run.done r ∧ 0 < r ∧ processBody g c t st = Run.done st' := by
  obtain ⟨hc0, hc'⟩ := vget_eq_done.1 hc
  have hcNV : c < g.NV := by
    have := (List.getElem?_eq_some_iff.1 hc').1
    rw [hinv.lenE] at this
    omega
  obtain ⟨v, id, r, hv, hid, hr, hrpos⟩ := residual_neighbour_exists hs hinv.net hinv.lenR
    hinv.res.nonneg hinv.exc.inv hinv.cut hs0 hc hpos
  obtain ⟨_, hidU, hends⟩ := residualEdgeId_ends hinv.net hid
  obtain ⟨_, _, hv0, hvNV, _, _⟩ := resEnds_nodes hs hinv.net hidU hends
  obtain ⟨hv', hhv⟩ : ∃ hv', st.heights[v.toNat]? = some hv' :=
    ⟨_, List.getElem?_eq_getElem (by rw [hinv.lenH]; omega)⟩
  obtain ⟨⟨nextV, hh⟩, hscan⟩ := scanNeighbours_returns hs hinv.net hinv.lenR hinv.lenH hc0 hcNV
    (getNeighbourListFor g c) (-1, LONG_MAX) (fun n hn => hn)
  obtain ⟨_, h2, h3⟩ := scanNeighbours_spec g c st.heights st.reverse st.residuals _ _ _ hscan
  have hle := h3 v hv id r hv' hid hr hrpos (vget_ok hv0 hhv)
  have hvb := (hinv.bound _ _ hhv).2
  simp only at hle
  rcases h2 with h2 | ⟨_, hmem, id', r', hid', hr', hrpos', hhn⟩
  · have : hh = LONG_MAX := congrArg Prod.snd h2
    omega
  · simp only at hmem hid' hhn
    obtain ⟨hn0, hhn'⟩ := vget_eq_done.1 hhn
    have hgap := gap_bound hs hinv.net hinv.lenR hinv.lenH hinv.res.nonneg hinv.exc.inv hinv.cut hs0
      hinv.src hinv.adm hc hpos hscan hid'
    obtain ⟨hid0', hidU', hends'⟩ := residualEdgeId_ends hinv.net hid'
    obtain ⟨_, _, _, hnNV, _, _⟩ := resEnds_nodes hs hinv.net hidU' hends'
    obtain ⟨hnode, hhnode⟩ : ∃ hnode, st.heights[c.toNat]? = some hnode :=
      ⟨_, List.getElem?_eq_getElem (by rw [hinv.lenH]; omega)⟩
    have hbody : ∃ st', processBody g c t st = Run.done st' := by
      simp only [processBody, hc, Run.done_bind, hscan, hid', vget_ok hc0 hhnode]
      split
      · simp only [hr', Run.done_bind]
        obtain ⟨rev, hrev, hrev0, hrevU⟩ := residualNet_get hinv.net hidU'
        exact pushAlong_returns hr' (vget_ok hid0' hrev) hrev0 (by rw [hinv.lenR]; exact hrevU)
          hc hn0 (by rw [hinv.lenE]; omega) (by rw [hinv.book.2.2.1]; omega)
      · rw [vset_ok _ hc0 (by rw [hinv.lenH]; omega)]
        exact ⟨_, rfl⟩
    obtain ⟨st', hst'⟩ := hbody
    exact ⟨nextV, hh, id', r', st', hscan, by omega, by omega, by omega, hmem, hid', hr', hrpos',
      hst'⟩

/-! ## Claims on the classic engine -/

theorem maxFlowRun_inv (g : Graph) (hw : WeightsNonneg g) (hl : WeightsLong g) (s t : Int)
    (hsrc : SourceFits g s) (bfs : List Int) (fuel : Nat) (st : PFState)
    (h : MaxFlowRun fuel g s t bfs = Run.done st) : PFExact g st := by
  simp only [MaxFlowRun, Run.bind_eq_done] at h
  obtain ⟨st0, h0, h⟩ := h
  exact maxFlowLoop_inv g hl s t fuel _ _ (maxFlowInit_inv g hw s hsrc bfs st0 h0) h

/-- C7, counterexample: on the graph `s → a`, `s → b`, `a → c`, `b → c` (weight `LONG_MAX`
each) and `c → t` (weight `1`), with the exact distances `[3, 2, 2, 1, 0]`, the second push
into `c` wraps `excess[c]` to `-2`, and `MaxFlow` returns the flows
`[LONG_MAX, LONG_MAX, LONG_MAX, LONG_MAX, -2]` from a state with `excess[t] = -2`: the flow
on `c → t` and the excess of `t` are negative. -/
theorem C7_counterexample :
    WeightsNonneg overflowDiamond ∧
    MaxFlowRun 10 overflowDiamond 0 4 [3, 2, 2, 1, 0] = Run.done
      { flows := [LONG_MAX, LONG_MAX, LONG_MAX, LONG_MAX, -2], excess := [0, 0, 0, 0, -2],
        distances := [5, 2, 2, 1, 0], activeNodes := [] } ∧
    MaxFlow 10 overflowDiamond 0 4 [3, 2, 2, 1, 0] =
      Run.done [LONG_MAX, LONG_MAX, LONG_MAX, LONG_MAX, -2] ∧
    ([LONG_MAX, LONG_MAX, LONG_MAX, LONG_MAX, -2] : List Int)[4]? = some (-2) ∧
    (getWeights overflowDiamond)[4]? = some 1 ∧
    sourceWeight overflowDiamond 0 (getNeighbours overflowDiamond 0) = 2 * LONG_MAX := by
  refine ⟨by unfold WeightsNonneg; decide, by decide, by decide, by decide, by decide,
    by decide⟩

/-- C7, amended: feasibility of the classic engine without overflow. For a graph with
non-negative weights in the range of a `long` in which the weights of the edges from `s` to
the nodes of `getNeighbours(s)` sum to at most `LONG_MAX`, any `t` and any vector `bfs`
returned by the distance oracle: the state after `preflow` started from the zero arrays, the
state after every call of `push` from a feasible state whose excesses sum to at most
`LONG_MAX`, the final state of `MaxFlow` and the array it returns all have
`0 ≤ flows[e] ≤ weight(e)` for every original edge id `e` and every excess non-negative; the
excesses still sum to at most `LONG_MAX`. Simplicity of the graph is not needed. -/
theorem C7_classic_feasibility (g : Graph) (hw : WeightsNonneg g) (hl : WeightsLong g)
    (s t : Int) (hsrc : SourceFits g s) (bfs : List Int) :
    (∀ st, preflow g s (getNeighbours g s)
        { flows := List.replicate g.edges.length 0, excess := List.replicate g.NV 0,
          distances := bfs, activeNodes := [] } = Run.done st → PFExact g st) ∧
    (∀ curNode st st', PFExact g st → push g curNode s t st = Run.done st' → PFExact g st') ∧
    (∀ fuel st, MaxFlowRun fuel g s t bfs = Run.done st → PFInv g st) ∧
    (∀ fuel flows, MaxFlow fuel g s t bfs = Run.done flows → FlowFeasible g flows) := by
  have hrun : ∀ fuel st, MaxFlowRun fuel g s t bfs = Run.done st → PFExact g st :=
    maxFlowRun_inv g hw hl s t hsrc bfs
  refine ⟨?_, ?_, fun fuel st h => (hrun fuel st h).1, ?_⟩
  · intro st h
    refine preflow_inv g hw s _ _ _ ⟨flowFeasible_zero g hw, nonneg_replicate _⟩ ?_ h
    show (List.replicate g.NV (0 : Int)).sum + _ ≤ LONG_MAX
    simp only [List.sum_replicate, smul_zero, zero_add]
    exact hsrc
  · intro curNode st st' hst h
    exact (push_inv g hl curNode s t st st' hst h).1
  · intro fuel flows h
    simp only [MaxFlow, Run.bind_eq_done] at h
    obtain ⟨st, h1, h⟩ := h
    cases h
    exact (hrun fuel st h1).1.1

/-- C7, amended, at the path `s → a → t` with weights `3` and `7`: `MaxFlow` returns
`[3, 3]`, a feasible flow. -/
theorem C7_classic_feasibility_witness :
    WeightsNonneg pathGraph37 ∧ WeightsLong pathGraph37 ∧ SourceFits pathGraph37 0 ∧
      MaxFlow 5 pathGraph37 0 2 [2, 1, 0] = Run.done [3, 3] ∧
      FlowFeasible pathGraph37 [3, 3] :=
  ⟨weightsNonneg_pathGraph37, weightsLong_pathGraph37, sourceFits_pathGraph37, by decide,
    (C7_classic_feasibility pathGraph37 weightsNonneg_pathGraph37 weightsLong_pathGraph37 0 2
      sourceFits_pathGraph37 [2, 1, 0]).2.2.2 5 [3, 3] (by decide)⟩

/-- C8, counterexample: on the graph `s → a`, `s → b`, `a → c`, `b → c` (weight `LONG_MAX`
each) and `c → t` (weight `1`), with the exact distances `[3, 2, 2, 1, 0]`, the FIFO loop of
`MaxFlow` reaches an empty queue in a state with the flows
`[LONG_MAX, LONG_MAX, LONG_MAX, LONG_MAX, -2]`: the flows entering `c` sum to
`2 * LONG_MAX` and the one flow leaving `c` is `-2`, while `excess[c] = 0`. -/
theorem C8_counterexample :
    WeightsNonneg overflowDiamond ∧ (getNeighbours overflowDiamond 0).Nodup ∧
    (∃ st, MaxFlowRun 10 overflowDiamond 0 4 [3, 2, 2, 1, 0] = Run.done st ∧
      st.activeNodes = [] ∧ st.excess[3]? = some 0 ∧
      inflow overflowDiamond.edges st.flows 3 = 2 * LONG_MAX ∧
      outflow overflowDiamond.edges st.flows 3 = -2) ∧
    (2 * LONG_MAX ≠ -2) := by
  refine ⟨by unfold WeightsNonneg; decide, by decide, ⟨_, (by decide :
    MaxFlowRun 10 overflowDiamond 0 4 [3, 2, 2, 1, 0] = Run.done
      { flows := [LONG_MAX, LONG_MAX, LONG_MAX, LONG_MAX, -2], excess := [0, 0, 0, 0, -2],
        distances := [5, 2, 2, 1, 0], activeNodes := [] }), by decide, by decide, by decide,
    by decide⟩, by decide⟩

/-- C8, amended: conservation of the classic engine at termination without overflow. For a
graph with non-negative weights in the range of a `long` whose list `getNeighbours(s)` names
no node twice and in which the weights of the edges from `s` to the nodes of that list sum
to at most `LONG_MAX`: if the FIFO loop of `MaxFlow` reaches an empty queue, then in the
final state every node `v` other than `s` and `t` has `excess[v] = 0`, and the flows on the
edges entering `v` sum to the flows on the edges leaving `v`. -/
theorem C8_classic_conservation (g : Graph) (hw : WeightsNonneg g) (hl : WeightsLong g)
    (s t : Int) (hsrc : SourceFits g s)
    (hnd : (getNeighbours g s).Nodup) (bfs : List Int) (fuel : Nat) (st : PFState)
    (h : MaxFlowRun fuel g s t bfs = Run.done st) :
    st.activeNodes = [] ∧
    ∀ v : Nat, v < g.NV → (v : Int) ≠ s → (v : Int) ≠ t →
      st.excess[v]? = some 0 ∧ inflow g.edges st.flows v = outflow g.edges st.flows v := by
  have hinv : PFInv g st := (maxFlowRun_inv g hw hl s t hsrc bfs fuel st h).1
  simp only [MaxFlowRun, Run.bind_eq_done] at h
  obtain ⟨st0, h0, h⟩ := h
  obtain ⟨hb0, hq0, hl0⟩ := maxFlowInit_conservation g hw s t hsrc bfs hnd st0 h0
  obtain ⟨hb, hq, hl1, hnil⟩ := maxFlowLoop_conservation g hl s t fuel _ _
    (maxFlowInit_inv g hw s hsrc bfs st0 h0) hb0 hq0 h
  refine ⟨hnil, ?_⟩
  intro v hv hvs hvt
  have hlen : v < st.excess.length := by rw [hl1, hl0]; exact hv
  have hx : st.excess[v]? = some st.excess[v] := List.getElem?_eq_getElem hlen
  have hx0 : 0 ≤ st.excess[v] := nonneg_get hinv.2 hx
  have hx1 : ¬ 0 < st.excess[v] := by
    intro hpos
    have := hq v _ hvs hvt hx hpos
    rw [hnil] at this
    cases this
  have hzero : st.excess[v] = 0 := by omega
  have := hb v _ hvs hx
  rw [hzero] at hx this
  exact ⟨hx, by omega⟩

/-- C8, amended, at the path `s → a → t` with weights `3` and `7`: the loop empties the
queue and the middle node `a` has excess `0`, inflow `3` and outflow `3`. -/
theorem C8_classic_conservation_witness :
    WeightsNonneg pathGraph37 ∧ WeightsLong pathGraph37 ∧ SourceFits pathGraph37 0 ∧
      (getNeighbours pathGraph37 0).Nodup ∧
      MaxFlowRun 5 pathGraph37 0 2 [2, 1, 0] =
        Run.done { flows := [3, 3], excess := [0, 0, 3], distances := [3, 1, 0], activeNodes := [] } ∧
      inflow pathGraph37.edges [3, 3] 1 = 3 ∧ outflow pathGraph37.edges [3, 3] 1 = 3 ∧
      ([0, 0, 3] : List Int)[1]? = some 0 :=
  have h := C8_classic_conservation pathGraph37 weightsNonneg_pathGraph37
    weightsLong_pathGraph37 0 2 sourceFits_pathGraph37 (by decide) [2, 1, 0] 5 _ (by decide :
      MaxFlowRun 5 pathGraph37 0 2 [2, 1, 0] =
        Run.done { flows := [3, 3], excess := [0, 0, 3], distances := [3, 1, 0], activeNodes := [] })
  ⟨weightsNonneg_pathGraph37, weightsLong_pathGraph37, sourceFits_pathGraph37, by decide,
    by decide, by decide, by decide, (h.2 1 (by decide) (by decide) (by decide)).1⟩

theorem scenarioA_stuck_loop : ∀ fuel : Nat,
    MaxFlowLoop (scenarioA [0, 2]) 0 2 fuel scenarioAStuck = Run.timeout := by
  intro fuel
  induction fuel with
  | zero => rfl
  | succ fuel ih =>
    have h : push (scenarioA [0, 2]) 1 0 2 { scenarioAStuck with activeNodes := [] } =
        Run.done scenarioAStuck := by decide
    show (push (scenarioA [0, 2]) 1 0 2 { scenarioAStuck with activeNodes := [] } >>=
      fun st1 => MaxFlowLoop (scenarioA [0, 2]) 0 2 fuel st1) = Run.timeout
    rw [h]
    exact ih

/-- C4: on scenario A the classic engine never returns. With the exact distances
(`s = 2, a = 1, t = 0`) and out-neighbour lists, `MaxFlow` runs out of any fuel: after one
round it is in a state with `flows = [7, 3]` and excess `4` stranded at `a`, which `push`
maps to itself (relabel to `LONG_MAX`, re-enqueue). With neighbour lists in either direction
it reads `getWeightFromId(-1)` instead; in neither reading does it return a flow. -/
theorem C4_classic_scenarioA_never_returns :
    (∀ fuel, MaxFlow fuel (scenarioA [0, 2]) 0 2 [2, 1, 0] = Run.timeout) ∧
    MaxFlowLoop (scenarioA [0, 2]) 0 2 1
        { flows := [7, 0], excess := [0, 7, 0], distances := [3, 1, 0], activeNodes := [1] } =
      Run.timeout ∧
    push (scenarioA [0, 2]) 1 0 2 { scenarioAStuck with activeNodes := [] } =
      Run.done scenarioAStuck ∧
    scenarioAStuck.flows = [7, 3] ∧
    (∀ fuel flows, MaxFlow fuel scenarioAUndirected 0 2 [2, 1, 0] ≠ Run.done flows) := by
  refine ⟨?_, by decide, by decide, rfl, ?_⟩
  · intro fuel
    cases fuel with
    | zero => rfl
    | succ fuel =>
      have h0 : MaxFlowInit (scenarioA [0, 2]) 0 [2, 1, 0] = Run.done
          { flows := [7, 0], excess := [0, 7, 0], distances := [3, 1, 0], activeNodes := [1] } := by
        decide
      have h1 : push (scenarioA [0, 2]) 1 0 2
          { flows := [7, 0], excess := [0, 7, 0], distances := [3, 1, 0], activeNodes := [] } =
          Run.done scenarioAStuck := by decide
      show ((MaxFlowInit (scenarioA [0, 2]) 0 [2, 1, 0] >>= fun st =>
        MaxFlowLoop (scenarioA [0, 2]) 0 2 (fuel + 1) st) >>= fun st => Run.done st.flows) =
        Run.timeout
      rw [h0]
      show ((push (scenarioA [0, 2]) 1 0 2
          { flows := [7, 0], excess := [0, 7, 0], distances := [3, 1, 0], activeNodes := [] } >>=
        fun st1 => MaxFlowLoop (scenarioA [0, 2]) 0 2 fuel st1) >>= fun st => Run.done st.flows) =
        Run.timeout
      rw [h1]
      show (MaxFlowLoop (scenarioA [0, 2]) 0 2 fuel scenarioAStuck >>= fun st => Run.done st.flows) =
        Run.timeout
      rw [scenarioA_stuck_loop fuel]
      rfl
  · intro fuel flows
    cases fuel with
    | zero => intro h; cases h
    | succ fuel =>
      have h0 : MaxFlowInit scenarioAUndirected 0 [2, 1, 0] = Run.done
          { flows := [7, 0], excess := [0, 7, 0], distances := [3, 1, 0], activeNodes := [1] } := by
        decide
      have h1 : push scenarioAUndirected 1 0 2
          { flows := [7, 0], excess := [0, 7, 0], distances := [3, 1, 0], activeNodes := [] } =
          Run.fault := by decide
      show ((MaxFlowInit scenarioAUndirected 0 [2, 1, 0] >>= fun st =>
        MaxFlowLoop scenarioAUndirected 0 2 (fuel + 1) st) >>= fun st => Run.done st.flows) ≠
        Run.done flows
      rw [h0]
      show ((push scenarioAUndirected 1 0 2
          { flows := [7, 0], excess := [0, 7, 0], distances := [3, 1, 0], activeNodes := [] } >>=
        fun st1 => MaxFlowLoop scenarioAUndirected 0 2 fuel st1) >>= fun st => Run.done st.flows) ≠
        Run.done flows
      rw [h1]
      intro h; cases h

theorem scenarioC_push (ds : List Int) :
    push scenarioC 1 0 2 { flows := [5], excess := [0, 5, 0], distances := ds, activeNodes := [] } =
      (vset ds 1 LONG_MAX >>= fun d =>
        Run.done { flows := [5], excess := [0, 5, 0], distances := d, activeNodes := [1] }) := rfl

theorem scenarioC_init (bfs : List Int) :
    MaxFlowInit scenarioC 0 bfs =
      (vset bfs 0 3 >>= fun d =>
        Run.done { flows := [5], excess := [0, 5, 0], distances := d, activeNodes := [1] }) := rfl

theorem scenarioC_loop : ∀ (fuel : Nat) (ds : List Int) (out : PFState),
    MaxFlowLoop scenarioC 0 2 fuel
      { flows := [5], excess := [0, 5, 0], distances := ds, activeNodes := [1] } ≠ Run.done out := by
  intro fuel
  induction fuel with
  | zero => intro ds out h; cases h
  | succ fuel ih =>
    intro ds out h
    have h' : (push scenarioC 1 0 2
        { flows := [5], excess := [0, 5, 0], distances := ds, activeNodes := [] } >>=
      fun st1 => MaxFlowLoop scenarioC 0 2 fuel st1) = Run.done out := h
    rw [scenarioC_push] at h'
    simp only [Run.bind_eq_done] at h'
    obtain ⟨st1, ⟨d, _, hst1⟩, h2⟩ := h'
    cases hst1
    exact ih d out h2

/-- C5: on scenario C (one edge `s → a` of weight `5`, sink isolated) the classic engine never
returns, whatever vector the distance oracle returned: `preflow` puts flow `5` on `s → a`, and
`a`, which has no outgoing edge, is relabelled to `LONG_MAX` and re-enqueued in every round,
so the queue never empties; the flow on `s → a` stays `5`, not `0`. -/
theorem C5_classic_scenarioC_never_returns :
    (∀ (fuel : Nat) (bfs flows : List Int), MaxFlow fuel scenarioC 0 2 bfs ≠ Run.done flows) ∧
    (∀ fuel : Nat, MaxFlow fuel scenarioC 0 2 [LONG_MAX, LONG_MAX, 0] = Run.timeout) ∧
    MaxFlowInit scenarioC 0 [LONG_MAX, LONG_MAX, 0] = Run.done
      { flows := [5], excess := [0, 5, 0], distances := [3, LONG_MAX, 0], activeNodes := [1] } ∧
    push scenarioC 1 0 2
        { flows := [5], excess := [0, 5, 0], distances := [3, LONG_MAX, 0], activeNodes := [] } =
      Run.done
        { flows := [5], excess := [0, 5, 0], distances := [3, LONG_MAX, 0], activeNodes := [1] } := by
  have hgen : ∀ (fuel : Nat) (bfs : List Int) (out : PFState),
      MaxFlowRun fuel scenarioC 0 2 bfs ≠ Run.done out := by
    intro fuel bfs out h
    have h' : (MaxFlowInit scenarioC 0 bfs >>= fun st => MaxFlowLoop scenarioC 0 2 fuel st) =
      Run.done out := h
    rw [scenarioC_init] at h'
    simp only [Run.bind_eq_done] at h'
    obtain ⟨st1, ⟨d, _, hst1⟩, h2⟩ := h'
    cases hst1
    exact scenarioC_loop fuel d out h2
  refine ⟨?_, ?_, by decide, by decide⟩
  · intro fuel bfs flows h
    simp only [MaxFlow, Run.bind_eq_done] at h
    obtain ⟨st, h1, _⟩ := h
    exact hgen fuel bfs st h1
  · intro fuel
    have key : ∀ n : Nat, MaxFlowLoop scenarioC 0 2 n
        { flows := [5], excess := [0, 5, 0], distances := [3, LONG_MAX, 0], activeNodes := [1] } =
        Run.timeout := by
      intro n
      induction n with
      | zero => rfl
      | succ n ih =>
        show (push scenarioC 1 0 2
            { flows := [5], excess := [0, 5, 0], distances := [3, LONG_MAX, 0], activeNodes := [] } >>=
          fun st1 => MaxFlowLoop scenarioC 0 2 n st1) = Run.timeout
        rw [show push scenarioC 1 0 2
            { flows := [5], excess := [0, 5, 0], distances := [3, LONG_MAX, 0], activeNodes := [] } =
          Run.done { flows := [5], excess := [0, 5, 0], distances := [3, LONG_MAX, 0],
                     activeNodes := [1] } from by decide]
        exact ih
    show ((MaxFlowInit scenarioC 0 [LONG_MAX, LONG_MAX, 0] >>= fun st =>
        MaxFlowLoop scenarioC 0 2 fuel st) >>= fun st => Run.done st.flows) = Run.timeout
    rw [show MaxFlowInit scenarioC 0 [LONG_MAX, LONG_MAX, 0] = Run.done
      { flows := [5], excess := [0, 5, 0], distances := [3, LONG_MAX, 0], activeNodes := [1] }
      from by decide]
    show (MaxFlowLoop scenarioC 0 2 fuel _ >>= fun st => Run.done st.flows) = Run.timeout
    rw [key fuel]
    rfl

/-! ## Claims on the residual network builder -/

/-- C10: reverse-map symmetry of the residual network builder. For a simple directed graph
without self-loops on the nodes `0 .. NV - 1` whose undirected neighbour lists hold exactly the
nodes adjacent in either direction and whose undirected edge count `U` is `NE` plus the number
of original edges lacking an original antiparallel edge, `fillReverseAndCapacityVectors`
started from `reverse` filled with `-1` (and any capacity vector of length `U`) returns, and in
the `reverse` it returns every edge id `e` in `[0, U)` has `reverse[e] ≠ -1`,
`0 ≤ reverse[e] < U` and `reverse[reverse[e]] = e`. -/
theorem C10_reverse_map_symmetry (g : Graph) (hs : BuilderInput g) (caps : List Int)
    (hc : caps.length = g.undirectedNumEdges) :
    ∃ reverse capacities,
      fillReverseAndCapacityVectors g (List.replicate g.undirectedNumEdges (-1)) caps =
        Run.done (reverse, capacities) ∧
      reverse.length = g.undirectedNumEdges ∧
      ∀ e : Nat, e < g.undirectedNumEdges →
        ∃ r : Int, reverse[e]? = some r ∧ r ≠ -1 ∧ 0 ≤ r ∧ r < g.undirectedNumEdges ∧
          reverse[r.toNat]? = some (e : Int) := by
  obtain ⟨st, h1, hinv, h2⟩ := fill_reverse_involution hs caps hc
  refine ⟨st.reverse, st.capacities, ?_, hinv.lenR, h2⟩
  simp only [fillReverseAndCapacityVectors, h1, Run.done_bind]

/-- C10 on scenario A (`s → a → t`, ids `0, 1, 2`): the builder returns
`reverse = [2, 3, 0, 1]`. -/
theorem C10_reverse_map_symmetry_witness :
    BuilderInput (scenarioA [0, 2]) ∧
    fillReverseAndCapacityVectors (scenarioA [0, 2]) (List.replicate 4 (-1)) [7, 3, 0, 0] =
      Run.done ([2, 3, 0, 1], [7, 3, 7, 3]) ∧
    ∃ reverse capacities,
      fillReverseAndCapacityVectors (scenarioA [0, 2])
          (List.replicate (scenarioA [0, 2]).undirectedNumEdges (-1)) [7, 3, 0, 0] =
        Run.done (reverse, capacities) ∧
      reverse.length = (scenarioA [0, 2]).undirectedNumEdges ∧
      ∀ e : Nat, e < (scenarioA [0, 2]).undirectedNumEdges →
        ∃ r : Int, reverse[e]? = some r ∧ r ≠ -1 ∧ 0 ≤ r ∧
          r < (scenarioA [0, 2]).undirectedNumEdges ∧ reverse[r.toNat]? = some (e : Int) :=
  ⟨builderInput_scenarioA, by decide,
    C10_reverse_map_symmetry (scenarioA [0, 2]) builderInput_scenarioA [7, 3, 0, 0] rfl⟩


/-! ## More claims on the residual network builder -/

/-- C11, counterexample: on the graph with the antiparallel pair `0 → 1` of weight `LONG_MAX`
and `1 → 0` of weight `1` the builder, started as in `LFFlow`, returns `reverse = [1, 0]` and
`capacities = [LONG_MIN, LONG_MIN]`: the sum `LONG_MAX + 1` of the two weights has wrapped,
and neither capacity is `w1 + w2`. -/
theorem C11_counterexample :
    BuilderInput overflowPair ∧ WeightsNonneg overflowPair ∧
    fillReverseAndCapacityVectors overflowPair
        (List.replicate overflowPair.undirectedNumEdges (-1))
        (resize (getWeights overflowPair) overflowPair.undirectedNumEdges) =
      Run.done ([1, 0], [LONG_MIN, LONG_MIN]) ∧
    overflowPair.edges[0]? = some ⟨0, 1, LONG_MAX⟩ ∧ overflowPair.edges[1]? = some ⟨1, 0, 1⟩ ∧
    LONG_MIN ≠ LONG_MAX + 1 :=
  ⟨⟨by decide, by decide, by decide, by decide, by decide, by decide⟩,
    by unfold WeightsNonneg; decide, by decide, by decide, by decide, by decide⟩

/-- C11, amended: undirected folding in the residual network builder. For a simple directed
graph without self-loops on the nodes `0 .. NV - 1` whose undirected neighbour lists hold
exactly the nodes adjacent in either direction and whose undirected edge count `U` is `NE` plus
the number of original edges lacking an original antiparallel edge,
`fillReverseAndCapacityVectors` started as in `LFFlow` (`reverse` filled with `-1`, capacities
the original weights resized to `U`) returns, and for every pair of original edges `u → v`
(id `a`, weight `w1`) and `v → u` (id `b`, weight `w2`) the result has `reverse[a] = b`,
`reverse[b] = a`, and `capacities[a] = capacities[b]` is the sum `w1 + w2` as a `long` holds
it; when `LONG_MIN ≤ w1 + w2 ≤ LONG_MAX` both capacities are `w1 + w2`. The pair is folded
once: in every state in which the entry `reverse[max(a, b)]` is assigned the loop body leaves
the state unchanged, from either end point. -/
theorem C11_undirected_folding (g : Graph) (hs : BuilderInput g) :
    (∃ reverse capacities,
      fillReverseAndCapacityVectors g (List.replicate g.undirectedNumEdges (-1))
          (resize (getWeights g) g.undirectedNumEdges) = Run.done (reverse, capacities) ∧
      ∀ (a b : Nat) (ea eb : Edge), g.edges[a]? = some ea → g.edges[b]? = some eb →
        ea.src = eb.dst → ea.dst = eb.src →
        ea.src ≠ ea.dst ∧
        reverse[a]? = some (b : Int) ∧ reverse[b]? = some (a : Int) ∧
        capacities[a]? = some (wrap (ea.weight + eb.weight)) ∧
        capacities[b]? = some (wrap (ea.weight + eb.weight)) ∧
        (LONG_MIN ≤ ea.weight + eb.weight → ea.weight + eb.weight ≤ LONG_MAX →
          capacities[a]? = some (ea.weight + eb.weight) ∧
          capacities[b]? = some (ea.weight + eb.weight))) ∧
    (∀ (a b : Nat) (ea eb : Edge) (st : FillState) (x : Int), g.edges[a]? = some ea →
      g.edges[b]? = some eb → ea.src = eb.dst → ea.dst = eb.src →
      vget st.reverse (max (a : Int) (b : Int)) = Run.done x → x ≠ -1 →
      fillStep g ea.src ea.dst st = Run.done st ∧ fillStep g ea.dst ea.src st = Run.done st) := by
  constructor
  · obtain ⟨st, h1, hinv, hcap, hall⟩ := fill_final hs
    refine ⟨st.reverse, st.capacities, ?_, ?_⟩
    · simp only [fillReverseAndCapacityVectors, h1, Run.done_bind]
    · intro a b ea eb hea heb hsrc hdst
      have haNE : a < g.edges.length := (List.getElem?_eq_some_iff.1 hea).1
      have hbNE : b < g.edges.length := (List.getElem?_eq_some_iff.1 heb).1
      have hcount := hs.count
      obtain ⟨hla, hida⟩ := lacksReverse_false hs heb hsrc hdst
      obtain ⟨hlb, hidb⟩ := lacksReverse_false hs hea hdst.symm hsrc.symm
      obtain ⟨ra, hra, hra1, _, _, _⟩ := hall a (by omega)
      obtain ⟨rb, hrb, hrb1, _, _, _⟩ := hall b (by omega)
      have hra2 := (hinv.orig a ea ra hea hra hra1).2.2
      have hrb2 := (hinv.orig b eb rb heb hrb hrb1).2.2
      rw [hla] at hra2
      rw [hlb] at hrb2
      simp only [Bool.false_eq_true, if_false] at hra2 hrb2
      rw [hida] at hra2
      rw [hidb] at hrb2
      subst hra2; subst hrb2
      obtain ⟨ca, hca⟩ : ∃ c, st.capacities[a]? = some c :=
        ⟨_, List.getElem?_eq_getElem (by rw [hinv.lenC]; omega)⟩
      obtain ⟨cb, hcb⟩ : ∃ c, st.capacities[b]? = some c :=
        ⟨_, List.getElem?_eq_getElem (by rw [hinv.lenC]; omega)⟩
      have h3 := hcap.orig a ea _ ca hea hra hca
      have h4 := hcap.orig b eb _ cb heb hrb hcb
      rw [if_neg (by simp [hla])] at h3
      rw [if_neg (by simp [hlb])] at h4
      simp only [Int.toNat_ofNat] at h3 h4
      obtain ⟨e1, he1, h3⟩ := h3
      obtain ⟨e2, he2, h4⟩ := h4
      rw [heb] at he1; cases he1
      rw [hea] at he2; cases he2
      have hA : st.capacities[a]? = some (wrap (ea.weight + eb.weight)) := by rw [hca, h3]
      have hB : st.capacities[b]? = some (wrap (ea.weight + eb.weight)) := by
        rw [hcb, h4, add_comm]
      refine ⟨hs.noLoop ea (List.mem_iff_getElem?.2 ⟨a, hea⟩), hra, hrb, hA, hB, ?_⟩
      intro hlo hhi
      rw [wrap_eq hlo hhi] at hA hB
      exact ⟨hA, hB⟩
  · intro a b ea eb st x hea heb hsrc hdst hx hx1
    have ha := getId_of_edge hs hea
    have hb := getId_of_edge hs heb
    have hb' : getIdFromSrcDst g ea.dst ea.src = (b : Int) := by rw [hsrc, hdst]; exact hb
    constructor
    · exact fillStep_skip (by rw [ha, hb']; exact hx) hx1
    · exact fillStep_skip (by rw [ha, hb', max_comm]; exact hx) hx1

/-- C11, amended, on the graph `0 → 1 (4)`, `1 → 0 (6)`, `1 → 2 (3)`: the builder returns
`reverse = [1, 0, 3, 2]` and `capacities = [10, 10, 3, 3]`; the pair `0 → 1`, `1 → 0` has
`4 + 6 = 10` in range, and both capacities are `10`. -/
theorem C11_undirected_folding_witness :
    BuilderInput foldGraph ∧
    fillReverseAndCapacityVectors foldGraph (List.replicate 4 (-1)) [4, 6, 3, 0] =
      Run.done ([1, 0, 3, 2], [10, 10, 3, 3]) ∧
    foldGraph.edges[0]? = some ⟨0, 1, 4⟩ ∧ foldGraph.edges[1]? = some ⟨1, 0, 6⟩ ∧
    LONG_MIN ≤ (4 : Int) + 6 ∧ (4 : Int) + 6 ≤ LONG_MAX ∧
    ∃ reverse capacities,
      fillReverseAndCapacityVectors foldGraph (List.replicate foldGraph.undirectedNumEdges (-1))
          (resize (getWeights foldGraph) foldGraph.undirectedNumEdges) =
        Run.done (reverse, capacities) ∧
      ∀ (a b : Nat) (ea eb : Edge), foldGraph.edges[a]? = some ea →
        foldGraph.edges[b]? = some eb → ea.src = eb.dst → ea.dst = eb.src →
        ea.src ≠ ea.dst ∧
        reverse[a]? = some (b : Int) ∧ reverse[b]? = some (a : Int) ∧
        capacities[a]? = some (wrap (ea.weight + eb.weight)) ∧
        capacities[b]? = some (wrap (ea.weight + eb.weight)) ∧
        (LONG_MIN ≤ ea.weight + eb.weight → ea.weight + eb.weight ≤ LONG_MAX →
          capacities[a]? = some (ea.weight + eb.weight) ∧
          capacities[b]? = some (ea.weight + eb.weight)) :=
  ⟨builderInput_foldGraph, by decide, by decide, by decide, by decide, by decide,
    (C11_undirected_folding foldGraph builderInput_foldGraph).1⟩

/-- C12: reverse-edge synthesis in the residual network builder. For a graph as in C10 and
C11, `fillReverseAndCapacityVectors` started as in `LFFlow` returns, and for every original
edge `e = u → v` (id `a`) without an original antiparallel edge the result has
`reverse[a] = r` with `NE ≤ r < U`, `capacities[r] = weight(e)` and
`capacities[a] = weight(e)`; two such edges with the same new id are the same edge. -/
theorem C12_reverse_edge_synthesis (g : Graph) (hs : BuilderInput g) :
    ∃ reverse capacities,
      fillReverseAndCapacityVectors g (List.replicate g.undirectedNumEdges (-1))
          (resize (getWeights g) g.undirectedNumEdges) = Run.done (reverse, capacities) ∧
      (∀ (a : Nat) (e : Edge), g.edges[a]? = some e →
        (∀ e' ∈ g.edges, ¬ (e'.src = e.dst ∧ e'.dst = e.src)) →
        e.src ≠ e.dst ∧
        ∃ r : Int, reverse[a]? = some r ∧ getNE g ≤ r ∧ r < getUndirectedNumEdges g ∧
          capacities[r.toNat]? = some e.weight ∧ capacities[a]? = some e.weight) ∧
      (∀ (a a' : Nat) (e e' : Edge) (r : Int), g.edges[a]? = some e → g.edges[a']? = some e' →
        (∀ x ∈ g.edges, ¬ (x.src = e.dst ∧ x.dst = e.src)) →
        (∀ x ∈ g.edges, ¬ (x.src = e'.dst ∧ x.dst = e'.src)) →
        reverse[a]? = some r → reverse[a']? = some r → a = a') := by
  obtain ⟨st, h1, hinv, hcap, hall⟩ := fill_final hs
  have hcount := hs.count
  have hNE : getNE g = (g.edges.length : Int) := rfl
  have hlack : ∀ e : Edge, (∀ e' ∈ g.edges, ¬ (e'.src = e.dst ∧ e'.dst = e.src)) →
      lacksReverse g e = true := by
    intro e h
    unfold lacksReverse
    simp only [decide_eq_true_eq]
    exact findEdge_absent _ _ _ _ h
  have hback : ∀ (a : Nat) (e : Edge) (r : Int), g.edges[a]? = some e →
      lacksReverse g e = true → st.reverse[a]? = some r →
      getNE g ≤ r ∧ r < g.undirectedNumEdges ∧ st.reverse[r.toNat]? = some (a : Int) := by
    intro a e r hea hl hr
    have haNE : a < g.edges.length := (List.getElem?_eq_some_iff.1 hea).1
    obtain ⟨r', hr', hne, _, hlt, _⟩ := hall a (by omega)
    rw [hr] at hr'; cases hr'
    obtain ⟨_, h3, h4⟩ := hinv.orig a e r hea hr hne
    rw [if_pos hl] at h4
    exact ⟨h4.1, hlt, h3⟩
  refine ⟨st.reverse, st.capacities, ?_, ?_, ?_⟩
  · simp only [fillReverseAndCapacityVectors, h1, Run.done_bind]
  · intro a e hea hno
    have hl := hlack e hno
    have haNE : a < g.edges.length := (List.getElem?_eq_some_iff.1 hea).1
    obtain ⟨r, hr, _⟩ := hall a (by omega)
    obtain ⟨h2, h3, h4⟩ := hback a e r hea hl hr
    obtain ⟨ca, hca⟩ : ∃ c, st.capacities[a]? = some c :=
      ⟨_, List.getElem?_eq_getElem (by rw [hinv.lenC]; omega)⟩
    have h5 := hcap.orig a e r ca hea hr hca
    rw [if_pos (Or.inr hl)] at h5
    have hnew : getNE g + st.newEdges = (g.undirectedNumEdges : Int) := by
      have hfull := doneCount_full g g.edges st.reverse (fun i e' he' => by
        have : i < g.edges.length := (List.getElem?_eq_some_iff.1 he').1
        obtain ⟨r', hr', hne', _⟩ := hall i (by omega)
        exact ⟨r', hr', hne'⟩)
      unfold countLacking at hcount
      rw [hinv.cnt, hfull, hNE, hcount]; push_cast; rfl
    obtain ⟨r2, e2, h6, h7, h8, h9⟩ := hcap.synth r.toNat (by omega) (by omega)
    rw [h4] at h6
    have := Option.some.inj h6
    subst this
    simp only [Int.toNat_ofNat] at h8
    rw [hea] at h8; cases h8
    refine ⟨hs.noLoop e (List.mem_iff_getElem?.2 ⟨a, hea⟩), r, hr, h2, ?_, h9, ?_⟩
    · unfold getUndirectedNumEdges; exact h3
    · rw [hca, h5]
  · intro a a' e e' r hea hea' hno hno' hr hr'
    have h2 := (hback a e r hea (hlack e hno) hr).2.2
    have h3 := (hback a' e' r hea' (hlack e' hno') hr').2.2
    rw [h2] at h3
    have := Option.some.inj h3
    omega

/-- C12 on scenario A (`s → a (7)`, `a → t (3)`): the builder returns `reverse = [2, 3, 0, 1]`
and `capacities = [7, 3, 7, 3]`. -/
theorem C12_reverse_edge_synthesis_witness :
    BuilderInput (scenarioA [0, 2]) ∧
    fillReverseAndCapacityVectors (scenarioA [0, 2]) (List.replicate 4 (-1)) [7, 3, 0, 0] =
      Run.done ([2, 3, 0, 1], [7, 3, 7, 3]) ∧
    ∃ reverse capacities,
      fillReverseAndCapacityVectors (scenarioA [0, 2])
          (List.replicate (scenarioA [0, 2]).undirectedNumEdges (-1))
          (resize (getWeights (scenarioA [0, 2])) (scenarioA [0, 2]).undirectedNumEdges) =
        Run.done (reverse, capacities) ∧
      (∀ (a : Nat) (e : Edge), (scenarioA [0, 2]).edges[a]? = some e →
        (∀ e' ∈ (scenarioA [0, 2]).edges, ¬ (e'.src = e.dst ∧ e'.dst = e.src)) →
        e.src ≠ e.dst ∧
        ∃ r : Int, reverse[a]? = some r ∧ getNE (scenarioA [0, 2]) ≤ r ∧
          r < getUndirectedNumEdges (scenarioA [0, 2]) ∧
          capacities[r.toNat]? = some e.weight ∧ capacities[a]? = some e.weight) ∧
      (∀ (a a' : Nat) (e e' : Edge) (r : Int), (scenarioA [0, 2]).edges[a]? = some e →
        (scenarioA [0, 2]).edges[a']? = some e' →
        (∀ x ∈ (scenarioA [0, 2]).edges, ¬ (x.src = e.dst ∧ x.dst = e.src)) →
        (∀ x ∈ (scenarioA [0, 2]).edges, ¬ (x.src = e'.dst ∧ x.dst = e'.src)) →
        reverse[a]? = some r → reverse[a']? = some r → a = a') :=
  ⟨builderInput_scenarioA, by decide,
    C12_reverse_edge_synthesis (scenarioA [0, 2]) builderInput_scenarioA⟩


/-! ## Claims on the heuristic engine -/

/-- C1, the code: on the graph `s → t (6)`, `s → a (2)` (ids `s = 0`, `a = 1`, `t = 2`), whose
maximum `s`-`t` flow value is `6`, `LFFlow(g, s, t, false)` returns arrays whose flow is `0`
on every edge, so the flow value read at `s` is `0`. The initial preflow puts the sink `t` in
the active queue; `process(t)` relabels `t` above `s` and pushes its excess of `6` back to `s`
over the synthesized edge `t → s`. On the candidate graph `s → a (5)`, `t → a (5)` the value
read is `5` while the directed maximum is `0`. -/
theorem C1_sink_pushes_back :
    BuilderInput sourceFan ∧ WeightsNonneg sourceFan ∧
    IsMaxFlowValue sourceFan 0 2 6 ∧
    LFFlow 10 sourceFan 0 2 false = Run.done ([6, 2, 6, 2], [6, 2, 0, 0]) ∧
    flowsOf sourceFan ([6, 2, 6, 2], [6, 2, 0, 0]) = [0, 0] ∧
    flowValue sourceFan 0 (flowsOf sourceFan ([6, 2, 6, 2], [6, 2, 0, 0])) = 0 ∧
    ((LFInit sourceFan 0).bind fun st0 =>
      Run.done (st0.activeNodes, st0.excess, st0.residuals, st0.heights)) =
        Run.done ([2, 1], [-8, 2, 6], [0, 0, 6, 2], [3, 0, 0]) ∧
    ((LFInit sourceFan 0).bind fun st0 => (process sourceFan 2 2 10 st0).bind fun st1 =>
      Run.done (st1.activeNodes, st1.excess, st1.residuals, st1.heights)) =
        Run.done ([1, 0], [-2, 2, 0], [6, 0, 0, 2], [3, 0, 4]) ∧
    IsMaxFlowValue (sinkSide 5 5) 0 2 0 ∧
    LFFlow 10 (sinkSide 5 5) 0 2 false = Run.done ([5, 5, 5, 5], [0, 10, 5, 0]) ∧
    flowValue (sinkSide 5 5) 0 (flowsOf (sinkSide 5 5) ([5, 5, 5, 5], [0, 10, 5, 0])) = 5 :=
  ⟨builderInput_sourceFan, by unfold WeightsNonneg; decide, sourceFan_directed_max, by decide,
    by decide, by decide, by decide, by decide,
    sinkSide_directed_max 5 5 (by decide) (by decide), by decide, by decide⟩

/-- C2, the code: scenario A (`s → a (7)`, `a → t (3)`) under the six numberings of its
nodes by `0, 1, 2`. Without global relabeling `LFFlow` returns under every numbering, with
flow `3` on both edges. With global relabeling it returns the same arrays when `t = 2`, and
under the other four numberings it does not return: `globalRelabel` allocates the colour
array with one entry per original edge (two) and reads the entry of node `2`. -/
theorem C2_scenarioA_numberings :
    (LFFlow 10 (scenarioAIds 0 1 2) 0 2 false = Run.done ([7, 3, 7, 3], [4, 0, 3, 6]) ∧
      LFFlow 10 (scenarioAIds 1 0 2) 1 2 false = Run.done ([7, 3, 7, 3], [4, 0, 3, 6]) ∧
      LFFlow 10 (scenarioAIds 0 2 1) 0 1 false = Run.done ([7, 3, 7, 3], [4, 0, 3, 6]) ∧
      LFFlow 10 (scenarioAIds 2 0 1) 2 1 false = Run.done ([7, 3, 7, 3], [4, 0, 3, 6]) ∧
      LFFlow 10 (scenarioAIds 1 2 0) 1 0 false = Run.done ([7, 3, 3, 7], [4, 0, 6, 3]) ∧
      LFFlow 10 (scenarioAIds 2 1 0) 2 0 false = Run.done ([7, 3, 3, 7], [4, 0, 6, 3])) ∧
    (flowOn ([7, 3, 7, 3], [4, 0, 3, 6]) 0 = 3 ∧ flowOn ([7, 3, 7, 3], [4, 0, 3, 6]) 1 = 3 ∧
      flowOn ([7, 3, 3, 7], [4, 0, 6, 3]) 0 = 3 ∧ flowOn ([7, 3, 3, 7], [4, 0, 6, 3]) 1 = 3) ∧
    (LFFlow 10 (scenarioAIds 0 1 2) 0 2 true = Run.done ([7, 3, 7, 3], [4, 0, 3, 6]) ∧
      LFFlow 10 (scenarioAIds 1 0 2) 1 2 true = Run.done ([7, 3, 7, 3], [4, 0, 3, 6])) ∧
    (LFFlow 10 (scenarioAIds 0 2 1) 0 1 true = Run.fault ∧
      LFFlow 10 (scenarioAIds 2 0 1) 2 1 true = Run.fault ∧
      LFFlow 10 (scenarioAIds 1 2 0) 1 0 true = Run.fault ∧
      LFFlow 10 (scenarioAIds 2 1 0) 2 0 true = Run.fault) ∧
    scenarioAIds 0 2 1 = pathTA ∧ getNE (scenarioAIds 0 2 1) = 2 ∧
    vget (List.replicate (scenarioAIds 0 2 1).edges.length (0 : Int)) 2 = Run.fault ∧
    ((LFInit (scenarioAIds 0 2 1) 0).bind fun st0 =>
      (processWithRelabel (scenarioAIds 0 2 1) 2 1 10 st0).bind fun st1 =>
        globalRelabel 10 (scenarioAIds 0 2 1) 0 1 st1) = Run.fault :=
  ⟨⟨by decide, by decide, by decide, by decide, by decide, by decide⟩,
    ⟨by decide, by decide, by decide, by decide⟩, ⟨by decide, by decide⟩,
    ⟨by decide, by decide, by decide, by decide⟩, by decide, by decide, by decide, by decide⟩

/-- C6, counterexample: on scenario A (`s → a (7)`, `a → t (3)`) the first push performed by
`process`, from `a` to `t`, raises the residual of the synthesized edge `t → a` (id `3`) to `6`,
above its capacity `3`, and the arrays returned by `LFFlow` still have `residuals[3] = 6` and
`capacities[3] = 3`; on the path `s → a`, `a → t` with both weights `LONG_MAX` the same push
wraps the residual of `t → a`, and `LFFlow` (either flag) returns `residuals[3] = -2`. -/
theorem C6_counterexample :
    (((LFInit (scenarioA [0, 2]) 0).bind fun st0 =>
      (processBody (scenarioA [0, 2]) 1 2 st0).bind fun st1 =>
      (processBody (scenarioA [0, 2]) 1 2 st1).bind fun st2 =>
        Run.done (st2.capacities, st2.residuals)) =
      Run.done ([7, 3, 7, 3], [0, 0, 7, 6]) ∧
    LFFlow 10 (scenarioA [0, 2]) 0 2 false = Run.done ([7, 3, 7, 3], [4, 0, 3, 6]) ∧
    ([4, 0, 3, 6] : List Int)[3]? = some 6 ∧ ([7, 3, 7, 3] : List Int)[3]? = some 3 ∧
    (3 : Int) < 6) ∧
    (BuilderInput overflowPath ∧ WeightsNonneg overflowPath ∧
    LFFlow 10 overflowPath 0 2 false =
      Run.done ([LONG_MAX, LONG_MAX, LONG_MAX, LONG_MAX], [0, 0, LONG_MAX, -2]) ∧
    LFFlow 10 overflowPath 0 2 true =
      Run.done ([LONG_MAX, LONG_MAX, LONG_MAX, LONG_MAX], [0, 0, LONG_MAX, -2]) ∧
    ([0, 0, LONG_MAX, -2] : List Int)[3]? = some (-2) ∧ (-2 : Int) < 0) := by
  refine ⟨⟨by decide, by decide, by decide, by decide, by decide⟩,
    ⟨builderInput_overflowPath, by unfold WeightsNonneg; decide, by decide, by decide,
      by decide, by decide⟩⟩

/-- C6, amended: residual bounds of the heuristic engine. For a graph that meets the builder's
expectations (simple, no self-loops, undirected neighbour lists, undirected edge count) with
non-negative weights in which, for every original edge, twice the total weight of the original
edges between its end points is at most `LONG_MAX`: after the initial preflow, after every
iteration of the loop body of `process` entered with positive excess (so after every push),
in every state in which the run-loop guard is evaluated and in the state from which `LFFlow`
returns its arrays (either flag), every edge id `e` of the residual network has
`0 ≤ residuals[e] ≤ capacities[e] + capacities[reverse[e]]`; so the flow
`capacities[e] - residuals[e]` is at most `capacities[e]` and at least
`-capacities[reverse[e]]`. -/
theorem C6_residual_bounds (g : Graph) (hw : WeightsNonneg g) (hb : BuilderInput g)
    (hp : PairsFit g) (s t : Int) :
    (∀ st, LFInit g s = Run.done st →
      ResInv g.undirectedNumEdges st ∧ ResidualBounds g.undirectedNumEdges st) ∧
    (∀ node st st', ResInv g.undirectedNumEdges st →
      (∀ e, vget st.excess node = Run.done e → 0 < e) →
      processBody g node t st = Run.done st' →
      ResInv g.undirectedNumEdges st' ∧ ResidualBounds g.undirectedNumEdges st') ∧
    (∀ inner flag st, AtGuard inner g s t flag st → ResidualBounds g.undirectedNumEdges st) ∧
    (∀ fuel flag out, LFFlow fuel g s t flag = Run.done out →
      ∃ st, LFRun fuel g s t flag = Run.done st ∧ out = (st.capacities, st.residuals) ∧
        ResidualBounds g.undirectedNumEdges st) := by
  have hat : ∀ inner flag st, AtGuard inner g s t flag st →
      ResidualBounds g.undirectedNumEdges st := fun inner flag st h =>
    residualBounds_of (atGuard_res hw hp hb h).net (atGuard_res hw hp hb h).nonneg
  refine ⟨?_, ?_, hat, ?_⟩
  · intro st h
    have h1 := LFInit_res hw hp hb h
    exact ⟨h1, residualBounds_of h1.net h1.nonneg⟩
  · intro node st st' hinv hpos h
    have h1 := processBody_res hinv hpos h
    exact ⟨h1, residualBounds_of h1.net h1.nonneg⟩
  · intro fuel flag out h
    simp only [LFFlow, Run.bind_eq_done] at h
    obtain ⟨st, h1, h2⟩ := h
    cases h2
    exact ⟨st, h1, rfl, hat fuel flag st (LFRun_atGuard h1).1⟩

/-- C6, amended, on scenario A: the state from which `LFFlow` returns satisfies the residual
bounds. -/
theorem C6_residual_bounds_witness :
    WeightsNonneg (scenarioA [0, 2]) ∧ BuilderInput (scenarioA [0, 2]) ∧
    PairsFit (scenarioA [0, 2]) ∧
    LFRun 10 (scenarioA [0, 2]) 0 2 false = Run.done scenarioAFinal ∧
    ResidualBounds (scenarioA [0, 2]).undirectedNumEdges scenarioAFinal :=
  ⟨weightsNonneg_scenarioA, builderInput_scenarioA, pairsFit_scenarioA, LFRun_scenarioA,
    (C6_residual_bounds (scenarioA [0, 2]) weightsNonneg_scenarioA builderInput_scenarioA
      pairsFit_scenarioA 0 2).2.2.1 10 false scenarioAFinal (LFRun_atGuard LFRun_scenarioA).1⟩

/-- C9, counterexample: on the graph `s → a`, `s → b` with both weights `LONG_MAX` and an
isolated sink `t` the initial preflow wraps `excess[s]` to `2`; the guard
`excess[s] + excess[t] < 0` fails at its first evaluation although `a` and `b` hold excess
`LONG_MAX`, the excesses do not sum to `0`, and `LFFlow` (either flag) returns from that
state. -/
theorem C9_counterexample :
    BuilderInput overflowFan ∧ WeightsNonneg overflowFan ∧
    (getNeighbours overflowFan 0).Nodup ∧ (0 : Int) ∉ getNeighbours overflowFan 0 ∧
    ((LFInit overflowFan 0).bind fun st0 => (guard 0 3 st0).bind fun b =>
      Run.done (st0.excess, b)) = Run.done ([2, LONG_MAX, LONG_MAX, 0], false) ∧
    ((LFRun 10 overflowFan 0 3 false).bind fun st => Run.done st.excess) =
      Run.done [2, LONG_MAX, LONG_MAX, 0] ∧
    ((LFRun 10 overflowFan 0 3 true).bind fun st => Run.done st.excess) =
      Run.done [2, LONG_MAX, LONG_MAX, 0] ∧
    ([2, LONG_MAX, LONG_MAX, 0] : List Int).sum = 2 * LONG_MAX + 2 ∧
    ([2, LONG_MAX, LONG_MAX, 0] : List Int)[1]? = some LONG_MAX ∧ 0 < LONG_MAX :=
  ⟨builderInput_overflowFan, by unfold WeightsNonneg; decide, by decide, by decide, by decide,
    by decide, by decide, by decide, by decide, by decide⟩

/-- C9, amended: termination condition of the heuristic engine. For a graph that meets the
builder's expectations with non-negative weights, in which `getNeighbours(s)` names no node
twice and does not name `s` and the weights of the edges from `s` to the nodes of
`getNeighbours(s)` sum to at most `LONG_MAX`, and `s ≠ t`: in every state in which the guard of
the run loop of `LFFlow` is evaluated (either value of the global-relabeling flag) the excesses
sum to `0` and every node other than `s` has excess `≥ 0`; the guard
`excess[s] + excess[t] < 0` holds exactly when some node other than `s` and `t` has positive
excess; and when `LFFlow` returns, every node other than `s` and `t` has excess `0`. -/
theorem C9_guard_excess_invariant (g : Graph) (hw : WeightsNonneg g) (hb : BuilderInput g)
    (s t : Int) (hst : s ≠ t) (hsrc : SourceFits g s)
    (hnd : (getNeighbours g s).Nodup) (hs : s ∉ getNeighbours g s) (flag : Bool) :
    (∀ inner st, AtGuard inner g s t flag st →
      st.excess.sum = 0 ∧
      (∀ (k : Nat) (x : Int), (k : Int) ≠ s → st.excess[k]? = some x → 0 ≤ x) ∧
      (∀ b, guard s t st = Run.done b →
        (b = true ↔ ∃ (k : Nat) (x : Int), (k : Int) ≠ s ∧ (k : Int) ≠ t ∧
          st.excess[k]? = some x ∧ 0 < x))) ∧
    (∀ fuel st, LFRun fuel g s t flag = Run.done st →
      AtGuard fuel g s t flag st ∧
      ∀ (k : Nat) (x : Int), (k : Int) ≠ s → (k : Int) ≠ t → st.excess[k]? = some x → x = 0) := by
  constructor
  · intro inner st hat
    have hinv := atGuard_exc hw hb hsrc hnd hs hat
    exact ⟨hinv.inv.1, hinv.inv.2, fun b hb' => guard_iff hinv.inv hinv.src hst hb'⟩
  · intro fuel st h
    obtain ⟨hat, hg⟩ := LFRun_atGuard h
    have hinv := atGuard_exc hw hb hsrc hnd hs hat
    refine ⟨hat, ?_⟩
    intro k x hks hkt hx
    have h0 := hinv.inv.2 k x hks hx
    by_contra hne
    have := (guard_iff hinv.inv hinv.src hst hg).2 ⟨k, x, hks, hkt, hx, by omega⟩
    cases this

/-- C9, amended, on scenario A: `LFFlow` returns from a state with excess `[-3, 0, 3]`, which
sums to `0`; the state is one in which the guard is evaluated. -/
theorem C9_guard_excess_invariant_witness :
    WeightsNonneg (scenarioA [0, 2]) ∧ BuilderInput (scenarioA [0, 2]) ∧ (0 : Int) ≠ 2 ∧
    SourceFits (scenarioA [0, 2]) 0 ∧
    (getNeighbours (scenarioA [0, 2]) 0).Nodup ∧ (0 : Int) ∉ getNeighbours (scenarioA [0, 2]) 0 ∧
    LFRun 10 (scenarioA [0, 2]) 0 2 false = Run.done scenarioAFinal ∧
    scenarioAFinal.excess = [-3, 0, 3] ∧
    AtGuard 10 (scenarioA [0, 2]) 0 2 false scenarioAFinal ∧
    scenarioAFinal.excess.sum = 0 :=
  have h := C9_guard_excess_invariant (scenarioA [0, 2]) weightsNonneg_scenarioA
    builderInput_scenarioA 0 2 (by decide) sourceFits_scenarioA (by decide) (by decide) false
  ⟨weightsNonneg_scenarioA, builderInput_scenarioA, by decide, sourceFits_scenarioA, by decide,
    by decide, LFRun_scenarioA, rfl,
    (h.2 10 scenarioAFinal LFRun_scenarioA).1,
    (h.1 10 scenarioAFinal (h.2 10 scenarioAFinal LFRun_scenarioA).1).1⟩

/-! ## Scenario B on the heuristic engine: all orderings, by evaluation -/

theorem scenarioB_block1 :
    ∀ la ∈ ([[0, 2, 3], [0, 3, 2], [2, 0, 3]] : List (List Int)),
    ∀ lb ∈ ([[0, 1, 3], [0, 3, 1], [1, 0, 3], [1, 3, 0], [3, 0, 1], [3, 1, 0]] : List (List Int)),
      scenarioBOk [1, 2] [1, 2] la lb [1, 2] = true := by
  decide!

theorem scenarioB_block2 :
    ∀ la ∈ ([[2, 3, 0], [3, 0, 2], [3, 2, 0]] : List (List Int)),
    ∀ lb ∈ ([[0, 1, 3], [0, 3, 1], [1, 0, 3], [1, 3, 0], [3, 0, 1], [3, 1, 0]] : List (List Int)),
      scenarioBOk [1, 2] [1, 2] la lb [1, 2] = true := by
  decide!

theorem scenarioB_block3 :
    ∀ la ∈ ([[0, 2, 3], [0, 3, 2], [2, 0, 3]] : List (List Int)),
    ∀ lb ∈ ([[0, 1, 3], [0, 3, 1], [1, 0, 3], [1, 3, 0], [3, 0, 1], [3, 1, 0]] : List (List Int)),
      scenarioBOk [1, 2] [1, 2] la lb [2, 1] = true := by
  decide!

theorem scenarioB_block4 :
    ∀ la ∈ ([[2, 3, 0], [3, 0, 2], [3, 2, 0]] : List (List Int)),
    ∀ lb ∈ ([[0, 1, 3], [0, 3, 1], [1, 0, 3], [1, 3, 0], [3, 0, 1], [3, 1, 0]] : List (List Int)),
      scenarioBOk [1, 2] [1, 2] la lb [2, 1] = true := by
  decide!

theorem scenarioB_block5 :
    ∀ la ∈ ([[0, 2, 3], [0, 3, 2], [2, 0, 3]] : List (List Int)),
    ∀ lb ∈ ([[0, 1, 3], [0, 3, 1], [1, 0, 3], [1, 3, 0], [3, 0, 1], [3, 1, 0]] : List (List Int)),
      scenarioBOk [1, 2] [2, 1] la lb [1, 2] = true := by
  decide!

theorem scenarioB_block6 :
    ∀ la ∈ ([[2, 3, 0], [3, 0, 2], [3, 2, 0]] : List (List Int)),
    ∀ lb ∈ ([[0, 1, 3], [0, 3, 1], [1, 0, 3], [1, 3, 0], [3, 0, 1], [3, 1, 0]] : List (List Int)),
      scenarioBOk [1, 2] [2, 1] la lb [1, 2] = true := by
  decide!

theorem scenarioB_block7 :
    ∀ la ∈ ([[0, 2, 3], [0, 3, 2], [2, 0, 3]] : List (List Int)),
    ∀ lb ∈ ([[0, 1, 3], [0, 3, 1], [1, 0, 3], [1, 3, 0], [3, 0, 1], [3, 1, 0]] : List (List Int)),
      scenarioBOk [1, 2] [2, 1] la lb [2, 1] = true := by
  decide!

theorem scenarioB_block8 :
    ∀ la ∈ ([[2, 3, 0], [3, 0, 2], [3, 2, 0]] : List (List Int)),
    ∀ lb ∈ ([[0, 1, 3], [0, 3, 1], [1, 0, 3], [1, 3, 0], [3, 0, 1], [3, 1, 0]] : List (List Int)),
      scenarioBOk [1, 2] [2, 1] la lb [2, 1] = true := by
  decide!

theorem scenarioB_block9 :
    ∀ la ∈ ([[0, 2, 3], [0, 3, 2], [2, 0, 3]] : List (List Int)),
    ∀ lb ∈ ([[0, 1, 3], [0, 3, 1], [1, 0, 3], [1, 3, 0], [3, 0, 1], [3, 1, 0]] : List (List Int)),
      scenarioBOk [2, 1] [1, 2] la lb [1, 2] = true := by
  decide!

theorem scenarioB_block10 :
    ∀ la ∈ ([[2, 3, 0], [3, 0, 2], [3, 2, 0]] : List (List Int)),
    ∀ lb ∈ ([[0, 1, 3], [0, 3, 1], [1, 0, 3], [1, 3, 0], [3, 0, 1], [3, 1, 0]] : List (List Int)),
      scenarioBOk [2, 1] [1, 2] la lb [1, 2] = true := by
  decide!

theorem scenarioB_block11 :
    ∀ la ∈ ([[0, 2, 3], [0, 3, 2], [2, 0, 3]] : List (List Int)),
    ∀ lb ∈ ([[0, 1, 3], [0, 3, 1], [1, 0, 3], [1, 3, 0], [3, 0, 1], [3, 1, 0]] : List (List Int)),
      scenarioBOk [2, 1] [1, 2] la lb [2, 1] = true := by
  decide!

theorem scenarioB_block12 :
    ∀ la ∈ ([[2, 3, 0], [3, 0, 2], [3, 2, 0]] : List (List Int)),
    ∀ lb ∈ ([[0, 1, 3], [0, 3, 1], [1, 0, 3], [1, 3, 0], [3, 0, 1], [3, 1, 0]] : List (List Int)),
      scenarioBOk [2, 1] [1, 2] la lb [2, 1] = true := by
  decide!

theorem scenarioB_block13 :
    ∀ la ∈ ([[0, 2, 3], [0, 3, 2], [2, 0, 3]] : List (List Int)),
    ∀ lb ∈ ([[0, 1, 3], [0, 3, 1], [1, 0, 3], [1, 3, 0], [3, 0, 1], [3, 1, 0]] : List (List Int)),
      scenarioBOk [2, 1] [2, 1] la lb [1, 2] = true := by
  decide!

theorem scenarioB_block14 :
    ∀ la ∈ ([[2, 3, 0], [3, 0, 2], [3, 2, 0]] : List (List Int)),
    ∀ lb ∈ ([[0, 1, 3], [0, 3, 1], [1, 0, 3], [1, 3, 0], [3, 0, 1], [3, 1, 0]] : List (List Int)),
      scenarioBOk [2, 1] [2, 1] la lb [1, 2] = true := by
  decide!

theorem scenarioB_block15 :
    ∀ la ∈ ([[0, 2, 3], [0, 3, 2], [2, 0, 3]] : List (List Int)),
    ∀ lb ∈ ([[0, 1, 3], [0, 3, 1], [1, 0, 3], [1, 3, 0], [3, 0, 1], [3, 1, 0]] : List (List Int)),
      scenarioBOk [2, 1] [2, 1] la lb [2, 1] = true := by
  decide!

theorem scenarioB_block16 :
    ∀ la ∈ ([[2, 3, 0], [3, 0, 2], [3, 2, 0]] : List (List Int)),
    ∀ lb ∈ ([[0, 1, 3], [0, 3, 1], [1, 0, 3], [1, 3, 0], [3, 0, 1], [3, 1, 0]] : List (List Int)),
      scenarioBOk [2, 1] [2, 1] la lb [2, 1] = true := by
  decide!

theorem scenarioB_all :
    ∀ ns ∈ ([[1, 2], [2, 1]] : List (List Int)), ∀ ls ∈ ([[1, 2], [2, 1]] : List (List Int)),
    ∀ la ∈ ([[0, 2, 3], [0, 3, 2], [2, 0, 3], [2, 3, 0], [3, 0, 2], [3, 2, 0]] : List (List Int)),
    ∀ lb ∈ ([[0, 1, 3], [0, 3, 1], [1, 0, 3], [1, 3, 0], [3, 0, 1], [3, 1, 0]] : List (List Int)),
    ∀ lt ∈ ([[1, 2], [2, 1]] : List (List Int)), scenarioBOk ns ls la lb lt = true := by
  intro ns hns ls hls la hla lb hlb lt hlt
  simp only [List.mem_cons, List.mem_singleton, List.not_mem_nil, or_false] at hns hls hlt
  have hla : la ∈ ([[0, 2, 3], [0, 3, 2], [2, 0, 3]] : List (List Int)) ∨
      la ∈ ([[2, 3, 0], [3, 0, 2], [3, 2, 0]] : List (List Int)) := by
    simp only [List.mem_cons, List.mem_singleton, List.not_mem_nil, or_false] at hla ⊢
    tauto
  rcases hns with rfl | rfl <;> rcases hls with rfl | rfl <;> rcases hlt with rfl | rfl <;>
    rcases hla with hla | hla
  · exact scenarioB_block1 la hla lb hlb
  · exact scenarioB_block2 la hla lb hlb
  · exact scenarioB_block3 la hla lb hlb
  · exact scenarioB_block4 la hla lb hlb
  · exact scenarioB_block5 la hla lb hlb
  · exact scenarioB_block6 la hla lb hlb
  · exact scenarioB_block7 la hla lb hlb
  · exact scenarioB_block8 la hla lb hlb
  · exact scenarioB_block9 la hla lb hlb
  · exact scenarioB_block10 la hla lb hlb
  · exact scenarioB_block11 la hla lb hlb
  · exact scenarioB_block12 la hla lb hlb
  · exact scenarioB_block13 la hla lb hlb
  · exact scenarioB_block14 la hla lb hlb
  · exact scenarioB_block15 la hla lb hlb
  · exact scenarioB_block16 la hla lb hlb

/-- C3: scenario B on the heuristic engine. On the graph `s → a (10)`, `s → b (5)`,
`a → t (5)`, `b → t (10)`, `a → b (3)` (node ids `0, 1, 2, 3`), for every ordering of
`getNeighbours(s)` and of the four undirected neighbour lists, `LFFlow(g, s, t, false)`
returns, and the flow into `t` read from its output,
`(capacities - residuals)[a→t] + (capacities - residuals)[b→t]`, is `13`. -/
theorem C3_heuristic_scenarioB (ns ls la lb lt : List Int) (hns : ns.Perm [1, 2])
    (hls : ls.Perm [1, 2]) (hla : la.Perm [0, 2, 3]) (hlb : lb.Perm [0, 1, 3])
    (hlt : lt.Perm [1, 2]) :
    ∃ out, LFFlow 12 (scenarioB ns ls la lb lt) 0 3 false = Run.done out ∧
      flowOn out (getIdFromSrcDst (scenarioB ns ls la lb lt) 1 3) +
        flowOn out (getIdFromSrcDst (scenarioB ns ls la lb lt) 2 3) = 13 := by
  have h := scenarioB_all ns (perm_pair hns) ls (perm_pair hls) la (perm_triple hla)
    lb (perm_triple hlb) lt (perm_pair hlt)
  unfold scenarioBOk at h
  split at h
  · rename_i out hout
    exact ⟨out, hout, by simpa using h⟩
  · cases h

/-- C3 with every list in increasing order: the output is
`([10, 5, 5, 10, 3, 10, 5, 3, 5, 10], [2, 0, 0, 2, 0, 8, 5, 6, 10, 18])`. -/
theorem C3_heuristic_scenarioB_witness :
    LFFlow 12 (scenarioB [1, 2] [1, 2] [0, 2, 3] [0, 1, 3] [1, 2]) 0 3 false =
      Run.done ([10, 5, 5, 10, 3, 10, 5, 3, 5, 10], [2, 0, 0, 2, 0, 8, 5, 6, 10, 18]) ∧
    ∃ out, LFFlow 12 (scenarioB [1, 2] [1, 2] [0, 2, 3] [0, 1, 3] [1, 2]) 0 3 false =
        Run.done out ∧
      flowOn out (getIdFromSrcDst (scenarioB [1, 2] [1, 2] [0, 2, 3] [0, 1, 3] [1, 2]) 1 3) +
        flowOn out (getIdFromSrcDst (scenarioB [1, 2] [1, 2] [0, 2, 3] [0, 1, 3] [1, 2]) 2 3) =
        13 :=
  ⟨by decide, C3_heuristic_scenarioB [1, 2] [1, 2] [0, 2, 3] [0, 1, 3] [1, 2]
    (List.Perm.refl _) (List.Perm.refl _) (List.Perm.refl _) (List.Perm.refl _)
    (List.Perm.refl _)⟩


/-! ## Claims on the safety of the heuristic engine -/

/-- C17, the code: in a graph whose node ids are non-negative, for every state in which
`node` has positive excess and a non-empty neighbour list but every neighbour's edge has
residual `≤ 0`, `process(node)` does not return: the scan leaves `nextV = -1`, and the edge
lookup that follows reads `reverse[getIdFromSrcDst(-1, node)] = reverse[-1]`, out of range. -/
theorem C17_starved_node_faults (g : Graph) (hnodes : ∀ e ∈ g.edges, 0 ≤ e.src ∧ 0 ≤ e.dst)
    (node t : Int) (st : LFState) (fuel : Nat) (e : Int)
    (hex : vget st.excess node = Run.done e) (hpos : 0 < e)
    (hne : (getNeighbourListFor g node).isEmpty = false)
    (hstarved : ∀ n ∈ getNeighbourListFor g node, ∃ id r,
      residualEdgeId g st.reverse node n = Run.done id ∧
        vget st.residuals id = Run.done r ∧ r ≤ 0) :
    process g node t (fuel + 1) st = Run.fault :=
  process_starved hnodes node t st fuel e hex hpos hne hstarved

/-- C17 on the graph `s → a (5)`, `a → s (-5)`: after the initial preflow `a` holds excess `5`
and its only residual edge `a → s` has residual `0`; `process(a)` reads out of range, and so
does `LFFlow(g, s, t, false)`. -/
theorem C17_starved_node_faults_witness :
    LFInit negativePair 0 = Run.done negativePairInit ∧
    vget negativePairInit.excess 1 = Run.done 5 ∧
    getNeighbourListFor negativePair 1 = [0] ∧
    residualEdgeId negativePair negativePairInit.reverse 1 0 = Run.done 1 ∧
    vget negativePairInit.residuals 1 = Run.done 0 ∧
    process negativePair 1 2 (0 + 1) negativePairInit = Run.fault ∧
    LFFlow 10 negativePair 0 2 false = Run.fault :=
  ⟨by decide, by decide, by decide, by decide, by decide,
    C17_starved_node_faults negativePair (by decide) 1 2 negativePairInit 0 5 (by decide)
      (by decide) (by decide) (by
        intro n hn
        have hn0 : n = 0 := by simpa [getNeighbourListFor, negativePair] using hn
        subst hn0
        exact ⟨1, 0, by decide, by decide, by decide⟩),
    by decide⟩

/-- C20, the code: on the path `s → a → t` numbered `s = 0`, `t = 1`, `a = 2` (two edges,
three nodes) the colour array allocated by `globalRelabel` has length `NE = 2`; in the state
right after the initial preflow the BFS from `t` reaches `a` over the residual edge `t → a`
and reads `color[2]`, out of range. The same read is reached by the first call of
`globalRelabel` in `LFFlow(g, s, t, true)`. -/
theorem C20_colour_array_out_of_range :
    LFInit pathTA 0 = Run.done pathTAInit ∧
    getNE pathTA = 2 ∧ getNV pathTA = 3 ∧
    vget (List.replicate pathTA.edges.length (0 : Int)) 2 = Run.fault ∧
    (∀ fuel, globalRelabel (fuel + 1) pathTA 0 1 pathTAInit = Run.fault) ∧
    LFFlow 10 pathTA 0 1 true = Run.fault ∧
    LFFlow 10 pathTA 0 1 false = Run.done ([7, 3, 7, 3], [4, 0, 3, 6]) :=
  ⟨by decide, by decide, by decide, by decide, fun _ => rfl, by decide, by decide⟩

/-- C16, the code: in the run `LFFlow(g, s, t, true)` on the graph `s → a (1)`, `s → t (1)`,
`a → t (2)` the state after the first call of `processWithRelabel` is admissible;
`globalRelabel` raises the height of `t` to `3` while the residual edge `t → a` (id `5`) has
residual `3` and `a` has height `1`, so the state it leaves is not admissible; that state is
the one `LFFlow` returns from. -/
theorem C16_global_relabel_breaks_admissibility :
    LFInit triangle 0 = Run.done triangleInit ∧
    processWithRelabel triangle 1 2 10 triangleInit = Run.done triangleBefore ∧
    Admissible triangle triangleBefore ∧
    globalRelabel 10 triangle 0 2 triangleBefore = Run.done triangleAfter ∧
    resEnds triangle triangleAfter.reverse 5 = some (2, 1) ∧
    triangleAfter.residuals[5]? = some 3 ∧
    triangleAfter.heights[2]? = some 3 ∧ triangleAfter.heights[1]? = some 1 ∧
    steep triangle triangleAfter 5 = true ∧
    ¬ Admissible triangle triangleAfter ∧
    LFRun 10 triangle 0 2 true = Run.done triangleAfter :=
  ⟨by decide, by decide, by decide, by decide, by decide, by decide, by decide, by decide,
    by decide, by decide, by decide⟩

/-- C15, counterexample: on the graph with the single edge `u → s` of weight `5` (nodes
`s = 0`, `u = 1`, `t = 2`) the state of `LFFlow` right after the initial preflow has height
`3` at `s` and height `0` at `u`, and the synthesized edge `s → u` (id `1`) has residual `5`:
the state is not admissible. -/
theorem C15_counterexample :
    (∀ e ∈ sourceSink.edges, 0 < e.weight) ∧
    LFInit sourceSink 0 = Run.done sourceSinkInit ∧
    resEnds sourceSink sourceSinkInit.reverse 1 = some (0, 1) ∧
    sourceSinkInit.residuals[1]? = some 5 ∧
    sourceSinkInit.heights[0]? = some 3 ∧ sourceSinkInit.heights[1]? = some 0 ∧
    ¬ Admissible sourceSink sourceSinkInit :=
  ⟨by decide, by decide, by decide, by decide, by decide, by decide, by decide⟩

/-! ## Claims on heights and admissibility -/

/-- C13: heights are never lowered in the heuristic engine. Every iteration of the loop of
`process` and of `processWithRelabel` that returns either leaves the heights as they are or
relabels: it writes `h + 1` at `node` and nowhere else, above the old height of `node`, where
`h`, the height returned by the neighbour scan, is at most the height of every neighbour with
positive residual (so `h + 1` does not exceed `LONG_MAX` when such a neighbour has a height
below `LONG_MAX`). Every call of `globalRelabel` that returns, from any state, leaves the
height vector at its length with every entry greater than or equal to its value before. -/
theorem C13_heights_never_lowered (g : Graph) :
    (∀ node t st st', processBody g node t st = Run.done st' →
      RelabelStep g node st st' ∧ HeightsRaised st.heights st'.heights) ∧
    (∀ node t st st', processWithRelabelBody g node t st = Run.done st' →
      RelabelStep g node st st' ∧ HeightsRaised st.heights st'.heights) ∧
    (∀ fuel s t st st', globalRelabel fuel g s t st = Run.done st' →
      HeightsRaised st.heights st'.heights) :=
  ⟨fun _ _ _ _ h => ⟨processBody_relabelStep h, relabelStep_raised (processBody_relabelStep h)⟩,
    fun _ _ _ _ h => ⟨processWithRelabelBody_relabelStep h,
      relabelStep_raised (processWithRelabelBody_relabelStep h)⟩,
    fun _ _ _ _ _ h => globalRelabel_raised h⟩

/-- C14: every step of `process` preserves admissibility. For a graph that meets the
builder's input conditions and a state whose reverse map is the one of the residual network of
the graph (paired ids point at each other and have swapped end points) with `U` residuals: if
every edge id with positive residual has `heights[src] ≤ heights[dst] + 1` and one iteration
of the loop body of `process` returns (a push to the lowest neighbour with positive residual,
or a relabel to that neighbour's height plus one), the same holds in the state it returns,
whose reverse map and number of residuals are unchanged. -/
theorem C14_process_step_preserves_admissibility (g : Graph) (hs : BuilderInput g)
    (node t : Int) (st st' : LFState) (hnet : ResidualNet g st.reverse)
    (hlen : st.residuals.length = g.undirectedNumEdges) (hadm : Admissible g st)
    (h : processBody g node t st = Run.done st') :
    Admissible g st' ∧ ResidualNet g st'.reverse ∧
      st'.residuals.length = g.undirectedNumEdges := by
  obtain ⟨h1, _, h3, _⟩ := processBody_fields h
  exact ⟨processBody_admissible hs hnet hlen hadm h, by rw [h1]; exact hnet, by rw [h3]; exact hlen⟩

/-- C14 on scenario A: the relabel of `a` and the push of `3` units from `a` to `t` that
follow the initial preflow both keep the state admissible. -/
theorem C14_process_step_preserves_admissibility_witness :
    BuilderInput (scenarioA [0, 2]) ∧
    LFInit (scenarioA [0, 2]) 0 = Run.done scenarioAInit ∧
    Admissible (scenarioA [0, 2]) scenarioAInit ∧
    processBody (scenarioA [0, 2]) 1 2 scenarioAInit = Run.done scenarioARelabelled ∧
    processBody (scenarioA [0, 2]) 1 2 scenarioARelabelled = Run.done scenarioAPushed ∧
    Admissible (scenarioA [0, 2]) scenarioARelabelled ∧
    Admissible (scenarioA [0, 2]) scenarioAPushed :=
  have h0 : LFInit (scenarioA [0, 2]) 0 = Run.done scenarioAInit := by decide
  have h1 : processBody (scenarioA [0, 2]) 1 2 scenarioAInit = Run.done scenarioARelabelled := by
    decide
  have h2 : processBody (scenarioA [0, 2]) 1 2 scenarioARelabelled = Run.done scenarioAPushed := by
    decide
  have hn := LFInit_residualNet builderInput_scenarioA h0
  have k1 := C14_process_step_preserves_admissibility (scenarioA [0, 2]) builderInput_scenarioA 1 2
    scenarioAInit scenarioARelabelled hn.1 hn.2 (by decide) h1
  have k2 := C14_process_step_preserves_admissibility (scenarioA [0, 2]) builderInput_scenarioA 1 2
    scenarioARelabelled scenarioAPushed k1.2.1 k1.2.2 k1.1 h2
  ⟨builderInput_scenarioA, h0, by decide, h1, h2, k1.1, k2.1⟩

/-! ## Claims on the initial state and the active queue -/

/-- C15, amended: admissibility after the initialisation of the heuristic engine. For a graph
that meets the builder's input conditions and a node `s` such that `getNeighbours(s)` names
exactly the out-neighbours of `s` and every original edge `u → s` entering `s` has an original
antiparallel edge `s → u` (in particular when no original edge enters `s`): the initialisation
of `LFFlow` returns, the heights are `V` at `s` and `0` elsewhere, and every edge id of the
residual network with positive residual has `heights[src] ≤ heights[dst] + 1`. -/
theorem C15_initial_admissibility (g : Graph) (hs : BuilderInput g) (s : Int) (hs0 : 0 ≤ s)
    (hsNV : s < g.NV)
    (hnb : ∀ n ∈ getNeighbours g s, ∃ e ∈ g.edges, e.src = s ∧ e.dst = n)
    (hout : ∀ e ∈ g.edges, e.src = s → e.dst ∈ getNeighbours g s)
    (hin : ∀ e ∈ g.edges, e.dst = s → ∃ e' ∈ g.edges, e'.src = s ∧ e'.dst = e.src) :
    ∃ st, LFInit g s = Run.done st ∧
      st.heights = (List.replicate g.NV (0 : Int)).set s.toNat (getNV g) ∧
      Admissible g st := by
  obtain ⟨st, hst⟩ := LFInit_returns hs hs0 hsNV hnb
  refine ⟨st, hst, ?_, LFInit_admissible hs hout hin hst⟩
  obtain ⟨fst, _, hts, hhts, hpre⟩ := LFInit_fields hst
  obtain ⟨hf1, _⟩ := initialPreflow_fields s _ _ _ hpre
  obtain ⟨_, _, rfl⟩ := vset_eq_done.1 hhts
  exact hf1

/-- C15, amended, on the graph `0 → 1 (4)`, `1 → 0 (6)`, `1 → 2 (3)` with `s = 1`: the edge
`0 → 1` enters `s` and has the antiparallel edge `1 → 0`. -/
theorem C15_initial_admissibility_witness :
    BuilderInput foldGraph ∧
    LFInit foldGraph 1 = Run.done
      { heights := [0, 3, 0], excess := [6, -9, 3], capacities := [10, 10, 3, 3],
        reverse := [1, 0, 3, 2], residuals := [10, 0, 0, 3], wave := [0, 0, 0],
        activeNodes := [0, 2], isActive := [true, false, true], currentWave := 0,
        itersSinceGlobalRelabel := 0 } ∧
    ∃ st, LFInit foldGraph 1 = Run.done st ∧
      st.heights = (List.replicate foldGraph.NV (0 : Int)).set (1 : Int).toNat (getNV foldGraph) ∧
      Admissible foldGraph st :=
  ⟨builderInput_foldGraph, by decide,
    C15_initial_admissibility foldGraph builderInput_foldGraph 1 (by decide) (by decide)
      (by decide) (by decide) (by decide)⟩

/-- C18: active-set bookkeeping of the heuristic engine without global relabeling. For a
graph in which `getNeighbours(s)` names no node twice: in every state in which the guard of
the run loop of `LFFlow` is evaluated the active queue names no node twice, there is one flag
per node, and `isActive[k]` is set exactly for the nodes `k` in the queue. In every state of
the run in which the loop test of `process(c)` is evaluated, `c` is the front of the queue,
and the pop that follows when `excess[c] ≤ 0` removes exactly `c`: the queue loses its front
entry, `c` is no longer in it, and the flag cleared is the one of `c`. A call of `process` on
the front node `c` of the queue with the guard holding that returns either returned at once
because the neighbour list of `c` is empty (nothing is popped), or ended with that pop in
such a state of the run. -/
theorem C18_active_set_bookkeeping (g : Graph) (s t : Int)
    (hnd : (getNeighbours g s).Nodup) :
    (∀ inner st, AtGuard inner g s t false st →
      st.activeNodes.Nodup ∧ (∀ v ∈ st.activeNodes, 0 ≤ v) ∧ st.isActive.length = g.NV ∧
        ∀ k : Nat, st.isActive[k]? = some true ↔ ((k : Int) ∈ st.activeNodes ∧ k < g.NV)) ∧
    (∀ inner c st, InProcess inner g s t c st →
      ∃ q, st.activeNodes = c :: q ∧ c ∉ q ∧
        ∀ st', popActive c st = Run.done st' →
          st'.activeNodes = q ∧ c ∉ st'.activeNodes ∧
            st'.isActive = st.isActive.set c.toNat false) ∧
    (∀ inner fuel st c rest st', AtGuard inner g s t false st → guard s t st = Run.done true →
      st.activeNodes = c :: rest → process g c t fuel st = Run.done st' →
      ((getNeighbourListFor g c).isEmpty = true ∧ st' = st) ∨
        ∃ stp e q, InProcess inner g s t c stp ∧ vget stp.excess c = Run.done e ∧ e ≤ 0 ∧
          stp.activeNodes = c :: q ∧ popActive c stp = Run.done st' ∧
          st'.activeNodes = q ∧ c ∉ st'.activeNodes) := by
  have hfront : ∀ inner c st, InProcess inner g s t c st →
      ∃ q, st.activeNodes = c :: q ∧ c ∉ q ∧
        ∀ st', popActive c st = Run.done st' →
          st'.activeNodes = q ∧ c ∉ st'.activeNodes ∧
            st'.isActive = st.isActive.set c.toNat false := by
    intro inner c st hin
    obtain ⟨hb, q, hq⟩ := inProcess_front hnd hin
    have hcq : c ∉ q := by
      have := hb.1
      rw [hq] at this
      exact (List.nodup_cons.1 this).1
    refine ⟨q, hq, hcq, ?_⟩
    intro st' hpop
    have h2 := (popActive_book hb hq hpop).2
    refine ⟨h2, by rw [h2]; exact hcq, ?_⟩
    unfold popActive at hpop
    rw [hq] at hpop
    simp only [Run.bind_eq_done] at hpop
    obtain ⟨ia, hia, hpop⟩ := hpop
    cases hpop
    obtain ⟨_, _, rfl⟩ := vset_eq_done.1 hia
    rfl
  refine ⟨?_, hfront, ?_⟩
  · intro inner st hat
    exact atGuard_book hnd hat
  · intro inner fuel st c rest st' hat hg hq h
    rcases process_ends_in_run fuel st st' (InProcess.enter hat hg hq) h with h1 | h1
    · exact Or.inl h1
    · obtain ⟨stp, e, hin, he, hle, hpop⟩ := h1
      obtain ⟨q, hq', _, hq2⟩ := hfront inner c stp hin
      obtain ⟨h3, h4, _⟩ := hq2 st' hpop
      exact Or.inr ⟨stp, e, q, hin, he, hle, hq', hpop, h3, h4⟩

/-- C18 on scenario A: in the state from which `LFFlow` returns the queue is `[s]` and the
only flag set is the one of `s`; in the state after the initial preflow the run enters
`process(a)` with `a` at the front of the queue. -/
theorem C18_active_set_bookkeeping_witness :
    (getNeighbours (scenarioA [0, 2]) 0).Nodup ∧
    LFRun 10 (scenarioA [0, 2]) 0 2 false = Run.done scenarioAFinal ∧
    scenarioAFinal.activeNodes = [0] ∧ scenarioAFinal.isActive = [true, false, false] ∧
    (scenarioAFinal.activeNodes.Nodup ∧ (∀ v ∈ scenarioAFinal.activeNodes, 0 ≤ v) ∧
      scenarioAFinal.isActive.length = (scenarioA [0, 2]).NV ∧
      ∀ k : Nat, scenarioAFinal.isActive[k]? = some true ↔
        ((k : Int) ∈ scenarioAFinal.activeNodes ∧ k < (scenarioA [0, 2]).NV)) ∧
    InProcess 10 (scenarioA [0, 2]) 0 2 1 scenarioAInit ∧
    ∃ q, scenarioAInit.activeNodes = 1 :: q ∧ (1 : Int) ∉ q ∧
      ∀ st', popActive 1 scenarioAInit = Run.done st' →
        st'.activeNodes = q ∧ (1 : Int) ∉ st'.activeNodes ∧
          st'.isActive = scenarioAInit.isActive.set (1 : Int).toNat false :=
  have h := C18_active_set_bookkeeping (scenarioA [0, 2]) 0 2 (by decide)
  have hin : InProcess 10 (scenarioA [0, 2]) 0 2 1 scenarioAInit :=
    InProcess.enter (AtGuard.init (by decide)) (by decide) (rfl : scenarioAInit.activeNodes = [1])
  ⟨by decide, LFRun_scenarioA, rfl, rfl,
    h.1 10 scenarioAFinal (LFRun_atGuard LFRun_scenarioA).1, hin,
    h.2.1 10 1 scenarioAInit hin⟩

/-! ## Claim on the safety of the neighbour scan -/

/-- C19, counterexample. On the graph `s → a` of weight `LONG_MAX`, `a → s` of weight `1`
(`t` isolated) the builder wraps the capacity of the pair to `LONG_MIN`; after the initial
preflow `a` holds excess `LONG_MAX`, its only residual edge `a → s` has residual `LONG_MIN`,
the scan returns `nextV = -1` and `h = LONG_MAX`, and the loop body of `process(a)` reads
`reverse[-1]`. On the graph `s → t`, `s → b`, `s → c`, `b → c` of weight `HALF_MAX` with the
pair `t → c`, `c → t` of weight `1`, where twice the weight between any two nodes is at most
`LONG_MAX`, the initial preflow wraps `excess[s]`; after four rounds of the run loop the
guard holds and the active queue is empty, so `front()` is read on an empty queue. -/
theorem C19_counterexample :
    (BuilderInput overflowPair ∧ WeightsNonneg overflowPair ∧ SourceFits overflowPair 0 ∧
      (getNeighbours overflowPair 0).Nodup ∧ (0 : Int) ∉ getNeighbours overflowPair 0 ∧
      ((LFInit overflowPair 0).bind fun st0 => (guard 0 2 st0).bind fun b =>
        Run.done (st0.excess, st0.residuals, st0.activeNodes, b)) =
          Run.done ([-LONG_MAX, LONG_MAX, 0], [0, LONG_MIN], [1], true) ∧
      getNeighbourListFor overflowPair 1 = [0] ∧
      ((LFInit overflowPair 0).bind fun st0 =>
        scanNeighbours overflowPair 1 st0.heights st0.reverse st0.residuals
          (getNeighbourListFor overflowPair 1) (-1, LONG_MAX)) = Run.done (-1, LONG_MAX) ∧
      ((LFInit overflowPair 0).bind fun st0 => processBody overflowPair 1 2 st0) = Run.fault ∧
      LFFlow 10 overflowPair 0 2 false = Run.fault) ∧
    (BuilderInput overflowSource ∧ WeightsNonneg overflowSource ∧ PairsFit overflowSource ∧
      (getNeighbours overflowSource 0).Nodup ∧ (0 : Int) ∉ getNeighbours overflowSource 0 ∧
      sourceWeight overflowSource 0 (getNeighbours overflowSource 0) = 3 * HALF_MAX ∧
      LONG_MAX < 3 * HALF_MAX ∧
      AtGuard 10 overflowSource 0 1 false overflowSourceStuck ∧
      guard 0 1 overflowSourceStuck = Run.done true ∧
      overflowSourceStuck.activeNodes = [] ∧
      LFStep 10 overflowSource 0 1 false overflowSourceStuck = Run.fault ∧
      LFFlow 10 overflowSource 0 1 false = Run.fault) := by
  have h0 : ∃ st0, LFInit overflowSource 0 = Run.done st0 ∧
      LFRounds 10 overflowSource 0 1 false 4 st0 = Run.done overflowSourceStuck := by
    have h : ((LFInit overflowSource 0).bind fun st0 =>
        LFRounds 10 overflowSource 0 1 false 4 st0) = Run.done overflowSourceStuck := by
      decide
    exact Run.bind_eq_done.1 h
  obtain ⟨st0, h1, h2⟩ := h0
  exact ⟨⟨builderInput_overflowPair, by unfold WeightsNonneg; decide,
      by unfold SourceFits; decide, by decide, by decide, by decide, by decide, by decide,
      by decide, by decide⟩,
    ⟨builderInput_overflowSource, by unfold WeightsNonneg; decide, by unfold PairsFit; decide,
      by decide, by decide, by decide, by decide, atGuard_rounds 4 _ _ (AtGuard.init h1) h2,
      by decide, rfl, by decide, by decide⟩⟩

/-- C19, amended: safety of the neighbour scan in a run of `LFFlow` without global
relabeling. For a graph with non-negative weights that meets the builder's input conditions,
in which for every original edge twice the total weight of the original edges between its
end points is at most `LONG_MAX` and the weights of the edges from `s` to the nodes of
`getNeighbours(s)` sum to at most `LONG_MAX`, with `getNeighbours(s)` naming no node twice
and not `s`, with `2 V ≤ LONG_MAX`, and `s ≠ t`: whenever the test of the loop of `process(c)`
is evaluated in the run and `excess[c] > 0`, the neighbour list of `c` is not empty, the scan
returns `nextV ≠ -1` and `h < LONG_MAX` (indeed `h + 1 ≤ 2 V - 1`), where `nextV` is a
neighbour whose edge `c → nextV` has positive residual, and the loop body returns; and
whenever the guard of the run loop holds, the active queue is not empty. -/
theorem C19_neighbour_scan_safe (g : Graph) (hw : WeightsNonneg g) (hs : BuilderInput g)
    (hp : PairsFit g) (s t : Int) (hst : s ≠ t) (hsrc : SourceFits g s)
    (hnd : (getNeighbours g s).Nodup) (hsn : s ∉ getNeighbours g s)
    (hbig : 2 * (g.NV : Int) ≤ LONG_MAX) :
    (∀ inner c st e, InProcess inner g s t c st → vget st.excess c = Run.done e → 0 < e →
      (getNeighbourListFor g c).isEmpty = false ∧
      ∃ nextV h edgeId r st',
        scanNeighbours g c st.heights st.reverse st.residuals (getNeighbourListFor g c)
          (-1, LONG_MAX) = Run.done (nextV, h) ∧
        nextV ≠ -1 ∧ h < LONG_MAX ∧ h + 1 ≤ 2 * (g.NV : Int) - 1 ∧
        nextV ∈ getNeighbourListFor g c ∧
        residualEdgeId g st.reverse c nextV = Run.done edgeId ∧
        vget st.residuals edgeId = Run.done r ∧ 0 < r ∧
        processBody g c t st = Run.done st') ∧
    (∀ inner st, AtGuard inner g s t false st → guard s t st = Run.done true →
      ∃ c rest, st.activeNodes = c :: rest) := by
  constructor
  · intro inner c st e hin hc hpos
    obtain ⟨hs0, hinv, _⟩ := inProcess_safe hw hp hs hsrc hnd hsn hin
    obtain ⟨nextV, hh, edgeId, r, st', h1, h2, h3, h4, h5, h6, h7, h8, h9⟩ :=
      processBody_returns (t := t) hs hs0 hbig hinv hc hpos
    refine ⟨?_, nextV, hh, edgeId, r, st', h1, h2, h3, h4, h5, h6, h7, h8, h9⟩
    cases hl : getNeighbourListFor g c with
    | nil => rw [hl] at h5; cases h5
    | cons a l => rfl
  · intro inner st hat hg
    obtain ⟨_, hinv⟩ := atGuard_safe (t := t) hw hp hs hsrc hnd hsn hat
    obtain ⟨k, x, _, hkt, hx, hpos⟩ := (guard_iff hinv.exc.inv hinv.exc.src hst hg).1 rfl
    have hmem := hinv.queued k x hkt hx hpos
    cases hq : st.activeNodes with
    | nil => rw [hq] at hmem; cases hmem
    | cons c rest => exact ⟨c, rest, rfl⟩

/-- C19, amended, on scenario A: the run enters `process(a)` from the state after the initial
preflow, where `a` holds excess `7`; the scan returns `nextV = t` at height `0`. -/
theorem C19_neighbour_scan_safe_witness :
    WeightsNonneg (scenarioA [0, 2]) ∧ BuilderInput (scenarioA [0, 2]) ∧
    PairsFit (scenarioA [0, 2]) ∧ SourceFits (scenarioA [0, 2]) 0 ∧
    InProcess 10 (scenarioA [0, 2]) 0 2 1 scenarioAInit ∧
    vget scenarioAInit.excess 1 = Run.done 7 ∧
    scanNeighbours (scenarioA [0, 2]) 1 scenarioAInit.heights scenarioAInit.reverse
      scenarioAInit.residuals (getNeighbourListFor (scenarioA [0, 2]) 1) (-1, LONG_MAX) =
        Run.done (2, 0) ∧
    (getNeighbourListFor (scenarioA [0, 2]) 1).isEmpty = false ∧
    ∃ nextV h edgeId r st',
      scanNeighbours (scenarioA [0, 2]) 1 scenarioAInit.heights scenarioAInit.reverse
        scenarioAInit.residuals (getNeighbourListFor (scenarioA [0, 2]) 1) (-1, LONG_MAX) =
          Run.done (nextV, h) ∧
      nextV ≠ -1 ∧ h < LONG_MAX ∧ h + 1 ≤ 2 * ((scenarioA [0, 2]).NV : Int) - 1 ∧
      nextV ∈ getNeighbourListFor (scenarioA [0, 2]) 1 ∧
      residualEdgeId (scenarioA [0, 2]) scenarioAInit.reverse 1 nextV = Run.done edgeId ∧
      vget scenarioAInit.residuals edgeId = Run.done r ∧ 0 < r ∧
      processBody (scenarioA [0, 2]) 1 2 scenarioAInit = Run.done st' :=
  have hin : InProcess 10 (scenarioA [0, 2]) 0 2 1 scenarioAInit :=
    InProcess.enter (AtGuard.init (by decide)) (by decide) (rfl : scenarioAInit.activeNodes = [1])
  ⟨weightsNonneg_scenarioA, builderInput_scenarioA, pairsFit_scenarioA, sourceFits_scenarioA,
    hin, by decide, by decide,
    (C19_neighbour_scan_safe (scenarioA [0, 2]) weightsNonneg_scenarioA builderInput_scenarioA
      pairsFit_scenarioA 0 2 (by decide) sourceFits_scenarioA (by decide) (by decide)
      (by decide)).1 10 1 scenarioAInit 7 hin (by decide) (by decide)⟩

end PushRelabel
